import Mathlib

/-!
# Windowed frequency-estimation sketch (`FrequencyEstimationAnalyzer`)

A shallow embedding of `map_get_fresh_top_k_lib/frequency_estimation_analyzer.h`,
of the store `MapGetFreshTopK` of `map_get_fresh_top_k_lib/map_get_fresh_top_k.h`
and of the exact analyzer `google_tests/accurate_frequency_analyzer.h`.

Modelling conventions.

* `std::map<Key, int64_t>` is an association list kept in ascending key order
  (the iteration order of the C++ container); the key type carries a linear
  order (`Compare = std::less<Key>`).
* `int64_t` counters are `Int`; no observation sequence shorter than `2^63`
  can overflow them.
* Time points of the analyzer are rationals (seconds). The `double` members
  and the `double` arithmetic are embedded twice. The definitions `min_num`,
  `Analyzer`, `DeleteOldAddNewBuckets`, … read a `double` as an exact
  rational; they carry the statements that do not depend on where a rounded
  threshold falls (counter tables, totals, orderings, the store). The
  definitions `Binary64.min_num`, `Binary64.Analyzer`,
  `Binary64.DeleteOldAddNewBuckets`, … compute in IEEE 754 binary64 as the
  code does: `full_control_time_ = control_time / num_buckets * (num_buckets
  + 1)` with both operations rounded, the stride `full_control_time_ /
  buckets_count_` rounded, a duration comparison taken between the `double`
  conversion of the nanosecond count and the rounded product of the seconds
  by `1e9`, and `min_num` with every product, quotient and difference
  rounded. Statements about thresholds, the stride, the retire bound and the
  constructor are made over them.
* `size_t` members are naturals; in the binary64 reading `num_buckets + 1` is
  taken modulo `2^64`.
* The clock reading `system_clock::now()` is an explicit argument `now`.
* `buckets_.back()` / `buckets_.front()` on an empty `std::list` is undefined
  behaviour; the operations that perform such a read return `none`.
* The conversion of a `size_t` argument to an `int` parameter keeps the low 32
  bits, read as a signed value; the conversion of an `int` to `size_t` is the
  value modulo `2^64`.
* Time points of the exact analyzer are 64-bit counts of nanoseconds (`Int`);
  its window start is computed as the code does, in `double` nanoseconds,
  then divided by `1000.0` and truncated to a count of microseconds.
  `std::lower_bound` on its log is applied to a log in timestamp order, where
  it returns the first event that is not older than the bound.
* No exception is thrown inside the analyzer (allocation failure is not
  modelled), so the `try`/`catch` blocks of the store never catch.
-/

set_option linter.unusedSectionVars false

namespace FrequencyEstimationAnalyzer

variable {K : Type} [LinearOrder K]

/-! ## Definitions: the embedding of the source -/

/-- The call `bucket_data.find(key)`: the stored counter of `key`, if any. -/
def mapFind : List (K × Int) → K → Option Int
  | [], _ => none
  | (k, c) :: rest, key => if k = key then some c else mapFind rest key

/-- The call `bucket_data.emplace(key, v)`: insert at the key's place in
iteration order; an existing entry is left untouched. -/
def mapEmplace : List (K × Int) → K → Int → List (K × Int)
  | [], key, v => [(key, v)]
  | (k, c) :: rest, key, v =>
    if key < k then (key, v) :: (k, c) :: rest
    else if key = k then (k, c) :: rest
    else (k, c) :: mapEmplace rest key v

/-- The assignment `bucket_data[key] = v`: insert or overwrite. -/
def mapAssign : List (K × Int) → K → Int → List (K × Int)
  | [], key, v => [(key, v)]
  | (k, c) :: rest, key, v =>
    if key < k then (key, v) :: (k, c) :: rest
    else if key = k then (k, v) :: rest
    else (k, c) :: mapAssign rest key v

/-- The scan of `CreateNewCounter` for the first entry (in iteration order)
whose counter is `0`, erasing it; `none` when the scan finds no such entry. -/
def eraseFirstZero : List (K × Int) → Option (List (K × Int))
  | [] => none
  | (k, c) :: rest =>
    if c = 0 then some rest
    else (eraseFirstZero rest).map (fun r => (k, c) :: r)

/-- `IncrementCounter`: if `key` has a counter, increment it and report `true`. -/
def IncrementCounter : List (K × Int) → K → List (K × Int) × Bool
  | [], _ => ([], false)
  | (k, c) :: rest, key =>
    if k = key then ((k, c + 1) :: rest, true)
    else ((k, c) :: (IncrementCounter rest key).1, (IncrementCounter rest key).2)

/-- `CreateNewCounter`: insert `key` with count 1 if there is room, or if a
zero counter can be evicted. -/
def CreateNewCounter (bucket_size : Nat) (bucket_data : List (K × Int)) (key : K) :
    List (K × Int) × Bool :=
  if bucket_data.length < bucket_size then (mapEmplace bucket_data key 1, true)
  else
    match eraseFirstZero bucket_data with
    | some erased => (mapAssign erased key 1, true)
    | none => (bucket_data, false)

/-- `DecreaseAllCounters`: decrement every strictly positive counter. -/
def DecreaseAllCounters (bucket_data : List (K × Int)) (_key : K) : List (K × Int) :=
  bucket_data.map (fun e => if e.2 > 0 then (e.1, e.2 - 1) else e)

/-- `BucketInfo`: one bucket of the ring. -/
structure BucketInfo (K : Type) where
  created_at : ℚ
  bucket_data : List (K × Int)
  add_new_key_count : Int
deriving DecidableEq

/-- The constructor `BucketInfo(created_at)`. -/
def BucketInfo.new (created_at : ℚ) : BucketInfo K :=
  { created_at := created_at, bucket_data := [], add_new_key_count := 0 }

/-- `AddKeyToBucket`: the three-case update of one bucket's counter table. -/
def AddKeyToBucket (bucket_size : Nat) (bucket_info : BucketInfo K) (key : K) : BucketInfo K :=
  let inc := IncrementCounter bucket_info.bucket_data key
  if inc.2 then { bucket_info with bucket_data := inc.1 }
  else
    let cre := CreateNewCounter bucket_size bucket_info.bucket_data key
    if cre.2 then { bucket_info with bucket_data := cre.1 }
    else { bucket_info with bucket_data := DecreaseAllCounters bucket_info.bucket_data key }

/-- The loop body of `AddKeyToBuckets`: `it->add_new_key_count++` followed by
`AddKeyToBucket(*it, key)`. -/
def deliver (bucket_size : Nat) (bucket_info : BucketInfo K) (key : K) : BucketInfo K :=
  AddKeyToBucket bucket_size
    { bucket_info with add_new_key_count := bucket_info.add_new_key_count + 1 } key

/-- A sequence of observe calls delivered to one bucket, oldest first. -/
def deliverAll (bucket_size : Nat) (bucket_info : BucketInfo K) (keys : List K) : BucketInfo K :=
  keys.foldl (deliver bucket_size) bucket_info

/-- `GetBucketSortedByFrequencyKeys`: the `(count, key)` pairs of the table,
sorted by count, largest first. -/
def GetBucketSortedByFrequencyKeys (bucket_data : List (K × Int)) : List (Int × K) :=
  (bucket_data.map (fun e => (e.2, e.1))).insertionSort (fun left right => left.1 ≥ right.1)

/-- The value `min_num` of `WeedOutExtraKeysAndInfo`:
`floor(n * share) - ceil(n * (1 - share) / bucket_size) - 2`, in the exact
reading (the threshold `τ(N)`); `Binary64.min_num` is the value the code
computes in `double`. -/
def min_num (share_very_frequent : ℚ) (bucket_size : Nat) (n : Int) : Int :=
  ⌊(n : ℚ) * share_very_frequent⌋ - ⌈(n : ℚ) * (1 - share_very_frequent) / (bucket_size : ℚ)⌉ - 2

/-- `WeedOutExtraKeysAndInfo`: for `number = 0` the keys of the longest prefix
of entries whose count is at least `min_num`; otherwise the keys of the first
`number` entries, `number` being compared as a 64-bit unsigned value. -/
def WeedOutExtraKeysAndInfo (share_very_frequent : ℚ) (bucket_size : Nat)
    (bucket_vector : List (Int × K)) (n : Int) (number : Int) : List K :=
  if number = 0 then
    (bucket_vector.takeWhile
      (fun e => decide (e.1 ≥ min_num share_very_frequent bucket_size n))).map Prod.snd
  else
    (bucket_vector.take (number % 2 ^ 64).toNat).map Prod.snd

/-- The analyzer: its configuration constants and the ring `buckets_`, the
`double` members in the exact reading (`Binary64.Analyzer` holds them as
binary64 values). -/
structure Analyzer (K : Type) where
  control_time_ : ℚ
  full_control_time_ : ℚ
  buckets_count_ : Nat
  bucket_size_ : Nat
  share_very_frequent_ : ℚ
  buckets_ : List (BucketInfo K)
deriving DecidableEq

/-- The constructor of `FrequencyEstimationAnalyzer`, in the exact reading
(`Binary64.Analyzer.new` rounds the quotient and the product and takes
`num_buckets + 1` in `size_t`). -/
def Analyzer.new (control_time : ℚ) (share_very_frequent : ℚ) (num_buckets : Nat)
    (bucket_size : Nat) : Analyzer K :=
  { control_time_ := control_time
    full_control_time_ := control_time / (num_buckets : ℚ) * ((num_buckets : ℚ) + 1)
    buckets_count_ := num_buckets + 1
    bucket_size_ := bucket_size
    share_very_frequent_ := share_very_frequent
    buckets_ := [] }

/-- The `while` loop of `DeleteOldAddNewBuckets`: pop the front bucket as
long as the ring is non-empty and its front is older than `full_control_time_`
(exact comparison; `Binary64.retireOld` compares as the code does). -/
def retireOld (a : Analyzer K) (now : ℚ) : List (BucketInfo K) :=
  a.buckets_.dropWhile (fun b => decide (now - b.created_at > a.full_control_time_))

/-- `DeleteOldAddNewBuckets` at clock reading `now`: pop expired buckets from
the front, then read `buckets_.back()` (undefined on an empty ring: `none`) and
append a fresh bucket when the newest one is older than one stride (exact
quotient and comparison; `Binary64.DeleteOldAddNewBuckets` computes as the
code does). -/
def DeleteOldAddNewBuckets (a : Analyzer K) (now : ℚ) : Option (Analyzer K) :=
  match (retireOld a now).getLast? with
  | none => none
  | some back =>
    if now - back.created_at > a.full_control_time_ / (a.buckets_count_ : ℚ) then
      some { a with buckets_ := retireOld a now ++ [BucketInfo.new now] }
    else some { a with buckets_ := retireOld a now }

/-- `AddKeyToBuckets`: deliver the key to every bucket of the ring. -/
def AddKeyToBuckets (a : Analyzer K) (key : K) : Analyzer K :=
  { a with buckets_ := a.buckets_.map (fun b => deliver a.bucket_size_ b key) }

/-- `AddKey` at clock reading `now`. -/
def AddKey (a : Analyzer K) (key : K) (now : ℚ) : Option (Analyzer K) :=
  (DeleteOldAddNewBuckets a now).map (fun a1 => AddKeyToBuckets a1 key)

/-- `GetTopKKeys` at clock reading `now`: the state after maintenance and the
returned vector; reading `buckets_.front()` of an empty ring is undefined. -/
def GetTopKKeys (a : Analyzer K) (number : Int) (now : ℚ) : Option (Analyzer K × List K) :=
  match DeleteOldAddNewBuckets a now with
  | none => none
  | some a1 =>
    match a1.buckets_.head? with
    | none => none
    | some front =>
      some (a1, WeedOutExtraKeysAndInfo a1.share_very_frequent_ a1.bucket_size_
        (GetBucketSortedByFrequencyKeys front.bucket_data) front.add_new_key_count number)

/-- The threshold-mode answer computed from one bucket: what `GetTopKKeys(0)`
returns when that bucket is `buckets_.front()`. -/
def thresholdAnswer (share_very_frequent : ℚ) (bucket_size : Nat) (b : BucketInfo K) : List K :=
  WeedOutExtraKeysAndInfo share_very_frequent bucket_size
    (GetBucketSortedByFrequencyKeys b.bucket_data) b.add_new_key_count 0

/-- The stored count of `key`, taken as `0` when `key` has no counter. -/
def storedCount (bucket_data : List (K × Int)) (key : K) : Int :=
  (mapFind bucket_data key).getD 0

/-- The keys of a counter table, in iteration order. -/
def keysOf (bucket_data : List (K × Int)) : List K :=
  bucket_data.map Prod.fst

/-- The sum of all stored counters of a table. -/
def counterSum (bucket_data : List (K × Int)) : Int :=
  (bucket_data.map Prod.snd).sum

/-- The true count of `key` in a sequence of observed keys. -/
def trueCount (keys : List K) (key : K) : Int :=
  (keys.count key : Int)

/-- Well-formedness of a counter table for capacity `m`: distinct keys, at
most `m` of them, and no negative counter. -/
structure TableOk (m : Nat) (d : List (K × Int)) : Prop where
  nodup : (keysOf d).Nodup
  size_le : d.length ≤ m
  nonneg : ∀ e ∈ d, 0 ≤ e.2

/-- The Misra-Gries invariant of a table `d` of capacity `m` against true
counts `f` and a number `N` of delivered observations. -/
structure MGInv (m : Nat) (d : List (K × Int)) (f : K → Int) (N : Int) : Prop where
  ok : TableOk m d
  upper : ∀ k, storedCount d k ≤ f k
  mass : ∀ k, counterSum d + ((m : Int) + 1) * (f k - storedCount d k) ≤ N
  seen : ∀ k ∈ keysOf d, 1 ≤ f k

/-- One public call together with the clock reading it samples. -/
inductive Call (K : Type) where
  | observe (key : K) (now : ℚ)
  | query (number : Int) (now : ℚ)

/-- The clock reading of a call. -/
def Call.now : Call K → ℚ
  | Call.observe _ now => now
  | Call.query _ now => now

/-- The number of observations a call delivers: `1` for `AddKey`, `0` for `GetTopKKeys`. -/
def Call.observations : Call K → Int
  | Call.observe _ _ => 1
  | Call.query _ _ => 0

/-- The number of `AddKey` calls in a sequence of calls. -/
def observeCount (cs : List (Call K)) : Int :=
  (cs.map Call.observations).sum

/-- The state after one call; `none` when the call performs an undefined read. -/
def step (a : Analyzer K) : Call K → Option (Analyzer K)
  | Call.observe key now => AddKey a key now
  | Call.query number now => (GetTopKKeys a number now).map Prod.fst

/-- The state after a sequence of calls, oldest first. -/
def run : Analyzer K → List (Call K) → Option (Analyzer K)
  | a, [] => some a
  | a, c :: cs => (step a c).bind (fun a1 => run a1 cs)

/-- The stride `full_control_time_ / buckets_count_` of
`DeleteOldAddNewBuckets`, as an exact quotient. -/
def stride (a : Analyzer K) : ℚ :=
  a.full_control_time_ / (a.buckets_count_ : ℚ)

/-- The ring invariant: adjacent buckets are more than one stride apart, and
every bucket was created at most `full_control_time_` before the newest one. -/
structure RingInv (a : Analyzer K) : Prop where
  chain : a.buckets_.Chain' (fun b1 b2 => b1.created_at + stride a < b2.created_at)
  span : ∀ b ∈ a.buckets_, ∀ back ∈ a.buckets_.getLast?,
    back.created_at - b.created_at ≤ a.full_control_time_

/-- The analyzer `a` with its ring replaced by `bs`. -/
def Analyzer.withRing (a : Analyzer K) (bs : List (BucketInfo K)) : Analyzer K :=
  { a with buckets_ := bs }

/-- Two analyzer states with the same configuration constants. -/
def sameConfig (a a1 : Analyzer K) : Prop :=
  a1.control_time_ = a.control_time_ ∧ a1.full_control_time_ = a.full_control_time_ ∧
    a1.buckets_count_ = a.buckets_count_ ∧ a1.bucket_size_ = a.bucket_size_ ∧
    a1.share_very_frequent_ = a.share_very_frequent_

/-- The call `map_.find(key)` on the store's `std::map<Key, Tp>`: the mapped
value of `key`, if any. -/
def dictFind {V : Type} : List (K × V) → K → Option V
  | [], _ => none
  | (k, v) :: rest, key => if k = key then some v else dictFind rest key

/-- The assignment `map_[key] = value` on the store's map: insert at the key's
place in iteration order, or overwrite the mapped value. -/
def dictAssign {V : Type} : List (K × V) → K → V → List (K × V)
  | [], key, value => [(key, value)]
  | (k, v) :: rest, key, value =>
    if key < k then (key, value) :: (k, v) :: rest
    else if key = k then (k, value) :: rest
    else (k, v) :: dictAssign rest key value

/-- The read `map_[key]`: the map afterwards and the mapped value; a key
without a mapping is first mapped to the default value of the mapped type. -/
def dictSubscript {V : Type} [Inhabited V] (d : List (K × V)) (key : K) : List (K × V) × V :=
  match dictFind d key with
  | some v => (d, v)
  | none => (dictAssign d key default, default)

/-- `MapGetFreshTopK`: the store, a map together with its analyzer. -/
structure MapGetFreshTopK (K V : Type) where
  map_ : List (K × V)
  analyzer_ : Analyzer K

/-- The constructor of `MapGetFreshTopK`. -/
def MapGetFreshTopK.new {V : Type} (control_time : ℚ) (share_to_be_very_frequent : ℚ)
    (num_buckets : Nat) (bucket_size : Nat) : MapGetFreshTopK K V :=
  { map_ := []
    analyzer_ := Analyzer.new control_time share_to_be_very_frequent num_buckets bucket_size }

/-- `MapGetFreshTopK::get` at clock reading `now`: `AddKey(key)` on the
analyzer, then `return map_[key]`. -/
def MapGetFreshTopK.get {V : Type} [Inhabited V] (s : MapGetFreshTopK K V) (key : K) (now : ℚ) :
    Option (MapGetFreshTopK K V × V) :=
  match AddKey s.analyzer_ key now with
  | none => none
  | some a1 =>
    some ({ map_ := (dictSubscript s.map_ key).1, analyzer_ := a1 }, (dictSubscript s.map_ key).2)

/-- `MapGetFreshTopK::set` at clock reading `now`: `map_[key] = value`, then
`AddKey(key)` on the analyzer. -/
def MapGetFreshTopK.set {V : Type} (s : MapGetFreshTopK K V) (key : K) (value : V) (now : ℚ) :
    Option (MapGetFreshTopK K V) :=
  match AddKey s.analyzer_ key now with
  | none => none
  | some a1 => some { map_ := dictAssign s.map_ key value, analyzer_ := a1 }

/-- The implicit conversion of the `size_t` argument of `get_top_k` to the
`int` parameter of `GetTopKKeys`: the value modulo `2^32`, read as a signed
32-bit integer. -/
def size_t_to_int (number : Nat) : Int :=
  if number % 2 ^ 32 < 2 ^ 31 then ((number % 2 ^ 32 : Nat) : Int)
  else ((number % 2 ^ 32 : Nat) : Int) - 2 ^ 32

/-- `MapGetFreshTopK::get_top_k` at clock reading `now`: the answer of
`GetTopKKeys(number)` on the analyzer. -/
def MapGetFreshTopK.get_top_k {V : Type} (s : MapGetFreshTopK K V) (number : Nat) (now : ℚ) :
    Option (MapGetFreshTopK K V × List K) :=
  match GetTopKKeys s.analyzer_ (size_t_to_int number) now with
  | none => none
  | some r => some ({ map_ := s.map_, analyzer_ := r.1 }, r.2)

/-- One call on the store together with the clock reading it samples. -/
inductive StoreCall (K V : Type) where
  | get (key : K) (now : ℚ)
  | set (key : K) (value : V) (now : ℚ)
  | get_top_k (number : Nat) (now : ℚ)

/-- The store after one call; `none` when the call performs an undefined read. -/
def storeStep {V : Type} [Inhabited V] (s : MapGetFreshTopK K V) :
    StoreCall K V → Option (MapGetFreshTopK K V)
  | StoreCall.get key now => (s.get key now).map Prod.fst
  | StoreCall.set key value now => s.set key value now
  | StoreCall.get_top_k number now => (s.get_top_k number now).map Prod.fst

/-- The store after a sequence of calls, oldest first. -/
def storeRun {V : Type} [Inhabited V] : MapGetFreshTopK K V → List (StoreCall K V) →
    Option (MapGetFreshTopK K V)
  | s, [] => some s
  | s, c :: cs => (storeStep s c).bind (fun s1 => storeRun s1 cs)

/-- Whether a store call is a `set` on `key`. -/
def StoreCall.setsKey {V : Type} (key : K) : StoreCall K V → Prop
  | StoreCall.set k _ _ => k = key
  | _ => False

/-- The number of `AddKey` calls of `cs` made at a clock reading later than `x`. -/
def observedAfter (x : ℚ) (cs : List (Call K)) : Int :=
  observeCount (cs.filter (fun c => decide (x < c.now)))

/-- The coverage invariant of a ring against the history `hist` of calls made
so far and the latest clock reading `last`: each bucket has received every
observation made more than one stride after the creation of its older
neighbour, the oldest bucket has received every observation of the last
`control_time_`, no call was made more than one stride after the creation of
the newest bucket, and no call or bucket is stamped later than `last`. -/
structure CoverInv (a : Analyzer K) (hist : List (Call K)) (last : ℚ) : Prop where
  adj : a.buckets_.Chain' (fun p b =>
    observedAfter (p.created_at + stride a) hist ≤ b.add_new_key_count)
  front : ∀ f ∈ a.buckets_.head?,
    observedAfter (last - a.control_time_) hist ≤ f.add_new_key_count
  back : ∀ q ∈ a.buckets_.getLast?, ∀ c ∈ hist, c.now ≤ q.created_at + stride a
  times : ∀ c ∈ hist, c.now ≤ last
  born : ∀ b ∈ a.buckets_, b.created_at ≤ last

/-- The keys of the `AddKey` calls of a sequence of calls, in call order. -/
def observedKeys (cs : List (Call K)) : List K :=
  cs.filterMap (fun c =>
    match c with
    | Call.observe key _ => some key
    | Call.query _ _ => none)

/-- The bucket `b` holds exactly what the observations made since its
creation leave in a fresh bucket: the history `hist` of calls splits into the
calls before and the calls since the creation of `b`, and `b` is the fresh
bucket after the delivery of the keys observed since. -/
def BucketHistory (m : Nat) (hist : List (Call K)) (b : BucketInfo K) : Prop :=
  ∃ pre post, hist = pre ++ post ∧
    b = deliverAll m (BucketInfo.new b.created_at) (observedKeys post)

/-- Whether `AddKeyToBucket` reaches its call of `DecreaseAllCounters`: both
`IncrementCounter` and `CreateNewCounter` report `false`. -/
def reachesDecreaseAll (bucket_size : Nat) (bucket_info : BucketInfo K) (key : K) : Bool :=
  !(IncrementCounter bucket_info.bucket_data key).2 &&
    !(CreateNewCounter bucket_size bucket_info.bucket_data key).2

/-- The number of deliveries, among those of `keys` to `bucket_info` (oldest
first), that reach `DecreaseAllCounters`. -/
def decreaseAllCalls (bucket_size : Nat) : BucketInfo K → List K → Nat
  | _, [] => 0
  | b, key :: rest =>
    (if reachesDecreaseAll bucket_size b key then 1 else 0)
      + decreaseAllCalls bucket_size (deliver bucket_size b key) rest

/-! ## Definitions: the binary64 reading

The definitions above read every `double` as an exact rational. The
definitions below follow the arithmetic of the code: `Double` is an IEEE 754
binary64 value, every operation rounds to nearest (ties to even), and the
comparisons of `DeleteOldAddNewBuckets` and `WeedOutExtraKeysAndInfo` are
taken on the rounded operands. `Binary64.f` is the function `f` of the source
under this reading. -/

/-- An IEEE 754 binary64 value (`double`): a finite value, an infinity or a
NaN. The sign of zero is not distinguished. -/
inductive Double where
  | finite (value : ℚ)
  | pos_inf
  | neg_inf
  | nan
deriving DecidableEq

/-- Rounding to the nearest integer, ties to the even one. -/
def roundHalfEven (x : ℚ) : Int :=
  if x - ⌊x⌋ < 1 / 2 then ⌊x⌋
  else if 1 / 2 < x - ⌊x⌋ then ⌊x⌋ + 1
  else if ⌊x⌋ % 2 = 0 then ⌊x⌋ else ⌊x⌋ + 1

/-- The binary exponent that fixes the spacing of binary64 values around `x`:
`⌊log₂ |x|⌋`, and `−1022` in the subnormal range. -/
def binade (x : ℚ) : Int :=
  max (Int.log 2 |x|) (-1022)

/-- The spacing of binary64 values around `x` (53 significant bits). -/
def Double.quantum (x : ℚ) : ℚ :=
  (2 : ℚ) ^ (binade x - 52)

/-- The magnitude of the binary64 value nearest to `x` (ties to even), before
the overflow test. -/
def Double.roundMagnitude (x : ℚ) : ℚ :=
  (roundHalfEven (|x| / Double.quantum x) : ℚ) * Double.quantum x

/-- Rounding of a real result to binary64: round to nearest, ties to even,
overflow to an infinity. -/
def Double.ofRat (x : ℚ) : Double :=
  if (2 : ℚ) ^ (1024 : ℕ) ≤ Double.roundMagnitude x then
    (if x < 0 then Double.neg_inf else Double.pos_inf)
  else Double.finite (if x < 0 then -Double.roundMagnitude x else Double.roundMagnitude x)

/-- The conversion of an integer to `double`. -/
def Double.ofInt (n : Int) : Double :=
  Double.ofRat (n : ℚ)

/-- The conversion of an unsigned integer to `double`. -/
def Double.ofNat (n : Nat) : Double :=
  Double.ofRat (n : ℚ)

/-- The binary64 product. -/
def Double.mul : Double → Double → Double
  | Double.finite a, Double.finite b => Double.ofRat (a * b)
  | Double.finite a, Double.pos_inf =>
    if a = 0 then Double.nan else if a < 0 then Double.neg_inf else Double.pos_inf
  | Double.finite a, Double.neg_inf =>
    if a = 0 then Double.nan else if a < 0 then Double.pos_inf else Double.neg_inf
  | Double.pos_inf, Double.finite b =>
    if b = 0 then Double.nan else if b < 0 then Double.neg_inf else Double.pos_inf
  | Double.neg_inf, Double.finite b =>
    if b = 0 then Double.nan else if b < 0 then Double.pos_inf else Double.neg_inf
  | Double.pos_inf, Double.pos_inf => Double.pos_inf
  | Double.neg_inf, Double.neg_inf => Double.pos_inf
  | Double.pos_inf, Double.neg_inf => Double.neg_inf
  | Double.neg_inf, Double.pos_inf => Double.neg_inf
  | Double.nan, _ => Double.nan
  | _, Double.nan => Double.nan

/-- The binary64 quotient. A zero divisor is taken as `+0`: every divisor in
the program is a converted unsigned integer or a positive constant. -/
def Double.div : Double → Double → Double
  | Double.finite a, Double.finite b =>
    if b = 0 then
      (if a = 0 then Double.nan else if a < 0 then Double.neg_inf else Double.pos_inf)
    else Double.ofRat (a / b)
  | Double.finite _, Double.pos_inf => Double.finite 0
  | Double.finite _, Double.neg_inf => Double.finite 0
  | Double.pos_inf, Double.finite b => if b < 0 then Double.neg_inf else Double.pos_inf
  | Double.neg_inf, Double.finite b => if b < 0 then Double.pos_inf else Double.neg_inf
  | Double.pos_inf, Double.pos_inf => Double.nan
  | Double.pos_inf, Double.neg_inf => Double.nan
  | Double.neg_inf, Double.pos_inf => Double.nan
  | Double.neg_inf, Double.neg_inf => Double.nan
  | Double.nan, _ => Double.nan
  | _, Double.nan => Double.nan

/-- The binary64 difference. -/
def Double.sub : Double → Double → Double
  | Double.finite a, Double.finite b => Double.ofRat (a - b)
  | Double.finite _, Double.pos_inf => Double.neg_inf
  | Double.finite _, Double.neg_inf => Double.pos_inf
  | Double.pos_inf, Double.finite _ => Double.pos_inf
  | Double.neg_inf, Double.finite _ => Double.neg_inf
  | Double.pos_inf, Double.neg_inf => Double.pos_inf
  | Double.neg_inf, Double.pos_inf => Double.neg_inf
  | Double.pos_inf, Double.pos_inf => Double.nan
  | Double.neg_inf, Double.neg_inf => Double.nan
  | Double.nan, _ => Double.nan
  | _, Double.nan => Double.nan

/-- The library function `floor` on `double`. -/
def Double.floor : Double → Double
  | Double.finite a => Double.finite (⌊a⌋ : ℚ)
  | d => d

/-- The library function `ceil` on `double`. -/
def Double.ceil : Double → Double
  | Double.finite a => Double.finite (⌈a⌉ : ℚ)
  | d => d

/-- The comparison `a < b` of two `double` values; false if either is a NaN. -/
def Double.lt : Double → Double → Bool
  | Double.finite a, Double.finite b => decide (a < b)
  | Double.neg_inf, Double.finite _ => true
  | Double.neg_inf, Double.pos_inf => true
  | Double.finite _, Double.pos_inf => true
  | _, _ => false

/-- The comparison `a <= b` of two `double` values; false if either is a NaN. -/
def Double.le : Double → Double → Bool
  | Double.finite a, Double.finite b => decide (a ≤ b)
  | Double.neg_inf, Double.finite _ => true
  | Double.neg_inf, Double.pos_inf => true
  | Double.finite _, Double.pos_inf => true
  | Double.neg_inf, Double.neg_inf => true
  | Double.pos_inf, Double.pos_inf => true
  | _, _ => false

/-- `min_num` of `WeedOutExtraKeysAndInfo` as the code computes it, in
binary64: `floor((double) n * share) - ceil((double) n * (1 - share) /
(double) bucket_size) - 2`, every operation rounded. -/
def Binary64.min_num (share_very_frequent : Double) (bucket_size : Nat) (n : Int) : Double :=
  ((((Double.ofInt n).mul share_very_frequent).floor).sub
    ((((Double.ofInt n).mul ((Double.ofRat 1).sub share_very_frequent)).div
      (Double.ofNat bucket_size)).ceil)).sub (Double.ofRat 2)

/-- `WeedOutExtraKeysAndInfo` with the threshold computed in binary64; the
test `bucket_vector[i].first >= min_num` converts the 64-bit count to
`double`. -/
def Binary64.WeedOutExtraKeysAndInfo (share_very_frequent : Double) (bucket_size : Nat)
    (bucket_vector : List (Int × K)) (n : Int) (number : Int) : List K :=
  if number = 0 then
    (bucket_vector.takeWhile
      (fun e => Double.le (Binary64.min_num share_very_frequent bucket_size n)
        (Double.ofInt e.1))).map Prod.snd
  else
    (bucket_vector.take (number % 2 ^ 64).toNat).map Prod.snd

/-- The threshold-mode answer computed from one bucket with the binary64
threshold: what `GetTopKKeys(0)` returns when that bucket is
`buckets_.front()`. -/
def Binary64.thresholdAnswer (share_very_frequent : Double) (bucket_size : Nat)
    (b : BucketInfo K) : List K :=
  Binary64.WeedOutExtraKeysAndInfo share_very_frequent bucket_size
    (GetBucketSortedByFrequencyKeys b.bucket_data) b.add_new_key_count 0

/-- The analyzer with its `double` members held as binary64 values. -/
structure Binary64.Analyzer (K : Type) where
  control_time_ : Double
  full_control_time_ : Double
  buckets_count_ : Nat
  bucket_size_ : Nat
  share_very_frequent_ : Double
  buckets_ : List (BucketInfo K)

/-- The constructor of `FrequencyEstimationAnalyzer` in binary64:
`full_control_time_ = control_time / num_buckets * (num_buckets + 1)` with
both operations rounded and `num_buckets + 1` computed in `size_t`. -/
def Binary64.Analyzer.new (control_time : Double) (share_very_frequent : Double)
    (num_buckets : Nat) (bucket_size : Nat) : Binary64.Analyzer K :=
  { control_time_ := control_time
    full_control_time_ :=
      (control_time.div (Double.ofNat num_buckets)).mul
        (Double.ofNat ((num_buckets + 1) % 2 ^ 64))
    buckets_count_ := (num_buckets + 1) % 2 ^ 64
    bucket_size_ := bucket_size
    share_very_frequent_ := share_very_frequent
    buckets_ := [] }

/-- The analyzer `a` with its ring replaced by `bs`. -/
def Binary64.Analyzer.withRing (a : Binary64.Analyzer K) (bs : List (BucketInfo K)) :
    Binary64.Analyzer K :=
  { a with buckets_ := bs }

/-- The comparison `now - created_at > d` of a `system_clock::duration` (a
64-bit count of nanoseconds) with a `duration<double>` in seconds: both sides
are converted to `double` nanoseconds, the left one by converting the count,
the right one by the rounded product `d * 1e9`. Time points are in seconds. -/
def Binary64.durationGreater (now created_at : ℚ) (d : Double) : Bool :=
  Double.lt (d.mul (Double.ofRat 1000000000))
    (Double.ofRat ((now - created_at) * 1000000000))

/-- The quotient `full_control_time_ / buckets_count_` of
`DeleteOldAddNewBuckets`, a `duration<double>`. -/
def Binary64.stride (a : Binary64.Analyzer K) : Double :=
  a.full_control_time_.div (Double.ofNat a.buckets_count_)

/-- The `while` loop of `DeleteOldAddNewBuckets` with the code's comparison. -/
def Binary64.retireOld (a : Binary64.Analyzer K) (now : ℚ) : List (BucketInfo K) :=
  a.buckets_.dropWhile
    (fun b => Binary64.durationGreater now b.created_at a.full_control_time_)

/-- `DeleteOldAddNewBuckets` at clock reading `now` with the code's
comparisons; the read of `buckets_.back()` on an empty ring is undefined
(`none`). -/
def Binary64.DeleteOldAddNewBuckets (a : Binary64.Analyzer K) (now : ℚ) :
    Option (Binary64.Analyzer K) :=
  match (Binary64.retireOld a now).getLast? with
  | none => none
  | some back =>
    if Binary64.durationGreater now back.created_at (Binary64.stride a) then
      some { a with buckets_ := Binary64.retireOld a now ++ [BucketInfo.new now] }
    else some { a with buckets_ := Binary64.retireOld a now }

/-- `AddKeyToBuckets`: deliver the key to every bucket of the ring. -/
def Binary64.AddKeyToBuckets (a : Binary64.Analyzer K) (key : K) : Binary64.Analyzer K :=
  { a with buckets_ := a.buckets_.map (fun b => deliver a.bucket_size_ b key) }

/-- `AddKey` at clock reading `now`. -/
def Binary64.AddKey (a : Binary64.Analyzer K) (key : K) (now : ℚ) :
    Option (Binary64.Analyzer K) :=
  (Binary64.DeleteOldAddNewBuckets a now).map (fun a1 => Binary64.AddKeyToBuckets a1 key)

/-- `GetTopKKeys` at clock reading `now`: the state after maintenance and the
returned vector. -/
def Binary64.GetTopKKeys (a : Binary64.Analyzer K) (number : Int) (now : ℚ) :
    Option (Binary64.Analyzer K × List K) :=
  match Binary64.DeleteOldAddNewBuckets a now with
  | none => none
  | some a1 =>
    match a1.buckets_.head? with
    | none => none
    | some front =>
      some (a1, Binary64.WeedOutExtraKeysAndInfo a1.share_very_frequent_ a1.bucket_size_
        (GetBucketSortedByFrequencyKeys front.bucket_data) front.add_new_key_count number)

/-- The state after one call; `none` when the call performs an undefined read. -/
def Binary64.step (a : Binary64.Analyzer K) : Call K → Option (Binary64.Analyzer K)
  | Call.observe key now => Binary64.AddKey a key now
  | Call.query number now => (Binary64.GetTopKKeys a number now).map Prod.fst

/-- The state after a sequence of calls, oldest first. -/
def Binary64.run : Binary64.Analyzer K → List (Call K) → Option (Binary64.Analyzer K)
  | a, [] => some a
  | a, c :: cs => (Binary64.step a c).bind (fun a1 => Binary64.run a1 cs)

/-- The ring invariant with the code's comparisons: each bucket was created
when its older neighbour was older than one stride, and no bucket is older
than `full_control_time_` when the newest one is created. -/
structure Binary64.RingInv (a : Binary64.Analyzer K) : Prop where
  chain : a.buckets_.Chain' (fun b1 b2 =>
    Binary64.durationGreater b2.created_at b1.created_at (Binary64.stride a) = true)
  span : ∀ b ∈ a.buckets_, ∀ back ∈ a.buckets_.getLast?,
    Binary64.durationGreater back.created_at b.created_at a.full_control_time_ = false

/-- The outcome of constructing an analyzer: the constructor only initialises
its members and contains no `throw`. -/
def Binary64.Analyzer.construct (control_time : Double) (share_very_frequent : Double)
    (num_buckets : Nat) (bucket_size : Nat) : Except String (Binary64.Analyzer K) :=
  Except.ok (Binary64.Analyzer.new control_time share_very_frequent num_buckets bucket_size)

/-- The store with its analyzer held in binary64. -/
structure Binary64.MapGetFreshTopK (K V : Type) where
  map_ : List (K × V)
  analyzer_ : Binary64.Analyzer K

/-- The outcome of constructing a store: the constructor only constructs the
analyzer member. -/
def Binary64.MapGetFreshTopK.construct {V : Type} (control_time : Double)
    (share_to_be_very_frequent : Double) (num_buckets : Nat) (bucket_size : Nat) :
    Except String (Binary64.MapGetFreshTopK K V) :=
  match (Binary64.Analyzer.construct control_time share_to_be_very_frequent num_buckets
      bucket_size : Except String (Binary64.Analyzer K)) with
  | Except.ok a => Except.ok { map_ := [], analyzer_ := a }
  | Except.error e => Except.error e

/-- The conversion of a `double` to a 64-bit signed integer: truncation
towards zero; undefined (`none`) for a NaN, an infinity or a value out of
range. -/
def Double.toInt64 : Double → Option Int
  | Double.finite v =>
    if -(2 : Int) ^ 63 ≤ (if 0 ≤ v then ⌊v⌋ else ⌈v⌉) ∧ (if 0 ≤ v then ⌊v⌋ else ⌈v⌉) < 2 ^ 63
    then some (if 0 ≤ v then ⌊v⌋ else ⌈v⌉) else none
  | _ => none

/-- `AccurateFrequencyAnalyzer::KeyInfo`: one logged event of the exact
analyzer of the test suite (`google_tests/accurate_frequency_analyzer.h`);
`created_at` is a `system_clock` time point, a 64-bit count of nanoseconds. -/
structure KeyInfo (K : Type) where
  created_at : Int
  key : K
deriving DecidableEq

/-- `AccurateFrequencyAnalyzer`: the window length (a `duration<double>` in
seconds), the counter of additions since the last clean-up, and the log
`data_`, oldest event first. -/
structure AccurateFrequencyAnalyzer (K : Type) where
  control_time_ : Double
  new_elements_since_delete_old_logs_ : Int
  data_ : List (KeyInfo K)
deriving DecidableEq

/-- The constructor of `AccurateFrequencyAnalyzer`. -/
def AccurateFrequencyAnalyzer.new (control_time : Double) : AccurateFrequencyAnalyzer K :=
  { control_time_ := control_time, new_elements_since_delete_old_logs_ := 0, data_ := [] }

/-- `DeleteOldLogs(time_since)`: reset the addition counter and erase the
events in front of `std::lower_bound(data_, KeyInfo(_, time_since))`, events
being compared by `created_at`. On a log in timestamp order (the order
`std::lower_bound` requires) that position is the first event that is not
older than `time_since`. -/
def AccurateFrequencyAnalyzer.DeleteOldLogs (o : AccurateFrequencyAnalyzer K)
    (time_since : Int) : AccurateFrequencyAnalyzer K :=
  { o with
    new_elements_since_delete_old_logs_ := 0
    data_ := o.data_.dropWhile (fun e => decide (e.created_at < time_since)) }

/-- `AccurateFrequencyAnalyzer::add`: count the addition, clean up with the
default argument `now()` on every millionth addition, and log the key with the
time stamp `now()`. The two clock readings are `now_delete` and `now_log`. -/
def AccurateFrequencyAnalyzer.add (o : AccurateFrequencyAnalyzer K) (new_key : K)
    (now_delete now_log : Int) : AccurateFrequencyAnalyzer K :=
  let o1 : AccurateFrequencyAnalyzer K :=
    { o with new_elements_since_delete_old_logs_ := o.new_elements_since_delete_old_logs_ + 1 }
  let o2 : AccurateFrequencyAnalyzer K :=
    if o1.new_elements_since_delete_old_logs_ % 1000000 = 0 then o1.DeleteOldLogs now_delete
    else o1
  { o2 with data_ := o2.data_ ++ [{ created_at := now_log, key := new_key }] }

/-- The window start `time_point_cast<microseconds>(time - control_time_)` of
`GetActualTop`, converted back to nanoseconds: the difference is taken in
`double` nanoseconds (`(double) time - control_time_ * 1e9`), divided by
`1000.0`, truncated to a 64-bit count of microseconds and multiplied by
`1000`. Undefined (`none`) if a conversion leaves the 64-bit range. -/
def AccurateFrequencyAnalyzer.time_since (o : AccurateFrequencyAnalyzer K) (time : Int) :
    Option Int :=
  match (((Double.ofInt time).sub (o.control_time_.mul (Double.ofRat 1000000000))).div
      (Double.ofRat 1000)).toInt64 with
  | none => none
  | some us =>
    if -(2 : Int) ^ 63 ≤ us * 1000 ∧ us * 1000 < 2 ^ 63 then some (us * 1000) else none

/-- The body of the counting loop of `GetActualTop`: increment the counter of
the key if `counter.find` finds one, else `counter[key] = 1`. -/
def countEvent (counter : List (K × Int)) (key : K) : List (K × Int) :=
  match mapFind counter key with
  | some c => mapAssign counter key (c + 1)
  | none => mapAssign counter key 1

/-- `AccurateFrequencyAnalyzer::GetActualTop(time)`: the analyzer after the
clean-up and the returned vector. The test `it->second > num * 0.1` is taken
in `double`. -/
def AccurateFrequencyAnalyzer.GetActualTop (o : AccurateFrequencyAnalyzer K) (time : Int) :
    Option (AccurateFrequencyAnalyzer K × List K) :=
  match o.time_since time with
  | none => none
  | some time_since =>
    let o1 := o.DeleteOldLogs time_since
    let num : Int := (o1.data_.length : Int)
    if num ≥ 100 then
      let counter := o1.data_.foldl (fun c e => countEvent c e.key) []
      some (o1, (counter.filter (fun e =>
        Double.lt ((Double.ofInt num).mul (Double.ofRat (1 / 10))) (Double.ofInt e.2))).map
          Prod.fst)
    else some (o1, [])

/-- The keys of the logged events that are not older than `time_since`, in
log order. -/
def loggedSince (o : AccurateFrequencyAnalyzer K) (time_since : Int) : List K :=
  (o.data_.filter (fun e => decide (time_since ≤ e.created_at))).map KeyInfo.key

/-! ## Lemmas and claims -/

theorem mapFind_eq_none_iff (d : List (K × Int)) (key : K) :
    mapFind d key = none ↔ key ∉ keysOf d := by
  induction d with
  | nil => simp [mapFind, keysOf]
  | cons e rest ih =>
    obtain ⟨k, c⟩ := e
    by_cases h : k = key
    · simp [mapFind, keysOf, h]
    · have h2 : ¬ key = k := fun h3 => h h3.symm
      simpa [mapFind, keysOf, h, h2] using ih

theorem storedCount_cons (k : K) (c : Int) (rest : List (K × Int)) (key : K) :
    storedCount ((k, c) :: rest) key = if k = key then c else storedCount rest key := by
  unfold storedCount
  by_cases h : k = key <;> simp [mapFind, h]

theorem storedCount_of_not_mem (d : List (K × Int)) (key : K) (h : key ∉ keysOf d) :
    storedCount d key = 0 := by
  unfold storedCount
  rw [(mapFind_eq_none_iff d key).2 h]
  rfl

theorem mapFind_perm {d1 d2 : List (K × Int)} (h : d1.Perm d2) (nd : (keysOf d1).Nodup)
    (key : K) : mapFind d1 key = mapFind d2 key := by
  induction h with
  | nil => rfl
  | cons e _ ih =>
    obtain ⟨k, c⟩ := e
    simp only [keysOf, List.map_cons, List.nodup_cons] at nd
    by_cases hk : k = key
    · simp [mapFind, hk]
    · simp only [mapFind, hk, if_false]
      exact ih nd.2
  | swap e1 e2 l =>
    obtain ⟨k1, c1⟩ := e1
    obtain ⟨k2, c2⟩ := e2
    simp only [keysOf, List.map_cons, List.nodup_cons, List.mem_cons] at nd
    by_cases h1 : k1 = key <;> by_cases h2 : k2 = key
    · exact absurd (h2.trans h1.symm) (fun h3 => nd.1 (Or.inl h3))
    · simp [mapFind, h1, h2]
    · simp [mapFind, h1, h2]
    · simp [mapFind, h1, h2]
  | trans h1 _ ih1 ih2 =>
    have nd2 := ((h1.map Prod.fst).nodup_iff).1 nd
    exact (ih1 nd).trans (ih2 nd2)

theorem storedCount_perm {d1 d2 : List (K × Int)} (h : d1.Perm d2) (nd : (keysOf d1).Nodup)
    (key : K) : storedCount d1 key = storedCount d2 key := by
  unfold storedCount
  rw [mapFind_perm h nd key]

theorem counterSum_perm {d1 d2 : List (K × Int)} (h : d1.Perm d2) :
    counterSum d1 = counterSum d2 :=
  (h.map Prod.snd).sum_eq

theorem keysOf_perm {d1 d2 : List (K × Int)} (h : d1.Perm d2) :
    (keysOf d1).Perm (keysOf d2) :=
  h.map Prod.fst

theorem mapEmplace_perm (d : List (K × Int)) (key : K) (v : Int) (h : key ∉ keysOf d) :
    (mapEmplace d key v).Perm ((key, v) :: d) := by
  induction d with
  | nil => simp [mapEmplace]
  | cons e rest ih =>
    obtain ⟨k, c⟩ := e
    simp only [keysOf, List.map_cons, List.mem_cons, not_or] at h
    unfold mapEmplace
    by_cases h1 : key < k
    · simp [h1]
    · simp only [h1, if_false, h.1]
      exact ((ih h.2).cons (k, c)).trans (List.Perm.swap _ _ _)

theorem mapAssign_perm (d : List (K × Int)) (key : K) (v : Int) (h : key ∉ keysOf d) :
    (mapAssign d key v).Perm ((key, v) :: d) := by
  induction d with
  | nil => simp [mapAssign]
  | cons e rest ih =>
    obtain ⟨k, c⟩ := e
    simp only [keysOf, List.map_cons, List.mem_cons, not_or] at h
    unfold mapAssign
    by_cases h1 : key < k
    · simp [h1]
    · simp only [h1, if_false, h.1]
      exact ((ih h.2).cons (k, c)).trans (List.Perm.swap _ _ _)

theorem eraseFirstZero_some (d erased : List (K × Int)) (h : eraseFirstZero d = some erased) :
    ∃ z, d.Perm ((z, 0) :: erased) := by
  induction d generalizing erased with
  | nil => simp [eraseFirstZero] at h
  | cons e rest ih =>
    obtain ⟨k, c⟩ := e
    unfold eraseFirstZero at h
    by_cases hc : c = 0
    · simp only [hc, if_true, Option.some.injEq] at h
      exact ⟨k, by rw [hc, h]⟩
    · simp only [hc, if_false, Option.map_eq_some'] at h
      obtain ⟨r, hr, rfl⟩ := h
      obtain ⟨z, hz⟩ := ih r hr
      exact ⟨z, (hz.cons (k, c)).trans (List.Perm.swap _ _ _)⟩

theorem eraseFirstZero_none (d : List (K × Int)) (h : eraseFirstZero d = none) :
    ∀ e ∈ d, e.2 ≠ 0 := by
  induction d with
  | nil => simp
  | cons e rest ih =>
    obtain ⟨k, c⟩ := e
    unfold eraseFirstZero at h
    by_cases hc : c = 0
    · simp [hc] at h
    · simp only [hc, if_false, Option.map_eq_none'] at h
      intro e he
      rcases List.mem_cons.1 he with rfl | he
      · exact hc
      · exact ih h e he

theorem IncrementCounter_false (d : List (K × Int)) (key : K) :
    (IncrementCounter d key).2 = false ↔ key ∉ keysOf d := by
  induction d with
  | nil => simp [IncrementCounter, keysOf]
  | cons e rest ih =>
    obtain ⟨k, c⟩ := e
    by_cases h : k = key
    · simp [IncrementCounter, keysOf, h]
    · have h2 : ¬ key = k := fun h3 => h h3.symm
      simpa [IncrementCounter, keysOf, h, h2] using ih

theorem IncrementCounter_true (d : List (K × Int)) (key : K)
    (h : (IncrementCounter d key).2 = true) :
    ∃ c r, d.Perm ((key, c) :: r) ∧ (IncrementCounter d key).1.Perm ((key, c + 1) :: r) := by
  induction d with
  | nil => simp [IncrementCounter] at h
  | cons e rest ih =>
    obtain ⟨k, c⟩ := e
    by_cases hk : k = key
    · subst hk
      exact ⟨c, rest, List.Perm.refl _, by simp [IncrementCounter]⟩
    · simp only [IncrementCounter, hk, if_false] at h ⊢
      obtain ⟨c0, r, h1, h2⟩ := ih h
      exact ⟨c0, (k, c) :: r, (h1.cons (k, c)).trans (List.Perm.swap _ _ _),
        (h2.cons (k, c)).trans (List.Perm.swap _ _ _)⟩

theorem tableOk_nil (m : Nat) : TableOk m ([] : List (K × Int)) :=
  ⟨by simp [keysOf], by simp, by simp⟩

/-- The effect of the increment case on the table. -/
theorem increment_effect (m : Nat) (d d1 : List (K × Int)) (key : K) (c : Int)
    (r : List (K × Int)) (h : TableOk m d) (hd : d.Perm ((key, c) :: r))
    (hd1 : d1.Perm ((key, c + 1) :: r)) :
    TableOk m d1 ∧ (∀ k ∈ keysOf d1, k = key ∨ k ∈ keysOf d) ∧
      counterSum d1 = counterSum d + 1 ∧
      ∀ k, storedCount d1 k = storedCount d k + if k = key then 1 else 0 := by
  have hk : (keysOf d1).Perm (keysOf d) :=
    (keysOf_perm hd1).trans (keysOf_perm hd).symm
  have nd1 : (keysOf d1).Nodup := hk.nodup_iff.2 h.nodup
  have hc : 0 ≤ c := h.nonneg (key, c) (hd.symm.subset (List.mem_cons_self _ _))
  refine ⟨⟨nd1, ?_, ?_⟩, ?_, ?_, ?_⟩
  · rw [hd1.length_eq]
    have := hd.length_eq
    have := h.size_le
    simp only [List.length_cons] at *
    omega
  · intro e he
    rcases List.mem_cons.1 (hd1.subset he) with rfl | he
    · show (0 : Int) ≤ c + 1
      omega
    · exact h.nonneg e (hd.symm.subset (List.mem_cons_of_mem _ he))
  · intro k hk1
    exact Or.inr (hk.subset hk1)
  · rw [counterSum_perm hd1, counterSum_perm hd]
    simp only [counterSum, List.map_cons, List.sum_cons]
    ring
  · intro k
    rw [storedCount_perm hd1 nd1 k, storedCount_perm hd h.nodup k, storedCount_cons,
      storedCount_cons]
    by_cases hkk : key = k
    · simp [hkk]
    · have : ¬ k = key := fun h3 => hkk h3.symm
      simp [hkk, this]

/-- The effect of the create case (room left) on the table. -/
theorem create_effect (m : Nat) (d d1 : List (K × Int)) (key : K)
    (h : TableOk m d) (hroom : d.length < m) (hkey : key ∉ keysOf d)
    (hd1 : d1.Perm ((key, 1) :: d)) :
    TableOk m d1 ∧ (∀ k ∈ keysOf d1, k = key ∨ k ∈ keysOf d) ∧
      counterSum d1 = counterSum d + 1 ∧
      ∀ k, storedCount d1 k = storedCount d k + if k = key then 1 else 0 := by
  have hk : (keysOf d1).Perm (key :: keysOf d) := keysOf_perm hd1
  have nd1 : (keysOf d1).Nodup := hk.nodup_iff.2 (List.nodup_cons.2 ⟨hkey, h.nodup⟩)
  refine ⟨⟨nd1, ?_, ?_⟩, ?_, ?_, ?_⟩
  · rw [hd1.length_eq]
    simp only [List.length_cons]
    omega
  · intro e he
    rcases List.mem_cons.1 (hd1.subset he) with rfl | he
    · show (0 : Int) ≤ 1
      omega
    · exact h.nonneg e he
  · intro k hk1
    rcases List.mem_cons.1 (hk.subset hk1) with h1 | h1
    · exact Or.inl h1
    · exact Or.inr h1
  · rw [counterSum_perm hd1]
    simp only [counterSum, List.map_cons, List.sum_cons]
    ring
  · intro k
    rw [storedCount_perm hd1 nd1 k, storedCount_cons]
    by_cases hkk : key = k
    · subst hkk
      simp [storedCount_of_not_mem d key hkey]
    · have : ¬ k = key := fun h3 => hkk h3.symm
      simp [hkk, this]

/-- The effect of the evict-zero case on the table. -/
theorem evict_effect (m : Nat) (d d1 : List (K × Int)) (key z : K)
    (r : List (K × Int)) (h : TableOk m d) (hkey : key ∉ keysOf d)
    (hd : d.Perm ((z, 0) :: r)) (hd1 : d1.Perm ((key, 1) :: r)) :
    TableOk m d1 ∧ (∀ k ∈ keysOf d1, k = key ∨ k ∈ keysOf d) ∧
      counterSum d1 = counterSum d + 1 ∧
      ∀ k, storedCount d1 k = storedCount d k + if k = key then 1 else 0 := by
  have hkd : (keysOf d).Perm (z :: keysOf r) := keysOf_perm hd
  have hk : (keysOf d1).Perm (key :: keysOf r) := keysOf_perm hd1
  have ndr : (z :: keysOf r).Nodup := hkd.nodup_iff.1 h.nodup
  have hzr : z ∉ keysOf r := (List.nodup_cons.1 ndr).1
  have hkr : key ∉ keysOf r := fun h3 => hkey (hkd.symm.subset (List.mem_cons_of_mem _ h3))
  have hkz : ¬ key = z := fun h3 => hkey (hkd.symm.subset (by rw [h3]; exact List.mem_cons_self _ _))
  have nd1 : (keysOf d1).Nodup :=
    hk.nodup_iff.2 (List.nodup_cons.2 ⟨hkr, (List.nodup_cons.1 ndr).2⟩)
  refine ⟨⟨nd1, ?_, ?_⟩, ?_, ?_, ?_⟩
  · rw [hd1.length_eq]
    have := hd.length_eq
    have := h.size_le
    simp only [List.length_cons] at *
    omega
  · intro e he
    rcases List.mem_cons.1 (hd1.subset he) with rfl | he
    · show (0 : Int) ≤ 1
      omega
    · exact h.nonneg e (hd.symm.subset (List.mem_cons_of_mem _ he))
  · intro k hk1
    rcases List.mem_cons.1 (hk.subset hk1) with h1 | h1
    · exact Or.inl h1
    · exact Or.inr (hkd.symm.subset (List.mem_cons_of_mem _ h1))
  · rw [counterSum_perm hd1, counterSum_perm hd]
    simp only [counterSum, List.map_cons, List.sum_cons]
    ring
  · intro k
    rw [storedCount_perm hd1 nd1 k, storedCount_perm hd h.nodup k, storedCount_cons,
      storedCount_cons]
    by_cases hkk : key = k
    · subst hkk
      simp [hkz, storedCount_of_not_mem r key hkr, Ne.symm hkz]
    · have h4 : ¬ k = key := fun h3 => hkk h3.symm
      by_cases hzk : z = k
      · subst hzk
        simp [hkk, h4, storedCount_of_not_mem r z hzr]
      · simp [hkk, h4, hzk]

theorem keysOf_DecreaseAllCounters (d : List (K × Int)) (key : K) :
    keysOf (DecreaseAllCounters d key) = keysOf d := by
  induction d with
  | nil => rfl
  | cons e rest ih =>
    simp only [keysOf, DecreaseAllCounters, List.map_cons] at ih ⊢
    rw [ih]
    by_cases h : e.2 > 0 <;> simp [h]

theorem counterSum_DecreaseAllCounters (d : List (K × Int)) (key : K)
    (hpos : ∀ e ∈ d, 1 ≤ e.2) :
    counterSum (DecreaseAllCounters d key) = counterSum d - d.length := by
  induction d with
  | nil => rfl
  | cons e rest ih =>
    have h1 : e.2 > 0 := by
      have := hpos e (List.mem_cons_self _ _)
      omega
    have ih1 := ih (fun e1 he1 => hpos e1 (List.mem_cons_of_mem _ he1))
    simp only [counterSum, DecreaseAllCounters, List.map_cons, List.sum_cons,
      List.length_cons, h1, if_true] at ih1 ⊢
    rw [ih1]
    push_cast
    ring

theorem storedCount_DecreaseAllCounters (d : List (K × Int)) (key : K)
    (hpos : ∀ e ∈ d, 1 ≤ e.2) (k : K) :
    storedCount (DecreaseAllCounters d key) k
      = storedCount d k - if k ∈ keysOf d then 1 else 0 := by
  induction d with
  | nil => simp [DecreaseAllCounters, storedCount, mapFind, keysOf]
  | cons e rest ih =>
    obtain ⟨k0, c0⟩ := e
    have h1 : c0 > 0 := by
      have := hpos (k0, c0) (List.mem_cons_self _ _)
      simp only at this
      omega
    have ih1 := ih (fun e1 he1 => hpos e1 (List.mem_cons_of_mem _ he1))
    have hstep : DecreaseAllCounters ((k0, c0) :: rest) key
        = (k0, c0 - 1) :: DecreaseAllCounters rest key := by
      simp [DecreaseAllCounters, h1]
    rw [hstep, storedCount_cons, storedCount_cons]
    by_cases hk : k0 = k
    · simp [hk, keysOf]
    · have hk2 : ¬ k = k0 := fun h3 => hk h3.symm
      have hmem : k ∈ keysOf ((k0, c0) :: rest) ↔ k ∈ keysOf rest := by
        simp [keysOf, hk2]
      rw [if_neg hk, if_neg hk, ih1]
      by_cases hm : k ∈ keysOf rest
      · rw [if_pos hm, if_pos (hmem.2 hm)]
      · rw [if_neg hm, if_neg (fun h3 => hm (hmem.1 h3))]

theorem tableOk_DecreaseAllCounters (m : Nat) (d : List (K × Int)) (key : K)
    (h : TableOk m d) : TableOk m (DecreaseAllCounters d key) := by
  refine ⟨?_, ?_, ?_⟩
  · rw [keysOf_DecreaseAllCounters]
    exact h.nodup
  · simpa [DecreaseAllCounters] using h.size_le
  · intro e he
    simp only [DecreaseAllCounters, List.mem_map] at he
    obtain ⟨e0, he0, rfl⟩ := he
    have := h.nonneg e0 he0
    by_cases h1 : e0.2 > 0
    · simp only [h1, if_true]
      omega
    · simpa [h1] using this

/-- The effect of one `AddKeyToBucket` on a well-formed table: either the
observed key's counter grows by one (increment, create and evict-zero cases)
or the table was full of positive counters and all of them are decremented. -/
theorem AddKeyToBucket_effect (m : Nat) (b : BucketInfo K) (key : K)
    (h : TableOk m b.bucket_data) :
    TableOk m (AddKeyToBucket m b key).bucket_data ∧
      (∀ k ∈ keysOf (AddKeyToBucket m b key).bucket_data, k = key ∨ k ∈ keysOf b.bucket_data) ∧
      ((counterSum (AddKeyToBucket m b key).bucket_data = counterSum b.bucket_data + 1 ∧
          ∀ k, storedCount (AddKeyToBucket m b key).bucket_data k
            = storedCount b.bucket_data k + if k = key then 1 else 0) ∨
        (key ∉ keysOf b.bucket_data ∧ b.bucket_data.length = m ∧
          (∀ e ∈ b.bucket_data, 1 ≤ e.2) ∧
          (AddKeyToBucket m b key).bucket_data = DecreaseAllCounters b.bucket_data key)) := by
  unfold AddKeyToBucket
  by_cases hinc : (IncrementCounter b.bucket_data key).2 = true
  · obtain ⟨c, r, hd, hd1⟩ := IncrementCounter_true b.bucket_data key hinc
    obtain ⟨h1, h2, h3, h4⟩ := increment_effect m _ _ key c r h hd hd1
    simp only [hinc, if_true]
    exact ⟨h1, h2, Or.inl ⟨h3, h4⟩⟩
  · have hkey : key ∉ keysOf b.bucket_data :=
      (IncrementCounter_false b.bucket_data key).1 (by simpa using hinc)
    simp only [hinc]
    unfold CreateNewCounter
    by_cases hroom : b.bucket_data.length < m
    · obtain ⟨h1, h2, h3, h4⟩ := create_effect m _ _ key h hroom hkey
        (mapEmplace_perm b.bucket_data key 1 hkey)
      simp only [hroom, if_true]
      exact ⟨h1, h2, Or.inl ⟨h3, h4⟩⟩
    · simp only [hroom, if_false]
      cases hz : eraseFirstZero b.bucket_data with
      | some erased =>
        obtain ⟨z, hd⟩ := eraseFirstZero_some _ _ hz
        have hke : key ∉ keysOf erased := fun h3 =>
          hkey ((keysOf_perm hd).symm.subset (List.mem_cons_of_mem _ h3))
        obtain ⟨h1, h2, h3, h4⟩ := evict_effect m _ _ key z erased h hkey hd
          (mapAssign_perm erased key 1 hke)
        simp only [if_true]
        exact ⟨h1, h2, Or.inl ⟨h3, h4⟩⟩
      | none =>
        have hnz := eraseFirstZero_none _ hz
        simp only [Bool.false_eq_true, if_false]
        refine ⟨tableOk_DecreaseAllCounters m _ key h, ?_, Or.inr ⟨hkey, ?_, ?_, True.intro⟩⟩
        · intro k hk
          rw [keysOf_DecreaseAllCounters] at hk
          exact Or.inr hk
        · have := h.size_le
          omega
        · intro e he
          have h1 := h.nonneg e he
          have h2 := hnz e he
          omega

theorem MGInv.congr {m : Nat} {d : List (K × Int)} {f g : K → Int} {N N1 : Int}
    (h : MGInv m d f N) (hf : ∀ k, f k = g k) (hN : N = N1) : MGInv m d g N1 := by
  have : f = g := funext hf
  subst this
  subst hN
  exact h

theorem storedCount_nonneg (d : List (K × Int)) (hnn : ∀ e ∈ d, 0 ≤ e.2) (k : K) :
    0 ≤ storedCount d k := by
  induction d with
  | nil => simp [storedCount, mapFind]
  | cons e rest ih =>
    obtain ⟨k0, c0⟩ := e
    rw [storedCount_cons]
    split
    · exact hnn (k0, c0) (List.mem_cons_self _ _)
    · exact ih (fun e1 he1 => hnn e1 (List.mem_cons_of_mem _ he1))

theorem MGInv_step (m : Nat) (b : BucketInfo K) (key : K) (f : K → Int) (N : Int)
    (h : MGInv m b.bucket_data f N) :
    MGInv m (AddKeyToBucket m b key).bucket_data
      (fun k => f k + if k = key then 1 else 0) (N + 1) := by
  obtain ⟨hok, hkeys, hcase⟩ := AddKeyToBucket_effect m b key h.ok
  rcases hcase with ⟨hsum, hst⟩ | ⟨hkey, hlen, hpos, hdec⟩
  · refine ⟨hok, ?_, ?_, ?_⟩
    · intro k
      rw [hst k]
      have := h.upper k
      omega
    · intro k
      rw [hst k, hsum]
      have := h.mass k
      have e : f k + (if k = key then 1 else 0)
          - (storedCount b.bucket_data k + if k = key then 1 else 0)
          = f k - storedCount b.bucket_data k := by ring
      rw [e]
      omega
    · intro k hk
      rcases hkeys k hk with h1 | h1
      · have h2 := h.upper k
        have h0 := storedCount_nonneg b.bucket_data h.ok.nonneg k
        rw [if_pos h1]
        omega
      · have := h.seen k h1
        split <;> omega
  · rw [hdec]
    refine ⟨tableOk_DecreaseAllCounters m _ key h.ok, ?_, ?_, ?_⟩
    · intro k
      rw [storedCount_DecreaseAllCounters _ _ hpos]
      have := h.upper k
      split <;> split <;> omega
    · intro k
      rw [storedCount_DecreaseAllCounters _ _ hpos, counterSum_DecreaseAllCounters _ _ hpos, hlen]
      have h1 := h.mass k
      by_cases hk : k = key
      · subst hk
        simp only [hkey, if_false, if_true]
        have e : ((m : Int) + 1) * (f k + 1 - (storedCount b.bucket_data k - 0))
            = ((m : Int) + 1) * (f k - storedCount b.bucket_data k) + (m + 1) := by ring
        rw [e]
        omega
      · simp only [hk, if_false]
        by_cases hm : k ∈ keysOf b.bucket_data
        · simp only [hm, if_true]
          have e : ((m : Int) + 1) * (f k + 0 - (storedCount b.bucket_data k - 1))
              = ((m : Int) + 1) * (f k - storedCount b.bucket_data k) + (m + 1) := by ring
          rw [e]
          omega
        · simp only [hm, if_false]
          have e : ((m : Int) + 1) * (f k + 0 - (storedCount b.bucket_data k - 0))
              = ((m : Int) + 1) * (f k - storedCount b.bucket_data k) := by ring
          rw [e]
          omega
    · intro k hk
      rw [keysOf_DecreaseAllCounters] at hk
      have := h.seen k hk
      split <;> omega

theorem deliver_bucket_data (m : Nat) (b : BucketInfo K) (key : K) :
    (deliver m b key).bucket_data = (AddKeyToBucket m b key).bucket_data := by
  unfold deliver AddKeyToBucket
  simp only
  split
  · rfl
  · split <;> rfl

theorem deliver_add_new_key_count (m : Nat) (b : BucketInfo K) (key : K) :
    (deliver m b key).add_new_key_count = b.add_new_key_count + 1 := by
  unfold deliver AddKeyToBucket
  simp only
  split
  · rfl
  · split <;> rfl

theorem deliver_created_at (m : Nat) (b : BucketInfo K) (key : K) :
    (deliver m b key).created_at = b.created_at := by
  unfold deliver AddKeyToBucket
  simp only
  split
  · rfl
  · split <;> rfl

theorem deliverAll_add_new_key_count (m : Nat) (keys : List K) (b : BucketInfo K) :
    (deliverAll m b keys).add_new_key_count = b.add_new_key_count + keys.length := by
  induction keys generalizing b with
  | nil => simp [deliverAll]
  | cons key rest ih =>
    have := ih (deliver m b key)
    simp only [deliverAll, List.foldl_cons, List.length_cons] at this ⊢
    rw [this, deliver_add_new_key_count]
    push_cast
    ring

theorem deliverAll_MGInv (m : Nat) (keys : List K) (b : BucketInfo K) (f : K → Int) (N : Int)
    (h : MGInv m b.bucket_data f N) :
    MGInv m (deliverAll m b keys).bucket_data (fun k => f k + trueCount keys k)
      (N + keys.length) := by
  induction keys generalizing b f N with
  | nil => exact h.congr (by simp [trueCount]) (by simp)
  | cons key rest ih =>
    have h1 := MGInv_step m b key f N h
    rw [← deliver_bucket_data] at h1
    have h2 := ih (deliver m b key) _ _ h1
    simp only [deliverAll, List.foldl_cons] at h2 ⊢
    refine h2.congr ?_ ?_
    · intro k
      simp only [trueCount, List.count_cons]
      by_cases hk : k = key
      · subst hk
        simp
        ring
      · have : ¬ key = k := fun h3 => hk h3.symm
        simp [hk, this]
    · simp only [List.length_cons]
      push_cast
      ring

theorem MGInv_nil (m : Nat) : MGInv m ([] : List (K × Int)) (fun _ => 0) 0 :=
  ⟨tableOk_nil m, by simp [storedCount, mapFind], by simp [storedCount, mapFind, counterSum],
    by simp [keysOf]⟩

/-- The Misra-Gries invariant after delivering `keys` to a fresh bucket. -/
theorem fresh_MGInv (m : Nat) (t : ℚ) (keys : List K) :
    MGInv m (deliverAll m (BucketInfo.new t) keys).bucket_data (trueCount keys)
      (keys.length : Int) := by
  have h := deliverAll_MGInv m keys (BucketInfo.new t) (fun _ => 0) 0 (MGInv_nil m)
  exact h.congr (by simp) (by simp)

theorem counterSum_nonneg (d : List (K × Int)) (hnn : ∀ e ∈ d, 0 ≤ e.2) :
    0 ≤ counterSum d := by
  induction d with
  | nil => simp [counterSum]
  | cons e rest ih =>
    have h1 := hnn e (List.mem_cons_self _ _)
    have h2 := ih (fun e1 he1 => hnn e1 (List.mem_cons_of_mem _ he1))
    simp only [counterSum, List.map_cons, List.sum_cons] at h2 ⊢
    omega

theorem storedCount_le_counterSum (d : List (K × Int)) (hnn : ∀ e ∈ d, 0 ≤ e.2) (k : K) :
    storedCount d k ≤ counterSum d := by
  induction d with
  | nil => simp [storedCount, mapFind, counterSum]
  | cons e rest ih =>
    obtain ⟨k0, c0⟩ := e
    have h1 := hnn (k0, c0) (List.mem_cons_self _ _)
    have hr : ∀ e1 ∈ rest, 0 ≤ e1.2 := fun e1 he1 => hnn e1 (List.mem_cons_of_mem _ he1)
    have h2 := ih hr
    have h3 := counterSum_nonneg rest hr
    rw [storedCount_cons]
    simp only [counterSum, List.map_cons, List.sum_cons] at h2 h3 ⊢
    simp only at h1
    split <;> omega

theorem mapFind_eq_some_iff (d : List (K × Int)) (nd : (keysOf d).Nodup) (k : K) (c : Int) :
    mapFind d k = some c ↔ (k, c) ∈ d := by
  induction d with
  | nil => simp [mapFind]
  | cons e rest ih =>
    obtain ⟨k0, c0⟩ := e
    simp only [keysOf, List.map_cons, List.nodup_cons] at nd
    by_cases hk : k0 = k
    · subst hk
      simp only [mapFind, if_true, Option.some.injEq, List.mem_cons, Prod.mk.injEq, true_and]
      constructor
      · intro h
        exact Or.inl h.symm
      · rintro (h | h)
        · exact h.symm
        · exact absurd (List.mem_map_of_mem Prod.fst h) nd.1
    · have hk2 : ¬ k = k0 := fun h3 => hk h3.symm
      simp only [mapFind, hk, if_false, List.mem_cons, Prod.mk.injEq, hk2, false_and, false_or]
      exact ih nd.2

/-- In a list sorted by count, largest first, the prefix scan of the
threshold mode keeps every entry whose count reaches the bound. -/
theorem mem_takeWhile_of_sorted (bound : Int) (v : List (Int × K))
    (hs : v.Sorted (fun left right => left.1 ≥ right.1)) (e : Int × K) (he : e ∈ v)
    (hb : bound ≤ e.1) : e ∈ v.takeWhile (fun x => decide (x.1 ≥ bound)) := by
  induction v with
  | nil => simp at he
  | cons a rest ih =>
    have hsort := List.sorted_cons.1 hs
    have ha : bound ≤ a.1 := by
      rcases List.mem_cons.1 he with rfl | h1
      · exact hb
      · have := hsort.1 e h1
        omega
    rw [List.takeWhile_cons_of_pos (by simpa using ha)]
    rcases List.mem_cons.1 he with rfl | h1
    · exact List.mem_cons_self _ _
    · exact List.mem_cons_of_mem _ (ih hsort.2 h1)

theorem mem_GetBucketSortedByFrequencyKeys (d : List (K × Int)) (c : Int) (k : K) :
    (c, k) ∈ GetBucketSortedByFrequencyKeys d ↔ (k, c) ∈ d := by
  unfold GetBucketSortedByFrequencyKeys
  rw [(List.perm_insertionSort _ _).mem_iff]
  simp only [List.mem_map, Prod.mk.injEq]
  constructor
  · rintro ⟨⟨k1, c1⟩, h1, h2, h3⟩
    simp only at h2 h3
    rw [← h2, ← h3]
    exact h1
  · intro h
    exact ⟨(k, c), h, rfl, rfl⟩

theorem sorted_GetBucketSortedByFrequencyKeys (d : List (K × Int)) :
    (GetBucketSortedByFrequencyKeys d).Sorted (fun left right => left.1 ≥ right.1) := by
  unfold GetBucketSortedByFrequencyKeys
  haveI : IsTotal (Int × K) (fun left right => left.1 ≥ right.1) :=
    ⟨fun a b => le_total b.1 a.1⟩
  haveI : IsTrans (Int × K) (fun left right => left.1 ≥ right.1) :=
    ⟨fun a b c h1 h2 => le_trans h2 h1⟩
  exact List.sorted_insertionSort _ _

/-- The threshold-mode answer of a bucket holds exactly the keys whose stored
counter reaches `min_num`. -/
theorem mem_thresholdAnswer_iff (share : ℚ) (m : Nat) (b : BucketInfo K) (k : K) :
    k ∈ thresholdAnswer share m b ↔
      ∃ c, (k, c) ∈ b.bucket_data ∧ min_num share m b.add_new_key_count ≤ c := by
  unfold thresholdAnswer WeedOutExtraKeysAndInfo
  simp only [if_true, List.mem_map]
  constructor
  · rintro ⟨⟨c, k1⟩, h1, h2⟩
    simp only at h2
    subst h2
    have hp := List.mem_takeWhile_imp h1
    have hm := (List.takeWhile_sublist _).subset h1
    exact ⟨c, (mem_GetBucketSortedByFrequencyKeys _ c k1).1 hm, by simpa using hp⟩
  · rintro ⟨c, h1, h2⟩
    exact ⟨(c, k), mem_takeWhile_of_sorted _ _ (sorted_GetBucketSortedByFrequencyKeys _) (c, k)
      ((mem_GetBucketSortedByFrequencyKeys _ c k).2 h1) h2, rfl⟩

theorem storedCount_eq_of_mapFind (d : List (K × Int)) (k : K) (c : Int)
    (h : mapFind d k = some c) : storedCount d k = c := by
  simp [storedCount, h]

theorem mapFind_of_storedCount_pos (d : List (K × Int)) (k : K) (h : 0 < storedCount d k) :
    mapFind d k = some (storedCount d k) := by
  unfold storedCount at h ⊢
  cases hf : mapFind d k with
  | none => simp [hf] at h
  | some c => simp

theorem mem_thresholdAnswer_of_storedCount (share : ℚ) (m : Nat) (b : BucketInfo K) (k : K)
    (nd : (keysOf b.bucket_data).Nodup) (hpos : 0 < storedCount b.bucket_data k)
    (hmin : min_num share m b.add_new_key_count ≤ storedCount b.bucket_data k) :
    k ∈ thresholdAnswer share m b :=
  (mem_thresholdAnswer_iff share m b k).2
    ⟨storedCount b.bucket_data k,
      (mapFind_eq_some_iff _ nd k _).1 (mapFind_of_storedCount_pos _ k hpos), hmin⟩

theorem fresh_add_new_key_count (m : Nat) (t : ℚ) (keys : List K) :
    (deliverAll m (BucketInfo.new t) keys).add_new_key_count = (keys.length : Int) := by
  rw [deliverAll_add_new_key_count]
  simp [BucketInfo.new]

/-- The Misra-Gries deficit bound in the rationals: `f - ĉ ≤ N / (m + 1)`. -/
theorem fresh_deficit_le (m : Nat) (t : ℚ) (keys : List K) (k : K) :
    ((trueCount keys k : Int) : ℚ)
        - ((storedCount (deliverAll m (BucketInfo.new t) keys).bucket_data k : Int) : ℚ)
      ≤ (keys.length : ℚ) / ((m : ℚ) + 1) := by
  have inv := fresh_MGInv m t keys
  have h1 := inv.mass k
  have h2 := counterSum_nonneg _ inv.ok.nonneg
  have h3 : ((m : Int) + 1) * (trueCount keys k
      - storedCount (deliverAll m (BucketInfo.new t) keys).bucket_data k)
      ≤ (keys.length : Int) := by omega
  have h4 : ((m : ℚ) + 1) * (((trueCount keys k : Int) : ℚ)
      - ((storedCount (deliverAll m (BucketInfo.new t) keys).bucket_data k : Int) : ℚ))
      ≤ (keys.length : ℚ) := by exact_mod_cast h3
  have hM : (0 : ℚ) < (m : ℚ) + 1 := by positivity
  rw [le_div_iff₀ hM]
  linarith

/-- C1. Heavy-hitter soundness with slack: for `0 < θ ≤ 1`, `m ≥ 1` and
`N ≥ 1` observations delivered to a fresh bucket, a key whose true count is at
least `(θ + 2/(m+1))·N` is in the threshold-mode answer computed from that
bucket. -/
theorem C1_heavy_hitter_soundness (share : ℚ) (m : Nat) (t : ℚ) (keys : List K) (k : K)
    (h0 : 0 < share) (h1 : share ≤ 1) (hm : 1 ≤ m) (hN : 1 ≤ keys.length)
    (hf : (share + 2 / ((m : ℚ) + 1)) * (keys.length : ℚ) ≤ ((trueCount keys k : Int) : ℚ)) :
    k ∈ thresholdAnswer share m (deliverAll m (BucketInfo.new t) keys) := by
  have inv := fresh_MGInv m t keys
  have hdef := fresh_deficit_le m t keys k
  have hNq : (1 : ℚ) ≤ (keys.length : ℚ) := by exact_mod_cast hN
  have hM : (0 : ℚ) < (m : ℚ) + 1 := by positivity
  have hq : 0 < (keys.length : ℚ) / ((m : ℚ) + 1) := div_pos (by linarith) hM
  have e : (share + 2 / ((m : ℚ) + 1)) * (keys.length : ℚ)
      = share * (keys.length : ℚ) + 2 * ((keys.length : ℚ) / ((m : ℚ) + 1)) := by ring
  rw [e] at hf
  have hθN : 0 ≤ share * (keys.length : ℚ) := by positivity
  have hc : share * (keys.length : ℚ)
      ≤ ((storedCount (deliverAll m (BucketInfo.new t) keys).bucket_data k : Int) : ℚ) := by
    linarith
  refine mem_thresholdAnswer_of_storedCount share m _ k inv.ok.nodup ?_ ?_
  · have : (0 : ℚ)
        < ((storedCount (deliverAll m (BucketInfo.new t) keys).bucket_data k : Int) : ℚ) := by
      linarith
    exact_mod_cast this
  · rw [fresh_add_new_key_count]
    unfold min_num
    have hfl : ⌊((keys.length : Int) : ℚ) * share⌋
        ≤ storedCount (deliverAll m (BucketInfo.new t) keys).bucket_data k := by
      have h5 := Int.floor_le (((keys.length : Int) : ℚ) * share)
      have h6 : ((keys.length : Int) : ℚ) = (keys.length : ℚ) := by push_cast; rfl
      rw [h6] at h5 ⊢
      have : ((⌊(keys.length : ℚ) * share⌋ : Int) : ℚ)
          ≤ ((storedCount (deliverAll m (BucketInfo.new t) keys).bucket_data k : Int) : ℚ) := by
        linarith
      exact_mod_cast this
    have hce : 0 ≤ ⌈((keys.length : Int) : ℚ) * (1 - share) / (m : ℚ)⌉ := by
      apply Int.ceil_nonneg
      have h7 : (0 : ℚ) ≤ ((keys.length : Int) : ℚ) := by positivity
      have h8 : (0 : ℚ) ≤ 1 - share := by linarith
      positivity
    omega

/-- C2. No-slack soundness: for `m ≥ 1` and `θ·(m+1) > 1` (in particular
`θ = 1/10`, `m = 54`) and `N ≥ 1` observations delivered to a fresh bucket,
every key with true count `f ≥ θ·N` has a stored counter strictly above
`τ(N) = ⌊N·θ⌋ − ⌈N·(1−θ)/m⌉ − 2` and is in the threshold-mode answer. -/
theorem C2_no_slack_soundness (share : ℚ) (m : Nat) (t : ℚ) (keys : List K) (k : K)
    (hm : 1 ≤ m) (hθm : 1 < share * ((m : ℚ) + 1)) (hN : 1 ≤ keys.length)
    (hf : share * (keys.length : ℚ) ≤ ((trueCount keys k : Int) : ℚ)) :
    min_num share m (deliverAll m (BucketInfo.new t) keys).add_new_key_count
        < storedCount (deliverAll m (BucketInfo.new t) keys).bucket_data k ∧
      mapFind (deliverAll m (BucketInfo.new t) keys).bucket_data k
        = some (storedCount (deliverAll m (BucketInfo.new t) keys).bucket_data k) ∧
      k ∈ thresholdAnswer share m (deliverAll m (BucketInfo.new t) keys) := by
  have inv := fresh_MGInv m t keys
  have hmass := inv.mass k
  have hsum := storedCount_le_counterSum _ inv.ok.nonneg k
  have hNq : (1 : ℚ) ≤ (keys.length : ℚ) := by exact_mod_cast hN
  have hmq : (1 : ℚ) ≤ (m : ℚ) := by exact_mod_cast hm
  -- `m·ĉ ≥ (m+1)·f − N`
  have h3 : ((m : Int) + 1) * trueCount keys k - (keys.length : Int)
      ≤ (m : Int) * storedCount (deliverAll m (BucketInfo.new t) keys).bucket_data k := by
    have e : ((m : Int) + 1) * (trueCount keys k
        - storedCount (deliverAll m (BucketInfo.new t) keys).bucket_data k)
        = ((m : Int) + 1) * trueCount keys k
          - (m : Int) * storedCount (deliverAll m (BucketInfo.new t) keys).bucket_data k
          - storedCount (deliverAll m (BucketInfo.new t) keys).bucket_data k := by ring
    rw [e] at hmass
    omega
  have h4 : ((m : ℚ) + 1) * ((trueCount keys k : Int) : ℚ) - (keys.length : ℚ)
      ≤ (m : ℚ)
        * ((storedCount (deliverAll m (BucketInfo.new t) keys).bucket_data k : Int) : ℚ) := by
    exact_mod_cast h3
  have hshare_pos : 0 < share := by
    by_contra hneg
    have : share * ((m : ℚ) + 1) ≤ 0 :=
      mul_nonpos_of_nonpos_of_nonneg (not_lt.1 hneg) (by positivity)
    linarith
  -- the counter is positive, so the key is in the table
  have hpos : 0 < storedCount (deliverAll m (BucketInfo.new t) keys).bucket_data k := by
    have h5 : (keys.length : ℚ) < ((m : ℚ) + 1) * ((trueCount keys k : Int) : ℚ) := by
      have h6 : (keys.length : ℚ) * 1 < (keys.length : ℚ) * (share * ((m : ℚ) + 1)) :=
        mul_lt_mul_of_pos_left hθm (by linarith)
      have h7 : ((m : ℚ) + 1) * (share * (keys.length : ℚ))
          ≤ ((m : ℚ) + 1) * ((trueCount keys k : Int) : ℚ) :=
        mul_le_mul_of_nonneg_left hf (by positivity)
      nlinarith
    have h8 : (0 : ℚ) < (m : ℚ)
        * ((storedCount (deliverAll m (BucketInfo.new t) keys).bucket_data k : Int) : ℚ) := by
      linarith
    have h9 : (0 : ℚ)
        < ((storedCount (deliverAll m (BucketInfo.new t) keys).bucket_data k : Int) : ℚ) := by
      by_contra hneg
      have : (m : ℚ)
          * ((storedCount (deliverAll m (BucketInfo.new t) keys).bucket_data k : Int) : ℚ)
          ≤ 0 := mul_nonpos_of_nonneg_of_nonpos (by positivity) (not_lt.1 hneg)
      linarith
    exact_mod_cast h9
  -- the counter is at least `⌊N·θ⌋ − ⌈N·(1−θ)/m⌉`
  have hbound : min_num share m (deliverAll m (BucketInfo.new t) keys).add_new_key_count
      < storedCount (deliverAll m (BucketInfo.new t) keys).bucket_data k := by
    rw [fresh_add_new_key_count]
    unfold min_num
    have h6 : ((keys.length : Int) : ℚ) = (keys.length : ℚ) := by push_cast; rfl
    rw [h6]
    have hfl := Int.floor_le ((keys.length : ℚ) * share)
    have hce := Int.le_ceil ((keys.length : ℚ) * (1 - share) / (m : ℚ))
    have hmpos : (0 : ℚ) < (m : ℚ) := by linarith
    have hdiv : (keys.length : ℚ) * (1 - share) / (m : ℚ) * (m : ℚ)
        = (keys.length : ℚ) * (1 - share) := div_mul_cancel₀ _ (ne_of_gt hmpos)
    have hkey : (m : ℚ) * (((⌊(keys.length : ℚ) * share⌋ : Int) : ℚ)
        - ((⌈(keys.length : ℚ) * (1 - share) / (m : ℚ)⌉ : Int) : ℚ))
        ≤ (m : ℚ)
          * ((storedCount (deliverAll m (BucketInfo.new t) keys).bucket_data k : Int) : ℚ) := by
      have h10 : (m : ℚ) * ((⌊(keys.length : ℚ) * share⌋ : Int) : ℚ)
          ≤ (m : ℚ) * ((keys.length : ℚ) * share) :=
        mul_le_mul_of_nonneg_left hfl (by positivity)
      have h11 : (m : ℚ) * ((keys.length : ℚ) * (1 - share) / (m : ℚ))
          ≤ (m : ℚ) * ((⌈(keys.length : ℚ) * (1 - share) / (m : ℚ)⌉ : Int) : ℚ) :=
        mul_le_mul_of_nonneg_left hce (by positivity)
      have h12 : (m : ℚ) * (share * (keys.length : ℚ))
          ≤ (m : ℚ) * ((trueCount keys k : Int) : ℚ) :=
        mul_le_mul_of_nonneg_left hf (by positivity)
      nlinarith
    have hle : ((⌊(keys.length : ℚ) * share⌋ : Int) : ℚ)
        - ((⌈(keys.length : ℚ) * (1 - share) / (m : ℚ)⌉ : Int) : ℚ)
        ≤ ((storedCount (deliverAll m (BucketInfo.new t) keys).bucket_data k : Int) : ℚ) :=
      le_of_mul_le_mul_left hkey hmpos
    have hle2 : ⌊(keys.length : ℚ) * share⌋ - ⌈(keys.length : ℚ) * (1 - share) / (m : ℚ)⌉
        ≤ storedCount (deliverAll m (BucketInfo.new t) keys).bucket_data k := by
      exact_mod_cast hle
    omega
  exact ⟨hbound, mapFind_of_storedCount_pos _ k hpos,
    mem_thresholdAnswer_of_storedCount share m _ k inv.ok.nodup hpos (le_of_lt hbound)⟩

/-- C4. Misra-Gries lower bound: after `N` observations delivered to a fresh
bucket of capacity `m` (so that `add_new_key_count = N`), every key `k` has
`f(k) − N/(m+1) ≤ ĉ(k)`, the stored count taken as `0` for a key without a
counter. -/
theorem C4_misra_gries_lower_bound (m : Nat) (t : ℚ) (keys : List K) (k : K) :
    (deliverAll m (BucketInfo.new t) keys).add_new_key_count = (keys.length : Int) ∧
      ((trueCount keys k : Int) : ℚ) - (keys.length : ℚ) / ((m : ℚ) + 1)
        ≤ ((storedCount (deliverAll m (BucketInfo.new t) keys).bucket_data k : Int) : ℚ) := by
  refine ⟨fresh_add_new_key_count m t keys, ?_⟩
  have := fresh_deficit_le m t keys k
  linarith

/-- C5. Misra-Gries upper bound: after any sequence of observations delivered
to a fresh bucket, a key that has a counter has a stored count no larger than
its true count. -/
theorem C5_misra_gries_upper_bound (m : Nat) (t : ℚ) (keys : List K) (k : K) (c : Int)
    (h : mapFind (deliverAll m (BucketInfo.new t) keys).bucket_data k = some c) :
    c ≤ trueCount keys k := by
  have := (fresh_MGInv m t keys).upper k
  rw [storedCount_eq_of_mapFind _ k c h] at this
  exact this

/-- C6. Representation guarantee: after `N` observations delivered to a fresh
bucket of capacity `m`, every key whose true count is strictly greater than
`N/(m+1)` has a counter, and that counter is strictly positive. -/
theorem C6_representation (m : Nat) (t : ℚ) (keys : List K) (k : K)
    (h : (keys.length : ℚ) / ((m : ℚ) + 1) < ((trueCount keys k : Int) : ℚ)) :
    ∃ c, mapFind (deliverAll m (BucketInfo.new t) keys).bucket_data k = some c ∧ 0 < c := by
  have hdef := fresh_deficit_le m t keys k
  have hpos : 0 < storedCount (deliverAll m (BucketInfo.new t) keys).bucket_data k := by
    have : (0 : ℚ)
        < ((storedCount (deliverAll m (BucketInfo.new t) keys).bucket_data k : Int) : ℚ) := by
      linarith
    exact_mod_cast this
  exact ⟨_, mapFind_of_storedCount_pos _ k hpos, hpos⟩

/-- C7. Bucket capacity invariant: starting from an empty bucket, after any
sequence of observations the table holds at most `bucket_size` entries, their
keys are pairwise distinct, and every stored count is non-negative. -/
theorem C7_bucket_capacity (m : Nat) (t : ℚ) (keys : List K) :
    (deliverAll m (BucketInfo.new t) keys).bucket_data.length ≤ m ∧
      (keysOf (deliverAll m (BucketInfo.new t) keys).bucket_data).Nodup ∧
      ∀ e ∈ (deliverAll m (BucketInfo.new t) keys).bucket_data, 0 ≤ e.2 :=
  ⟨(fresh_MGInv m t keys).ok.size_le, (fresh_MGInv m t keys).ok.nodup,
    (fresh_MGInv m t keys).ok.nonneg⟩

/-- Witness for C5: capacity 1 and the observations `1, 2, 3, 2, 1`; the counter of
key `1` is evicted at zero and created again, and ends at `1 ≤ 2`. -/
theorem C5_witness :
    mapFind (deliverAll 1 (BucketInfo.new 0) [1, 2, 3, 2, 1] : BucketInfo Nat).bucket_data 1
        = some 1 ∧ (1 : Int) ≤ trueCount [1, 2, 3, 2, 1] 1 :=
  ⟨by decide, C5_misra_gries_upper_bound 1 0 [1, 2, 3, 2, 1] 1 1 (by decide)⟩

/-- Witness for C6: capacity 1 and the observations `1, 1, 2`; key `1` has true
count `2 > 3/2` and keeps a positive counter. -/
theorem C6_witness :
    (([1, 1, 2] : List Nat).length : ℚ) / (((1 : Nat) : ℚ) + 1)
        < ((trueCount ([1, 1, 2] : List Nat) 1 : Int) : ℚ) ∧
      ∃ c, mapFind (deliverAll 1 (BucketInfo.new 0) ([1, 1, 2] : List Nat)).bucket_data 1
        = some c ∧ 0 < c :=
  ⟨by norm_num [trueCount], C6_representation 1 0 [1, 1, 2] 1 (by norm_num [trueCount])⟩

/-- Witness for C1: `θ = 1/2`, `m = 54` and the observations `1, 1, 1, 2`. -/
theorem C1_witness :
    ((1 / 2 : ℚ) + 2 / (((54 : Nat) : ℚ) + 1)) * (([1, 1, 1, 2] : List Nat).length : ℚ)
        ≤ ((trueCount ([1, 1, 1, 2] : List Nat) 1 : Int) : ℚ) ∧
      1 ∈ thresholdAnswer (1 / 2) 54 (deliverAll 54 (BucketInfo.new 0) ([1, 1, 1, 2] : List Nat)) :=
  ⟨by norm_num [trueCount],
    C1_heavy_hitter_soundness (1 / 2) 54 0 [1, 1, 1, 2] 1 (by norm_num) (by norm_num)
      (by norm_num) (by simp) (by norm_num [trueCount])⟩

/-- Witness for C2: `θ = 1/10`, `m = 54` and the observations `1, 2, 3`. -/
theorem C2_witness :
    (1 / 10 : ℚ) * (([1, 2, 3] : List Nat).length : ℚ)
        ≤ ((trueCount ([1, 2, 3] : List Nat) 1 : Int) : ℚ) ∧
      1 ∈ thresholdAnswer (1 / 10) 54 (deliverAll 54 (BucketInfo.new 0) ([1, 2, 3] : List Nat)) :=
  ⟨by norm_num [trueCount],
    (C2_no_slack_soundness (1 / 10) 54 0 [1, 2, 3] 1 (by norm_num) (by norm_num)
      (by simp) (by norm_num [trueCount])).2.2⟩

/-- Every key of the threshold-mode answer has a counter reaching `min_num`,
so a key whose true count is below `min_num` is not in the answer. -/
theorem not_mem_thresholdAnswer_of_trueCount_lt (share : ℚ) (m : Nat) (t : ℚ) (keys : List K)
    (k : K) (h : trueCount keys k < min_num share m (keys.length : Int)) :
    k ∉ thresholdAnswer share m (deliverAll m (BucketInfo.new t) keys) := by
  intro hmem
  obtain ⟨c, hc, hmin⟩ := (mem_thresholdAnswer_iff share m _ k).1 hmem
  have inv := fresh_MGInv m t keys
  have h1 := (mapFind_eq_some_iff _ inv.ok.nodup k c).2 hc
  have h2 := inv.upper k
  rw [storedCount_eq_of_mapFind _ k c h1] at h2
  rw [fresh_add_new_key_count] at hmin
  omega

/-- C3, as stated, fails: with `θ = 1/2`, `m = 54` and the three observations
`1, 2, 3`, key `1` has true count `1 < (θ − 2/(m+1))·3`, yet `τ(3) = −2` and the
threshold-mode answer is `[1, 2, 3]`. -/
theorem C3_counterexample :
    (0 : ℚ) < 1 / 2 ∧ (1 / 2 : ℚ) ≤ 1 ∧ 1 ≤ 54 ∧ 1 ≤ ([1, 2, 3] : List Nat).length ∧
      ((trueCount ([1, 2, 3] : List Nat) 1 : Int) : ℚ)
        < ((1 / 2 : ℚ) - 2 / (((54 : Nat) : ℚ) + 1)) * (([1, 2, 3] : List Nat).length : ℚ) ∧
      min_num (1 / 2) 54 3 = -2 ∧
      thresholdAnswer (1 / 2) 54 (deliverAll 54 (BucketInfo.new 0) ([1, 2, 3] : List Nat))
        = [1, 2, 3] ∧
      1 ∈ thresholdAnswer (1 / 2) 54 (deliverAll 54 (BucketInfo.new 0) ([1, 2, 3] : List Nat)) := by
  have hmin : min_num (1 / 2) 54 3 = -2 := by
    unfold min_num
    have h1 : ⌊((3 : Int) : ℚ) * (1 / 2)⌋ = 1 := by
      rw [Int.floor_eq_iff]
      norm_num
    have h2 : ⌈((3 : Int) : ℚ) * (1 - 1 / 2) / ((54 : Nat) : ℚ)⌉ = 1 := by
      rw [Int.ceil_eq_iff]
      norm_num
    rw [h1, h2]
    rfl
  have hb : (deliverAll 54 (BucketInfo.new 0) ([1, 2, 3] : List Nat))
      = { created_at := 0, bucket_data := [(1, 1), (2, 1), (3, 1)], add_new_key_count := 3 } := by
    decide
  have hans : thresholdAnswer (1 / 2) 54 (deliverAll 54 (BucketInfo.new 0) ([1, 2, 3] : List Nat))
      = [1, 2, 3] := by
    rw [hb]
    unfold thresholdAnswer WeedOutExtraKeysAndInfo
    simp only [if_true, hmin]
    decide
  refine ⟨by norm_num, by norm_num, by norm_num, by simp, by norm_num [trueCount], hmin, hans, ?_⟩
  rw [hans]
  decide

/-- C3, amended. Heavy-hitter completeness with the slack the code leaves: for
`0 < θ`, `m ≥ 1` and `N ≥ 1` observations delivered to a fresh bucket, a
key whose true count satisfies `f(k) ≤ (θ − 2/(m+1))·N − 4` is not in the
threshold-mode answer. -/
theorem C3_completeness_amended (share : ℚ) (m : Nat) (t : ℚ) (keys : List K) (k : K)
    (h0 : 0 < share) (hm : 1 ≤ m) (hN : 1 ≤ keys.length)
    (hf : ((trueCount keys k : Int) : ℚ)
      ≤ (share - 2 / ((m : ℚ) + 1)) * (keys.length : ℚ) - 4) :
    k ∉ thresholdAnswer share m (deliverAll m (BucketInfo.new t) keys) := by
  apply not_mem_thresholdAnswer_of_trueCount_lt
  unfold min_num
  have h6 : ((keys.length : Int) : ℚ) = (keys.length : ℚ) := by push_cast; rfl
  rw [h6]
  have hNq : (1 : ℚ) ≤ (keys.length : ℚ) := by exact_mod_cast hN
  have hmq : (1 : ℚ) ≤ (m : ℚ) := by exact_mod_cast hm
  have hmpos : (0 : ℚ) < (m : ℚ) := by linarith
  have hfl := Int.lt_floor_add_one ((keys.length : ℚ) * share)
  have hce := Int.ceil_lt_add_one ((keys.length : ℚ) * (1 - share) / (m : ℚ))
  -- `N·(1−θ)/m ≤ 2·N/(m+1)`
  have hcmp : (keys.length : ℚ) * (1 - share) / (m : ℚ)
      ≤ 2 / ((m : ℚ) + 1) * (keys.length : ℚ) := by
    rw [div_le_iff₀ hmpos]
    have e : 2 / ((m : ℚ) + 1) * (keys.length : ℚ) * (m : ℚ)
        = (keys.length : ℚ) * (2 * (m : ℚ) / ((m : ℚ) + 1)) := by ring
    rw [e]
    apply mul_le_mul_of_nonneg_left _ (by linarith)
    rw [le_div_iff₀ (by linarith)]
    nlinarith
  have hq : ((trueCount keys k : Int) : ℚ)
      < ((⌊(keys.length : ℚ) * share⌋ - ⌈(keys.length : ℚ) * (1 - share) / (m : ℚ)⌉ - 2 : Int) : ℚ) := by
    push_cast
    have e2 : (share - 2 / ((m : ℚ) + 1)) * (keys.length : ℚ)
        = (keys.length : ℚ) * share - 2 / ((m : ℚ) + 1) * (keys.length : ℚ) := by ring
    rw [e2] at hf
    linarith
  exact_mod_cast hq

/-- Witness for amended C3: `θ = 1/2`, `m = 54`, ten observations of `1` and one
of `2`; key `2` has true count `1 ≤ (1/2 − 2/55)·11 − 4`. -/
theorem C3_witness :
    ((trueCount (List.replicate 10 1 ++ [2] : List Nat) 2 : Int) : ℚ)
        ≤ ((1 / 2 : ℚ) - 2 / (((54 : Nat) : ℚ) + 1))
          * ((List.replicate 10 1 ++ [2] : List Nat).length : ℚ) - 4 ∧
      2 ∉ thresholdAnswer (1 / 2) 54
        (deliverAll 54 (BucketInfo.new 0) (List.replicate 10 1 ++ [2] : List Nat)) :=
  ⟨by norm_num [trueCount, List.count_replicate],
    C3_completeness_amended (1 / 2) 54 0 (List.replicate 10 1 ++ [2]) 2 (by norm_num)
      (by norm_num) (by simp)
      (by norm_num [trueCount, List.count_replicate])⟩

/-- What a defined `DeleteOldAddNewBuckets` does: a newest bucket `back`
exists after the expired prefix is dropped, and a fresh bucket is appended
exactly when `back` is older than one stride. -/
theorem DeleteOldAddNewBuckets_some (a a1 : Analyzer K) (now : ℚ)
    (h : DeleteOldAddNewBuckets a now = some a1) :
    ∃ back, (retireOld a now).getLast? = some back ∧
      ((now - back.created_at > stride a ∧
          a1 = { a with buckets_ := retireOld a now ++ [BucketInfo.new now] }) ∨
        (¬ now - back.created_at > stride a ∧
          a1 = { a with buckets_ := retireOld a now })) := by
  unfold DeleteOldAddNewBuckets at h
  cases hl : (retireOld a now).getLast? with
  | none => simp [hl] at h
  | some back =>
    simp only [hl] at h
    refine ⟨back, rfl, ?_⟩
    by_cases hc : now - back.created_at > a.full_control_time_ / (a.buckets_count_ : ℚ)
    · rw [if_pos hc] at h
      exact Or.inl ⟨hc, (Option.some.inj h).symm⟩
    · rw [if_neg hc] at h
      exact Or.inr ⟨hc, (Option.some.inj h).symm⟩

/-- A defined maintenance step leaves a non-empty ring. -/
theorem DeleteOldAddNewBuckets_ne_nil (a a1 : Analyzer K) (now : ℚ)
    (h : DeleteOldAddNewBuckets a now = some a1) : a1.buckets_ ≠ [] := by
  obtain ⟨back, hb, hcase⟩ := DeleteOldAddNewBuckets_some a a1 now h
  rcases hcase with h1 | h1
  · rw [h1.2]
    simp
  · rw [h1.2]
    intro hnil
    simp only at hnil
    rw [hnil] at hb
    simp at hb

/-- Every bucket after maintenance is a bucket of the ring before it or the
fresh bucket stamped `now`. -/
theorem DeleteOldAddNewBuckets_mem (a a1 : Analyzer K) (now : ℚ)
    (h : DeleteOldAddNewBuckets a now = some a1) (b : BucketInfo K) (hb : b ∈ a1.buckets_) :
    b ∈ a.buckets_ ∨ b = BucketInfo.new now := by
  obtain ⟨back, _, hcase⟩ := DeleteOldAddNewBuckets_some a a1 now h
  rcases hcase with h1 | h1
  · rw [h1.2] at hb
    simp only [List.mem_append, List.mem_singleton] at hb
    rcases hb with hb | hb
    · exact Or.inl ((List.dropWhile_sublist _).subset hb)
    · exact Or.inr hb
  · rw [h1.2] at hb
    exact Or.inl ((List.dropWhile_sublist _).subset hb)

/-- Maintenance on a ring without buckets performs the undefined read. -/
theorem DeleteOldAddNewBuckets_nil (a : Analyzer K) (now : ℚ) (h : a.buckets_ = []) :
    DeleteOldAddNewBuckets a now = none := by
  unfold DeleteOldAddNewBuckets retireOld
  simp [h]

/-- Every bucket after one call is a bucket from before the call, with its
total raised by the observations the call delivers, or the bucket the call's
maintenance created, whose total is the number of those observations. -/
theorem step_buckets (a a1 : Analyzer K) (c : Call K) (h : step a c = some a1)
    (b1 : BucketInfo K) (hb1 : b1 ∈ a1.buckets_) :
    (∃ b0 ∈ a.buckets_, b1.created_at = b0.created_at ∧
        b1.add_new_key_count = b0.add_new_key_count + c.observations) ∨
      (b1.created_at = c.now ∧ b1.add_new_key_count = c.observations) := by
  cases c with
  | observe key now =>
    simp only [step, AddKey, Option.map_eq_some'] at h
    obtain ⟨a2, h2, rfl⟩ := h
    simp only [AddKeyToBuckets, List.mem_map] at hb1
    obtain ⟨b2, hb2, rfl⟩ := hb1
    rw [deliver_created_at, deliver_add_new_key_count]
    rcases DeleteOldAddNewBuckets_mem a a2 now h2 b2 hb2 with h3 | h3
    · exact Or.inl ⟨b2, h3, rfl, rfl⟩
    · subst h3
      exact Or.inr ⟨rfl, by simp [BucketInfo.new, Call.observations]⟩
  | query number now =>
    simp only [step, GetTopKKeys, Option.map_eq_some'] at h
    obtain ⟨⟨a2, ans⟩, h2, rfl⟩ := h
    cases hd : DeleteOldAddNewBuckets a now with
    | none => simp [hd] at h2
    | some a3 =>
      simp only [hd] at h2
      cases hf : a3.buckets_.head? with
      | none => simp [hf] at h2
      | some front =>
        simp only [hf, Option.some.injEq, Prod.mk.injEq] at h2
        obtain ⟨rfl, _⟩ := h2
        rcases DeleteOldAddNewBuckets_mem a a3 now hd b1 hb1 with h3 | h3
        · exact Or.inl ⟨b1, h3, rfl, by simp [Call.observations]⟩
        · subst h3
          exact Or.inr ⟨rfl, by simp [BucketInfo.new, Call.observations]⟩

/-- C8. The total of a live bucket counts the observe calls since its
creation: after any defined run of calls from any ring, every live bucket is
either a bucket of the initial ring whose `add_new_key_count` grew by the
number of `AddKey` calls of the run, or was created by the maintenance step of
one call `c` of the run and its `add_new_key_count` is the number of `AddKey`
calls from `c` (included) on. -/
theorem C8_total_counts_observations (a0 a : Analyzer K) (cs : List (Call K))
    (h : run a0 cs = some a) (b : BucketInfo K) (hb : b ∈ a.buckets_) :
    (∃ b0 ∈ a0.buckets_, b.created_at = b0.created_at ∧
        b.add_new_key_count = b0.add_new_key_count + observeCount cs) ∨
      (∃ pre c post, cs = pre ++ c :: post ∧ b.created_at = c.now ∧
        b.add_new_key_count = observeCount (c :: post)) := by
  induction cs generalizing a0 with
  | nil =>
    simp only [run, Option.some.injEq] at h
    subst h
    exact Or.inl ⟨b, hb, rfl, by simp [observeCount]⟩
  | cons c cs ih =>
    simp only [run, Option.bind_eq_some] at h
    obtain ⟨a1, h1, h2⟩ := h
    rcases ih a1 h2 with ⟨b1, hb1, hc1, ht1⟩ | ⟨pre, c1, post, hsplit, hc1, ht1⟩
    · rcases step_buckets a0 a1 c h1 b1 hb1 with ⟨b0, hb0, hc0, ht0⟩ | ⟨hc0, ht0⟩
      · refine Or.inl ⟨b0, hb0, hc1.trans hc0, ?_⟩
        rw [ht1, ht0]
        simp only [observeCount, List.map_cons, List.sum_cons]
        ring
      · refine Or.inr ⟨[], c, cs, rfl, hc1.trans hc0, ?_⟩
        rw [ht1, ht0]
        simp only [observeCount, List.map_cons, List.sum_cons]
    · exact Or.inr ⟨c :: pre, c1, post, by rw [hsplit]; rfl, hc1, ht1⟩

theorem sameConfig_refl (a : Analyzer K) : sameConfig a a :=
  ⟨rfl, rfl, rfl, rfl, rfl⟩

theorem sameConfig_trans {a a1 a2 : Analyzer K} (h1 : sameConfig a a1) (h2 : sameConfig a1 a2) :
    sameConfig a a2 :=
  ⟨h2.1.trans h1.1, h2.2.1.trans h1.2.1, h2.2.2.1.trans h1.2.2.1,
    h2.2.2.2.1.trans h1.2.2.2.1, h2.2.2.2.2.trans h1.2.2.2.2⟩

theorem DeleteOldAddNewBuckets_sameConfig (a a1 : Analyzer K) (now : ℚ)
    (h : DeleteOldAddNewBuckets a now = some a1) : sameConfig a a1 := by
  obtain ⟨back, _, hcase⟩ := DeleteOldAddNewBuckets_some a a1 now h
  rcases hcase with h1 | h1
  · rw [h1.2]
    exact ⟨rfl, rfl, rfl, rfl, rfl⟩
  · rw [h1.2]
    exact ⟨rfl, rfl, rfl, rfl, rfl⟩

/-- What a defined call does to the state: maintenance, followed by the
delivery of the key for `AddKey`. -/
theorem step_some (a a1 : Analyzer K) (c : Call K) (h : step a c = some a1) :
    ∃ a2, DeleteOldAddNewBuckets a c.now = some a2 ∧
      ((∃ key, a1 = AddKeyToBuckets a2 key) ∨ a1 = a2) := by
  cases c with
  | observe key now =>
    simp only [step, AddKey, Option.map_eq_some'] at h
    obtain ⟨a2, h2, rfl⟩ := h
    exact ⟨a2, h2, Or.inl ⟨key, rfl⟩⟩
  | query number now =>
    simp only [step, GetTopKKeys, Option.map_eq_some'] at h
    obtain ⟨⟨a2, ans⟩, h2, rfl⟩ := h
    cases hd : DeleteOldAddNewBuckets a now with
    | none => simp [hd] at h2
    | some a3 =>
      simp only [hd] at h2
      cases hf : a3.buckets_.head? with
      | none => simp [hf] at h2
      | some front =>
        simp only [hf, Option.some.injEq, Prod.mk.injEq] at h2
        exact ⟨a3, hd, Or.inr h2.1.symm⟩

theorem step_sameConfig (a a1 : Analyzer K) (c : Call K) (h : step a c = some a1) :
    sameConfig a a1 := by
  obtain ⟨a2, h2, hcase⟩ := step_some a a1 c h
  have h3 := DeleteOldAddNewBuckets_sameConfig a a2 c.now h2
  rcases hcase with ⟨key, rfl⟩ | rfl
  · exact sameConfig_trans h3 ⟨rfl, rfl, rfl, rfl, rfl⟩
  · exact h3

theorem run_sameConfig (a a1 : Analyzer K) (cs : List (Call K)) (h : run a cs = some a1) :
    sameConfig a a1 := by
  induction cs generalizing a with
  | nil =>
    simp only [run, Option.some.injEq] at h
    subst h
    exact sameConfig_refl a
  | cons c cs ih =>
    simp only [run, Option.bind_eq_some] at h
    obtain ⟨a2, h1, h2⟩ := h
    exact sameConfig_trans (step_sameConfig a a2 c h1) (ih a2 h2)

/-- In a chain of buckets more than `S ≥ 0` apart, every later bucket is
more than `S` newer than the first. -/
theorem chain_gap_lt (S : ℚ) (hS : 0 ≤ S) (x : BucketInfo K) (l : List (BucketInfo K))
    (h : List.Chain (fun b1 b2 : BucketInfo K => b1.created_at + S < b2.created_at) x l)
    (y : BucketInfo K) (hy : y ∈ l) : x.created_at + S < y.created_at := by
  induction l generalizing x with
  | nil => simp at hy
  | cons z r ih =>
    rw [List.chain_cons] at h
    rcases List.mem_cons.1 hy with rfl | hy
    · exact h.1
    · have := ih z h.2 hy
      linarith [h.1]

/-- Gaps accumulate: the newest bucket of a chain is at least `length · S`
newer than the first. -/
theorem chain_gap_sum (S : ℚ) (x : BucketInfo K) (l : List (BucketInfo K))
    (h : List.Chain (fun b1 b2 : BucketInfo K => b1.created_at + S < b2.created_at) x l)
    (back : BucketInfo K) (hb : (x :: l).getLast? = some back) :
    x.created_at + (l.length : ℚ) * S ≤ back.created_at := by
  induction l generalizing x with
  | nil =>
    simp only [List.getLast?_singleton, Option.some.injEq] at hb
    subst hb
    simp
  | cons z r ih =>
    rw [List.chain_cons] at h
    rw [List.getLast?_cons_cons] at hb
    have := ih z h.2 hb
    simp only [List.length_cons]
    push_cast
    linarith [h.1]

/-- The head of what the retire loop keeps is not expired. -/
theorem dropWhile_head_not (p : BucketInfo K → Bool) (l : List (BucketInfo K))
    (x : BucketInfo K) (r : List (BucketInfo K)) (h : l.dropWhile p = x :: r) : p x = false := by
  induction l with
  | nil => simp at h
  | cons y l1 ih =>
    by_cases hp : p y = true
    · rw [List.dropWhile_cons_of_pos hp] at h
      exact ih h
    · rw [List.dropWhile_cons_of_neg hp] at h
      have : y = x := (List.cons.inj h).1
      subst this
      simpa using hp

/-- The newest bucket kept by the retire loop is the newest bucket of the ring. -/
theorem getLast?_dropWhile (p : BucketInfo K → Bool) (l : List (BucketInfo K))
    (back : BucketInfo K) (h : (l.dropWhile p).getLast? = some back) :
    l.getLast? = some back := by
  induction l with
  | nil => simp at h
  | cons y l1 ih =>
    by_cases hp : p y = true
    · rw [List.dropWhile_cons_of_pos hp] at h
      have h1 := ih h
      cases l1 with
      | nil => simp at h1
      | cons z r => rw [List.getLast?_cons_cons]; exact h1
    · rw [List.dropWhile_cons_of_neg hp] at h
      exact h

/-- After the retire loop of a ring satisfying the invariant, no kept
bucket is older than `full_control_time_`. -/
theorem retireOld_age (a : Analyzer K) (now : ℚ) (hinv : RingInv a) (hS : 0 ≤ stride a)
    (b : BucketInfo K) (hb : b ∈ retireOld a now) :
    now - b.created_at ≤ a.full_control_time_ := by
  have hchain := hinv.chain.suffix (List.dropWhile_suffix
    (fun b : BucketInfo K => decide (now - b.created_at > a.full_control_time_)))
  unfold retireOld at hb
  cases hk : a.buckets_.dropWhile
      (fun b : BucketInfo K => decide (now - b.created_at > a.full_control_time_)) with
  | nil => rw [hk] at hb; simp at hb
  | cons x r =>
    rw [hk] at hb hchain
    have hx := dropWhile_head_not _ _ x r hk
    simp only [decide_eq_false_iff_not, not_lt] at hx
    rcases List.mem_cons.1 hb with rfl | hb
    · exact hx
    · have := chain_gap_lt (stride a) hS x r hchain b hb
      linarith

/-- Ring maintenance preserves the ring invariant. -/
theorem DeleteOldAddNewBuckets_RingInv (a a1 : Analyzer K) (now : ℚ) (hinv : RingInv a)
    (hS : 0 ≤ stride a) (hF : 0 ≤ a.full_control_time_)
    (h : DeleteOldAddNewBuckets a now = some a1) : RingInv a1 := by
  obtain ⟨back, hback, hcase⟩ := DeleteOldAddNewBuckets_some a a1 now h
  have hchain : (retireOld a now).Chain'
      (fun b1 b2 => b1.created_at + stride a < b2.created_at) :=
    hinv.chain.suffix (List.dropWhile_suffix _)
  have hage := retireOld_age a now hinv hS
  rcases hcase with ⟨hpush, h1⟩ | ⟨_, h1⟩
  · subst h1
    refine ⟨?_, ?_⟩
    · show (retireOld a now ++ [BucketInfo.new now]).Chain'
        (fun b1 b2 : BucketInfo K => b1.created_at + stride a < b2.created_at)
      refine hchain.append (List.chain'_singleton _) ?_
      intro x hx y hy
      rw [hback] at hx
      simp only [Option.mem_def, Option.some.injEq] at hx
      simp only [List.head?_cons, Option.mem_def, Option.some.injEq] at hy
      rw [← hx, ← hy]
      show back.created_at + stride a < now
      linarith
    · intro b hb bk hbk
      simp only [List.getLast?_concat, Option.mem_def, Option.some.injEq] at hbk
      subst hbk
      simp only [List.mem_append, List.mem_singleton] at hb
      show now - b.created_at ≤ a.full_control_time_
      rcases hb with hb | rfl
      · exact hage b hb
      · show now - now ≤ a.full_control_time_
        linarith
  · subst h1
    refine ⟨hchain, ?_⟩
    intro b hb bk hbk
    show bk.created_at - b.created_at ≤ a.full_control_time_
    have h1 : b ∈ a.buckets_ := (List.dropWhile_sublist _).subset hb
    have h2 : a.buckets_.getLast? = some bk := getLast?_dropWhile _ _ bk hbk
    exact hinv.span b h1 bk h2

/-- Delivering a key to every bucket preserves the ring invariant. -/
theorem AddKeyToBuckets_RingInv (a : Analyzer K) (key : K) (hinv : RingInv a) :
    RingInv (AddKeyToBuckets a key) := by
  refine ⟨?_, ?_⟩
  · show (a.buckets_.map (fun b => deliver a.bucket_size_ b key)).Chain'
      (fun b1 b2 : BucketInfo K => b1.created_at + stride a < b2.created_at)
    rw [List.chain'_map]
    simp only [deliver_created_at]
    exact hinv.chain
  · intro b hb bk hbk
    simp only [AddKeyToBuckets, List.mem_map] at hb
    obtain ⟨b0, hb0, rfl⟩ := hb
    simp only [AddKeyToBuckets, List.getLast?_map, Option.mem_def, Option.map_eq_some'] at hbk
    obtain ⟨bk0, hbk0, rfl⟩ := hbk
    rw [deliver_created_at, deliver_created_at]
    exact hinv.span b0 hb0 bk0 hbk0

theorem stride_eq_of_sameConfig {a a1 : Analyzer K} (h : sameConfig a a1) :
    stride a1 = stride a := by
  unfold stride
  rw [h.2.1, h.2.2.1]

theorem step_RingInv (a a1 : Analyzer K) (c : Call K) (hinv : RingInv a)
    (hS : 0 ≤ stride a) (hF : 0 ≤ a.full_control_time_) (h : step a c = some a1) :
    RingInv a1 := by
  obtain ⟨a2, h2, hcase⟩ := step_some a a1 c h
  have h3 := DeleteOldAddNewBuckets_RingInv a a2 c.now hinv hS hF h2
  rcases hcase with ⟨key, rfl⟩ | rfl
  · exact AddKeyToBuckets_RingInv a2 key h3
  · exact h3

theorem run_RingInv (a a1 : Analyzer K) (cs : List (Call K)) (hinv : RingInv a)
    (hS : 0 ≤ stride a) (hF : 0 ≤ a.full_control_time_) (h : run a cs = some a1) :
    RingInv a1 := by
  induction cs generalizing a with
  | nil =>
    simp only [run, Option.some.injEq] at h
    subst h
    exact hinv
  | cons c cs ih =>
    simp only [run, Option.bind_eq_some] at h
    obtain ⟨a2, h1, h2⟩ := h
    have hc := step_sameConfig a a2 c h1
    refine ih a2 (step_RingInv a a2 c hinv hS hF h1) ?_ ?_ h2
    · rw [stride_eq_of_sameConfig hc]
      exact hS
    · rw [hc.2.1]
      exact hF

/-- A ring with a single bucket satisfies the ring invariant. -/
theorem RingInv_singleton (a : Analyzer K) (b : BucketInfo K) (hF : 0 ≤ a.full_control_time_) :
    RingInv (a.withRing [b]) := by
  refine ⟨List.chain'_singleton _, ?_⟩
  intro b1 hb1 bk hbk
  simp only [Analyzer.withRing, List.mem_singleton] at hb1
  simp only [Analyzer.withRing, List.getLast?_singleton, Option.mem_def,
    Option.some.injEq] at hbk
  rw [hb1, ← hbk]
  simpa using hF

/-- C10 fails on the code: `DeleteOldAddNewBuckets` reads `buckets_.back()`
without testing for an empty ring. On the freshly constructed analyzer, and on
a ring whose only bucket has just been retired, the read is undefined, so
`AddKey` and `GetTopKKeys` are undefined there. -/
theorem C10_empty_ring_read_undefined (W share : ℚ) (B m : Nat) (now : ℚ) (key : K)
    (number : Int) :
    DeleteOldAddNewBuckets (Analyzer.new W share B m : Analyzer K) now = none ∧
      AddKey (Analyzer.new W share B m : Analyzer K) key now = none ∧
      GetTopKKeys (Analyzer.new W share B m : Analyzer K) number now = none ∧
      retireOld ((Analyzer.new 1 (1 / 10) 12 54 : Analyzer K).withRing [BucketInfo.new 0]) 2 = [] ∧
      DeleteOldAddNewBuckets
        ((Analyzer.new 1 (1 / 10) 12 54 : Analyzer K).withRing [BucketInfo.new 0]) 2 = none := by
  have h1 : DeleteOldAddNewBuckets (Analyzer.new W share B m : Analyzer K) now = none :=
    DeleteOldAddNewBuckets_nil _ now rfl
  have h2 : retireOld ((Analyzer.new 1 (1 / 10) 12 54 : Analyzer K).withRing
      [BucketInfo.new 0]) 2 = [] := by
    norm_num [retireOld, Analyzer.withRing, Analyzer.new, BucketInfo.new, List.dropWhile]
  refine ⟨h1, ?_, ?_, h2, ?_⟩
  · simp [AddKey, h1]
  · simp [GetTopKKeys, h1]
  · unfold DeleteOldAddNewBuckets
    rw [h2]
    rfl

/-- A concrete run with `W = 1`, `θ = 1/10`, `B = 12`, `m = 54` from a ring
holding one fresh bucket: an observation at `1/20`, a query at `1/10` (its
maintenance appends a second bucket), an observation at `3/20`. -/
theorem run_example :
    run ((Analyzer.new 1 (1 / 10) 12 54 : Analyzer Nat).withRing [BucketInfo.new 0])
        [Call.observe 7 (1 / 20), Call.query 0 (1 / 10), Call.observe 7 (3 / 20)]
      = some ((Analyzer.new 1 (1 / 10) 12 54 : Analyzer Nat).withRing
          [⟨0, [(7, 2)], 2⟩, ⟨1 / 10, [(7, 1)], 1⟩]) := by
  norm_num [run, step, AddKey, GetTopKKeys, DeleteOldAddNewBuckets, retireOld, Analyzer.new,
    Analyzer.withRing, BucketInfo.new, AddKeyToBuckets, deliver, AddKeyToBucket,
    IncrementCounter, CreateNewCounter, mapEmplace, List.dropWhile, List.getLast?]

/-- Maintenance at `1/4` on the final ring of `run_example` appends a third bucket. -/
theorem maintenance_example :
    DeleteOldAddNewBuckets ((Analyzer.new 1 (1 / 10) 12 54 : Analyzer Nat).withRing
        [⟨0, [(7, 2)], 2⟩, ⟨1 / 10, [(7, 1)], 1⟩]) (1 / 4)
      = some ((Analyzer.new 1 (1 / 10) 12 54 : Analyzer Nat).withRing
          [⟨0, [(7, 2)], 2⟩, ⟨1 / 10, [(7, 1)], 1⟩, BucketInfo.new (1 / 4)]) := by
  norm_num [DeleteOldAddNewBuckets, retireOld, Analyzer.new, Analyzer.withRing, BucketInfo.new,
    List.dropWhile, List.getLast?]

/-- Witness for C8: in the run `run_example` the second bucket was created by the
query at `1/10` and has seen one observation since. -/
theorem C8_witness :
    run ((Analyzer.new 1 (1 / 10) 12 54 : Analyzer Nat).withRing [BucketInfo.new 0])
        [Call.observe 7 (1 / 20), Call.query 0 (1 / 10), Call.observe 7 (3 / 20)]
      = some ((Analyzer.new 1 (1 / 10) 12 54 : Analyzer Nat).withRing
          [⟨0, [(7, 2)], 2⟩, ⟨1 / 10, [(7, 1)], 1⟩]) ∧
    ((∃ b0 ∈ ((Analyzer.new 1 (1 / 10) 12 54 : Analyzer Nat).withRing
          [BucketInfo.new 0]).buckets_,
        (⟨1 / 10, [(7, 1)], 1⟩ : BucketInfo Nat).created_at = b0.created_at ∧
        (⟨1 / 10, [(7, 1)], 1⟩ : BucketInfo Nat).add_new_key_count
          = b0.add_new_key_count
            + observeCount [Call.observe 7 (1 / 20), Call.query 0 (1 / 10),
                Call.observe 7 (3 / 20)]) ∨
      (∃ pre c post,
        [Call.observe 7 (1 / 20), Call.query 0 (1 / 10), Call.observe 7 (3 / 20)]
          = pre ++ c :: post ∧
        (⟨1 / 10, [(7, 1)], 1⟩ : BucketInfo Nat).created_at = c.now ∧
        (⟨1 / 10, [(7, 1)], 1⟩ : BucketInfo Nat).add_new_key_count
          = observeCount (c :: post))) :=
  ⟨run_example,
    C8_total_counts_observations _ _ _ run_example ⟨1 / 10, [(7, 1)], 1⟩
      (by simp [Analyzer.withRing])⟩

/-- C14. Ordering of the answer: for every table and every `number`, the
vector built by `GetBucketSortedByFrequencyKeys` is a permutation of the
table's `(count, key)` entries sorted by count, largest first, and the answer
of the extractor lists the keys of a prefix of that vector, so the keys come
in non-increasing order of their stored counts. -/
theorem C14_answer_ordering (share : ℚ) (m : Nat) (d : List (K × Int)) (N number : Int) :
    (GetBucketSortedByFrequencyKeys d).Perm (d.map (fun e => (e.2, e.1))) ∧
      (GetBucketSortedByFrequencyKeys d).Sorted (fun left right => left.1 ≥ right.1) ∧
      ∃ w, w <+: GetBucketSortedByFrequencyKeys d ∧
        WeedOutExtraKeysAndInfo share m (GetBucketSortedByFrequencyKeys d) N number
          = w.map Prod.snd ∧
        (w.map Prod.fst).Sorted (fun c1 c2 => c1 ≥ c2) := by
  have hsorted := sorted_GetBucketSortedByFrequencyKeys d
  refine ⟨List.perm_insertionSort _ _, hsorted, ?_⟩
  have key : ∀ w : List (Int × K), w <+: GetBucketSortedByFrequencyKeys d →
      (w.map Prod.fst).Sorted (fun c1 c2 => c1 ≥ c2) := by
    intro w hw
    have h1 : w.Sorted (fun left right => left.1 ≥ right.1) :=
      List.Pairwise.sublist hw.sublist hsorted
    exact List.pairwise_map.2 h1
  unfold WeedOutExtraKeysAndInfo
  by_cases h0 : number = 0
  · rw [if_pos h0]
    exact ⟨_, List.takeWhile_prefix _, rfl, key _ (List.takeWhile_prefix _)⟩
  · rw [if_neg h0]
    exact ⟨_, List.take_prefix _ _, rfl, key _ (List.take_prefix _ _)⟩

/-- In a table with distinct keys, the count paired with a key in the sorted
vector is the key's stored count. -/
theorem storedCount_of_mem_sorted (d : List (K × Int)) (nd : (keysOf d).Nodup)
    (e : Int × K) (he : e ∈ GetBucketSortedByFrequencyKeys d) : storedCount d e.2 = e.1 :=
  storedCount_eq_of_mapFind d e.2 e.1
    ((mapFind_eq_some_iff d nd e.2 e.1).2 ((mem_GetBucketSortedByFrequencyKeys d e.1 e.2).1 he))

/-- C15. Top-N mode: for every `int` value `number > 0` the extractor returns
the keys of the first `min(number, |list|)` entries of the list, whatever the
threshold parameters and the total `N` are. -/
theorem C15_top_n_mode (share : ℚ) (m : Nat) (v : List (Int × K)) (N number : Int)
    (h0 : 0 < number) (h1 : number < 2 ^ 31) :
    WeedOutExtraKeysAndInfo share m v N number = (v.take number.toNat).map Prod.snd ∧
      (WeedOutExtraKeysAndInfo share m v N number).length = min number.toNat v.length ∧
      ∀ (share1 : ℚ) (m1 : Nat) (N1 : Int),
        WeedOutExtraKeysAndInfo share1 m1 v N1 number
          = WeedOutExtraKeysAndInfo share m v N number := by
  have hmod : number % 2 ^ 64 = number := Int.emod_eq_of_lt (le_of_lt h0) (by omega)
  have hne : ¬ number = 0 := by omega
  have h : ∀ (share1 : ℚ) (m1 : Nat) (N1 : Int),
      WeedOutExtraKeysAndInfo share1 m1 v N1 number = (v.take number.toNat).map Prod.snd := by
    intro share1 m1 N1
    unfold WeedOutExtraKeysAndInfo
    rw [if_neg hne, hmod]
  refine ⟨h share m N, ?_, ?_⟩
  · rw [h share m N]
    simp
  · intro share1 m1 N1
    rw [h share1 m1 N1, h share m N]

/-- Witness for C15: `number = 2` on a vector of three entries. -/
theorem C15_witness :
    WeedOutExtraKeysAndInfo (1 / 10) 54 ([(3, 1), (1, 2), (0, 5)] : List (Int × Nat)) 40 2
      = [1, 2] :=
  (C15_top_n_mode (1 / 10) 54 [(3, 1), (1, 2), (0, 5)] 40 2 (by norm_num) (by norm_num)).1

theorem full_control_time_new (W share : ℚ) (B m : Nat) (bs : List (BucketInfo K)) :
    ((Analyzer.new W share B m : Analyzer K).withRing bs).full_control_time_
      = W * ((B : ℚ) + 1) / (B : ℚ) := by
  simp only [Analyzer.withRing, Analyzer.new]
  ring

/-- The stride of a constructed analyzer is `W / B`. -/
theorem stride_new (W share : ℚ) (B m : Nat) (hB : 1 ≤ B) (bs : List (BucketInfo K)) :
    stride ((Analyzer.new W share B m : Analyzer K).withRing bs) = W / (B : ℚ) := by
  have hBq : (0 : ℚ) < (B : ℚ) := by exact_mod_cast hB
  simp only [stride, Analyzer.withRing, Analyzer.new]
  push_cast
  field_simp
  ring

/-- C11, as stated, fails: with `W = 1`, `B = 1` (so `S = 1`, `F = 2`) a query
at `3/2` on a ring holding one bucket created at `0` appends a second bucket;
maintenance at `21/10` retires the first one, and the oldest live bucket then
has age `3/5 < W`. -/
theorem C11_counterexample :
    run ((Analyzer.new 1 (1 / 10) 1 54 : Analyzer Nat).withRing [BucketInfo.new 0])
        [Call.query 0 (3 / 2)]
      = some ((Analyzer.new 1 (1 / 10) 1 54 : Analyzer Nat).withRing
          [BucketInfo.new 0, BucketInfo.new (3 / 2)]) ∧
    DeleteOldAddNewBuckets ((Analyzer.new 1 (1 / 10) 1 54 : Analyzer Nat).withRing
        [BucketInfo.new 0, BucketInfo.new (3 / 2)]) (21 / 10)
      = some ((Analyzer.new 1 (1 / 10) 1 54 : Analyzer Nat).withRing
          [BucketInfo.new (3 / 2)]) ∧
    ((Analyzer.new 1 (1 / 10) 1 54 : Analyzer Nat).withRing
        [BucketInfo.new (3 / 2)]).buckets_.head? = some (BucketInfo.new (3 / 2)) ∧
    (21 / 10 : ℚ) - (BucketInfo.new (3 / 2) : BucketInfo Nat).created_at
      < ((Analyzer.new 1 (1 / 10) 1 54 : Analyzer Nat).withRing
          [BucketInfo.new (3 / 2)]).control_time_ := by
  refine ⟨?_, ?_, rfl, ?_⟩
  · norm_num [run, step, GetTopKKeys, DeleteOldAddNewBuckets, retireOld, Analyzer.new,
      Analyzer.withRing, BucketInfo.new, List.dropWhile, List.getLast?]
  · norm_num [DeleteOldAddNewBuckets, retireOld, Analyzer.new, Analyzer.withRing,
      BucketInfo.new, List.dropWhile, List.getLast?]
  · norm_num [Analyzer.new, Analyzer.withRing, BucketInfo.new]

/-- What a defined `GetTopKKeys` returns: the state after maintenance and the
extractor's answer on the front bucket. -/
theorem GetTopKKeys_some (a a1 : Analyzer K) (number : Int) (now : ℚ) (ans : List K)
    (h : GetTopKKeys a number now = some (a1, ans)) :
    DeleteOldAddNewBuckets a now = some a1 ∧
      ∃ front, a1.buckets_.head? = some front ∧
        ans = WeedOutExtraKeysAndInfo a1.share_very_frequent_ a1.bucket_size_
          (GetBucketSortedByFrequencyKeys front.bucket_data) front.add_new_key_count number := by
  unfold GetTopKKeys at h
  cases hd : DeleteOldAddNewBuckets a now with
  | none => simp [hd] at h
  | some a3 =>
    simp only [hd] at h
    cases hf : a3.buckets_.head? with
    | none => simp [hf] at h
    | some front =>
      simp only [hf, Option.some.injEq, Prod.mk.injEq] at h
      obtain ⟨h1, h2⟩ := h
      subst h1
      exact ⟨rfl, front, hf, h2.symm⟩

/-- `GetTopKKeys` is defined whenever its maintenance step is. -/
theorem GetTopKKeys_of_maintenance (a a1 : Analyzer K) (number : Int) (now : ℚ)
    (front : BucketInfo K) (hd : DeleteOldAddNewBuckets a now = some a1)
    (hf : a1.buckets_.head? = some front) :
    GetTopKKeys a number now
      = some (a1, WeedOutExtraKeysAndInfo a1.share_very_frequent_ a1.bucket_size_
          (GetBucketSortedByFrequencyKeys front.bucket_data) front.add_new_key_count number) := by
  unfold GetTopKKeys
  simp only [hd, hf]

/-- The retire loop drops nothing when the front bucket is not expired. -/
theorem retireOld_eq_self (a : Analyzer K) (now : ℚ) (front : BucketInfo K)
    (hf : a.buckets_.head? = some front)
    (hlive : now - front.created_at ≤ a.full_control_time_) : retireOld a now = a.buckets_ := by
  unfold retireOld
  cases hbs : a.buckets_ with
  | nil => rfl
  | cons x l =>
    rw [hbs] at hf
    simp only [List.head?_cons, Option.some.injEq] at hf
    subst hf
    rw [List.dropWhile_cons_of_neg]
    simp only [decide_eq_true_eq, not_lt]
    exact hlive

theorem min_num_tenth_two : min_num (1 / 10) 54 2 = -3 := by
  unfold min_num
  have h1 : ⌊((2 : Int) : ℚ) * (1 / 10)⌋ = 0 := by
    rw [Int.floor_eq_iff]
    norm_num
  have h2 : ⌈((2 : Int) : ℚ) * (1 - 1 / 10) / ((54 : Nat) : ℚ)⌉ = 1 := by
    rw [Int.ceil_eq_iff]
    norm_num
  rw [h1, h2]
  rfl

/-- A query at `1` after `two_bucket_run_example` reads the bucket created at `0`. -/
theorem first_query_example :
    GetTopKKeys ((Analyzer.new 1 (1 / 10) 12 54 : Analyzer Nat).withRing
        [⟨0, [(7, 1), (8, 1)], 2⟩, ⟨1 / 2, [(8, 1)], 1⟩]) 0 1
      = some ((Analyzer.new 1 (1 / 10) 12 54 : Analyzer Nat).withRing
          [⟨0, [(7, 1), (8, 1)], 2⟩, ⟨1 / 2, [(8, 1)], 1⟩, BucketInfo.new 1], [7, 8]) := by
  have hd1 : DeleteOldAddNewBuckets ((Analyzer.new 1 (1 / 10) 12 54 : Analyzer Nat).withRing
        [⟨0, [(7, 1), (8, 1)], 2⟩, ⟨1 / 2, [(8, 1)], 1⟩]) 1
      = some ((Analyzer.new 1 (1 / 10) 12 54 : Analyzer Nat).withRing
          [⟨0, [(7, 1), (8, 1)], 2⟩, ⟨1 / 2, [(8, 1)], 1⟩, BucketInfo.new 1]) := by
    norm_num [DeleteOldAddNewBuckets, retireOld, Analyzer.new, Analyzer.withRing,
      BucketInfo.new, List.dropWhile, List.getLast?]
  have ha1 : WeedOutExtraKeysAndInfo (1 / 10) 54
      (GetBucketSortedByFrequencyKeys ([(7, 1), (8, 1)] : List (Nat × Int))) 2 0 = [7, 8] := by
    unfold WeedOutExtraKeysAndInfo
    rw [if_pos rfl, min_num_tenth_two]
    decide
  rw [GetTopKKeys_of_maintenance _ _ 0 1 ⟨0, [(7, 1), (8, 1)], 2⟩ hd1 rfl]
  exact congrArg (fun l => some (_, l)) ha1

theorem dictFind_dictAssign {V : Type} (d : List (K × V)) (key : K) (value : V) (k : K) :
    dictFind (dictAssign d key value) k = if k = key then some value else dictFind d k := by
  induction d with
  | nil =>
    by_cases hk : k = key
    · simp [dictAssign, dictFind, hk]
    · have hk2 : ¬ key = k := fun h => hk h.symm
      simp [dictAssign, dictFind, hk, hk2]
  | cons e rest ih =>
    obtain ⟨k0, v0⟩ := e
    unfold dictAssign
    by_cases h1 : key < k0
    · rw [if_pos h1]
      by_cases hk : k = key
      · simp [dictFind, hk]
      · have hk2 : ¬ key = k := fun h => hk h.symm
        simp [dictFind, hk, hk2]
    · rw [if_neg h1]
      by_cases h2 : key = k0
      · rw [if_pos h2]
        subst h2
        by_cases hk : k = key
        · simp [dictFind, hk]
        · have hk2 : ¬ key = k := fun h => hk h.symm
          simp [dictFind, hk, hk2]
      · rw [if_neg h2]
        by_cases hk0 : k0 = k
        · subst hk0
          have hk : ¬ k0 = key := fun h => h2 h.symm
          simp [dictFind, hk]
        · simp only [dictFind, hk0, if_false]
          exact ih

/-- What the read `map_[key]` does: a mapped key yields its value and leaves
the map as it is; an unmapped key is mapped to the default value. -/
theorem dictSubscript_spec {V : Type} [Inhabited V] (d : List (K × V)) (key : K) :
    match dictFind d key with
    | none => dictSubscript d key = (dictAssign d key default, default)
    | some v => dictSubscript d key = (d, v) := by
  unfold dictSubscript
  cases dictFind d key <;> rfl

theorem dictFind_dictSubscript {V : Type} [Inhabited V] (d : List (K × V)) (key k : K)
    (v : V) (h : dictFind d k = some v) : dictFind (dictSubscript d key).1 k = some v := by
  unfold dictSubscript
  cases hf : dictFind d key with
  | some v1 => exact h
  | none =>
    simp only
    rw [dictFind_dictAssign]
    by_cases hk : k = key
    · subst hk
      rw [hf] at h
      cases h
    · rw [if_neg hk]
      exact h

/-- What a defined `get` does. -/
theorem get_some {V : Type} [Inhabited V] (s s1 : MapGetFreshTopK K V) (key : K) (now : ℚ)
    (r : V) (h : s.get key now = some (s1, r)) :
    s1.map_ = (dictSubscript s.map_ key).1 ∧ r = (dictSubscript s.map_ key).2 ∧
      AddKey s.analyzer_ key now = some s1.analyzer_ := by
  unfold MapGetFreshTopK.get at h
  cases ha : AddKey s.analyzer_ key now with
  | none => simp [ha] at h
  | some a1 =>
    simp only [ha, Option.some.injEq, Prod.mk.injEq] at h
    obtain ⟨h1, h2⟩ := h
    subst h1
    exact ⟨rfl, h2.symm, rfl⟩

/-- What a defined `set` does. -/
theorem set_some {V : Type} (s s1 : MapGetFreshTopK K V) (key : K) (value : V) (now : ℚ)
    (h : s.set key value now = some s1) :
    s1.map_ = dictAssign s.map_ key value ∧
      AddKey s.analyzer_ key now = some s1.analyzer_ := by
  unfold MapGetFreshTopK.set at h
  cases ha : AddKey s.analyzer_ key now with
  | none => simp [ha] at h
  | some a1 =>
    simp only [ha, Option.some.injEq] at h
    subst h
    exact ⟨rfl, rfl⟩

/-- What a defined `get_top_k` does. -/
theorem get_top_k_some {V : Type} (s s1 : MapGetFreshTopK K V) (number : Nat) (now : ℚ)
    (ans : List K) (h : s.get_top_k number now = some (s1, ans)) :
    s1.map_ = s.map_ ∧
      GetTopKKeys s.analyzer_ (size_t_to_int number) now = some (s1.analyzer_, ans) := by
  unfold MapGetFreshTopK.get_top_k at h
  cases ha : GetTopKKeys s.analyzer_ (size_t_to_int number) now with
  | none => simp [ha] at h
  | some r =>
    simp only [ha, Option.some.injEq, Prod.mk.injEq] at h
    obtain ⟨h1, h2⟩ := h
    subst h1
    subst h2
    exact ⟨rfl, rfl⟩

/-- A call that is not a `set` on `k` keeps the value mapped to `k`. -/
theorem storeStep_keeps {V : Type} [Inhabited V] (s s1 : MapGetFreshTopK K V)
    (c : StoreCall K V) (k : K) (v : V) (h : storeStep s c = some s1)
    (hc : ¬ c.setsKey k) (hv : dictFind s.map_ k = some v) : dictFind s1.map_ k = some v := by
  cases c with
  | get key now =>
    simp only [storeStep, Option.map_eq_some'] at h
    obtain ⟨⟨s2, r⟩, h2, rfl⟩ := h
    rw [(get_some s s2 key now r h2).1]
    exact dictFind_dictSubscript _ key k v hv
  | set key value now =>
    simp only [storeStep] at h
    rw [(set_some s s1 key value now h).1, dictFind_dictAssign]
    have hk : ¬ k = key := fun h3 => hc h3.symm
    rw [if_neg hk]
    exact hv
  | get_top_k number now =>
    simp only [storeStep, Option.map_eq_some'] at h
    obtain ⟨⟨s2, ans⟩, h2, rfl⟩ := h
    rw [(get_top_k_some s s2 number now ans h2).1]
    exact hv

theorem storeRun_keeps {V : Type} [Inhabited V] (s s1 : MapGetFreshTopK K V)
    (cs : List (StoreCall K V)) (k : K) (v : V) (h : storeRun s cs = some s1)
    (hc : ∀ c ∈ cs, ¬ c.setsKey k) (hv : dictFind s.map_ k = some v) :
    dictFind s1.map_ k = some v := by
  induction cs generalizing s with
  | nil =>
    simp only [storeRun, Option.some.injEq] at h
    subst h
    exact hv
  | cons c cs ih =>
    simp only [storeRun, Option.bind_eq_some] at h
    obtain ⟨s2, h1, h2⟩ := h
    exact ih s2 h2 (fun c1 hc1 => hc c1 (List.mem_cons_of_mem _ hc1))
      (storeStep_keeps s s2 c k v h1 (hc c (List.mem_cons_self _ _)) hv)

/-- C19. Store round trip: after a defined `set(k, v)` and any defined calls
none of which is a `set` on `k`, `get(k)` returns `v`; and `set(k, v)` leaves
the value mapped to every other key as it was. -/
theorem C19_store_round_trip {V : Type} [Inhabited V] (s s1 s2 s3 : MapGetFreshTopK K V)
    (k : K) (v r : V) (t1 t2 : ℚ) (cs : List (StoreCall K V))
    (hset : s.set k v t1 = some s1) (hrun : storeRun s1 cs = some s2)
    (hno : ∀ c ∈ cs, ¬ c.setsKey k) (hget : s2.get k t2 = some (s3, r)) :
    r = v ∧ ∀ k1, k1 ≠ k → dictFind s1.map_ k1 = dictFind s.map_ k1 := by
  have hs1 := (set_some s s1 k v t1 hset).1
  have hv1 : dictFind s1.map_ k = some v := by
    rw [hs1, dictFind_dictAssign, if_pos rfl]
  have hv2 := storeRun_keeps s1 s2 cs k v hrun hno hv1
  obtain ⟨_, hr, _⟩ := get_some s2 s3 k t2 r hget
  refine ⟨?_, ?_⟩
  · have hsub := dictSubscript_spec s2.map_ k
    rw [hv2] at hsub
    simp only at hsub
    rw [hr, hsub]
  · intro k1 hk1
    rw [hs1, dictFind_dictAssign, if_neg hk1]

/-- C20. `get` on a key without a mapping returns the default value of the
mapped type, maps the key to it and leaves every other key as it was; `get` on
a mapped key returns its value and leaves the map unchanged. -/
theorem C20_get_missing_key {V : Type} [Inhabited V] (s s1 : MapGetFreshTopK K V) (k : K)
    (r : V) (now : ℚ) (hget : s.get k now = some (s1, r)) :
    match dictFind s.map_ k with
    | none => r = default ∧ dictFind s1.map_ k = some default ∧
        ∀ k1, k1 ≠ k → dictFind s1.map_ k1 = dictFind s.map_ k1
    | some v => r = v ∧ s1.map_ = s.map_ := by
  obtain ⟨hm, hr, _⟩ := get_some s s1 k now r hget
  have hsub := dictSubscript_spec s.map_ k
  cases hf : dictFind s.map_ k with
  | none =>
    rw [hf] at hsub
    simp only at hsub ⊢
    rw [hsub] at hm hr
    refine ⟨hr, ?_, ?_⟩
    · rw [hm, dictFind_dictAssign, if_pos rfl]
    · intro k1 hk1
      rw [hm, dictFind_dictAssign, if_neg hk1]
  | some v =>
    rw [hf] at hsub
    simp only at hsub ⊢
    rw [hsub] at hm hr
    exact ⟨hr, hm⟩

/-- The store used in the examples: one mapping `3 ↦ 10`, and an analyzer with
`W = 1`, `θ = 1/10`, `B = 12`, `m = 54` whose ring holds one fresh bucket. -/
theorem store_set_example :
    MapGetFreshTopK.set
        (⟨[(3, 10)], (Analyzer.new 1 (1 / 10) 12 54).withRing [BucketInfo.new 0]⟩ :
          MapGetFreshTopK Nat Nat) 7 42 (1 / 20)
      = some ⟨[(3, 10), (7, 42)],
          (Analyzer.new 1 (1 / 10) 12 54).withRing [⟨0, [(7, 1)], 1⟩]⟩ := by
  norm_num [MapGetFreshTopK.set, dictAssign, AddKey, DeleteOldAddNewBuckets, retireOld,
    Analyzer.new, Analyzer.withRing, BucketInfo.new, AddKeyToBuckets, deliver, AddKeyToBucket,
    IncrementCounter, CreateNewCounter, mapEmplace, List.dropWhile, List.getLast?]

theorem store_run_example :
    storeRun
        (⟨[(3, 10), (7, 42)], (Analyzer.new 1 (1 / 10) 12 54).withRing [⟨0, [(7, 1)], 1⟩]⟩ :
          MapGetFreshTopK Nat Nat) [StoreCall.get 3 (3 / 50)]
      = some ⟨[(3, 10), (7, 42)],
          (Analyzer.new 1 (1 / 10) 12 54).withRing [⟨0, [(3, 1), (7, 1)], 2⟩]⟩ := by
  norm_num [storeRun, storeStep, MapGetFreshTopK.get, dictSubscript, dictFind, AddKey,
    DeleteOldAddNewBuckets, retireOld, Analyzer.new, Analyzer.withRing, BucketInfo.new,
    AddKeyToBuckets, deliver, AddKeyToBucket, IncrementCounter, CreateNewCounter, mapEmplace,
    List.dropWhile, List.getLast?]

theorem store_get_example :
    MapGetFreshTopK.get
        (⟨[(3, 10), (7, 42)],
          (Analyzer.new 1 (1 / 10) 12 54).withRing [⟨0, [(3, 1), (7, 1)], 2⟩]⟩ :
          MapGetFreshTopK Nat Nat) 7 (7 / 100)
      = some (⟨[(3, 10), (7, 42)],
          (Analyzer.new 1 (1 / 10) 12 54).withRing [⟨0, [(3, 1), (7, 2)], 3⟩]⟩, 42) := by
  norm_num [MapGetFreshTopK.get, dictSubscript, dictFind, AddKey,
    DeleteOldAddNewBuckets, retireOld, Analyzer.new, Analyzer.withRing, BucketInfo.new,
    AddKeyToBuckets, deliver, AddKeyToBucket, IncrementCounter, CreateNewCounter, mapEmplace,
    List.dropWhile, List.getLast?]

theorem store_get_missing_example :
    MapGetFreshTopK.get
        (⟨[(3, 10)], (Analyzer.new 1 (1 / 10) 12 54).withRing [BucketInfo.new 0]⟩ :
          MapGetFreshTopK Nat Nat) 9 (1 / 20)
      = some (⟨[(3, 10), (9, 0)],
          (Analyzer.new 1 (1 / 10) 12 54).withRing [⟨0, [(9, 1)], 1⟩]⟩, 0) := by
  norm_num [MapGetFreshTopK.get, dictSubscript, dictFind, dictAssign, AddKey,
    DeleteOldAddNewBuckets, retireOld, Analyzer.new, Analyzer.withRing, BucketInfo.new,
    AddKeyToBuckets, deliver, AddKeyToBucket, IncrementCounter, CreateNewCounter, mapEmplace,
    List.dropWhile, List.getLast?]

/-- Witness for C19: `set(7, 42)`, then `get(3)`, then `get(7)` returns `42`. -/
theorem C19_witness :
    (42 : Nat) = 42 ∧ ∀ k1, k1 ≠ 7 →
      dictFind (⟨[(3, 10), (7, 42)],
          (Analyzer.new 1 (1 / 10) 12 54).withRing [⟨0, [(7, 1)], 1⟩]⟩ :
          MapGetFreshTopK Nat Nat).map_ k1
        = dictFind (⟨[(3, 10)], (Analyzer.new 1 (1 / 10) 12 54).withRing [BucketInfo.new 0]⟩ :
          MapGetFreshTopK Nat Nat).map_ k1 :=
  C19_store_round_trip _ _ _ _ 7 42 42 (1 / 20) (7 / 100) [StoreCall.get 3 (3 / 50)]
    store_set_example store_run_example
    (by
      intro c hc
      simp only [List.mem_singleton] at hc
      subst hc
      simp [StoreCall.setsKey])
    store_get_example

/-- Witness for C20: `get(9)` on a store that maps only key `3` returns the
default value `0` and maps `9` to it. -/
theorem C20_witness :
    match dictFind (⟨[(3, 10)], (Analyzer.new 1 (1 / 10) 12 54).withRing [BucketInfo.new 0]⟩ :
        MapGetFreshTopK Nat Nat).map_ 9 with
    | none => (0 : Nat) = default ∧
        dictFind (⟨[(3, 10), (9, 0)],
          (Analyzer.new 1 (1 / 10) 12 54).withRing [⟨0, [(9, 1)], 1⟩]⟩ :
          MapGetFreshTopK Nat Nat).map_ 9 = some default ∧
        ∀ k1, k1 ≠ 9 →
          dictFind (⟨[(3, 10), (9, 0)],
            (Analyzer.new 1 (1 / 10) 12 54).withRing [⟨0, [(9, 1)], 1⟩]⟩ :
            MapGetFreshTopK Nat Nat).map_ k1
          = dictFind (⟨[(3, 10)],
            (Analyzer.new 1 (1 / 10) 12 54).withRing [BucketInfo.new 0]⟩ :
            MapGetFreshTopK Nat Nat).map_ k1
    | some v => (0 : Nat) = v ∧
        (⟨[(3, 10), (9, 0)], (Analyzer.new 1 (1 / 10) 12 54).withRing [⟨0, [(9, 1)], 1⟩]⟩ :
          MapGetFreshTopK Nat Nat).map_
        = (⟨[(3, 10)], (Analyzer.new 1 (1 / 10) 12 54).withRing [BucketInfo.new 0]⟩ :
          MapGetFreshTopK Nat Nat).map_ :=
  C20_get_missing_key _ _ 9 0 (1 / 20) store_get_missing_example

/-- The `size_t → int` conversion is the identity below `2^31`. -/
theorem size_t_to_int_of_lt (number : Nat) (h : number < 2 ^ 31) :
    size_t_to_int number = (number : Int) := by
  unfold size_t_to_int
  have h1 : number % 2 ^ 32 = number := Nat.mod_eq_of_lt (by omega)
  rw [h1, if_pos h]

/-- For `0 < number < 2^31` a defined `get_top_k(number)` returns
`min(number, number of keys in the oldest bucket)` keys. -/
theorem get_top_k_length_of_lt {V : Type} (s s1 : MapGetFreshTopK K V) (number : Nat)
    (now : ℚ) (ans : List K) (h0 : 0 < number) (h1 : number < 2 ^ 31)
    (h : s.get_top_k number now = some (s1, ans)) :
    ∃ front, s1.analyzer_.buckets_.head? = some front ∧
      ans.length = min number front.bucket_data.length := by
  obtain ⟨_, h2⟩ := get_top_k_some s s1 number now ans h
  rw [size_t_to_int_of_lt number h1] at h2
  obtain ⟨_, front, hf, hans⟩ := GetTopKKeys_some _ _ _ now ans h2
  refine ⟨front, hf, ?_⟩
  have hne : ¬ ((number : Int) = 0) := by omega
  have hmod : (number : Int) % 2 ^ 64 = (number : Int) :=
    Int.emod_eq_of_lt (by omega) (by omega)
  have hlen : (GetBucketSortedByFrequencyKeys front.bucket_data).length
      = front.bucket_data.length := by
    unfold GetBucketSortedByFrequencyKeys
    rw [(List.perm_insertionSort _ _).length_eq, List.length_map]
  rw [hans]
  unfold WeedOutExtraKeysAndInfo
  rw [if_neg hne, hmod]
  simp [hlen]

/-- C16 fails on the code: `get_top_k` takes a `size_t` and passes it to the
`int` parameter of `GetTopKKeys`. For `number = 2^32 + 1 = 4294967297` the
analyzer receives `1`: on an oldest bucket tracking the two keys `7` and `8`
the answer is `[7]`, one key instead of `min(4294967297, 2) = 2`. -/
theorem C16_get_top_k_narrowing :
    size_t_to_int 4294967297 = 1 ∧
    MapGetFreshTopK.get_top_k
        (⟨[], (Analyzer.new 1 (1 / 10) 12 54).withRing
          [⟨0, [(7, 1), (8, 1)], 2⟩, ⟨1 / 2, [(8, 1)], 1⟩]⟩ : MapGetFreshTopK Nat Nat)
        4294967297 1
      = some (⟨[], (Analyzer.new 1 (1 / 10) 12 54).withRing
          [⟨0, [(7, 1), (8, 1)], 2⟩, ⟨1 / 2, [(8, 1)], 1⟩, BucketInfo.new 1]⟩, [7]) ∧
    ([7] : List Nat).length = 1 ∧
    min 4294967297 ([(7, 1), (8, 1)] : List (Nat × Int)).length = 2 := by
  have hconv : size_t_to_int 4294967297 = 1 := by
    norm_num [size_t_to_int]
  have hd1 : DeleteOldAddNewBuckets ((Analyzer.new 1 (1 / 10) 12 54 : Analyzer Nat).withRing
        [⟨0, [(7, 1), (8, 1)], 2⟩, ⟨1 / 2, [(8, 1)], 1⟩]) 1
      = some ((Analyzer.new 1 (1 / 10) 12 54 : Analyzer Nat).withRing
          [⟨0, [(7, 1), (8, 1)], 2⟩, ⟨1 / 2, [(8, 1)], 1⟩, BucketInfo.new 1]) := by
    norm_num [DeleteOldAddNewBuckets, retireOld, Analyzer.new, Analyzer.withRing,
      BucketInfo.new, List.dropWhile, List.getLast?]
  have ha1 : WeedOutExtraKeysAndInfo (1 / 10) 54
      (GetBucketSortedByFrequencyKeys ([(7, 1), (8, 1)] : List (Nat × Int))) 2 1 = [7] := by
    unfold WeedOutExtraKeysAndInfo
    rw [if_neg (by norm_num)]
    decide
  refine ⟨hconv, ?_, rfl, by decide⟩
  unfold MapGetFreshTopK.get_top_k
  rw [hconv, GetTopKKeys_of_maintenance _ _ 1 1 ⟨0, [(7, 1), (8, 1)], 2⟩ hd1 rfl]
  simp only
  exact congrArg (fun l => some (_, l)) ha1

theorem observations_nonneg (c : Call K) : 0 ≤ c.observations := by
  cases c <;> simp [Call.observations]

theorem observations_le_one (c : Call K) : c.observations ≤ 1 := by
  cases c <;> simp [Call.observations]

theorem observedAfter_nil (x : ℚ) : observedAfter x ([] : List (Call K)) = 0 := by
  simp [observedAfter, observeCount]

theorem observedAfter_cons (x : ℚ) (c : Call K) (cs : List (Call K)) :
    observedAfter x (c :: cs)
      = (if x < c.now then c.observations else 0) + observedAfter x cs := by
  unfold observedAfter observeCount
  by_cases h : x < c.now
  · rw [List.filter_cons_of_pos (by simpa using h), if_pos h]
    simp
  · rw [List.filter_cons_of_neg (by simpa using h), if_neg h]
    simp

theorem observedAfter_append_singleton (x : ℚ) (hist : List (Call K)) (c : Call K) :
    observedAfter x (hist ++ [c])
      = observedAfter x hist + (if x < c.now then c.observations else 0) := by
  induction hist with
  | nil => simp [observedAfter_cons, observedAfter_nil]
  | cons c0 rest ih =>
    rw [List.cons_append, observedAfter_cons, observedAfter_cons, ih]
    ring

theorem observedAfter_mono (x y : ℚ) (hxy : x ≤ y) (cs : List (Call K)) :
    observedAfter y cs ≤ observedAfter x cs := by
  induction cs with
  | nil => simp [observedAfter_nil]
  | cons c rest ih =>
    rw [observedAfter_cons, observedAfter_cons]
    have h0 := observations_nonneg c
    by_cases hy : y < c.now
    · have hx : x < c.now := lt_of_le_of_lt hxy hy
      rw [if_pos hy, if_pos hx]
      omega
    · rw [if_neg hy]
      split <;> omega

theorem observedAfter_eq_zero (x : ℚ) (cs : List (Call K)) (h : ∀ c ∈ cs, c.now ≤ x) :
    observedAfter x cs = 0 := by
  induction cs with
  | nil => exact observedAfter_nil x
  | cons c rest ih =>
    rw [observedAfter_cons, ih (fun c1 hc1 => h c1 (List.mem_cons_of_mem _ hc1))]
    have := h c (List.mem_cons_self _ _)
    rw [if_neg (not_lt.2 this)]
    rfl

theorem observedAfter_snoc_le (x : ℚ) (hist : List (Call K)) (c : Call K) :
    observedAfter x (hist ++ [c]) ≤ observedAfter x hist + c.observations := by
  rw [observedAfter_append_singleton]
  have h0 := observations_nonneg c
  split <;> omega

/-- Retiring expired buckets keeps the oldest bucket covering the last `W`:
the successor of an expired bucket has received every observation made more
than one stride after that bucket's creation, hence every one of the last `W`. -/
theorem dropWhile_front_cover (S W F now : ℚ) (hist : List (Call K)) (hFW : F = W + S)
    (l : List (BucketInfo K))
    (hadj : l.Chain' (fun p b : BucketInfo K =>
      observedAfter (p.created_at + S) hist ≤ b.add_new_key_count))
    (hfront : ∀ f ∈ l.head?, observedAfter (now - W) hist ≤ f.add_new_key_count) :
    ∀ f ∈ (l.dropWhile (fun b : BucketInfo K => decide (now - b.created_at > F))).head?,
      observedAfter (now - W) hist ≤ f.add_new_key_count := by
  induction l with
  | nil => simp
  | cons x rest ih =>
    by_cases hp : now - x.created_at > F
    · rw [List.dropWhile_cons_of_pos (by simpa using hp)]
      refine ih hadj.tail ?_
      intro y hy
      cases rest with
      | nil => simp at hy
      | cons y0 r =>
        simp only [List.head?_cons, Option.mem_def, Option.some.injEq] at hy
        subst hy
        have h1 := (List.chain'_cons.1 hadj).1
        have h2 := observedAfter_mono (x.created_at + S) (now - W) (by linarith) hist
        omega
    · rw [List.dropWhile_cons_of_neg (by simpa using hp)]
      exact hfront

/-- Ring maintenance at a clock reading `now ≥ last` preserves the coverage
invariant, and afterwards `now` is at most one stride past the creation of
the newest bucket. -/
theorem DeleteOldAddNewBuckets_CoverInv (a a1 : Analyzer K) (hist : List (Call K))
    (last now : ℚ) (hinv : CoverInv a hist last) (hS : 0 ≤ stride a)
    (hFW : a.full_control_time_ = a.control_time_ + stride a) (hle : last ≤ now)
    (h : DeleteOldAddNewBuckets a now = some a1) :
    CoverInv a1 hist now ∧ ∀ q ∈ a1.buckets_.getLast?, now ≤ q.created_at + stride a1 := by
  obtain ⟨back, hback, hcase⟩ := DeleteOldAddNewBuckets_some a a1 now h
  have hadjK : (retireOld a now).Chain' (fun p b : BucketInfo K =>
      observedAfter (p.created_at + stride a) hist ≤ b.add_new_key_count) :=
    hinv.adj.suffix (List.dropWhile_suffix _)
  have hfrontK : ∀ f ∈ (retireOld a now).head?,
      observedAfter (now - a.control_time_) hist ≤ f.add_new_key_count := by
    refine dropWhile_front_cover (stride a) a.control_time_ a.full_control_time_ now hist hFW
      a.buckets_ hinv.adj ?_
    intro f hf
    have h1 := hinv.front f hf
    have h2 := observedAfter_mono (last - a.control_time_) (now - a.control_time_)
      (by linarith) hist
    omega
  have hbackA : a.buckets_.getLast? = some back := getLast?_dropWhile _ _ back hback
  have htimes : ∀ c ∈ hist, c.now ≤ back.created_at + stride a := hinv.back back hbackA
  have hbornK : ∀ b ∈ retireOld a now, b.created_at ≤ now := by
    intro b hb
    have := hinv.born b ((List.dropWhile_sublist _).subset hb)
    linarith
  have hneK : retireOld a now ≠ [] := by
    intro hnil
    rw [hnil] at hback
    simp at hback
  rcases hcase with ⟨hpush, h1⟩ | ⟨hnopush, h1⟩
  · subst h1
    refine ⟨⟨?_, ?_, ?_, ?_, ?_⟩, ?_⟩
    · show (retireOld a now ++ [BucketInfo.new now]).Chain' (fun p b : BucketInfo K =>
        observedAfter (p.created_at + stride a) hist ≤ b.add_new_key_count)
      refine hadjK.append (List.chain'_singleton _) ?_
      intro x hx y hy
      rw [hback] at hx
      simp only [Option.mem_def, Option.some.injEq] at hx
      simp only [List.head?_cons, Option.mem_def, Option.some.injEq] at hy
      rw [← hx, ← hy, observedAfter_eq_zero _ hist htimes]
      exact le_refl _
    · intro f hf
      have hf2 : f ∈ (retireOld a now).head? := by
        have : (retireOld a now ++ [BucketInfo.new now]).head? = (retireOld a now).head? :=
          List.head?_append_of_ne_nil _ hneK
        simp only [Option.mem_def] at hf ⊢
        rw [← this]
        exact hf
      exact hfrontK f hf2
    · intro q hq c hc
      simp only [List.getLast?_concat, Option.mem_def, Option.some.injEq] at hq
      rw [← hq]
      show c.now ≤ now + stride a
      have := hinv.times c hc
      linarith
    · intro c hc
      have := hinv.times c hc
      linarith
    · intro b hb
      simp only [List.mem_append, List.mem_singleton] at hb
      rcases hb with hb | hb
      · exact hbornK b hb
      · rw [hb]
        exact le_refl _
    · intro q hq
      simp only [List.getLast?_concat, Option.mem_def, Option.some.injEq] at hq
      rw [← hq]
      show now ≤ now + stride a
      linarith
  · subst h1
    refine ⟨⟨hadjK, hfrontK, ?_, ?_, hbornK⟩, ?_⟩
    · intro q hq c hc
      simp only [Option.mem_def] at hq
      rw [hback] at hq
      rw [← Option.some.inj hq]
      exact htimes c hc
    · intro c hc
      have := hinv.times c hc
      linarith
    · intro q hq
      simp only [Option.mem_def] at hq
      rw [hback] at hq
      rw [← Option.some.inj hq]
      show now ≤ back.created_at + stride a
      have : ¬ now - back.created_at > stride a := hnopush
      linarith [not_lt.1 this]

/-- Recording a call made at `now` whose observations were added to the total
of every bucket preserves the coverage invariant. -/
theorem CoverInv_after_call (a : Analyzer K) (hist : List (Call K)) (now : ℚ) (c : Call K)
    (f : BucketInfo K → BucketInfo K) (hc : c.now = now) (hinv : CoverInv a hist now)
    (hextra : ∀ q ∈ a.buckets_.getLast?, now ≤ q.created_at + stride a)
    (hf1 : ∀ b, (f b).created_at = b.created_at)
    (hf2 : ∀ b, (f b).add_new_key_count = b.add_new_key_count + c.observations) :
    CoverInv (a.withRing (a.buckets_.map f)) (hist ++ [c]) now := by
  refine ⟨?_, ?_, ?_, ?_, ?_⟩
  · show (a.buckets_.map f).Chain' (fun p b : BucketInfo K =>
      observedAfter (p.created_at + stride a) (hist ++ [c]) ≤ b.add_new_key_count)
    rw [List.chain'_map]
    refine List.Chain'.imp ?_ hinv.adj
    intro p b hpb
    rw [hf1, hf2]
    have := observedAfter_snoc_le (p.created_at + stride a) hist c
    omega
  · intro g hg
    simp only [Analyzer.withRing, List.head?_map, Option.mem_def, Option.map_eq_some'] at hg
    obtain ⟨g0, hg0, rfl⟩ := hg
    rw [hf2]
    have h1 := hinv.front g0 hg0
    have h2 := observedAfter_snoc_le (now - a.control_time_) hist c
    show observedAfter (now - a.control_time_) (hist ++ [c]) ≤ _
    omega
  · intro q hq c1 hc1
    simp only [Analyzer.withRing, List.getLast?_map, Option.mem_def, Option.map_eq_some'] at hq
    obtain ⟨q0, hq0, rfl⟩ := hq
    rw [hf1]
    show c1.now ≤ q0.created_at + stride a
    rcases List.mem_append.1 hc1 with h1 | h1
    · exact hinv.back q0 hq0 c1 h1
    · simp only [List.mem_singleton] at h1
      rw [h1, hc]
      exact hextra q0 hq0
  · intro c1 hc1
    rcases List.mem_append.1 hc1 with h1 | h1
    · exact hinv.times c1 h1
    · simp only [List.mem_singleton] at h1
      rw [h1, hc]
  · intro b hb
    simp only [Analyzer.withRing, List.mem_map] at hb
    obtain ⟨b0, hb0, rfl⟩ := hb
    rw [hf1]
    exact hinv.born b0 hb0

/-- After maintenance of a ring satisfying the ring invariant, at a clock
reading not earlier than any bucket's creation, the oldest bucket is at least
`(L − 1)` strides old, `L` being the number of live buckets. -/
theorem oldest_age_ge (a a1 : Analyzer K) (now : ℚ) (front : BucketInfo K)
    (hinv : RingInv a) (hS : 0 ≤ stride a) (hF : 0 ≤ a.full_control_time_)
    (hclock : ∀ b ∈ a.buckets_, b.created_at ≤ now)
    (hmaint : DeleteOldAddNewBuckets a now = some a1)
    (hfront : a1.buckets_.head? = some front) :
    ((a1.buckets_.length : ℚ) - 1) * stride a ≤ now - front.created_at := by
  have hc := DeleteOldAddNewBuckets_sameConfig a a1 now hmaint
  have hinv1 : RingInv a1 := DeleteOldAddNewBuckets_RingInv a a1 now hinv hS hF hmaint
  have hS1 : stride a1 = stride a := stride_eq_of_sameConfig hc
  have hchain := hinv1.chain
  cases hbs : a1.buckets_ with
  | nil => rw [hbs] at hfront; simp at hfront
  | cons x l =>
    rw [hbs] at hfront hchain
    simp only [List.head?_cons, Option.some.injEq] at hfront
    subst hfront
    have hne : (x :: l).getLast? ≠ none := by simp
    obtain ⟨back, hback⟩ := Option.ne_none_iff_exists'.1 hne
    have h1 := chain_gap_sum (stride a1) x l hchain back hback
    have hmem : back ∈ a1.buckets_ := by
      rw [hbs]
      exact List.mem_of_getLast?_eq_some hback
    have hbk : back.created_at ≤ now := by
      rcases DeleteOldAddNewBuckets_mem a a1 now hmaint back hmem with h2 | h2
      · exact hclock back h2
      · rw [h2]
        exact le_refl _
    rw [hS1] at h1
    simp only [List.length_cons]
    push_cast
    have e : ((l.length : ℚ) + 1 - 1) * stride a = (l.length : ℚ) * stride a := by ring
    rw [e]
    linarith

/-- One defined call made at a clock reading `≥ last` preserves the coverage
invariant and records the call in the history. -/
theorem step_CoverInv (a a1 : Analyzer K) (c : Call K) (hist : List (Call K)) (last : ℚ)
    (hinv : CoverInv a hist last) (hS : 0 ≤ stride a)
    (hFW : a.full_control_time_ = a.control_time_ + stride a) (hle : last ≤ c.now)
    (h : step a c = some a1) : CoverInv a1 (hist ++ [c]) c.now := by
  cases c with
  | observe key now =>
    simp only [step, AddKey, Option.map_eq_some'] at h
    obtain ⟨a2, h2, rfl⟩ := h
    obtain ⟨h3, h4⟩ := DeleteOldAddNewBuckets_CoverInv a a2 hist last now hinv hS hFW hle h2
    exact CoverInv_after_call a2 hist now (Call.observe key now)
      (fun b => deliver a2.bucket_size_ b key) rfl h3 h4
      (fun b => deliver_created_at _ b key) (fun b => deliver_add_new_key_count _ b key)
  | query number now =>
    simp only [step, Option.map_eq_some'] at h
    obtain ⟨⟨a2, ans⟩, h2, rfl⟩ := h
    obtain ⟨h5, _⟩ := GetTopKKeys_some a a2 number now ans h2
    obtain ⟨h3, h4⟩ := DeleteOldAddNewBuckets_CoverInv a a2 hist last now hinv hS hFW hle h5
    have := CoverInv_after_call a2 hist now (Call.query number now) id rfl h3 h4
      (fun _ => rfl) (fun b => by simp [Call.observations])
    rw [List.map_id] at this
    exact this

/-- A defined run of calls at non-decreasing clock readings preserves the
coverage invariant. -/
theorem run_CoverInv (a a1 : Analyzer K) (rest hist : List (Call K)) (last : ℚ)
    (hinv : CoverInv a hist last) (hS : 0 ≤ stride a)
    (hFW : a.full_control_time_ = a.control_time_ + stride a)
    (hsorted : List.Chain (fun x y : ℚ => x ≤ y) last (rest.map Call.now))
    (h : run a rest = some a1) :
    ∃ last1, CoverInv a1 (hist ++ rest) last1 ∧
      ∀ T, last ≤ T → (∀ c ∈ rest, c.now ≤ T) → last1 ≤ T := by
  induction rest generalizing a hist last with
  | nil =>
    simp only [run, Option.some.injEq] at h
    subst h
    exact ⟨last, by simpa using hinv, fun T hT _ => hT⟩
  | cons c rest ih =>
    simp only [run, Option.bind_eq_some] at h
    obtain ⟨a2, h1, h2⟩ := h
    simp only [List.map_cons, List.chain_cons] at hsorted
    have hc := step_sameConfig a a2 c h1
    have hinv2 := step_CoverInv a a2 c hist last hinv hS hFW hsorted.1 h1
    have hS2 : 0 ≤ stride a2 := by rw [stride_eq_of_sameConfig hc]; exact hS
    have hFW2 : a2.full_control_time_ = a2.control_time_ + stride a2 := by
      rw [stride_eq_of_sameConfig hc, hc.1, hc.2.1]
      exact hFW
    obtain ⟨last1, h3, h4⟩ := ih a2 (hist ++ [c]) c.now hinv2 hS2 hFW2 hsorted.2 h2
    refine ⟨last1, ?_, ?_⟩
    · rw [List.append_assoc] at h3
      exact h3
    · intro T _ hT
      exact h4 T (hT c (List.mem_cons_self _ _))
        (fun c1 hc1 => hT c1 (List.mem_cons_of_mem _ hc1))

/-- The coverage invariant of a ring holding one fresh bucket, before any call. -/
theorem CoverInv_seed (a : Analyzer K) (t0 : ℚ) :
    CoverInv (a.withRing [BucketInfo.new t0]) [] t0 := by
  refine ⟨List.chain'_singleton _, ?_, ?_, ?_, ?_⟩
  · intro f hf
    simp only [Analyzer.withRing, List.head?_cons, Option.mem_def, Option.some.injEq] at hf
    rw [← hf, observedAfter_nil]
    exact le_refl _
  · intro q _ c hc
    simp at hc
  · intro c hc
    simp at hc
  · intro b hb
    simp only [Analyzer.withRing, List.mem_singleton] at hb
    rw [hb]
    exact le_refl _

/-- C11, amended. Window coverage as the code provides it: for `B ≥ 1`,
`W > 0`, a ring that starts with one fresh bucket created at `t0` and any
defined run of calls at non-decreasing clock readings, after ring maintenance
at `now` the oldest live bucket has received every observation made later than
`now − W`, and its age is at least `W·(L−1)/B`, `L` being the number of live
buckets (so at least `W` when the ring holds `B + 1` buckets). -/
theorem C11_window_coverage_amended (W share : ℚ) (B m : Nat) (hB : 1 ≤ B) (hW : 0 < W)
    (t0 : ℚ) (cs : List (Call K)) (a a1 : Analyzer K) (now : ℚ) (front : BucketInfo K)
    (hsorted : List.Chain (fun x y : ℚ => x ≤ y) t0 (cs.map Call.now))
    (hnow : ∀ c ∈ cs, c.now ≤ now) (ht0 : t0 ≤ now)
    (hrun : run ((Analyzer.new W share B m : Analyzer K).withRing [BucketInfo.new t0]) cs
      = some a)
    (hmaint : DeleteOldAddNewBuckets a now = some a1)
    (hfront : a1.buckets_.head? = some front) :
    observedAfter (now - W) cs ≤ front.add_new_key_count ∧
      W * (((a1.buckets_.length : ℚ) - 1) / (B : ℚ)) ≤ now - front.created_at := by
  have hBq : (0 : ℚ) < (B : ℚ) := by exact_mod_cast hB
  have hS0 := stride_new W share B m hB [(BucketInfo.new t0 : BucketInfo K)]
  have hF0 := full_control_time_new W share B m [(BucketInfo.new t0 : BucketInfo K)]
  have hSpos : 0 < W / (B : ℚ) := by positivity
  have hFpos : 0 < W * ((B : ℚ) + 1) / (B : ℚ) := by positivity
  have hW0 : ((Analyzer.new W share B m : Analyzer K).withRing
      [BucketInfo.new t0]).control_time_ = W := rfl
  have hFW0 : ((Analyzer.new W share B m : Analyzer K).withRing
      [BucketInfo.new t0]).full_control_time_
      = ((Analyzer.new W share B m : Analyzer K).withRing [BucketInfo.new t0]).control_time_
        + stride ((Analyzer.new W share B m : Analyzer K).withRing [BucketInfo.new t0]) := by
    rw [hF0, hS0, hW0]
    field_simp
    ring
  have hc := run_sameConfig _ a cs hrun
  have hSa : stride a = W / (B : ℚ) := by rw [stride_eq_of_sameConfig hc, hS0]
  have hFa : a.full_control_time_ = W * ((B : ℚ) + 1) / (B : ℚ) := by rw [hc.2.1, hF0]
  have hWa : a.control_time_ = W := by rw [hc.1, hW0]
  have hFWa : a.full_control_time_ = a.control_time_ + stride a := by
    rw [stride_eq_of_sameConfig hc, hc.1, hc.2.1]
    exact hFW0
  obtain ⟨last1, hcov, hlast⟩ := run_CoverInv _ a cs [] t0 (CoverInv_seed _ t0)
    (by rw [hS0]; exact le_of_lt hSpos) hFW0 hsorted hrun
  have hl1 : last1 ≤ now := hlast now ht0 hnow
  rw [List.nil_append] at hcov
  obtain ⟨hcov1, _⟩ := DeleteOldAddNewBuckets_CoverInv a a1 cs last1 now hcov
    (by rw [hSa]; exact le_of_lt hSpos) hFWa hl1 hmaint
  have hc1 := DeleteOldAddNewBuckets_sameConfig a a1 now hmaint
  refine ⟨?_, ?_⟩
  · have := hcov1.front front hfront
    rw [hc1.1, hWa] at this
    exact this
  · have hinv : RingInv a :=
      run_RingInv _ a cs
        (RingInv_singleton _ _ (by
          have h9 := full_control_time_new W share B m ([] : List (BucketInfo K))
          simp only [Analyzer.withRing] at h9
          rw [h9]
          exact le_of_lt hFpos))
        (by rw [hS0]; exact le_of_lt hSpos) (by rw [hF0]; exact le_of_lt hFpos) hrun
    have hage := oldest_age_ge a a1 now front hinv (by rw [hSa]; exact le_of_lt hSpos)
      (by rw [hFa]; exact le_of_lt hFpos)
      (fun b hb => le_trans (hcov.born b hb) hl1) hmaint hfront
    rw [hSa] at hage
    have e : W * (((a1.buckets_.length : ℚ) - 1) / (B : ℚ))
        = ((a1.buckets_.length : ℚ) - 1) * (W / (B : ℚ)) := by ring
    rw [e]
    exact hage

/-- Witness for amended C11: `W = 1`, `B = 12`, the run `run_example` from a
fresh bucket created at `0`, and maintenance at `1/4`: the oldest bucket has
received both observations and three buckets are live. -/
theorem C11_witness :
    observedAfter ((1 / 4 : ℚ) - 1)
        ([Call.observe 7 (1 / 20), Call.query 0 (1 / 10), Call.observe 7 (3 / 20)] :
          List (Call Nat))
      ≤ (⟨0, [(7, 2)], 2⟩ : BucketInfo Nat).add_new_key_count ∧
    (1 : ℚ) * (((((Analyzer.new 1 (1 / 10) 12 54 : Analyzer Nat).withRing
        [⟨0, [(7, 2)], 2⟩, ⟨1 / 10, [(7, 1)], 1⟩, BucketInfo.new (1 / 4)]).buckets_.length : ℚ)
          - 1) / ((12 : Nat) : ℚ))
      ≤ 1 / 4 - (⟨0, [(7, 2)], 2⟩ : BucketInfo Nat).created_at :=
  C11_window_coverage_amended 1 (1 / 10) 12 54 (by norm_num) (by norm_num) 0
    [Call.observe 7 (1 / 20), Call.query 0 (1 / 10), Call.observe 7 (3 / 20)] _ _ (1 / 4)
    ⟨0, [(7, 2)], 2⟩ (by norm_num [Call.now])
    (by
      intro c hc
      simp only [List.mem_cons, List.mem_singleton, List.not_mem_nil, or_false] at hc
      rcases hc with rfl | rfl | rfl <;> norm_num [Call.now])
    (by norm_num) run_example maintenance_example rfl

theorem keysOf_IncrementCounter (d : List (K × Int)) (key : K) :
    keysOf (IncrementCounter d key).1 = keysOf d := by
  induction d with
  | nil => rfl
  | cons e rest ih =>
    obtain ⟨k, c⟩ := e
    by_cases h : k = key
    · simp [IncrementCounter, keysOf, h]
    · simp only [IncrementCounter, h, if_false, keysOf, List.map_cons] at ih ⊢
      rw [ih]

theorem mapFind_IncrementCounter (d : List (K × Int)) (key k : K) :
    mapFind (IncrementCounter d key).1 k
      = if k = key then (mapFind d key).map (fun c => c + 1) else mapFind d k := by
  induction d with
  | nil => simp [IncrementCounter, mapFind]
  | cons e rest ih =>
    obtain ⟨k0, c0⟩ := e
    by_cases h : k0 = key
    · subst h
      by_cases hk : k = k0
      · subst hk
        simp [IncrementCounter, mapFind]
      · have hk2 : ¬ k0 = k := fun h3 => hk h3.symm
        simp [IncrementCounter, mapFind, hk, hk2]
    · simp only [IncrementCounter, h, if_false, mapFind]
      by_cases hk : k0 = k
      · have hk2 : ¬ k = key := fun h3 => h (hk.trans h3)
        simp [hk, hk2]
      · simp only [hk, if_false]
        exact ih

theorem IncrementCounter_true_of_mapFind (d : List (K × Int)) (key : K) (c : Int)
    (h : mapFind d key = some c) : (IncrementCounter d key).2 = true := by
  by_contra hne
  have h1 : (IncrementCounter d key).2 = false := by simpa using hne
  have h2 := (mapFind_eq_none_iff d key).2 ((IncrementCounter_false d key).1 h1)
  rw [h2] at h
  cases h

theorem IncrementCounter_false_of_mapFind (d : List (K × Int)) (key : K)
    (h : mapFind d key = none) : (IncrementCounter d key).2 = false :=
  (IncrementCounter_false d key).2 ((mapFind_eq_none_iff d key).1 h)

/-- The increment case of `AddKeyToBucket`. -/
theorem AddKeyToBucket_increment (m : Nat) (b : BucketInfo K) (key : K) (c : Int)
    (h : mapFind b.bucket_data key = some c) :
    AddKeyToBucket m b key = { b with bucket_data := (IncrementCounter b.bucket_data key).1 } := by
  unfold AddKeyToBucket
  simp only [IncrementCounter_true_of_mapFind _ key c h, if_true]

/-- The create case of `AddKeyToBucket`. -/
theorem AddKeyToBucket_create (m : Nat) (b : BucketInfo K) (key : K)
    (h : mapFind b.bucket_data key = none) (hroom : b.bucket_data.length < m) :
    AddKeyToBucket m b key = { b with bucket_data := mapEmplace b.bucket_data key 1 } := by
  unfold AddKeyToBucket CreateNewCounter
  simp only [IncrementCounter_false_of_mapFind _ key h, hroom, if_true, Bool.false_eq_true,
    if_false]

/-- The evict-zero case of `AddKeyToBucket`. -/
theorem AddKeyToBucket_evict (m : Nat) (b : BucketInfo K) (key : K) (erased : List (K × Int))
    (h : mapFind b.bucket_data key = none) (hfull : ¬ b.bucket_data.length < m)
    (hz : eraseFirstZero b.bucket_data = some erased) :
    AddKeyToBucket m b key = { b with bucket_data := mapAssign erased key 1 } := by
  unfold AddKeyToBucket CreateNewCounter
  simp only [IncrementCounter_false_of_mapFind _ key h, hfull, hz, if_true, Bool.false_eq_true,
    if_false]

/-- The decrement-all case of `AddKeyToBucket`. -/
theorem AddKeyToBucket_decrement (m : Nat) (b : BucketInfo K) (key : K)
    (h : mapFind b.bucket_data key = none) (hfull : ¬ b.bucket_data.length < m)
    (hz : eraseFirstZero b.bucket_data = none) :
    AddKeyToBucket m b key
      = { b with bucket_data := DecreaseAllCounters b.bucket_data key } := by
  unfold AddKeyToBucket CreateNewCounter
  simp only [IncrementCounter_false_of_mapFind _ key h, hfull, hz, Bool.false_eq_true,
    if_false]

theorem mapFind_mapEmplace (d : List (K × Int)) (key : K) (v : Int) (k : K)
    (h : mapFind d key = none) :
    mapFind (mapEmplace d key v) k = if k = key then some v else mapFind d k := by
  induction d with
  | nil =>
    by_cases hk : k = key
    · simp [mapEmplace, mapFind, hk]
    · have hk2 : ¬ key = k := fun h3 => hk h3.symm
      simp [mapEmplace, mapFind, hk, hk2]
  | cons e rest ih =>
    obtain ⟨k0, c0⟩ := e
    have hk0 : ¬ k0 = key := by
      intro h3
      simp [mapFind, h3] at h
    have hrest : mapFind rest key = none := by
      simpa [mapFind, hk0] using h
    have hk0' : ¬ key = k0 := fun h3 => hk0 h3.symm
    unfold mapEmplace
    by_cases h1 : key < k0
    · rw [if_pos h1]
      by_cases hk : k = key
      · simp [mapFind, hk]
      · have hk2 : ¬ key = k := fun h3 => hk h3.symm
        simp [mapFind, hk, hk2]
    · rw [if_neg h1, if_neg hk0']
      by_cases hkk : k0 = k
      · have hk : ¬ k = key := fun h3 => hk0 (hkk.trans h3)
        simp [mapFind, hkk, hk]
      · simp only [mapFind, hkk, if_false]
        exact ih hrest

theorem mapFind_mapAssign (d : List (K × Int)) (key : K) (v : Int) (k : K) :
    mapFind (mapAssign d key v) k = if k = key then some v else mapFind d k := by
  induction d with
  | nil =>
    by_cases hk : k = key
    · simp [mapAssign, mapFind, hk]
    · have hk2 : ¬ key = k := fun h => hk h.symm
      simp [mapAssign, mapFind, hk, hk2]
  | cons e rest ih =>
    obtain ⟨k0, v0⟩ := e
    unfold mapAssign
    by_cases h1 : key < k0
    · rw [if_pos h1]
      by_cases hk : k = key
      · simp [mapFind, hk]
      · have hk2 : ¬ key = k := fun h => hk h.symm
        simp [mapFind, hk, hk2]
    · rw [if_neg h1]
      by_cases h2 : key = k0
      · rw [if_pos h2]
        subst h2
        by_cases hk : k = key
        · simp [mapFind, hk]
        · have hk2 : ¬ key = k := fun h => hk h.symm
          simp [mapFind, hk, hk2]
      · rw [if_neg h2]
        by_cases hk0 : k0 = k
        · subst hk0
          have hk : ¬ k0 = key := fun h => h2 h.symm
          simp [mapFind, hk]
        · simp only [mapFind, hk0, if_false]
          exact ih

/-- What the scan for a zero counter erases: the first entry, in iteration
order, whose counter is `0`. -/
theorem eraseFirstZero_eq_some_iff (d erased : List (K × Int)) :
    eraseFirstZero d = some erased ↔
      ∃ pre z post, d = pre ++ (z, 0) :: post ∧ (∀ e ∈ pre, e.2 ≠ 0) ∧
        erased = pre ++ post := by
  induction d generalizing erased with
  | nil =>
    unfold eraseFirstZero
    constructor
    · intro h
      cases h
    · rintro ⟨pre, z, post, h, _⟩
      cases pre <;> simp at h
  | cons e rest ih =>
    obtain ⟨k, c⟩ := e
    unfold eraseFirstZero
    by_cases hc : c = 0
    · subst hc
      simp only [if_true, Option.some.injEq]
      constructor
      · intro h
        exact ⟨[], k, rest, rfl, by simp, by simp [h]⟩
      · rintro ⟨pre, z, post, h1, h2, h3⟩
        cases pre with
        | nil =>
          simp only [List.nil_append, List.cons.injEq, Prod.mk.injEq] at h1
          rw [h3, h1.2]
          rfl
        | cons p pre1 =>
          simp only [List.cons_append, List.cons.injEq] at h1
          have := h2 p (List.mem_cons_self _ _)
          rw [← h1.1] at this
          exact absurd rfl this
    · simp only [hc, if_false, Option.map_eq_some']
      constructor
      · rintro ⟨r, hr, rfl⟩
        obtain ⟨pre, z, post, h1, h2, h3⟩ := (ih r).1 hr
        refine ⟨(k, c) :: pre, z, post, by rw [h1]; rfl, ?_, by rw [h3]; rfl⟩
        intro e he
        rcases List.mem_cons.1 he with rfl | he
        · exact hc
        · exact h2 e he
      · rintro ⟨pre, z, post, h1, h2, h3⟩
        cases pre with
        | nil =>
          simp only [List.nil_append, List.cons.injEq, Prod.mk.injEq] at h1
          exact absurd h1.1.2 hc
        | cons p pre1 =>
          simp only [List.cons_append, List.cons.injEq] at h1
          refine ⟨pre1 ++ post, (ih _).2 ⟨pre1, z, post, h1.2, ?_, rfl⟩, ?_⟩
          · intro e he
            exact h2 e (List.mem_cons_of_mem _ he)
          · rw [h3, h1.1]
            rfl

theorem eraseFirstZero_isSome_of_zero (d : List (K × Int)) (h : ∃ e ∈ d, e.2 = 0) :
    ∃ erased, eraseFirstZero d = some erased := by
  cases hz : eraseFirstZero d with
  | some erased => exact ⟨erased, rfl⟩
  | none =>
    obtain ⟨e, he, h0⟩ := h
    exact absurd h0 (eraseFirstZero_none d hz e he)

theorem mem_keysOf_mapEmplace (d : List (K × Int)) (key : K) (v : Int) (k : K)
    (h : k ∈ keysOf (mapEmplace d key v)) : k = key ∨ k ∈ keysOf d := by
  induction d with
  | nil =>
    simp only [mapEmplace, keysOf, List.map_cons, List.map_nil, List.mem_singleton] at h
    exact Or.inl h
  | cons e rest ih =>
    obtain ⟨k0, c0⟩ := e
    unfold mapEmplace at h
    by_cases h1 : key < k0
    · rw [if_pos h1] at h
      simp only [keysOf, List.map_cons, List.mem_cons] at h ⊢
      exact h
    · rw [if_neg h1] at h
      by_cases h2 : key = k0
      · rw [if_pos h2] at h
        exact Or.inr h
      · rw [if_neg h2] at h
        simp only [keysOf, List.map_cons, List.mem_cons] at h ih ⊢
        rcases h with h | h
        · exact Or.inr (Or.inl h)
        · rcases ih h with h3 | h3
          · exact Or.inl h3
          · exact Or.inr (Or.inr h3)

theorem mem_keysOf_mapAssign (d : List (K × Int)) (key : K) (v : Int) (k : K)
    (h : k ∈ keysOf (mapAssign d key v)) : k = key ∨ k ∈ keysOf d := by
  induction d with
  | nil =>
    simp only [mapAssign, keysOf, List.map_cons, List.map_nil, List.mem_singleton] at h
    exact Or.inl h
  | cons e rest ih =>
    obtain ⟨k0, c0⟩ := e
    unfold mapAssign at h
    by_cases h1 : key < k0
    · rw [if_pos h1] at h
      simp only [keysOf, List.map_cons, List.mem_cons] at h ⊢
      exact h
    · rw [if_neg h1] at h
      by_cases h2 : key = k0
      · rw [if_pos h2] at h
        simp only [keysOf, List.map_cons, List.mem_cons] at h ⊢
        exact Or.inr h
      · rw [if_neg h2] at h
        simp only [keysOf, List.map_cons, List.mem_cons] at h ih ⊢
        rcases h with h | h
        · exact Or.inr (Or.inl h)
        · rcases ih h with h3 | h3
          · exact Or.inl h3
          · exact Or.inr (Or.inr h3)

/-- `emplace` keeps the table in ascending key order. -/
theorem sorted_mapEmplace (d : List (K × Int)) (key : K) (v : Int)
    (hs : (keysOf d).Sorted (fun x y => x < y)) :
    (keysOf (mapEmplace d key v)).Sorted (fun x y => x < y) := by
  induction d with
  | nil => simp [mapEmplace, keysOf]
  | cons e rest ih =>
    obtain ⟨k0, c0⟩ := e
    have hs0 : (∀ b ∈ keysOf rest, k0 < b) ∧ (keysOf rest).Sorted (fun x y => x < y) := by
      simpa [keysOf] using hs
    unfold mapEmplace
    by_cases h1 : key < k0
    · rw [if_pos h1]
      simp only [keysOf, List.map_cons, List.sorted_cons, List.mem_cons]
      refine ⟨?_, ?_, ?_⟩
      · rintro b (hb | hb)
        · rw [hb]
          exact h1
        · exact lt_trans h1 (hs0.1 b hb)
      · exact hs0.1
      · exact hs0.2
    · rw [if_neg h1]
      by_cases h2 : key = k0
      · rw [if_pos h2]
        exact hs
      · rw [if_neg h2]
        have hlt : k0 < key := lt_of_le_of_ne (not_lt.1 h1) (fun h3 => h2 h3.symm)
        have h3 := ih hs0.2
        simp only [keysOf, List.map_cons, List.sorted_cons] at h3 ⊢
        refine ⟨?_, h3⟩
        intro b hb
        rcases mem_keysOf_mapEmplace rest key v b hb with h4 | h4
        · rw [h4]
          exact hlt
        · exact hs0.1 b h4

/-- The assignment `bucket_data[key] = v` keeps the table in ascending key order. -/
theorem sorted_mapAssign (d : List (K × Int)) (key : K) (v : Int)
    (hs : (keysOf d).Sorted (fun x y => x < y)) :
    (keysOf (mapAssign d key v)).Sorted (fun x y => x < y) := by
  induction d with
  | nil => simp [mapAssign, keysOf]
  | cons e rest ih =>
    obtain ⟨k0, c0⟩ := e
    have hs0 : (∀ b ∈ keysOf rest, k0 < b) ∧ (keysOf rest).Sorted (fun x y => x < y) := by
      simpa [keysOf] using hs
    unfold mapAssign
    by_cases h1 : key < k0
    · rw [if_pos h1]
      simp only [keysOf, List.map_cons, List.sorted_cons, List.mem_cons]
      refine ⟨?_, ?_, ?_⟩
      · rintro b (hb | hb)
        · rw [hb]
          exact h1
        · exact lt_trans h1 (hs0.1 b hb)
      · exact hs0.1
      · exact hs0.2
    · rw [if_neg h1]
      by_cases h2 : key = k0
      · rw [if_pos h2]
        exact hs
      · rw [if_neg h2]
        have hlt : k0 < key := lt_of_le_of_ne (not_lt.1 h1) (fun h3 => h2 h3.symm)
        have h3 := ih hs0.2
        simp only [keysOf, List.map_cons, List.sorted_cons] at h3 ⊢
        refine ⟨?_, h3⟩
        intro b hb
        rcases mem_keysOf_mapAssign rest key v b hb with h4 | h4
        · rw [h4]
          exact hlt
        · exact hs0.1 b h4

theorem nodup_of_sorted_keys (d : List (K × Int))
    (hs : (keysOf d).Sorted (fun x y => x < y)) : (keysOf d).Nodup :=
  List.Pairwise.imp (fun h => ne_of_lt h) hs

/-- Looking up a key other than the erased one is not affected by the erasure. -/
theorem mapFind_erase_middle (pre post : List (K × Int)) (z : K) (c : Int) (k : K)
    (hk : k ≠ z) : mapFind (pre ++ (z, c) :: post) k = mapFind (pre ++ post) k := by
  induction pre with
  | nil =>
    have : ¬ z = k := fun h => hk h.symm
    simp [mapFind, this]
  | cons e rest ih =>
    obtain ⟨k0, c0⟩ := e
    by_cases h : k0 = k
    · simp [mapFind, h]
    · simp only [List.cons_append, mapFind, h, if_false]
      exact ih

/-- One `AddKeyToBucket` keeps the table in ascending key order. -/
theorem AddKeyToBucket_sorted (m : Nat) (b : BucketInfo K) (key : K)
    (hs : (keysOf b.bucket_data).Sorted (fun x y => x < y)) :
    (keysOf (AddKeyToBucket m b key).bucket_data).Sorted (fun x y => x < y) := by
  cases hf : mapFind b.bucket_data key with
  | some c =>
    rw [AddKeyToBucket_increment m b key c hf]
    show (keysOf (IncrementCounter b.bucket_data key).1).Sorted (fun x y => x < y)
    rw [keysOf_IncrementCounter]
    exact hs
  | none =>
    by_cases hroom : b.bucket_data.length < m
    · rw [AddKeyToBucket_create m b key hf hroom]
      exact sorted_mapEmplace _ key 1 hs
    · cases hz : eraseFirstZero b.bucket_data with
      | some erased =>
        rw [AddKeyToBucket_evict m b key erased hf hroom hz]
        obtain ⟨pre, z, post, h1, _, h3⟩ := (eraseFirstZero_eq_some_iff _ _).1 hz
        refine sorted_mapAssign erased key 1 ?_
        have hsub : List.Sublist erased b.bucket_data := by
          rw [h1, h3]
          exact List.Sublist.append (List.Sublist.refl _) (List.sublist_cons_self _ _)
        exact List.Pairwise.sublist (List.Sublist.map Prod.fst hsub) hs
      | none =>
        rw [AddKeyToBucket_decrement m b key hf hroom hz]
        show (keysOf (DecreaseAllCounters b.bucket_data key)).Sorted (fun x y => x < y)
        rw [keysOf_DecreaseAllCounters]
        exact hs

/-- Every table reached from a fresh bucket is in ascending key order, the
iteration order of `std::map`. -/
theorem deliverAll_sorted (m : Nat) (keys : List K) (b : BucketInfo K)
    (hs : (keysOf b.bucket_data).Sorted (fun x y => x < y)) :
    (keysOf (deliverAll m b keys).bucket_data).Sorted (fun x y => x < y) := by
  induction keys generalizing b with
  | nil => exact hs
  | cons key rest ih =>
    simp only [deliverAll, List.foldl_cons] at ih ⊢
    refine ih (deliver m b key) ?_
    rw [deliver_bucket_data]
    exact AddKeyToBucket_sorted m b key hs

/-- C26. Increment case: if the observed key has a counter `c`, the delivery
raises that counter to `c + 1`, leaves the keys of the table and every other
counter as they were, and raises the total by 1. -/
theorem C26_increment_case (m : Nat) (b : BucketInfo K) (key : K) (c : Int)
    (h : mapFind b.bucket_data key = some c) :
    mapFind (deliver m b key).bucket_data key = some (c + 1) ∧
      keysOf (deliver m b key).bucket_data = keysOf b.bucket_data ∧
      (∀ k, k ≠ key → mapFind (deliver m b key).bucket_data k = mapFind b.bucket_data k) ∧
      (deliver m b key).add_new_key_count = b.add_new_key_count + 1 := by
  have hd : (deliver m b key).bucket_data = (IncrementCounter b.bucket_data key).1 := by
    rw [deliver_bucket_data, AddKeyToBucket_increment m b key c h]
  refine ⟨?_, ?_, ?_, deliver_add_new_key_count m b key⟩
  · rw [hd, mapFind_IncrementCounter, if_pos rfl, h]
    rfl
  · rw [hd, keysOf_IncrementCounter]
  · intro k hk
    rw [hd, mapFind_IncrementCounter, if_neg hk]

/-- Witness for C26: key `3` with counter `4` in a table of three entries. -/
theorem C26_witness :
    mapFind (deliver 3 (⟨0, [(1, 2), (3, 4), (5, 0)], 6⟩ : BucketInfo Nat) 3).bucket_data 3
      = some (4 + 1) :=
  (C26_increment_case 3 ⟨0, [(1, 2), (3, 4), (5, 0)], 6⟩ 3 4 (by decide)).1

/-- C27. Create case: if the observed key has no counter and the table holds
fewer than `m` entries, the delivery inserts the key with count 1, leaves every
existing counter as it was, and raises the total by 1. -/
theorem C27_create_case (m : Nat) (b : BucketInfo K) (key : K)
    (h : mapFind b.bucket_data key = none) (hroom : b.bucket_data.length < m) :
    (deliver m b key).bucket_data = mapEmplace b.bucket_data key 1 ∧
      mapFind (deliver m b key).bucket_data key = some 1 ∧
      (∀ k, k ≠ key → mapFind (deliver m b key).bucket_data k = mapFind b.bucket_data k) ∧
      (deliver m b key).bucket_data.Perm ((key, 1) :: b.bucket_data) ∧
      (deliver m b key).bucket_data.length = b.bucket_data.length + 1 ∧
      (deliver m b key).add_new_key_count = b.add_new_key_count + 1 := by
  have hd : (deliver m b key).bucket_data = mapEmplace b.bucket_data key 1 := by
    rw [deliver_bucket_data, AddKeyToBucket_create m b key h hroom]
  have hperm := mapEmplace_perm b.bucket_data key 1 ((mapFind_eq_none_iff _ key).1 h)
  refine ⟨hd, ?_, ?_, ?_, ?_, deliver_add_new_key_count m b key⟩
  · rw [hd, mapFind_mapEmplace _ key 1 key h, if_pos rfl]
  · intro k hk
    rw [hd, mapFind_mapEmplace _ key 1 k h, if_neg hk]
  · rw [hd]
    exact hperm
  · rw [hd, hperm.length_eq]
    rfl

/-- Witness for C27: key `4` observed on a table of two entries, capacity 3. -/
theorem C27_witness :
    (deliver 3 (⟨0, [(1, 2), (5, 0)], 3⟩ : BucketInfo Nat) 4).bucket_data
      = mapEmplace [(1, 2), (5, 0)] 4 1 :=
  (C27_create_case 3 ⟨0, [(1, 2), (5, 0)], 3⟩ 4 (by decide) (by decide)).1

/-- C28. Evict-zero case: on a table in key order, if the observed key has no
counter, the table holds at least `m` entries and some counter is `0`, the
delivery erases the entry of the least key `z` whose counter is `0`, inserts
the observed key with count 1, leaves every other counter as it was, keeps the
size of the table and its key order, and raises the total by 1. -/
theorem C28_evict_zero_case (m : Nat) (b : BucketInfo K) (key : K)
    (hs : (keysOf b.bucket_data).Sorted (fun x y => x < y))
    (h : mapFind b.bucket_data key = none) (hfull : m ≤ b.bucket_data.length)
    (hzero : ∃ e ∈ b.bucket_data, e.2 = 0) :
    ∃ z, mapFind b.bucket_data z = some 0 ∧
      (∀ k, mapFind b.bucket_data k = some 0 → z ≤ k) ∧
      mapFind (deliver m b key).bucket_data key = some 1 ∧
      mapFind (deliver m b key).bucket_data z = none ∧
      (∀ k, k ≠ key → k ≠ z →
        mapFind (deliver m b key).bucket_data k = mapFind b.bucket_data k) ∧
      (deliver m b key).bucket_data.length = b.bucket_data.length ∧
      (keysOf (deliver m b key).bucket_data).Sorted (fun x y => x < y) ∧
      (deliver m b key).add_new_key_count = b.add_new_key_count + 1 := by
  obtain ⟨erased, hz⟩ := eraseFirstZero_isSome_of_zero _ hzero
  obtain ⟨pre, z, post, h1, h2, h3⟩ := (eraseFirstZero_eq_some_iff _ _).1 hz
  have hd : (deliver m b key).bucket_data = mapAssign erased key 1 := by
    rw [deliver_bucket_data, AddKeyToBucket_evict m b key erased h (by omega) hz]
  have hnd := nodup_of_sorted_keys _ hs
  have hzmem : (z, (0 : Int)) ∈ b.bucket_data := by
    rw [h1]
    simp
  have hfz : mapFind b.bucket_data z = some 0 := (mapFind_eq_some_iff _ hnd z 0).2 hzmem
  have hkz : key ≠ z := by
    intro h4
    rw [h4, hfz] at h
    cases h
  -- the keys of `pre`, `z`, the keys of `post` are in ascending order
  have hs1 : (keysOf pre ++ z :: keysOf post).Sorted (fun x y => x < y) := by
    have := hs
    rw [h1] at this
    simpa [keysOf] using this
  have hs2 := List.pairwise_append.1 hs1
  have hzpost : ∀ k ∈ keysOf post, z < k := (List.pairwise_cons.1 hs2.2.1).1
  have hprez : ∀ k ∈ keysOf pre, k < z := fun k hk => hs2.2.2 k hk z (List.mem_cons_self _ _)
  have hze : z ∉ keysOf erased := by
    rw [h3]
    simp only [keysOf, List.map_append, List.mem_append, not_or]
    exact ⟨fun h4 => lt_irrefl z (hprez z h4), fun h4 => lt_irrefl z (hzpost z h4)⟩
  have hke : key ∉ keysOf erased := by
    intro h4
    have hsub : keysOf erased ⊆ keysOf b.bucket_data := by
      rw [h1, h3]
      intro x hx
      simp only [keysOf, List.map_append, List.mem_append, List.map_cons, List.mem_cons] at hx ⊢
      rcases hx with hx | hx
      · exact Or.inl hx
      · exact Or.inr (Or.inr hx)
    exact (mapFind_eq_none_iff _ key).1 h (hsub h4)
  refine ⟨z, hfz, ?_, ?_, ?_, ?_, ?_, ?_, deliver_add_new_key_count m b key⟩
  · intro k hk
    have hmem := (mapFind_eq_some_iff _ hnd k 0).1 hk
    rw [h1] at hmem
    rcases List.mem_append.1 hmem with h4 | h4
    · exact absurd rfl (h2 (k, 0) h4)
    · rcases List.mem_cons.1 h4 with h5 | h5
      · rw [(Prod.mk.inj h5).1]
      · exact le_of_lt (hzpost k (List.mem_map_of_mem Prod.fst h5))
  · rw [hd, mapFind_mapAssign, if_pos rfl]
  · rw [hd, mapFind_mapAssign, if_neg (fun h4 => hkz h4.symm)]
    exact (mapFind_eq_none_iff _ z).2 hze
  · intro k hk1 hk2
    rw [hd, mapFind_mapAssign, if_neg hk1, h1, h3]
    exact (mapFind_erase_middle pre post z 0 k hk2).symm
  · rw [hd, (mapAssign_perm erased key 1 hke).length_eq, h1, h3]
    simp only [List.length_cons, List.length_append]
    omega
  · rw [hd]
    refine sorted_mapAssign erased key 1 ?_
    have hsub : List.Sublist erased b.bucket_data := by
      rw [h1, h3]
      exact List.Sublist.append (List.Sublist.refl _) (List.sublist_cons_self _ _)
    exact List.Pairwise.sublist (List.Sublist.map Prod.fst hsub) hs

/-- Witness for C28: capacity 3, table `1 ↦ 2, 3 ↦ 0, 5 ↦ 0`, key `4` observed:
the entry of key `3` is erased. -/
theorem C28_witness :
    ∃ z, mapFind ([(1, 2), (3, 0), (5, 0)] : List (Nat × Int)) z = some 0 ∧
      (∀ k, mapFind ([(1, 2), (3, 0), (5, 0)] : List (Nat × Int)) k = some 0 → z ≤ k) ∧
      mapFind (deliver 3 (⟨0, [(1, 2), (3, 0), (5, 0)], 7⟩ : BucketInfo Nat) 4).bucket_data 4
        = some 1 ∧
      mapFind (deliver 3 (⟨0, [(1, 2), (3, 0), (5, 0)], 7⟩ : BucketInfo Nat) 4).bucket_data z
        = none ∧
      (∀ k, k ≠ 4 → k ≠ z →
        mapFind (deliver 3 (⟨0, [(1, 2), (3, 0), (5, 0)], 7⟩ : BucketInfo Nat) 4).bucket_data k
          = mapFind ([(1, 2), (3, 0), (5, 0)] : List (Nat × Int)) k) ∧
      (deliver 3 (⟨0, [(1, 2), (3, 0), (5, 0)], 7⟩ : BucketInfo Nat) 4).bucket_data.length
        = ([(1, 2), (3, 0), (5, 0)] : List (Nat × Int)).length ∧
      (keysOf (deliver 3 (⟨0, [(1, 2), (3, 0), (5, 0)], 7⟩ : BucketInfo Nat) 4).bucket_data).Sorted
        (fun x y => x < y) ∧
      (deliver 3 (⟨0, [(1, 2), (3, 0), (5, 0)], 7⟩ : BucketInfo Nat) 4).add_new_key_count
        = 7 + 1 :=
  C28_evict_zero_case 3 ⟨0, [(1, 2), (3, 0), (5, 0)], 7⟩ 4 (by simp [keysOf]) (by decide)
    (by decide) ⟨(3, 0), by simp, rfl⟩

/-- C29. Decrement-all case: if the observed key has no counter, the table
holds at least `m` entries and every counter is positive, the delivery
decrements every counter by 1, none below 0, does not insert the observed key,
leaves the keys of the table as they were, and raises the total by 1. -/
theorem C29_decrement_all_case (m : Nat) (b : BucketInfo K) (key : K)
    (h : mapFind b.bucket_data key = none) (hfull : m ≤ b.bucket_data.length)
    (hnz : ∀ e ∈ b.bucket_data, e.2 ≠ 0) (hnn : ∀ e ∈ b.bucket_data, 0 ≤ e.2) :
    (deliver m b key).bucket_data = b.bucket_data.map (fun e => (e.1, e.2 - 1)) ∧
      (∀ e ∈ (deliver m b key).bucket_data, 0 ≤ e.2) ∧
      keysOf (deliver m b key).bucket_data = keysOf b.bucket_data ∧
      mapFind (deliver m b key).bucket_data key = none ∧
      (deliver m b key).add_new_key_count = b.add_new_key_count + 1 := by
  have hz : eraseFirstZero b.bucket_data = none := by
    cases hz : eraseFirstZero b.bucket_data with
    | none => rfl
    | some erased =>
      obtain ⟨pre, z, post, h1, _, _⟩ := (eraseFirstZero_eq_some_iff _ _).1 hz
      exact absurd rfl (hnz (z, 0) (by rw [h1]; simp))
  have hd : (deliver m b key).bucket_data = DecreaseAllCounters b.bucket_data key := by
    rw [deliver_bucket_data, AddKeyToBucket_decrement m b key h (by omega) hz]
  have hmap : DecreaseAllCounters b.bucket_data key
      = b.bucket_data.map (fun e => (e.1, e.2 - 1)) := by
    unfold DecreaseAllCounters
    apply List.map_congr_left
    intro e he
    have h1 := hnz e he
    have h2 := hnn e he
    have h3 : e.2 > 0 := by omega
    simp [h3]
  refine ⟨by rw [hd, hmap], ?_, ?_, ?_, deliver_add_new_key_count m b key⟩
  · intro e he
    rw [hd, hmap] at he
    simp only [List.mem_map] at he
    obtain ⟨e0, he0, rfl⟩ := he
    have h1 := hnz e0 he0
    have h2 := hnn e0 he0
    show 0 ≤ e0.2 - 1
    omega
  · rw [hd, keysOf_DecreaseAllCounters]
  · rw [hd, mapFind_eq_none_iff, keysOf_DecreaseAllCounters]
    exact (mapFind_eq_none_iff _ key).1 h

/-- Witness for C29: capacity 2, table `1 ↦ 2, 5 ↦ 1`, key `4` observed. -/
theorem C29_witness :
    (deliver 2 (⟨0, [(1, 2), (5, 1)], 3⟩ : BucketInfo Nat) 4).bucket_data
      = ([(1, 2), (5, 1)] : List (Nat × Int)).map (fun e => (e.1, e.2 - 1)) :=
  (C29_decrement_all_case 2 ⟨0, [(1, 2), (5, 1)], 3⟩ 4 (by decide) (by decide) (by decide)
    (by decide)).1

/-- The first observation of `k` on a fresh bucket of capacity `m ≥ 1`. -/
theorem deliver_fresh (m : Nat) (hm : 1 ≤ m) (t : ℚ) (k : K) :
    deliver m (BucketInfo.new t) k = ⟨t, [(k, 1)], 1⟩ := by
  have hroom : (0 : Nat) < m := by omega
  simp [deliver, AddKeyToBucket, IncrementCounter, CreateNewCounter, mapEmplace,
    BucketInfo.new, hroom]

/-- A further observation of the only key of the table. -/
theorem deliver_single (m : Nat) (t : ℚ) (k : K) (c N : Int) :
    deliver m ⟨t, [(k, c)], N⟩ k = ⟨t, [(k, c + 1)], N + 1⟩ := by
  simp [deliver, AddKeyToBucket, IncrementCounter]

theorem deliverAll_single (m : Nat) (t : ℚ) (k : K) (n : Nat) (c N : Int) :
    deliverAll m ⟨t, [(k, c)], N⟩ (List.replicate n k) = ⟨t, [(k, c + n)], N + n⟩ := by
  induction n generalizing c N with
  | zero => simp [deliverAll]
  | succ n ih =>
    have h := ih (c + 1) (N + 1)
    simp only [deliverAll, List.replicate_succ, List.foldl_cons, deliver_single] at h ⊢
    have e1 : c + 1 + (n : Int) = c + ((n + 1 : Nat) : Int) := by
      push_cast
      ring
    have e2 : N + 1 + (n : Int) = N + ((n + 1 : Nat) : Int) := by
      push_cast
      ring
    rw [h, e1, e2]

/-- After `n ≥ 1` observations of the single key `k` a fresh bucket of capacity
`m ≥ 1` holds the one counter `k ↦ n` and the total `n`. -/
theorem deliverAll_replicate (m : Nat) (hm : 1 ≤ m) (t : ℚ) (k : K) (n : Nat) (hn : 1 ≤ n) :
    deliverAll m (BucketInfo.new t) (List.replicate n k) = ⟨t, [(k, (n : Int))], (n : Int)⟩ := by
  obtain ⟨n1, rfl⟩ : ∃ n1, n = n1 + 1 := ⟨n - 1, by omega⟩
  have h := deliverAll_single m t k n1 1 1
  simp only [deliverAll, List.replicate_succ, List.foldl_cons, deliver_fresh m hm t k] at h ⊢
  have e1 : (1 : Int) + (n1 : Int) = ((n1 + 1 : Nat) : Int) := by
    push_cast
    ring
  rw [h, e1]

/-- C22. Single-key stream: for `θ ≤ 1`, `m ≥ 1` and `n ≥ 1`, after `n`
observations of the one key `k` delivered to a fresh bucket, the
threshold-mode answer computed from that bucket is exactly `[k]`. -/
theorem C22_single_key_stream (share : ℚ) (m : Nat) (t : ℚ) (k : K) (n : Nat)
    (h1 : share ≤ 1) (hm : 1 ≤ m) (hn : 1 ≤ n) :
    thresholdAnswer share m (deliverAll m (BucketInfo.new t) (List.replicate n k)) = [k] := by
  rw [deliverAll_replicate m hm t k n hn]
  have hmin : min_num share m (n : Int) ≤ (n : Int) := by
    unfold min_num
    have hnq : (0 : ℚ) ≤ ((n : Int) : ℚ) := by positivity
    have hfl : ⌊((n : Int) : ℚ) * share⌋ ≤ (n : Int) := by
      have h5 := Int.floor_le (((n : Int) : ℚ) * share)
      have h6 : ((n : Int) : ℚ) * share ≤ ((n : Int) : ℚ) := by nlinarith
      have : ((⌊((n : Int) : ℚ) * share⌋ : Int) : ℚ) ≤ ((n : Int) : ℚ) := by linarith
      exact_mod_cast this
    have hce : 0 ≤ ⌈((n : Int) : ℚ) * (1 - share) / (m : ℚ)⌉ := by
      apply Int.ceil_nonneg
      have h8 : (0 : ℚ) ≤ 1 - share := by linarith
      positivity
    omega
  unfold thresholdAnswer WeedOutExtraKeysAndInfo GetBucketSortedByFrequencyKeys
  simp [hmin]

/-- Witness for C22: scenario S1, one observation, `θ = 1/10`, `m = 54`. -/
theorem C22_witness :
    thresholdAnswer (1 / 10) 54
        (deliverAll 54 (BucketInfo.new 0) (List.replicate 1 (7 : Nat))) = [7] :=
  C22_single_key_stream (1 / 10) 54 0 7 1 (by norm_num) (by norm_num) (by norm_num)

theorem observedKeys_append (l1 l2 : List (Call K)) :
    observedKeys (l1 ++ l2) = observedKeys l1 ++ observedKeys l2 := by
  unfold observedKeys
  rw [List.filterMap_append]

theorem deliverAll_append_singleton (m : Nat) (b : BucketInfo K) (ks : List K) (k : K) :
    deliverAll m b (ks ++ [k]) = deliver m (deliverAll m b ks) k := by
  simp [deliverAll, List.foldl_append]

theorem BucketHistory_new (m : Nat) (hist : List (Call K)) (t : ℚ) :
    BucketHistory m hist (BucketInfo.new t : BucketInfo K) :=
  ⟨hist, [], by simp, by simp [observedKeys, deliverAll, BucketInfo.new]⟩

/-- Delivering the key of an `AddKey` call extends the history of a bucket. -/
theorem BucketHistory_observe (m : Nat) (hist : List (Call K)) (b : BucketInfo K) (key : K)
    (now : ℚ) (h : BucketHistory m hist b) :
    BucketHistory m (hist ++ [Call.observe key now]) (deliver m b key) := by
  obtain ⟨pre, post, h1, h2⟩ := h
  refine ⟨pre, post ++ [Call.observe key now], by rw [h1, List.append_assoc], ?_⟩
  rw [observedKeys_append, deliver_created_at]
  have e : observedKeys [Call.observe key now] = [key] := by simp [observedKeys]
  rw [e, deliverAll_append_singleton, ← h2]

/-- A `GetTopKKeys` call adds nothing to the history of a bucket. -/
theorem BucketHistory_query (m : Nat) (hist : List (Call K)) (b : BucketInfo K) (number : Int)
    (now : ℚ) (h : BucketHistory m hist b) :
    BucketHistory m (hist ++ [Call.query number now]) b := by
  obtain ⟨pre, post, h1, h2⟩ := h
  refine ⟨pre, post ++ [Call.query number now], by rw [h1, List.append_assoc], ?_⟩
  rw [observedKeys_append]
  have e : observedKeys [Call.query number now] = ([] : List K) := by simp [observedKeys]
  rw [e, List.append_nil]
  exact h2

theorem DeleteOldAddNewBuckets_history (m : Nat) (hist : List (Call K)) (a a1 : Analyzer K)
    (now : ℚ) (hinv : ∀ b ∈ a.buckets_, BucketHistory m hist b)
    (h : DeleteOldAddNewBuckets a now = some a1) :
    ∀ b ∈ a1.buckets_, BucketHistory m hist b := by
  intro b hb
  rcases DeleteOldAddNewBuckets_mem a a1 now h b hb with h1 | h1
  · exact hinv b h1
  · rw [h1]
    exact BucketHistory_new m hist now

/-- One defined call keeps every bucket equal to the fresh bucket after the
observations made since its creation. -/
theorem step_history (hist : List (Call K)) (a a1 : Analyzer K) (c : Call K)
    (hinv : ∀ b ∈ a.buckets_, BucketHistory a.bucket_size_ hist b)
    (h : step a c = some a1) :
    ∀ b ∈ a1.buckets_, BucketHistory a1.bucket_size_ (hist ++ [c]) b := by
  have hm : a1.bucket_size_ = a.bucket_size_ := (step_sameConfig a a1 c h).2.2.2.1
  rw [hm]
  cases c with
  | observe key now =>
    simp only [step, AddKey, Option.map_eq_some'] at h
    obtain ⟨a2, h2, rfl⟩ := h
    have hm2 : a2.bucket_size_ = a.bucket_size_ :=
      (DeleteOldAddNewBuckets_sameConfig a a2 now h2).2.2.2.1
    intro b hb
    simp only [AddKeyToBuckets, List.mem_map] at hb
    obtain ⟨b2, hb2, rfl⟩ := hb
    rw [hm2]
    exact BucketHistory_observe _ hist b2 key now
      (DeleteOldAddNewBuckets_history _ hist a a2 now hinv h2 b2 hb2)
  | query number now =>
    simp only [step, Option.map_eq_some'] at h
    obtain ⟨⟨a2, ans⟩, h2, rfl⟩ := h
    obtain ⟨h5, _⟩ := GetTopKKeys_some a a2 number now ans h2
    intro b hb
    exact BucketHistory_query _ hist b number now
      (DeleteOldAddNewBuckets_history _ hist a a2 now hinv h5 b hb)

theorem run_history (hist rest : List (Call K)) (a a1 : Analyzer K)
    (hinv : ∀ b ∈ a.buckets_, BucketHistory a.bucket_size_ hist b)
    (h : run a rest = some a1) :
    ∀ b ∈ a1.buckets_, BucketHistory a1.bucket_size_ (hist ++ rest) b := by
  induction rest generalizing a hist with
  | nil =>
    simp only [run, Option.some.injEq] at h
    subst h
    simpa using hinv
  | cons c rest ih =>
    simp only [run, Option.bind_eq_some] at h
    obtain ⟨a2, h1, h2⟩ := h
    have h3 := ih (hist ++ [c]) a2 (step_history hist a a2 c hinv h1) h2
    rw [List.append_assoc] at h3
    exact h3

/-- Every key of an answer of the extractor is a key of the table. -/
theorem mem_keysOf_of_mem_answer (share : ℚ) (m : Nat) (d : List (K × Int)) (N number : Int)
    (k : K)
    (h : k ∈ WeedOutExtraKeysAndInfo share m (GetBucketSortedByFrequencyKeys d) N number) :
    k ∈ keysOf d := by
  have hsub : ∀ w : List (Int × K), w <+: GetBucketSortedByFrequencyKeys d →
      k ∈ w.map Prod.snd → k ∈ keysOf d := by
    intro w hw hk
    simp only [List.mem_map] at hk
    obtain ⟨⟨c, k1⟩, h1, h2⟩ := hk
    simp only at h2
    subst h2
    have := (mem_GetBucketSortedByFrequencyKeys d c k1).1 (hw.subset h1)
    exact List.mem_map_of_mem Prod.fst this
  unfold WeedOutExtraKeysAndInfo at h
  by_cases h0 : number = 0
  · rw [if_pos h0] at h
    exact hsub _ (List.takeWhile_prefix _) h
  · rw [if_neg h0] at h
    exact hsub _ (List.take_prefix _ _) h

/-- Every key with a counter in a bucket reached from a fresh one was observed. -/
theorem mem_of_mem_keysOf_fresh (m : Nat) (t : ℚ) (keys : List K) (k : K)
    (h : k ∈ keysOf (deliverAll m (BucketInfo.new t) keys).bucket_data) : k ∈ keys := by
  have h1 := (fresh_MGInv m t keys).seen k h
  unfold trueCount at h1
  have h2 : 0 < keys.count k := by exact_mod_cast h1
  exact List.count_pos_iff.1 h2

/-- C24. No invented keys: for a ring that starts with one fresh bucket, any
defined run of calls `cs` and a defined query with any `number`, the calls
split into those before and those since the creation of the bucket the query
reads, that bucket is the fresh bucket after the observations made since, and
every returned key is the key of one of these observations. -/
theorem C24_no_invented_keys (W share : ℚ) (B m : Nat) (t0 : ℚ) (cs : List (Call K))
    (a a1 : Analyzer K) (number : Int) (now : ℚ) (ans : List K)
    (hrun : run ((Analyzer.new W share B m : Analyzer K).withRing [BucketInfo.new t0]) cs
      = some a)
    (hq : GetTopKKeys a number now = some (a1, ans)) :
    ∃ pre post front, cs = pre ++ post ∧ a1.buckets_.head? = some front ∧
      front = deliverAll m (BucketInfo.new front.created_at) (observedKeys post) ∧
      ∀ k ∈ ans, k ∈ observedKeys post := by
  have hseed : ∀ b ∈ ((Analyzer.new W share B m : Analyzer K).withRing
      [BucketInfo.new t0]).buckets_,
      BucketHistory ((Analyzer.new W share B m : Analyzer K).withRing
        [BucketInfo.new t0]).bucket_size_ [] b := by
    intro b hb
    simp only [Analyzer.withRing, List.mem_singleton] at hb
    rw [hb]
    exact BucketHistory_new _ [] t0
  have hhist := run_history [] cs _ a hseed hrun
  rw [List.nil_append] at hhist
  have hm : a.bucket_size_ = m := (run_sameConfig _ a cs hrun).2.2.2.1
  rw [hm] at hhist
  obtain ⟨hd, front, hf, hans⟩ := GetTopKKeys_some a a1 number now ans hq
  have hfmem : front ∈ a1.buckets_ := List.mem_of_mem_head? hf
  obtain ⟨pre, post, h1, h2⟩ :=
    DeleteOldAddNewBuckets_history m cs a a1 now hhist hd front hfmem
  refine ⟨pre, post, front, h1, hf, h2, ?_⟩
  intro k hk
  rw [hans] at hk
  have h3 := mem_keysOf_of_mem_answer _ _ _ _ _ k hk
  rw [h2] at h3
  exact mem_of_mem_keysOf_fresh m _ _ k h3

/-- A query at `1/4` after `run_example`: three buckets are live and the
bucket created at `0` answers `[7]`. -/
theorem query_after_run_example :
    GetTopKKeys ((Analyzer.new 1 (1 / 10) 12 54 : Analyzer Nat).withRing
        [⟨0, [(7, 2)], 2⟩, ⟨1 / 10, [(7, 1)], 1⟩]) 0 (1 / 4)
      = some ((Analyzer.new 1 (1 / 10) 12 54 : Analyzer Nat).withRing
          [⟨0, [(7, 2)], 2⟩, ⟨1 / 10, [(7, 1)], 1⟩, BucketInfo.new (1 / 4)], [7]) := by
  have ha : WeedOutExtraKeysAndInfo (1 / 10) 54
      (GetBucketSortedByFrequencyKeys ([(7, 2)] : List (Nat × Int))) 2 0 = [7] := by
    unfold WeedOutExtraKeysAndInfo
    rw [if_pos rfl, min_num_tenth_two]
    decide
  rw [GetTopKKeys_of_maintenance _ _ 0 (1 / 4) ⟨0, [(7, 2)], 2⟩ maintenance_example rfl]
  exact congrArg (fun l => some (_, l)) ha

/-- Witness for C24: the run `run_example` followed by a query at `1/4`. -/
theorem C24_witness :
    ∃ pre post front,
      ([Call.observe 7 (1 / 20), Call.query 0 (1 / 10), Call.observe 7 (3 / 20)] :
        List (Call Nat)) = pre ++ post ∧
      ((Analyzer.new 1 (1 / 10) 12 54 : Analyzer Nat).withRing
        [⟨0, [(7, 2)], 2⟩, ⟨1 / 10, [(7, 1)], 1⟩, BucketInfo.new (1 / 4)]).buckets_.head?
        = some front ∧
      front = deliverAll 54 (BucketInfo.new front.created_at) (observedKeys post) ∧
      ∀ k ∈ ([7] : List Nat), k ∈ observedKeys post :=
  C24_no_invented_keys 1 (1 / 10) 12 54 0
    [Call.observe 7 (1 / 20), Call.query 0 (1 / 10), Call.observe 7 (3 / 20)] _ _ 0 (1 / 4) [7]
    run_example query_after_run_example

/-- C21. One observation per store access: a defined `get(k)` or `set(k, v)`
leaves the analyzer in the state of exactly one `AddKey(k)`, in which every
bucket live after the call's maintenance has its total raised by exactly 1
(its creation time unchanged); a defined `get_top_k` leaves the analyzer in
the state after maintenance alone, with no total changed. -/
theorem C21_one_observation_per_access {V : Type} [Inhabited V] (s s1 : MapGetFreshTopK K V)
    (c : StoreCall K V) (h : storeStep s c = some s1) :
    match c with
    | StoreCall.get key now =>
        AddKey s.analyzer_ key now = some s1.analyzer_ ∧
        ∃ a1, DeleteOldAddNewBuckets s.analyzer_ now = some a1 ∧
          List.Forall₂ (fun b0 b1 : BucketInfo K =>
            b1.add_new_key_count = b0.add_new_key_count + 1 ∧ b1.created_at = b0.created_at)
            a1.buckets_ s1.analyzer_.buckets_
    | StoreCall.set key _ now =>
        AddKey s.analyzer_ key now = some s1.analyzer_ ∧
        ∃ a1, DeleteOldAddNewBuckets s.analyzer_ now = some a1 ∧
          List.Forall₂ (fun b0 b1 : BucketInfo K =>
            b1.add_new_key_count = b0.add_new_key_count + 1 ∧ b1.created_at = b0.created_at)
            a1.buckets_ s1.analyzer_.buckets_
    | StoreCall.get_top_k _ now =>
        DeleteOldAddNewBuckets s.analyzer_ now = some s1.analyzer_ := by
  have key_fact : ∀ (key : K) (now : ℚ), AddKey s.analyzer_ key now = some s1.analyzer_ →
      ∃ a1, DeleteOldAddNewBuckets s.analyzer_ now = some a1 ∧
        List.Forall₂ (fun b0 b1 : BucketInfo K =>
          b1.add_new_key_count = b0.add_new_key_count + 1 ∧ b1.created_at = b0.created_at)
          a1.buckets_ s1.analyzer_.buckets_ := by
    intro key now hadd
    simp only [AddKey, Option.map_eq_some'] at hadd
    obtain ⟨a1, h1, h2⟩ := hadd
    refine ⟨a1, h1, ?_⟩
    rw [← h2]
    show List.Forall₂ _ a1.buckets_ (a1.buckets_.map (fun b => deliver a1.bucket_size_ b key))
    rw [List.forall₂_map_right_iff]
    exact List.forall₂_same.2 (fun b _ =>
      ⟨deliver_add_new_key_count _ b key, deliver_created_at _ b key⟩)
  cases c with
  | get key now =>
    simp only [storeStep, Option.map_eq_some'] at h
    obtain ⟨⟨s2, r⟩, h2, rfl⟩ := h
    have h3 := (get_some s s2 key now r h2).2.2
    exact ⟨h3, key_fact key now h3⟩
  | set key value now =>
    simp only [storeStep] at h
    have h3 := (set_some s s1 key value now h).2
    exact ⟨h3, key_fact key now h3⟩
  | get_top_k number now =>
    simp only [storeStep, Option.map_eq_some'] at h
    obtain ⟨⟨s2, ans⟩, h2, rfl⟩ := h
    have h3 := (get_top_k_some s s2 number now ans h2).2
    exact (GetTopKKeys_some _ _ _ now ans h3).1

/-- Witness for C21: the call `set(7, 42)` of `store_set_example`. -/
theorem C21_witness :
    AddKey ((Analyzer.new 1 (1 / 10) 12 54 : Analyzer Nat).withRing [BucketInfo.new 0]) 7
        (1 / 20)
      = some ((Analyzer.new 1 (1 / 10) 12 54 : Analyzer Nat).withRing [⟨0, [(7, 1)], 1⟩]) ∧
    ∃ a1, DeleteOldAddNewBuckets
        ((Analyzer.new 1 (1 / 10) 12 54 : Analyzer Nat).withRing [BucketInfo.new 0]) (1 / 20)
        = some a1 ∧
      List.Forall₂ (fun b0 b1 : BucketInfo Nat =>
        b1.add_new_key_count = b0.add_new_key_count + 1 ∧ b1.created_at = b0.created_at)
        a1.buckets_
        ((Analyzer.new 1 (1 / 10) 12 54 : Analyzer Nat).withRing [⟨0, [(7, 1)], 1⟩]).buckets_ :=
  C21_one_observation_per_access
    (⟨[(3, 10)], (Analyzer.new 1 (1 / 10) 12 54).withRing [BucketInfo.new 0]⟩ :
      MapGetFreshTopK Nat Nat)
    ⟨[(3, 10), (7, 42)], (Analyzer.new 1 (1 / 10) 12 54).withRing [⟨0, [(7, 1)], 1⟩]⟩
    (StoreCall.set 7 42 (1 / 20)) store_set_example

/-- C25. Query is read-only on bucket contents: a defined `GetTopKKeys` leaves
the configuration as it was, and its ring is the ring it found without its
retired prefix, possibly followed by one fresh empty bucket stamped `now`;
every other bucket is a bucket from before the call, unchanged. -/
theorem C25_query_read_only (a a1 : Analyzer K) (number : Int) (now : ℚ) (ans : List K)
    (h : GetTopKKeys a number now = some (a1, ans)) :
    sameConfig a a1 ∧ retireOld a now <:+ a.buckets_ ∧
      (a1.buckets_ = retireOld a now ∨
        a1.buckets_ = retireOld a now ++ [BucketInfo.new now]) ∧
      ∀ b ∈ a1.buckets_, b ∈ a.buckets_ ∨ b = BucketInfo.new now := by
  obtain ⟨hd, _⟩ := GetTopKKeys_some a a1 number now ans h
  obtain ⟨back, _, hcase⟩ := DeleteOldAddNewBuckets_some a a1 now hd
  refine ⟨DeleteOldAddNewBuckets_sameConfig a a1 now hd, List.dropWhile_suffix _, ?_,
    DeleteOldAddNewBuckets_mem a a1 now hd⟩
  rcases hcase with h1 | h1
  · exact Or.inr (by rw [h1.2])
  · exact Or.inl (by rw [h1.2])

/-- Witness for C25: the query of `first_query_example`. -/
theorem C25_witness :
    sameConfig ((Analyzer.new 1 (1 / 10) 12 54 : Analyzer Nat).withRing
        [⟨0, [(7, 1), (8, 1)], 2⟩, ⟨1 / 2, [(8, 1)], 1⟩])
      ((Analyzer.new 1 (1 / 10) 12 54 : Analyzer Nat).withRing
        [⟨0, [(7, 1), (8, 1)], 2⟩, ⟨1 / 2, [(8, 1)], 1⟩, BucketInfo.new 1]) ∧
    retireOld ((Analyzer.new 1 (1 / 10) 12 54 : Analyzer Nat).withRing
        [⟨0, [(7, 1), (8, 1)], 2⟩, ⟨1 / 2, [(8, 1)], 1⟩]) 1
      <:+ ((Analyzer.new 1 (1 / 10) 12 54 : Analyzer Nat).withRing
        [⟨0, [(7, 1), (8, 1)], 2⟩, ⟨1 / 2, [(8, 1)], 1⟩]).buckets_ ∧
    (((Analyzer.new 1 (1 / 10) 12 54 : Analyzer Nat).withRing
        [⟨0, [(7, 1), (8, 1)], 2⟩, ⟨1 / 2, [(8, 1)], 1⟩, BucketInfo.new 1]).buckets_
        = retireOld ((Analyzer.new 1 (1 / 10) 12 54 : Analyzer Nat).withRing
          [⟨0, [(7, 1), (8, 1)], 2⟩, ⟨1 / 2, [(8, 1)], 1⟩]) 1 ∨
      ((Analyzer.new 1 (1 / 10) 12 54 : Analyzer Nat).withRing
        [⟨0, [(7, 1), (8, 1)], 2⟩, ⟨1 / 2, [(8, 1)], 1⟩, BucketInfo.new 1]).buckets_
        = retireOld ((Analyzer.new 1 (1 / 10) 12 54 : Analyzer Nat).withRing
          [⟨0, [(7, 1), (8, 1)], 2⟩, ⟨1 / 2, [(8, 1)], 1⟩]) 1 ++ [BucketInfo.new 1]) ∧
    ∀ b ∈ ((Analyzer.new 1 (1 / 10) 12 54 : Analyzer Nat).withRing
        [⟨0, [(7, 1), (8, 1)], 2⟩, ⟨1 / 2, [(8, 1)], 1⟩, BucketInfo.new 1]).buckets_,
      b ∈ ((Analyzer.new 1 (1 / 10) 12 54 : Analyzer Nat).withRing
        [⟨0, [(7, 1), (8, 1)], 2⟩, ⟨1 / 2, [(8, 1)], 1⟩]).buckets_ ∨ b = BucketInfo.new 1 :=
  C25_query_read_only _ _ 0 1 [7, 8] first_query_example

/-- A defined maintenance leaves a ring on which maintenance at the same
clock reading changes nothing. -/
theorem DeleteOldAddNewBuckets_fixed (a a1 : Analyzer K) (now : ℚ) (hS : 0 ≤ stride a)
    (h : DeleteOldAddNewBuckets a now = some a1) : DeleteOldAddNewBuckets a1 now = some a1 := by
  obtain ⟨back, hback, hcase⟩ := DeleteOldAddNewBuckets_some a a1 now h
  have hc := DeleteOldAddNewBuckets_sameConfig a a1 now h
  have hS1 : 0 ≤ a1.full_control_time_ / (a1.buckets_count_ : ℚ) := by
    have := stride_eq_of_sameConfig hc
    unfold stride at this hS
    rw [this]
    exact hS
  cases hr : retireOld a now with
  | nil =>
    rw [hr] at hback
    cases hback
  | cons x l =>
    have h0 : decide (now - x.created_at > a.full_control_time_) = false :=
      dropWhile_head_not (fun b => decide (now - b.created_at > a.full_control_time_))
        a.buckets_ x l hr
    have hx : now - x.created_at ≤ a1.full_control_time_ := by
      rw [hc.2.1]
      exact not_lt.1 (of_decide_eq_false h0)
    rw [hr] at hcase hback
    rcases hcase with ⟨_, ha1⟩ | ⟨hle, ha1⟩
    · have hb1 : a1.buckets_ = x :: (l ++ [BucketInfo.new now]) := by rw [ha1]; rfl
      have hself := retireOld_eq_self a1 now x (by rw [hb1]; rfl) hx
      have hlast : a1.buckets_.getLast? = some (BucketInfo.new now) := by
        rw [hb1, ← List.cons_append, List.getLast?_append]
        rfl
      have hn : ¬ now - (BucketInfo.new now : BucketInfo K).created_at
          > a1.full_control_time_ / (a1.buckets_count_ : ℚ) := by
        show ¬ now - now > _
        rw [sub_self]
        exact not_lt.2 hS1
      unfold DeleteOldAddNewBuckets
      rw [hself]
      simp only [hlast]
      rw [if_neg hn]
    · have hb1 : a1.buckets_ = x :: l := by rw [ha1]
      have hself := retireOld_eq_self a1 now x (by rw [hb1]; rfl) hx
      have hlast : a1.buckets_.getLast? = some back := by rw [hb1]; exact hback
      have hn : ¬ now - back.created_at > a1.full_control_time_ / (a1.buckets_count_ : ℚ) := by
        rw [hc.2.1, hc.2.2.1]
        exact hle
      unfold DeleteOldAddNewBuckets
      rw [hself]
      simp only [hlast]
      rw [if_neg hn]

/-- C35. Maintenance is idempotent at a fixed instant: for a stride that is
not negative, if ring maintenance at `now` is defined and leaves the state
`a1`, then maintenance at the same `now` on `a1` is defined and leaves `a1`;
a query at `now` and a second query at the same `now` with no observe in
between are both defined, leave `a1`, and return the same list. -/
theorem C35_maintenance_idempotent (a a1 : Analyzer K) (now : ℚ) (hS : 0 ≤ stride a)
    (h : DeleteOldAddNewBuckets a now = some a1) :
    DeleteOldAddNewBuckets a1 now = some a1 ∧
      ∀ number, ∃ ans, GetTopKKeys a number now = some (a1, ans) ∧
        GetTopKKeys a1 number now = some (a1, ans) := by
  have hfix := DeleteOldAddNewBuckets_fixed a a1 now hS h
  refine ⟨hfix, ?_⟩
  intro number
  cases hbs : a1.buckets_ with
  | nil => exact absurd hbs (DeleteOldAddNewBuckets_ne_nil a a1 now h)
  | cons front rest =>
    have hf : a1.buckets_.head? = some front := by rw [hbs]; rfl
    exact ⟨_, GetTopKKeys_of_maintenance a a1 number now front h hf,
      GetTopKKeys_of_maintenance a1 a1 number now front hfix hf⟩

/-- Witness for C35: the maintenance of `maintenance_example` at `1/4`, which
appends a third bucket; a second maintenance at `1/4` appends nothing. -/
theorem C35_witness :
    DeleteOldAddNewBuckets ((Analyzer.new 1 (1 / 10) 12 54 : Analyzer Nat).withRing
        [⟨0, [(7, 2)], 2⟩, ⟨1 / 10, [(7, 1)], 1⟩, BucketInfo.new (1 / 4)]) (1 / 4)
      = some ((Analyzer.new 1 (1 / 10) 12 54 : Analyzer Nat).withRing
        [⟨0, [(7, 2)], 2⟩, ⟨1 / 10, [(7, 1)], 1⟩, BucketInfo.new (1 / 4)]) ∧
      ∀ number, ∃ ans,
        GetTopKKeys ((Analyzer.new 1 (1 / 10) 12 54 : Analyzer Nat).withRing
            [⟨0, [(7, 2)], 2⟩, ⟨1 / 10, [(7, 1)], 1⟩]) number (1 / 4)
          = some ((Analyzer.new 1 (1 / 10) 12 54 : Analyzer Nat).withRing
            [⟨0, [(7, 2)], 2⟩, ⟨1 / 10, [(7, 1)], 1⟩, BucketInfo.new (1 / 4)], ans) ∧
        GetTopKKeys ((Analyzer.new 1 (1 / 10) 12 54 : Analyzer Nat).withRing
            [⟨0, [(7, 2)], 2⟩, ⟨1 / 10, [(7, 1)], 1⟩, BucketInfo.new (1 / 4)]) number (1 / 4)
          = some ((Analyzer.new 1 (1 / 10) 12 54 : Analyzer Nat).withRing
            [⟨0, [(7, 2)], 2⟩, ⟨1 / 10, [(7, 1)], 1⟩, BucketInfo.new (1 / 4)], ans) :=
  C35_maintenance_idempotent _ _ (1 / 4) (by norm_num [stride, Analyzer.new, Analyzer.withRing])
    maintenance_example

/-- A delivery reaches `DecreaseAllCounters` exactly when the key has no
counter, the table has no room and no counter is zero. -/
theorem reachesDecreaseAll_iff (m : Nat) (b : BucketInfo K) (key : K) :
    reachesDecreaseAll m b key = true ↔
      mapFind b.bucket_data key = none ∧ ¬ b.bucket_data.length < m ∧
        eraseFirstZero b.bucket_data = none := by
  unfold reachesDecreaseAll CreateNewCounter
  cases hf : mapFind b.bucket_data key with
  | some c =>
    rw [IncrementCounter_true_of_mapFind _ key c hf]
    simp
  | none =>
    rw [IncrementCounter_false_of_mapFind _ key hf]
    by_cases hroom : b.bucket_data.length < m
    · simp [hroom]
    · cases hz : eraseFirstZero b.bucket_data with
      | some erased => simp [hroom]
      | none => simp [hroom]

/-- What a delivery that reaches `DecreaseAllCounters` finds and does on a
well-formed table: exactly `m` entries, every counter at least 1, and every
counter lowered by exactly 1. -/
theorem reachesDecreaseAll_effect (m : Nat) (b : BucketInfo K) (key : K)
    (h : TableOk m b.bucket_data) (hr : reachesDecreaseAll m b key = true) :
    b.bucket_data.length = m ∧ (∀ e ∈ b.bucket_data, 1 ≤ e.2) ∧
      (deliver m b key).bucket_data = DecreaseAllCounters b.bucket_data key ∧
      DecreaseAllCounters b.bucket_data key = b.bucket_data.map (fun e => (e.1, e.2 - 1)) := by
  obtain ⟨hf, hfull, hz⟩ := (reachesDecreaseAll_iff m b key).1 hr
  have hpos : ∀ e ∈ b.bucket_data, 1 ≤ e.2 := by
    intro e he
    have h1 := h.nonneg e he
    have h2 := eraseFirstZero_none _ hz e he
    omega
  refine ⟨?_, hpos, ?_, ?_⟩
  · have := h.size_le
    omega
  · rw [deliver_bucket_data, AddKeyToBucket_decrement m b key hf hfull hz]
  · unfold DecreaseAllCounters
    apply List.map_congr_left
    intro e he
    have h1 := hpos e he
    rw [if_pos (by omega)]

/-- The sum of the counters after one delivery to a well-formed table: one
more than before, minus `m + 1` if the delivery reaches `DecreaseAllCounters`. -/
theorem deliver_counterSum (m : Nat) (b : BucketInfo K) (key : K)
    (h : TableOk m b.bucket_data) :
    counterSum (deliver m b key).bucket_data
      = counterSum b.bucket_data + 1
        - ((m : Int) + 1) * (if reachesDecreaseAll m b key then 1 else 0) := by
  by_cases hr : reachesDecreaseAll m b key = true
  · obtain ⟨hlen, hpos, hd, _⟩ := reachesDecreaseAll_effect m b key h hr
    rw [hd, counterSum_DecreaseAllCounters _ key hpos, hlen, if_pos hr]
    ring
  · rw [if_neg hr, deliver_bucket_data]
    obtain ⟨_, _, hcase⟩ := AddKeyToBucket_effect m b key h
    rcases hcase with ⟨hsum, _⟩ | ⟨hkey, hlen, hpos, _⟩
    · rw [hsum]
      ring
    · exfalso
      apply hr
      rw [reachesDecreaseAll_iff]
      refine ⟨(mapFind_eq_none_iff _ key).2 hkey, by omega, ?_⟩
      cases hz : eraseFirstZero b.bucket_data with
      | none => rfl
      | some erased =>
        obtain ⟨pre, z, post, h1, _, _⟩ := (eraseFirstZero_eq_some_iff _ _).1 hz
        have := hpos (z, 0) (by rw [h1]; simp)
        simp at this

/-- A delivery keeps a table well-formed. -/
theorem deliver_TableOk (m : Nat) (b : BucketInfo K) (key : K) (h : TableOk m b.bucket_data) :
    TableOk m (deliver m b key).bucket_data := by
  rw [deliver_bucket_data]
  exact (AddKeyToBucket_effect m b key h).1

/-- The sum of the counters after a sequence of deliveries to a well-formed
table. -/
theorem deliverAll_counterSum (m : Nat) (keys : List K) (b : BucketInfo K)
    (h : TableOk m b.bucket_data) :
    counterSum (deliverAll m b keys).bucket_data
      = counterSum b.bucket_data + (keys.length : Int)
        - ((m : Int) + 1) * (decreaseAllCalls m b keys : Int) := by
  induction keys generalizing b with
  | nil => simp [deliverAll, decreaseAllCalls]
  | cons key rest ih =>
    have h1 := ih (deliver m b key) (deliver_TableOk m b key h)
    simp only [deliverAll, List.foldl_cons] at h1 ⊢
    rw [h1, deliver_counterSum m b key h]
    simp only [decreaseAllCalls, List.length_cons]
    by_cases hr : reachesDecreaseAll m b key = true
    · simp only [hr, if_true]
      push_cast
      ring
    · simp only [hr]
      push_cast
      simp
      ring

/-- C33. Counter-mass invariant: after `N` deliveries to an initially empty
bucket of capacity `m`, `d` of which reached `DecreaseAllCounters`, the sum of
all stored counters is `N − (m+1)·d`; the total of the bucket is `N`, the sum
of the counters is at most the total, and `d ≤ N / (m+1)`. -/
theorem C33_counter_mass (m : Nat) (t : ℚ) (keys : List K) :
    counterSum (deliverAll m (BucketInfo.new t) keys).bucket_data
        = (keys.length : Int)
          - ((m : Int) + 1) * (decreaseAllCalls m (BucketInfo.new t : BucketInfo K) keys : Int) ∧
      (deliverAll m (BucketInfo.new t) keys).add_new_key_count = (keys.length : Int) ∧
      counterSum (deliverAll m (BucketInfo.new t) keys).bucket_data
        ≤ (deliverAll m (BucketInfo.new t) keys).add_new_key_count ∧
      decreaseAllCalls m (BucketInfo.new t : BucketInfo K) keys ≤ keys.length / (m + 1) := by
  have hsum := deliverAll_counterSum m keys (BucketInfo.new t : BucketInfo K) (tableOk_nil m)
  have h0 : counterSum (BucketInfo.new t : BucketInfo K).bucket_data = 0 := rfl
  rw [h0, zero_add] at hsum
  have hN : (deliverAll m (BucketInfo.new t) keys).add_new_key_count = (keys.length : Int) := by
    rw [deliverAll_add_new_key_count]
    simp [BucketInfo.new]
  have hnn : 0 ≤ counterSum (deliverAll m (BucketInfo.new t) keys).bucket_data :=
    counterSum_nonneg _ (fresh_MGInv m t keys).ok.nonneg
  have hd0 : (0 : Int) ≤ (decreaseAllCalls m (BucketInfo.new t : BucketInfo K) keys : Int) :=
    Int.natCast_nonneg _
  refine ⟨hsum, hN, ?_, ?_⟩
  · rw [hN, hsum]
    have : (0 : Int) ≤ ((m : Int) + 1) * (decreaseAllCalls m (BucketInfo.new t : BucketInfo K)
        keys : Int) := by positivity
    omega
  · rw [Nat.le_div_iff_mul_le (Nat.succ_pos m)]
    have h1 : ((m : Int) + 1) * (decreaseAllCalls m (BucketInfo.new t : BucketInfo K) keys : Int)
        ≤ (keys.length : Int) := by
      rw [hsum] at hnn
      linarith
    have h2 : ((decreaseAllCalls m (BucketInfo.new t : BucketInfo K) keys * (m + 1) : Nat) : Int)
        ≤ ((keys.length : Nat) : Int) := by
      push_cast
      linarith
    exact_mod_cast h2

/-- C36. The floor in decrement-all is never exercised: in every bucket
reached from the empty bucket of capacity `m`, whenever a delivery reaches
`DecreaseAllCounters` the table holds exactly `m` entries and every counter is
at least 1 beforehand, so the guard `it->second > 0` holds for every entry and
every counter drops by exactly 1. -/
theorem C36_decrement_floor_unused (m : Nat) (t : ℚ) (keys : List K) (key : K)
    (h : reachesDecreaseAll m (deliverAll m (BucketInfo.new t) keys) key = true) :
    (deliverAll m (BucketInfo.new t) keys).bucket_data.length = m ∧
      (∀ e ∈ (deliverAll m (BucketInfo.new t) keys).bucket_data, 1 ≤ e.2 ∧ e.2 > 0) ∧
      (deliver m (deliverAll m (BucketInfo.new t) keys) key).bucket_data
        = DecreaseAllCounters (deliverAll m (BucketInfo.new t) keys).bucket_data key ∧
      DecreaseAllCounters (deliverAll m (BucketInfo.new t) keys).bucket_data key
        = (deliverAll m (BucketInfo.new t) keys).bucket_data.map (fun e => (e.1, e.2 - 1)) := by
  obtain ⟨h1, h2, h3, h4⟩ := reachesDecreaseAll_effect m
    (deliverAll m (BucketInfo.new t) keys) key (fresh_MGInv m t keys).ok h
  refine ⟨h1, ?_, h3, h4⟩
  intro e he
  have := h2 e he
  exact ⟨this, by omega⟩

/-- Witness for C36: capacity 1, the table `[(1, 1)]` after one observation of
key `1`, and an observation of key `2`. -/
theorem C36_witness :
    (deliverAll 1 (BucketInfo.new 0 : BucketInfo Nat) [1]).bucket_data.length = 1 ∧
      (∀ e ∈ (deliverAll 1 (BucketInfo.new 0 : BucketInfo Nat) [1]).bucket_data,
        1 ≤ e.2 ∧ e.2 > 0) ∧
      (deliver 1 (deliverAll 1 (BucketInfo.new 0 : BucketInfo Nat) [1]) 2).bucket_data
        = DecreaseAllCounters (deliverAll 1 (BucketInfo.new 0 : BucketInfo Nat) [1]).bucket_data
            2 ∧
      DecreaseAllCounters (deliverAll 1 (BucketInfo.new 0 : BucketInfo Nat) [1]).bucket_data 2
        = (deliverAll 1 (BucketInfo.new 0 : BucketInfo Nat) [1]).bucket_data.map
            (fun e => (e.1, e.2 - 1)) :=
  C36_decrement_floor_unused 1 0 [1] 2 (by decide)

/-- With `θ = 1/10` and `m = 54` the threshold is `N / 10 + (−N) / 60 − 2` in
integer (floor) division, that is `⌊N/10⌋ − ⌈N/60⌉ − 2`. -/
theorem min_num_tenth_eq (N : Int) : min_num (1 / 10) 54 N = N / 10 - -((-N) / 60) - 2 := by
  unfold min_num
  have h1 : (N : ℚ) * (1 / 10) = (N : ℚ) / ((10 : ℕ) : ℚ) := by
    push_cast
    ring
  have h2 : (N : ℚ) * (1 - 1 / 10) / ((54 : Nat) : ℚ)
      = -(((-N : Int) : ℚ) / ((60 : ℕ) : ℚ)) := by
    push_cast
    ring
  rw [h1, h2, Int.ceil_neg, Rat.floor_intCast_div_natCast, Rat.floor_intCast_div_natCast]
  rfl

/-- The sorted vector of a table lists the keys of the table, each once. -/
theorem GetBucketSortedByFrequencyKeys_keys (d : List (K × Int)) :
    ((GetBucketSortedByFrequencyKeys d).map Prod.snd).Perm (keysOf d) := by
  unfold GetBucketSortedByFrequencyKeys keysOf
  have h1 := (List.perm_insertionSort (fun left right : Int × K => left.1 ≥ right.1)
    (d.map (fun e => (e.2, e.1)))).map Prod.snd
  have h2 : (d.map (fun e => (e.2, e.1))).map Prod.snd = d.map Prod.fst := by
    rw [List.map_map]
    rfl
  rw [h2] at h1
  exact h1

/-- C37. Small-N corner: with `θ = 1/10` and `m = 54` the threshold
`τ(N) = ⌊N/10⌋ − ⌈N/60⌉ − 2` is `≤ 0` exactly when `N ≤ 39`, and for a bucket
with total `N ≤ 39` and no negative counter the threshold-mode answer lists
every key of the bucket's table, keys with stored count `0` included. -/
theorem C37_small_N_corner (b : BucketInfo K) (hnn : ∀ e ∈ b.bucket_data, 0 ≤ e.2)
    (hN : b.add_new_key_count ≤ 39) :
    (∀ N : Int, min_num (1 / 10) 54 N = N / 10 - -((-N) / 60) - 2 ∧
        (min_num (1 / 10) 54 N ≤ 0 ↔ N ≤ 39)) ∧
      thresholdAnswer (1 / 10) 54 b
        = (GetBucketSortedByFrequencyKeys b.bucket_data).map Prod.snd ∧
      (thresholdAnswer (1 / 10) 54 b).Perm (keysOf b.bucket_data) ∧
      ∀ k, mapFind b.bucket_data k = some 0 → k ∈ thresholdAnswer (1 / 10) 54 b := by
  have hτ : ∀ N : Int, min_num (1 / 10) 54 N = N / 10 - -((-N) / 60) - 2 ∧
      (min_num (1 / 10) 54 N ≤ 0 ↔ N ≤ 39) := by
    intro N
    refine ⟨min_num_tenth_eq N, ?_⟩
    rw [min_num_tenth_eq]
    omega
  have hτb : min_num (1 / 10) 54 b.add_new_key_count ≤ 0 := ((hτ _).2).2 hN
  have hall : thresholdAnswer (1 / 10) 54 b
      = (GetBucketSortedByFrequencyKeys b.bucket_data).map Prod.snd := by
    unfold thresholdAnswer WeedOutExtraKeysAndInfo
    rw [if_pos rfl]
    congr 1
    rw [List.takeWhile_eq_self_iff]
    intro e he
    have he1 : (e.2, e.1) ∈ b.bucket_data :=
      (mem_GetBucketSortedByFrequencyKeys b.bucket_data e.1 e.2).1 he
    have := hnn _ he1
    simp only [decide_eq_true_eq, ge_iff_le]
    exact le_trans hτb this
  have hperm : (thresholdAnswer (1 / 10) 54 b).Perm (keysOf b.bucket_data) := by
    rw [hall]
    exact GetBucketSortedByFrequencyKeys_keys b.bucket_data
  refine ⟨hτ, hall, hperm, ?_⟩
  intro k hk
  rw [hperm.mem_iff]
  by_contra hmem
  rw [(mapFind_eq_none_iff _ k).2 hmem] at hk
  cases hk

/-- Witness for C37: a bucket with total 3 whose table holds key `1` with
count `0` and key `2` with count `3`. -/
theorem C37_witness :
    (∀ N : Int, min_num (1 / 10) 54 N = N / 10 - -((-N) / 60) - 2 ∧
        (min_num (1 / 10) 54 N ≤ 0 ↔ N ≤ 39)) ∧
      thresholdAnswer (1 / 10) 54 (⟨0, [(1, 0), (2, 3)], 3⟩ : BucketInfo Nat)
        = (GetBucketSortedByFrequencyKeys
            (⟨0, [(1, 0), (2, 3)], 3⟩ : BucketInfo Nat).bucket_data).map Prod.snd ∧
      (thresholdAnswer (1 / 10) 54 (⟨0, [(1, 0), (2, 3)], 3⟩ : BucketInfo Nat)).Perm
        (keysOf (⟨0, [(1, 0), (2, 3)], 3⟩ : BucketInfo Nat).bucket_data) ∧
      ∀ k, mapFind (⟨0, [(1, 0), (2, 3)], 3⟩ : BucketInfo Nat).bucket_data k = some 0 →
        k ∈ thresholdAnswer (1 / 10) 54 (⟨0, [(1, 0), (2, 3)], 3⟩ : BucketInfo Nat) :=
  C37_small_N_corner ⟨0, [(1, 0), (2, 3)], 3⟩ (by decide) (by decide)

/-- C38. Negative number: for every `int` value `number < 0`, a defined
`GetTopKKeys(number)` takes the top-N branch, whose bound `i < number`
compares the index with `number + 2^64`; on a front table of at most
`2^64 − 2^31` entries it returns every key of that table, in the order of the
vector sorted by count, largest first, with no threshold and no truncation. -/
theorem C38_negative_number (a a1 : Analyzer K) (number : Int) (now : ℚ) (ans : List K)
    (hneg : number < 0) (hint : -2 ^ 31 ≤ number)
    (h : GetTopKKeys a number now = some (a1, ans))
    (hlen : ∀ b ∈ a1.buckets_, b.bucket_data.length ≤ 2 ^ 64 - 2 ^ 31) :
    ∃ front, a1.buckets_.head? = some front ∧
      ans = (GetBucketSortedByFrequencyKeys front.bucket_data).map Prod.snd ∧
      (GetBucketSortedByFrequencyKeys front.bucket_data).Sorted
        (fun left right => left.1 ≥ right.1) ∧
      ans.Perm (keysOf front.bucket_data) ∧
      ans.length = front.bucket_data.length ∧
      (number % 2 ^ 64).toNat = (number + 2 ^ 64).toNat := by
  obtain ⟨_, front, hf, hans⟩ := GetTopKKeys_some a a1 number now ans h
  have hmem : front ∈ a1.buckets_ := List.mem_of_mem_head? hf
  have hbound : 2 ^ 64 - 2 ^ 31 ≤ (number % 2 ^ 64).toNat := by omega
  have hlen1 : (GetBucketSortedByFrequencyKeys front.bucket_data).length
      = front.bucket_data.length := by
    unfold GetBucketSortedByFrequencyKeys
    rw [List.length_insertionSort, List.length_map]
  have hall : ans = (GetBucketSortedByFrequencyKeys front.bucket_data).map Prod.snd := by
    rw [hans]
    unfold WeedOutExtraKeysAndInfo
    rw [if_neg (by omega), List.take_of_length_le]
    rw [hlen1]
    exact le_trans (hlen front hmem) hbound
  refine ⟨front, hf, hall, sorted_GetBucketSortedByFrequencyKeys _, ?_, ?_, ?_⟩
  · rw [hall]
    exact GetBucketSortedByFrequencyKeys_keys front.bucket_data
  · rw [hall, List.length_map, hlen1]
  · omega

/-- A query with `number = −1` at `1/20` on a ring whose only bucket tracks
the keys `7` (count 1) and `8` (count 3): both keys are returned. -/
theorem negative_query_example :
    GetTopKKeys ((Analyzer.new 1 (1 / 10) 12 54 : Analyzer Nat).withRing
        [⟨0, [(7, 1), (8, 3)], 4⟩]) (-1) (1 / 20)
      = some ((Analyzer.new 1 (1 / 10) 12 54 : Analyzer Nat).withRing
          [⟨0, [(7, 1), (8, 3)], 4⟩], [8, 7]) := by
  have hd : DeleteOldAddNewBuckets ((Analyzer.new 1 (1 / 10) 12 54 : Analyzer Nat).withRing
        [⟨0, [(7, 1), (8, 3)], 4⟩]) (1 / 20)
      = some ((Analyzer.new 1 (1 / 10) 12 54 : Analyzer Nat).withRing
          [⟨0, [(7, 1), (8, 3)], 4⟩]) := by
    norm_num [DeleteOldAddNewBuckets, retireOld, Analyzer.new, Analyzer.withRing,
      BucketInfo.new, List.dropWhile, List.getLast?]
  have ha : WeedOutExtraKeysAndInfo (1 / 10) 54
      (GetBucketSortedByFrequencyKeys ([(7, 1), (8, 3)] : List (Nat × Int))) 4 (-1)
      = [8, 7] := by
    unfold WeedOutExtraKeysAndInfo
    rw [if_neg (by decide), List.take_of_length_le (by decide)]
    decide
  rw [GetTopKKeys_of_maintenance _ _ (-1) (1 / 20) ⟨0, [(7, 1), (8, 3)], 4⟩ hd rfl]
  exact congrArg (fun l => some (_, l)) ha

/-- Witness for C38: the query of `negative_query_example`. -/
theorem C38_witness :
    ∃ front, ((Analyzer.new 1 (1 / 10) 12 54 : Analyzer Nat).withRing
        [⟨0, [(7, 1), (8, 3)], 4⟩]).buckets_.head? = some front ∧
      ([8, 7] : List Nat) = (GetBucketSortedByFrequencyKeys front.bucket_data).map Prod.snd ∧
      (GetBucketSortedByFrequencyKeys front.bucket_data).Sorted
        (fun left right => left.1 ≥ right.1) ∧
      ([8, 7] : List Nat).Perm (keysOf front.bucket_data) ∧
      ([8, 7] : List Nat).length = front.bucket_data.length ∧
      ((-1 : Int) % 2 ^ 64).toNat = ((-1 : Int) + 2 ^ 64).toNat :=
  C38_negative_number _ _ (-1) (1 / 20) [8, 7] (by decide) (by decide) negative_query_example
    (by
      intro b hb
      have hb1 : b = ⟨0, [(7, 1), (8, 3)], 4⟩ := by
        simpa [Analyzer.withRing] using hb
      rw [hb1]
      decide)

/-! ## The binary64 reading: rounding, the threshold, the ring and the exact analyzer -/

theorem roundHalfEven_intCast (n : Int) : roundHalfEven (n : ℚ) = n := by
  unfold roundHalfEven
  rw [Int.floor_intCast, sub_self, if_pos (by norm_num)]

theorem roundHalfEven_mem (z : ℚ) : roundHalfEven z = ⌊z⌋ ∨ roundHalfEven z = ⌊z⌋ + 1 := by
  unfold roundHalfEven
  split
  · exact Or.inl rfl
  · split
    · exact Or.inr rfl
    · split
      · exact Or.inl rfl
      · exact Or.inr rfl

theorem roundHalfEven_mono {z w : ℚ} (h : z ≤ w) : roundHalfEven z ≤ roundHalfEven w := by
  have hfl : ⌊z⌋ ≤ ⌊w⌋ := Int.floor_mono h
  rcases lt_or_eq_of_le hfl with hlt | heq
  · have h1 : roundHalfEven z ≤ ⌊z⌋ + 1 := by
      rcases roundHalfEven_mem z with h2 | h2 <;> omega
    have h3 : ⌊w⌋ ≤ roundHalfEven w := by
      rcases roundHalfEven_mem w with h2 | h2 <;> omega
    omega
  · have hfrac : z - ⌊z⌋ ≤ w - ⌊w⌋ := by
      rw [heq]
      linarith
    unfold roundHalfEven
    rw [heq]
    by_cases h1 : z - (⌊w⌋ : ℚ) < 1 / 2
    · rw [heq] at hfrac
      rw [if_pos h1]
      split
      · exact le_refl _
      · split
        · omega
        · split <;> omega
    · rw [if_neg h1]
      rw [heq] at hfrac
      by_cases h2 : 1 / 2 < z - (⌊w⌋ : ℚ)
      · rw [if_pos h2, if_neg (by linarith), if_pos (by linarith)]
      · rw [if_neg h2]
        have hz : z - (⌊w⌋ : ℚ) = 1 / 2 := le_antisymm (not_lt.1 h2) (not_lt.1 h1)
        have hw1 : ¬ (w - (⌊w⌋ : ℚ) < 1 / 2) := by linarith
        by_cases h3 : 1 / 2 < w - (⌊w⌋ : ℚ)
        · rw [if_neg hw1, if_pos h3]
          split <;> omega
        · rw [if_neg hw1, if_neg h3]

theorem abs_roundHalfEven_sub_le (z : ℚ) : |(roundHalfEven z : ℚ) - z| ≤ 1 / 2 := by
  have h1 := Int.floor_le z
  have h2 := Int.lt_floor_add_one z
  unfold roundHalfEven
  by_cases c1 : z - (⌊z⌋ : ℚ) < 1 / 2
  · rw [if_pos c1, abs_le]
    constructor <;> linarith
  · rw [if_neg c1]
    by_cases c2 : 1 / 2 < z - (⌊z⌋ : ℚ)
    · rw [if_pos c2, abs_le]
      push_cast
      constructor <;> linarith
    · rw [if_neg c2]
      have hz : z - (⌊z⌋ : ℚ) = 1 / 2 := le_antisymm (not_lt.1 c2) (not_lt.1 c1)
      split
      · rw [abs_le]
        constructor <;> linarith
      · rw [abs_le]
        push_cast
        constructor <;> linarith

theorem roundHalfEven_eq_of_abs_lt (z : ℚ) (n : Int) (h : |z - (n : ℚ)| < 1 / 2) :
    roundHalfEven z = n := by
  have h1 := abs_roundHalfEven_sub_le z
  rw [abs_lt] at h
  rw [abs_le] at h1
  have h2 : ((roundHalfEven z : Int) : ℚ) - (n : ℚ) < 1 := by linarith
  have h3 : (-1 : ℚ) < ((roundHalfEven z : Int) : ℚ) - (n : ℚ) := by linarith
  have h4 : roundHalfEven z - n < 1 := by exact_mod_cast h2
  have h5 : -1 < roundHalfEven z - n := by exact_mod_cast h3
  omega

theorem two_pow_mul_zpow (k : ℕ) (e : Int) :
    (((2 : Int) ^ k : Int) : ℚ) * (2 : ℚ) ^ e = (2 : ℚ) ^ (e + (k : Int)) := by
  rw [Int.cast_pow, Int.cast_ofNat, ← zpow_natCast (2 : ℚ) k,
    ← zpow_add₀ (by norm_num : (2 : ℚ) ≠ 0), add_comm]

theorem binade_eq (x : ℚ) (e : Int) (he : -1022 ≤ e) (h1 : (2 : ℚ) ^ e ≤ |x|)
    (h2 : |x| < (2 : ℚ) ^ (e + 1)) : binade x = e := by
  have hpos : 0 < |x| := lt_of_lt_of_le (by positivity) h1
  have hl : Int.log 2 |x| = e := by
    apply le_antisymm
    · have := (Int.lt_zpow_iff_log_lt (R := ℚ) (b := 2) (by norm_num) hpos).1
        (by exact_mod_cast h2)
      omega
    · exact (Int.zpow_le_iff_le_log (R := ℚ) (b := 2) (by norm_num) hpos).1
        (by exact_mod_cast h1)
  unfold binade
  rw [hl]
  exact max_eq_left he

theorem binade_ge (x : ℚ) : -1022 ≤ binade x :=
  le_max_right _ _

theorem quantum_pos (x : ℚ) : 0 < Double.quantum x := by
  unfold Double.quantum
  positivity

theorem roundMagnitude_nonneg (x : ℚ) : 0 ≤ Double.roundMagnitude x := by
  unfold Double.roundMagnitude
  have h1 : (0 : ℚ) ≤ |x| / Double.quantum x := div_nonneg (abs_nonneg x) (le_of_lt (quantum_pos x))
  have h2 := roundHalfEven_mono h1
  have h3 : roundHalfEven (0 : ℚ) = 0 := by
    have := roundHalfEven_intCast 0
    simpa using this
  rw [h3] at h2
  have h4 : (0 : ℚ) ≤ (roundHalfEven (|x| / Double.quantum x) : ℚ) := by exact_mod_cast h2
  exact mul_nonneg h4 (le_of_lt (quantum_pos x))

/-- Below `2^(binade + 1)` the rounded magnitude stays at or below that power. -/
theorem roundMagnitude_le_pow (x : ℚ) :
    Double.roundMagnitude x ≤ (2 : ℚ) ^ (binade x + 1) := by
  have hlt : |x| < (2 : ℚ) ^ (binade x + 1) := by
    have h1 := Int.lt_zpow_succ_log_self (R := ℚ) (b := 2) (by norm_num) |x|
    have h2 : ((2 : ℕ) : ℚ) ^ (Int.log 2 |x| + 1) ≤ (2 : ℚ) ^ (binade x + 1) := by
      have : Int.log 2 |x| + 1 ≤ binade x + 1 := by
        have := le_max_left (Int.log 2 |x|) (-1022)
        unfold binade
        omega
      exact_mod_cast zpow_le_zpow_right₀ (by norm_num : (1 : ℚ) ≤ 2) this
    exact lt_of_lt_of_le h1 h2
  unfold Double.roundMagnitude Double.quantum
  have hq : (0 : ℚ) < (2 : ℚ) ^ (binade x - 52) := by positivity
  have h3 : |x| / (2 : ℚ) ^ (binade x - 52) ≤ (((2 : Int) ^ 53 : Int) : ℚ) := by
    rw [div_le_iff₀ hq]
    have h4 : (((2 : Int) ^ 53 : Int) : ℚ) * (2 : ℚ) ^ (binade x - 52)
        = (2 : ℚ) ^ (binade x + 1) := by
      rw [two_pow_mul_zpow]
      congr 1
      push_cast
      ring
    rw [h4]
    exact le_of_lt hlt
  have h5 := roundHalfEven_mono h3
  rw [roundHalfEven_intCast] at h5
  have h6 : ((roundHalfEven (|x| / (2 : ℚ) ^ (binade x - 52)) : Int) : ℚ)
      ≤ (((2 : Int) ^ 53 : Int) : ℚ) := by exact_mod_cast h5
  calc ((roundHalfEven (|x| / (2 : ℚ) ^ (binade x - 52)) : Int) : ℚ) * (2 : ℚ) ^ (binade x - 52)
      ≤ (((2 : Int) ^ 53 : Int) : ℚ) * (2 : ℚ) ^ (binade x - 52) :=
        mul_le_mul_of_nonneg_right h6 (le_of_lt hq)
    _ = (2 : ℚ) ^ (binade x + 1) := by
      rw [two_pow_mul_zpow]
      congr 1
      push_cast
      ring

/-- In the normal range the rounded magnitude stays at or above `2^binade`. -/
theorem pow_le_roundMagnitude (x : ℚ) (h : (2 : ℚ) ^ binade x ≤ |x|) :
    (2 : ℚ) ^ binade x ≤ Double.roundMagnitude x := by
  unfold Double.roundMagnitude Double.quantum
  have hq : (0 : ℚ) < (2 : ℚ) ^ (binade x - 52) := by positivity
  have h4 : (((2 : Int) ^ 52 : Int) : ℚ) * (2 : ℚ) ^ (binade x - 52)
      = (2 : ℚ) ^ (binade x) := by
    rw [two_pow_mul_zpow]
    congr 1
    push_cast
    ring
  have h3 : (((2 : Int) ^ 52 : Int) : ℚ) ≤ |x| / (2 : ℚ) ^ (binade x - 52) := by
    rw [le_div_iff₀ hq, h4]
    exact h
  have h5 := roundHalfEven_mono h3
  rw [roundHalfEven_intCast] at h5
  have h6 : (((2 : Int) ^ 52 : Int) : ℚ)
      ≤ ((roundHalfEven (|x| / (2 : ℚ) ^ (binade x - 52)) : Int) : ℚ) := by exact_mod_cast h5
  calc (2 : ℚ) ^ (binade x) = (((2 : Int) ^ 52 : Int) : ℚ) * (2 : ℚ) ^ (binade x - 52) := h4.symm
    _ ≤ _ := mul_le_mul_of_nonneg_right h6 (le_of_lt hq)

theorem binade_mono {x y : ℚ} (hx : x ≠ 0) (h : |x| ≤ |y|) : binade x ≤ binade y := by
  unfold binade
  exact max_le_max (Int.log_mono_right (abs_pos.2 hx) h) (le_refl _)

/-- Rounding is monotone in the magnitude. -/
theorem roundMagnitude_mono {x y : ℚ} (h : |x| ≤ |y|) :
    Double.roundMagnitude x ≤ Double.roundMagnitude y := by
  by_cases hx : x = 0
  · have h0 : Double.roundMagnitude x = 0 := by
      unfold Double.roundMagnitude
      rw [hx, abs_zero, zero_div]
      have := roundHalfEven_intCast 0
      simp only [Int.cast_zero] at this
      rw [this]
      simp
    rw [h0]
    exact roundMagnitude_nonneg y
  · have hb := binade_mono hx h
    rcases lt_or_eq_of_le hb with hlt | heq
    · have h1 := roundMagnitude_le_pow x
      have hy : (2 : ℚ) ^ binade y ≤ |y| := by
        have hlog : binade y = Int.log 2 |y| := by
          unfold binade at hlt ⊢
          have := binade_ge x
          unfold binade at this
          rcases le_total (Int.log 2 |y|) (-1022) with h5 | h5
          · rw [max_eq_right h5] at hlt
            omega
          · exact max_eq_left h5
        rw [hlog]
        have hypos : 0 < |y| := lt_of_lt_of_le (abs_pos.2 hx) h
        exact_mod_cast Int.zpow_log_le_self (R := ℚ) (b := 2) (by norm_num) hypos
      have h2 := pow_le_roundMagnitude y hy
      have h3 : (2 : ℚ) ^ (binade x + 1) ≤ (2 : ℚ) ^ binade y :=
        zpow_le_zpow_right₀ (by norm_num) (by omega)
      linarith
    · unfold Double.roundMagnitude Double.quantum
      rw [heq]
      have hq : (0 : ℚ) < (2 : ℚ) ^ (binade y - 52) := by positivity
      have h1 : |x| / (2 : ℚ) ^ (binade y - 52) ≤ |y| / (2 : ℚ) ^ (binade y - 52) :=
        div_le_div_of_nonneg_right h (le_of_lt hq)
      have h2 := roundHalfEven_mono h1
      have h3 : ((roundHalfEven (|x| / (2 : ℚ) ^ (binade y - 52)) : Int) : ℚ)
          ≤ ((roundHalfEven (|y| / (2 : ℚ) ^ (binade y - 52)) : Int) : ℚ) := by exact_mod_cast h2
      exact mul_le_mul_of_nonneg_right h3 (le_of_lt hq)

theorem roundMagnitude_zero : Double.roundMagnitude 0 = 0 := by
  unfold Double.roundMagnitude
  rw [abs_zero, zero_div]
  have := roundHalfEven_intCast 0
  simp only [Int.cast_zero] at this
  rw [this]
  simp

theorem roundMagnitude_neg (x : ℚ) : Double.roundMagnitude (-x) = Double.roundMagnitude x := by
  unfold Double.roundMagnitude Double.quantum binade
  rw [abs_neg]

theorem Double.le_of_lt_false (a b : Double) (h : Double.le a b = true) :
    Double.lt b a = false := by
  cases a <;> cases b <;> simp [Double.le, Double.lt] at h ⊢
  exact h

theorem Double.lt_trans_le (a b c : Double) (h1 : Double.lt a b = true)
    (h2 : Double.le b c = true) : Double.lt a c = true := by
  cases a <;> cases b <;> cases c <;> simp [Double.le, Double.lt] at h1 h2 ⊢
  exact lt_of_lt_of_le h1 h2

theorem Double.le_transitive (a b c : Double) (h1 : Double.le a b = true)
    (h2 : Double.le b c = true) : Double.le a c = true := by
  cases a <;> cases b <;> cases c <;> simp [Double.le] at h1 h2 ⊢
  exact le_trans h1 h2

/-- Rounding to binary64 is monotone. -/
theorem ofRat_mono {x y : ℚ} (h : x ≤ y) :
    Double.le (Double.ofRat x) (Double.ofRat y) = true := by
  have hx0 := roundMagnitude_nonneg x
  have hy0 := roundMagnitude_nonneg y
  unfold Double.ofRat
  by_cases hxn : x < 0
  · by_cases hyn : y < 0
    · have habs : |y| ≤ |x| := by
        rw [abs_of_neg hxn, abs_of_neg hyn]
        linarith
      have hm := roundMagnitude_mono habs
      simp only [hxn, hyn, if_true]
      by_cases hox : (2 : ℚ) ^ (1024 : ℕ) ≤ Double.roundMagnitude x
      · rw [if_pos hox]
        split <;> simp [Double.le]
      · rw [if_neg hox, if_neg (by linarith)]
        simp only [Double.le, decide_eq_true_eq]
        linarith
    · simp only [hxn, hyn, if_true, if_false]
      split <;> split <;> simp [Double.le]
      linarith
  · have hyn : ¬ y < 0 := by linarith
    have habs : |x| ≤ |y| := by
      rw [abs_of_nonneg (not_lt.1 hxn), abs_of_nonneg (not_lt.1 hyn)]
      exact h
    have hm := roundMagnitude_mono habs
    simp only [hxn, hyn, if_false]
    by_cases hoy : (2 : ℚ) ^ (1024 : ℕ) ≤ Double.roundMagnitude y
    · rw [if_pos hoy]
      split <;> simp [Double.le]
    · rw [if_neg hoy, if_neg (by linarith)]
      simp only [Double.le, decide_eq_true_eq]
      exact hm

/-- The code's test `bound < (double) x` against a rounded bound implies the
exact comparison. -/
theorem lt_of_ofRat_lt_ofRat {x y : ℚ}
    (h : Double.lt (Double.ofRat y) (Double.ofRat x) = true) : y < x := by
  by_contra hxy
  have h1 := Double.le_of_lt_false _ _ (ofRat_mono (not_lt.1 hxy))
  rw [h1] at h
  cases h

/-- A value that is a whole multiple of its own quantum is not changed by
rounding. -/
theorem roundMagnitude_eq_abs (x : ℚ) (k : Int) (h : |x| = (k : ℚ) * Double.quantum x) :
    Double.roundMagnitude x = |x| := by
  have hq := quantum_pos x
  unfold Double.roundMagnitude
  have h1 : |x| / Double.quantum x = (k : ℚ) := by
    rw [h]
    field_simp
  rw [h1, roundHalfEven_intCast, ← h]

theorem ofRat_eq_of_roundMagnitude (x : ℚ) (h : Double.roundMagnitude x = |x|)
    (hfin : |x| < (2 : ℚ) ^ (1024 : ℕ)) : Double.ofRat x = Double.finite x := by
  unfold Double.ofRat
  rw [h, if_neg (not_le.2 hfin)]
  congr 1
  by_cases hx : x < 0
  · rw [if_pos hx, abs_of_neg hx, neg_neg]
  · rw [if_neg hx, abs_of_nonneg (not_lt.1 hx)]

theorem roundHalfEven_tie (n : Int) :
    roundHalfEven ((n : ℚ) + 1 / 2) = if n % 2 = 0 then n else n + 1 := by
  have hfl : ⌊(n : ℚ) + 1 / 2⌋ = n := by
    rw [Int.floor_eq_iff]
    constructor <;> norm_num
  unfold roundHalfEven
  rw [hfl, if_neg (by norm_num), if_neg (by norm_num)]

/-- The evaluation of a rounding: `x` lies in the binade `e` and `n` is the
integer that `x / 2^(e − 52)` rounds to. -/
theorem ofRat_eq_finite (x v : ℚ) (e n : Int) (he : -1022 ≤ e) (hx0 : 0 ≤ x)
    (h1 : (2 : ℚ) ^ e ≤ x) (h2 : x < (2 : ℚ) ^ (e + 1))
    (hn : roundHalfEven (x / (2 : ℚ) ^ (e - 52)) = n)
    (hv : v = (n : ℚ) * (2 : ℚ) ^ (e - 52)) (hfin : v < (2 : ℚ) ^ (1024 : ℕ)) :
    Double.ofRat x = Double.finite v := by
  have hb : binade x = e := binade_eq x e he (by rw [abs_of_nonneg hx0]; exact h1)
    (by rw [abs_of_nonneg hx0]; exact h2)
  have hm : Double.roundMagnitude x = v := by
    unfold Double.roundMagnitude Double.quantum
    rw [hb, abs_of_nonneg hx0, hn, hv]
  unfold Double.ofRat
  rw [hm, if_neg (not_le.2 hfin), if_neg (not_lt.2 hx0)]

theorem roundMagnitude_abs (x : ℚ) : Double.roundMagnitude |x| = Double.roundMagnitude x := by
  unfold Double.roundMagnitude Double.quantum binade
  rw [abs_abs]

theorem roundMagnitude_natCast (a : ℕ) (hale : a ≤ 2 ^ 53) :
    Double.roundMagnitude (a : ℚ) = (a : ℚ) := by
  have habs : |(a : ℚ)| = (a : ℚ) := abs_of_nonneg (Nat.cast_nonneg a)
  rcases Nat.eq_zero_or_pos a with h0 | hapos
  · rw [h0]
    simp [roundMagnitude_zero]
  · have hlog : Int.log 2 |(a : ℚ)| = (Nat.log 2 a : Int) := by
      rw [habs, Int.log_natCast]
    have hL : Nat.log 2 a ≤ 53 := by
      calc Nat.log 2 a ≤ Nat.log 2 (2 ^ 53) := Nat.log_mono_right hale
        _ = 53 := Nat.log_pow (by norm_num) 53
    have hbin : binade (a : ℚ) = (Nat.log 2 a : Int) := by
      unfold binade
      rw [hlog]
      exact max_eq_left (by omega)
    have hlow : 2 ^ Nat.log 2 a ≤ a := Nat.pow_log_le_self 2 (by omega)
    have hgoal : ∃ k : Int, |(a : ℚ)| = (k : ℚ) * Double.quantum (a : ℚ) := by
      rcases Nat.lt_or_ge (Nat.log 2 a) 53 with hlt | hge
      · refine ⟨((a * 2 ^ (52 - Nat.log 2 a) : ℕ) : Int), ?_⟩
        unfold Double.quantum
        rw [hbin, habs]
        have he : ((Nat.log 2 a : Int) - 52) = -((52 - Nat.log 2 a : ℕ) : Int) := by
          omega
        rw [he, zpow_neg, zpow_natCast]
        push_cast
        field_simp
      · have h53 : Nat.log 2 a = 53 := le_antisymm hL hge
        have ha : a = 2 ^ 53 := by
          rw [h53] at hlow
          omega
        refine ⟨(2 : Int) ^ 52, ?_⟩
        unfold Double.quantum
        rw [hbin, habs, h53, ha]
        norm_num
    obtain ⟨k, hk⟩ := hgoal
    rw [roundMagnitude_eq_abs _ k hk, habs]

/-- The conversion of an integer of magnitude at most `2^53` is exact. -/
theorem ofRat_intCast (n : Int) (hn : |n| ≤ 2 ^ 53) :
    Double.ofRat (n : ℚ) = Double.finite (n : ℚ) := by
  have hfin : |(n : ℚ)| < (2 : ℚ) ^ (1024 : ℕ) := by
    have h1 : |(n : ℚ)| ≤ (2 : ℚ) ^ (53 : ℕ) := by
      have : ((|n| : Int) : ℚ) ≤ (((2 : Int) ^ 53 : Int) : ℚ) := by exact_mod_cast hn
      rw [Int.cast_abs] at this
      exact_mod_cast this
    have h2 : (2 : ℚ) ^ (53 : ℕ) < (2 : ℚ) ^ (1024 : ℕ) :=
      pow_lt_pow_right₀ (by norm_num) (by norm_num)
    linarith
  apply ofRat_eq_of_roundMagnitude _ _ hfin
  have hale : n.natAbs ≤ 2 ^ 53 := by
    have : (n.natAbs : Int) ≤ 2 ^ 53 := by
      rw [Int.natCast_natAbs]
      exact hn
    exact_mod_cast this
  have habs : |(n : ℚ)| = ((n.natAbs : ℕ) : ℚ) := by
    rw [Nat.cast_natAbs, Int.cast_abs]
  rw [← roundMagnitude_abs, habs]
  exact roundMagnitude_natCast _ hale

theorem ofRat_natCast (n : Nat) (hn : n ≤ 2 ^ 53) :
    Double.ofRat (n : ℚ) = Double.finite (n : ℚ) := by
  have := ofRat_intCast (n : Int) (by rw [abs_of_nonneg (Int.natCast_nonneg n)]; exact_mod_cast hn)
  simpa using this

theorem ofInt_eq (n : Int) (hn : |n| ≤ 2 ^ 53) : Double.ofInt n = Double.finite (n : ℚ) :=
  ofRat_intCast n hn

theorem ofNat_eq (n : Nat) (hn : n ≤ 2 ^ 53) : Double.ofNat n = Double.finite (n : ℚ) :=
  ofRat_natCast n hn

theorem ofRat_eq_int (x v : ℚ) (n : Int) (hx : x = (n : ℚ)) (hv : v = (n : ℚ))
    (hn : |n| ≤ 2 ^ 53) : Double.ofRat x = Double.finite v := by
  rw [hx, hv]
  exact ofRat_intCast n hn

theorem Double.mul_finite (a b : ℚ) :
    (Double.finite a).mul (Double.finite b) = Double.ofRat (a * b) :=
  rfl

theorem Double.sub_finite (a b : ℚ) :
    (Double.finite a).sub (Double.finite b) = Double.ofRat (a - b) :=
  rfl

theorem Double.div_finite (a b : ℚ) (hb : b ≠ 0) :
    (Double.finite a).div (Double.finite b) = Double.ofRat (a / b) := by
  show (if b = 0 then _ else Double.ofRat (a / b)) = _
  rw [if_neg hb]

theorem Double.floor_finite (a : ℚ) (n : Int) (h : ⌊a⌋ = n) :
    (Double.finite a).floor = Double.finite (n : ℚ) := by
  show Double.finite ((⌊a⌋ : Int) : ℚ) = _
  rw [h]

theorem Double.ceil_finite (a : ℚ) (n : Int) (h : ⌈a⌉ = n) :
    (Double.finite a).ceil = Double.finite (n : ℚ) := by
  show Double.finite ((⌈a⌉ : Int) : ℚ) = _
  rw [h]

theorem ofRat_zero : Double.ofRat 0 = Double.finite 0 := by
  simpa using ofRat_intCast 0 (by norm_num)

theorem ofRat_one : Double.ofRat 1 = Double.finite 1 := by
  simpa using ofRat_intCast 1 (by norm_num)

theorem ofRat_two : Double.ofRat 2 = Double.finite 2 := by
  simpa using ofRat_intCast 2 (by norm_num)

/-- The `double` literal `0.44`. -/
theorem ofRat_share_example :
    Double.ofRat (11 / 25) = Double.finite (7926335344172073 / 18014398509481984) := by
  apply ofRat_eq_finite _ _ (-2) 7926335344172073
  · norm_num
  · norm_num
  · norm_num
  · norm_num
  · apply roundHalfEven_eq_of_abs_lt
    rw [abs_lt]
    constructor <;> norm_num
  · norm_num
  · norm_num

/-- `25 * 0.44` in binary64 is `11`. -/
theorem ofRat_share_example_floor_arg :
    Double.ofRat (25 * (7926335344172073 / 18014398509481984)) = Double.finite (11) := by
  apply ofRat_eq_finite _ _ (3) 6192449487634432
  · norm_num
  · norm_num
  · norm_num
  · norm_num
  · apply roundHalfEven_eq_of_abs_lt
    rw [abs_lt]
    constructor <;> norm_num
  · norm_num
  · norm_num

/-- `1 - 0.44` in binary64. -/
theorem ofRat_share_example_complement :
    Double.ofRat (1 - 7926335344172073 / 18014398509481984) = Double.finite (1261007895663739 / 2251799813685248) := by
  apply ofRat_eq_finite _ _ (-1) 5044031582654956
  · norm_num
  · norm_num
  · norm_num
  · norm_num
  · have h : (1 - 7926335344172073 / 18014398509481984 : ℚ) / (2 : ℚ) ^ ((-1 : Int) - 52)
        = ((5044031582654955 : Int) : ℚ) + 1 / 2 := by norm_num
    rw [h, roundHalfEven_tie]
    decide
  · norm_num
  · norm_num

/-- `25 * (1 - 0.44)` in binary64 is just above `14`. -/
theorem ofRat_share_example_product :
    Double.ofRat (25 * (1261007895663739 / 2251799813685248)) = Double.finite (7881299347898369 / 562949953421312) := by
  apply ofRat_eq_finite _ _ (3) 7881299347898369
  · norm_num
  · norm_num
  · norm_num
  · norm_num
  · apply roundHalfEven_eq_of_abs_lt
    rw [abs_lt]
    constructor <;> norm_num
  · norm_num
  · norm_num

/-- `25 * (1 - 0.44) / 2` in binary64 is just above `7`. -/
theorem ofRat_share_example_ceil_arg :
    Double.ofRat (7881299347898369 / 562949953421312 / 2) = Double.finite (7881299347898369 / 1125899906842624) := by
  apply ofRat_eq_finite _ _ (2) 7881299347898369
  · norm_num
  · norm_num
  · norm_num
  · norm_num
  · apply roundHalfEven_eq_of_abs_lt
    rw [abs_lt]
    constructor <;> norm_num
  · norm_num
  · norm_num

/-- The `double` literal `0.1`. -/
theorem ofRat_tenth :
    Double.ofRat (1 / 10) = Double.finite (3602879701896397 / 36028797018963968) := by
  apply ofRat_eq_finite _ _ (-4) 7205759403792794
  · norm_num
  · norm_num
  · norm_num
  · norm_num
  · apply roundHalfEven_eq_of_abs_lt
    rw [abs_lt]
    constructor <;> norm_num
  · norm_num
  · norm_num

/-- `1000 * 0.1` in binary64 is `100`. -/
theorem ofRat_tenth_floor_arg :
    Double.ofRat (1000 * (3602879701896397 / 36028797018963968)) = Double.finite (100) := by
  apply ofRat_eq_finite _ _ (6) 7036874417766400
  · norm_num
  · norm_num
  · norm_num
  · norm_num
  · apply roundHalfEven_eq_of_abs_lt
    rw [abs_lt]
    constructor <;> norm_num
  · norm_num
  · norm_num

/-- `1 - 0.1` in binary64. -/
theorem ofRat_tenth_complement :
    Double.ofRat (1 - 3602879701896397 / 36028797018963968) = Double.finite (8106479329266893 / 9007199254740992) := by
  apply ofRat_eq_finite _ _ (-1) 8106479329266893
  · norm_num
  · norm_num
  · norm_num
  · norm_num
  · apply roundHalfEven_eq_of_abs_lt
    rw [abs_lt]
    constructor <;> norm_num
  · norm_num
  · norm_num

/-- `1000 * (1 - 0.1)` in binary64 is `900`. -/
theorem ofRat_tenth_product :
    Double.ofRat (1000 * (8106479329266893 / 9007199254740992)) = Double.finite (900) := by
  apply ofRat_eq_finite _ _ (9) 7916483719987200
  · norm_num
  · norm_num
  · norm_num
  · norm_num
  · apply roundHalfEven_eq_of_abs_lt
    rw [abs_lt]
    constructor <;> norm_num
  · norm_num
  · norm_num

/-- `900 / 54` in binary64. -/
theorem ofRat_tenth_ceil_arg :
    Double.ofRat (900 / 54) = Double.finite (4691249611844267 / 281474976710656) := by
  apply ofRat_eq_finite _ _ (4) 4691249611844267
  · norm_num
  · norm_num
  · norm_num
  · norm_num
  · apply roundHalfEven_eq_of_abs_lt
    rw [abs_lt]
    constructor <;> norm_num
  · norm_num
  · norm_num

/-- The threshold for `share = 0.44`, `bucket_size = 2`, `n = 25` as binary64
computes it: `floor(11) − ceil(7.000000000000001) − 2 = 1`. -/
theorem min_num_binary64_example :
    Binary64.min_num (Double.ofRat (11 / 25)) 2 25 = Double.finite 1 := by
  have hn : Double.ofInt 25 = Double.finite 25 := by
    simpa using ofInt_eq 25 (by norm_num)
  have hm : Double.ofNat 2 = Double.finite 2 := by
    simpa using ofNat_eq 2 (by norm_num)
  have e1 : (Double.finite 25).mul (Double.finite (7926335344172073 / 18014398509481984)) = Double.finite 11 :=
    ofRat_share_example_floor_arg
  have e2 : (Double.finite 1).sub (Double.finite (7926335344172073 / 18014398509481984)) = Double.finite (1261007895663739 / 2251799813685248) :=
    ofRat_share_example_complement
  have e3 : (Double.finite 25).mul (Double.finite (1261007895663739 / 2251799813685248)) = Double.finite (7881299347898369 / 562949953421312) :=
    ofRat_share_example_product
  have e4 : (Double.finite (7881299347898369 / 562949953421312)).div (Double.finite 2) = Double.finite (7881299347898369 / 1125899906842624) := by
    rw [Double.div_finite _ _ (by norm_num)]
    exact ofRat_share_example_ceil_arg
  have e5 : (Double.finite 11).floor = Double.finite 11 := by
    have h := Double.floor_finite (11) 11 (by
      rw [Int.floor_eq_iff]
      norm_num)
    rw [h]
    norm_num
  have e6 : (Double.finite (7881299347898369 / 1125899906842624)).ceil = Double.finite 8 := by
    have h := Double.ceil_finite (7881299347898369 / 1125899906842624) 8 (by
      rw [Int.ceil_eq_iff]
      norm_num)
    rw [h]
    norm_num
  have e7 : (Double.finite 11).sub (Double.finite 8) = Double.finite 3 := by
    rw [Double.sub_finite]
    exact ofRat_eq_int _ _ 3 (by norm_num) (by norm_num) (by norm_num)
  have e8 : (Double.finite 3).sub (Double.finite 2) = Double.finite 1 := by
    rw [Double.sub_finite]
    exact ofRat_eq_int _ _ 1 (by norm_num) (by norm_num) (by norm_num)
  unfold Binary64.min_num
  rw [hn, hm, ofRat_one, ofRat_two, ofRat_share_example, e1, e2, e3, e4, e5, e6, e7, e8]

/-- The threshold for `share = 0.1`, `bucket_size = 54`, `n = 1000` as
binary64 computes it: `floor(100) − ceil(16.666666666666668) − 2 = 81`. -/
theorem min_num_binary64_tenth_thousand :
    Binary64.min_num (Double.ofRat (1 / 10)) 54 1000 = Double.finite 81 := by
  have hn : Double.ofInt 1000 = Double.finite 1000 := by
    simpa using ofInt_eq 1000 (by norm_num)
  have hm : Double.ofNat 54 = Double.finite 54 := by
    simpa using ofNat_eq 54 (by norm_num)
  have e1 : (Double.finite 1000).mul (Double.finite (3602879701896397 / 36028797018963968)) = Double.finite 100 :=
    ofRat_tenth_floor_arg
  have e2 : (Double.finite 1).sub (Double.finite (3602879701896397 / 36028797018963968)) = Double.finite (8106479329266893 / 9007199254740992) :=
    ofRat_tenth_complement
  have e3 : (Double.finite 1000).mul (Double.finite (8106479329266893 / 9007199254740992)) = Double.finite 900 :=
    ofRat_tenth_product
  have e4 : (Double.finite 900).div (Double.finite 54) = Double.finite (4691249611844267 / 281474976710656) := by
    rw [Double.div_finite _ _ (by norm_num)]
    exact ofRat_tenth_ceil_arg
  have e5 : (Double.finite 100).floor = Double.finite 100 := by
    have h := Double.floor_finite (100) 100 (by
      rw [Int.floor_eq_iff]
      norm_num)
    rw [h]
    norm_num
  have e6 : (Double.finite (4691249611844267 / 281474976710656)).ceil = Double.finite 17 := by
    have h := Double.ceil_finite (4691249611844267 / 281474976710656) 17 (by
      rw [Int.ceil_eq_iff]
      norm_num)
    rw [h]
    norm_num
  have e7 : (Double.finite 100).sub (Double.finite 17) = Double.finite 83 := by
    rw [Double.sub_finite]
    exact ofRat_eq_int _ _ 83 (by norm_num) (by norm_num) (by norm_num)
  have e8 : (Double.finite 83).sub (Double.finite 2) = Double.finite 81 := by
    rw [Double.sub_finite]
    exact ofRat_eq_int _ _ 81 (by norm_num) (by norm_num) (by norm_num)
  unfold Binary64.min_num
  rw [hn, hm, ofRat_one, ofRat_two, ofRat_tenth, e1, e2, e3, e4, e5, e6, e7, e8]

/-- On a list sorted by count, largest first, the prefix scan by a test that
is monotone in the count selects the same entries as filtering. -/
theorem takeWhile_eq_filter_of_monotone (p : Int → Bool)
    (hp : ∀ c1 c2 : Int, c1 ≤ c2 → p c1 = true → p c2 = true) (v : List (Int × K))
    (hs : v.Sorted (fun left right => left.1 ≥ right.1)) :
    v.takeWhile (fun e => p e.1) = v.filter (fun e => p e.1) := by
  induction v with
  | nil => rfl
  | cons a rest ih =>
    have hsort := List.sorted_cons.1 hs
    by_cases ha : p a.1 = true
    · rw [List.takeWhile_cons_of_pos (by exact ha), List.filter_cons_of_pos (by exact ha),
        ih hsort.2]
    · rw [List.takeWhile_cons_of_neg (by exact ha), List.filter_cons_of_neg (by exact ha)]
      symm
      rw [List.filter_eq_nil_iff]
      intro e he hpe
      exact ha (hp e.1 a.1 (hsort.1 e he) hpe)

/-- The code's test `count >= min_num` is monotone in the count. -/
theorem threshold_test_mono (τ : Double) (c1 c2 : Int) (h : c1 ≤ c2)
    (h1 : Double.le τ (Double.ofInt c1) = true) : Double.le τ (Double.ofInt c2) = true :=
  Double.le_transitive _ _ _ h1 (ofRat_mono (by exact_mod_cast h))

/-- C13, as stated, fails: with `share = 0.44`, `bucket_size = 2` and
`N = 25` the exact threshold `τ(25)` is `2` (for the decimal `0.44` and for
the `double` nearest to it alike), but the code computes `min_num = 1` in
binary64 and returns key `24`, whose count `1` is below `τ(25)`. -/
theorem C13_counterexample :
    min_num (11 / 25) 2 25 = 2 ∧
      min_num (7926335344172073 / 18014398509481984) 2 25 = 2 ∧
      Binary64.min_num (Double.ofRat (11 / 25)) 2 25 = Double.finite 1 ∧
      Binary64.WeedOutExtraKeysAndInfo (Double.ofRat (11 / 25)) 2
        ([(1, 24), (0, 22)] : List (Int × Nat)) 25 0 = [24] ∧
      (([(1, 24), (0, 22)] : List (Int × Nat)).filter
        (fun e => decide (e.1 ≥ min_num (11 / 25) 2 25))).map Prod.snd = [] := by
  have h1 : min_num (11 / 25) 2 25 = 2 := by
    unfold min_num
    have h1 : ⌊((25 : Int) : ℚ) * (11 / 25)⌋ = 11 := by
      rw [Int.floor_eq_iff]
      norm_num
    have h2 : ⌈((25 : Int) : ℚ) * (1 - 11 / 25) / ((2 : Nat) : ℚ)⌉ = 7 := by
      rw [Int.ceil_eq_iff]
      norm_num
    rw [h1, h2]
    rfl
  have h2 : min_num (7926335344172073 / 18014398509481984) 2 25 = 2 := by
    unfold min_num
    have h1 : ⌊((25 : Int) : ℚ) * (7926335344172073 / 18014398509481984)⌋ = 11 := by
      rw [Int.floor_eq_iff]
      norm_num
    have h2 : ⌈((25 : Int) : ℚ) * (1 - 7926335344172073 / 18014398509481984) / ((2 : Nat) : ℚ)⌉
        = 7 := by
      rw [Int.ceil_eq_iff]
      norm_num
    rw [h1, h2]
    rfl
  refine ⟨h1, h2, min_num_binary64_example, ?_, ?_⟩
  · have e1 : Double.ofInt 1 = Double.finite 1 := by simpa using ofInt_eq 1 (by norm_num)
    have e0 : Double.ofInt 0 = Double.finite 0 := by simpa using ofInt_eq 0 (by norm_num)
    unfold Binary64.WeedOutExtraKeysAndInfo
    rw [if_pos rfl, min_num_binary64_example]
    norm_num [List.takeWhile, e1, e0, Double.le]
  · rw [h1]
    decide

/-- C13, amended. Threshold mode as the code computes it: for `number = 0` and
a list sorted by count, largest first, the extractor returns exactly the keys
of the entries whose count passes the code's test `(double) c >= min_num`,
`min_num` being computed in binary64; the prefix scan yields the same keys as
filtering the whole list. For a count of magnitude at most `2^53` and a finite
`min_num` the test is the exact comparison `min_num ≤ c`. -/
theorem C13_threshold_mode_amended (share : Double) (m : Nat) (v : List (Int × K)) (N : Int)
    (hs : v.Sorted (fun left right => left.1 ≥ right.1)) :
    Binary64.WeedOutExtraKeysAndInfo share m v N 0
        = (v.filter (fun e => Double.le (Binary64.min_num share m N)
            (Double.ofInt e.1))).map Prod.snd ∧
      ∀ e ∈ v, |e.1| ≤ 2 ^ 53 → ∀ τ : ℚ, Binary64.min_num share m N = Double.finite τ →
        (Double.le (Binary64.min_num share m N) (Double.ofInt e.1) = true ↔ τ ≤ (e.1 : ℚ)) := by
  constructor
  · unfold Binary64.WeedOutExtraKeysAndInfo
    rw [if_pos rfl]
    congr 1
    exact takeWhile_eq_filter_of_monotone
      (fun c => Double.le (Binary64.min_num share m N) (Double.ofInt c))
      (threshold_test_mono _) v hs
  · intro e _ hc τ hτ
    rw [hτ, ofInt_eq e.1 hc]
    simp [Double.le]

/-- Witness for amended C13: `share = 0.44`, `bucket_size = 2`, `N = 25` and
a vector of three entries. -/
theorem C13_witness :
    Binary64.WeedOutExtraKeysAndInfo (Double.ofRat (11 / 25)) 2
          ([(3, 1), (1, 2), (0, 5)] : List (Int × Nat)) 25 0
        = (([(3, 1), (1, 2), (0, 5)] : List (Int × Nat)).filter
            (fun e => Double.le (Binary64.min_num (Double.ofRat (11 / 25)) 2 25)
              (Double.ofInt e.1))).map Prod.snd ∧
      ∀ e ∈ ([(3, 1), (1, 2), (0, 5)] : List (Int × Nat)), |e.1| ≤ 2 ^ 53 → ∀ τ : ℚ,
        Binary64.min_num (Double.ofRat (11 / 25)) 2 25 = Double.finite τ →
        (Double.le (Binary64.min_num (Double.ofRat (11 / 25)) 2 25) (Double.ofInt e.1) = true
          ↔ τ ≤ (e.1 : ℚ)) :=
  C13_threshold_mode_amended (Double.ofRat (11 / 25)) 2 [(3, 1), (1, 2), (0, 5)] 25
    (by decide)

/-- A key in the binary64 threshold answer has a stored count that passes the
code's test. -/
theorem mem_thresholdAnswer_binary64 (share : Double) (m : Nat) (b : BucketInfo K) (k : K)
    (h : k ∈ Binary64.thresholdAnswer share m b) :
    ∃ c, (k, c) ∈ b.bucket_data ∧
      Double.le (Binary64.min_num share m b.add_new_key_count) (Double.ofInt c) = true := by
  unfold Binary64.thresholdAnswer Binary64.WeedOutExtraKeysAndInfo at h
  rw [if_pos rfl, List.mem_map] at h
  obtain ⟨e, he, rfl⟩ := h
  have h1 := List.mem_takeWhile_imp he
  have h2 : e ∈ GetBucketSortedByFrequencyKeys b.bucket_data :=
    (List.takeWhile_prefix _).subset he
  exact ⟨e.1, (mem_GetBucketSortedByFrequencyKeys b.bucket_data e.1 e.2).1 h2, h1⟩

/-- The table after 25 pairwise distinct keys in a bucket of capacity 2. -/
theorem distinct_stream_example :
    deliverAll 2 (BucketInfo.new 0 : BucketInfo Nat) (List.range 25)
      = ⟨0, [(22, 0), (24, 1)], 25⟩ := by
  decide

/-- C23, as stated, fails: with `share = 0.44` and `bucket_size = 2` the 25
pairwise distinct keys `0, …, 24` have `τ(25) = 2 ≥ 2`, but the code's
binary64 threshold is `1` and the threshold-mode answer is `[24]`. -/
theorem C23_counterexample :
    (List.range 25).Nodup ∧
      2 ≤ min_num (11 / 25) 2 ((List.range 25).length : Int) ∧
      2 ≤ min_num (7926335344172073 / 18014398509481984) 2 ((List.range 25).length : Int) ∧
      Binary64.thresholdAnswer (Double.ofRat (11 / 25)) 2
        (deliverAll 2 (BucketInfo.new 0 : BucketInfo Nat) (List.range 25)) = [24] := by
  have h1 : min_num (11 / 25) 2 25 = 2 := by
    unfold min_num
    have h1 : ⌊((25 : Int) : ℚ) * (11 / 25)⌋ = 11 := by
      rw [Int.floor_eq_iff]
      norm_num
    have h2 : ⌈((25 : Int) : ℚ) * (1 - 11 / 25) / ((2 : Nat) : ℚ)⌉ = 7 := by
      rw [Int.ceil_eq_iff]
      norm_num
    rw [h1, h2]
    rfl
  have h2 : min_num (7926335344172073 / 18014398509481984) 2 25 = 2 := by
    unfold min_num
    have h1 : ⌊((25 : Int) : ℚ) * (7926335344172073 / 18014398509481984)⌋ = 11 := by
      rw [Int.floor_eq_iff]
      norm_num
    have h2 : ⌈((25 : Int) : ℚ) * (1 - 7926335344172073 / 18014398509481984) / ((2 : Nat) : ℚ)⌉
        = 7 := by
      rw [Int.ceil_eq_iff]
      norm_num
    rw [h1, h2]
    rfl
  have hlen : ((List.range 25).length : Int) = 25 := by simp
  refine ⟨List.nodup_range 25, ?_, ?_, ?_⟩
  · rw [hlen, h1]
  · rw [hlen, h2]
  · have e1 : Double.ofInt 1 = Double.finite 1 := by simpa using ofInt_eq 1 (by norm_num)
    have e0 : Double.ofInt 0 = Double.finite 0 := by simpa using ofInt_eq 0 (by norm_num)
    have hv : GetBucketSortedByFrequencyKeys ([(22, 0), (24, 1)] : List (Nat × Int))
        = [(1, 24), (0, 22)] := by decide
    rw [distinct_stream_example]
    unfold Binary64.thresholdAnswer Binary64.WeedOutExtraKeysAndInfo
    rw [if_pos rfl]
    simp only [hv, min_num_binary64_example]
    norm_num [List.takeWhile, e1, e0, Double.le]

/-- C23, amended. All-distinct stream: if `N` pairwise distinct keys are
delivered to a fresh bucket and the threshold `min_num`, as the code computes
it in binary64, is at least `2`, the threshold-mode answer computed from that
bucket is empty. -/
theorem C23_all_distinct_stream_amended (share : Double) (m : Nat) (t : ℚ) (keys : List K)
    (hnd : keys.Nodup)
    (hτ : Double.le (Double.ofRat 2) (Binary64.min_num share m (keys.length : Int)) = true) :
    Binary64.thresholdAnswer share m (deliverAll m (BucketInfo.new t) keys) = [] := by
  rw [List.eq_nil_iff_forall_not_mem]
  intro k hmem
  obtain ⟨c, hc, hmin⟩ := mem_thresholdAnswer_binary64 share m _ k hmem
  have inv := fresh_MGInv m t keys
  have h1 := (mapFind_eq_some_iff _ inv.ok.nodup k c).2 hc
  have h2 := inv.upper k
  rw [storedCount_eq_of_mapFind _ k c h1] at h2
  have h3 : keys.count k ≤ 1 := List.nodup_iff_count_le_one.1 hnd k
  have h4 : trueCount keys k ≤ 1 := by
    unfold trueCount
    exact_mod_cast h3
  have h5 : c ≤ 1 := le_trans h2 h4
  rw [fresh_add_new_key_count] at hmin
  have h6 := Double.le_transitive _ _ _ hτ hmin
  have h7 : Double.le (Double.ofInt c) (Double.ofInt 1) = true :=
    ofRat_mono (by exact_mod_cast h5)
  have h8 := Double.le_transitive _ _ _ h6 h7
  have e1 : Double.ofInt 1 = Double.finite 1 := by simpa using ofInt_eq 1 (by norm_num)
  rw [ofRat_two, e1] at h8
  norm_num [Double.le] at h8

/-- Witness for amended C23: `share = 0.1`, `bucket_size = 54` and the 1000
distinct keys `0, …, 999`, for which the code computes `min_num = 81`. -/
theorem C23_witness :
    Binary64.thresholdAnswer (Double.ofRat (1 / 10)) 54
      (deliverAll 54 (BucketInfo.new 0 : BucketInfo Nat) (List.range 1000)) = [] :=
  C23_all_distinct_stream_amended (Double.ofRat (1 / 10)) 54 0 (List.range 1000)
    (List.nodup_range 1000)
    (by
      have hlen : ((List.range 1000).length : Int) = 1000 := by simp
      rw [hlen, min_num_binary64_tenth_thousand, ofRat_two]
      norm_num [Double.le])

theorem ofRat_billion : Double.ofRat 1000000000 = Double.finite 1000000000 :=
  ofRat_eq_int _ _ 1000000000 (by norm_num) (by norm_num) (by norm_num)

theorem durationGreater_finite (now created_at v : ℚ) :
    Binary64.durationGreater now created_at (Double.finite v)
      = Double.lt (Double.ofRat (v * 1000000000))
          (Double.ofRat ((now - created_at) * 1000000000)) := by
  unfold Binary64.durationGreater
  rw [ofRat_billion, Double.mul_finite]

/-- The code's age test is monotone in the age. -/
theorem durationGreater_mono (d : Double) {now c now1 c1 : ℚ} (h : now - c ≤ now1 - c1)
    (h1 : Binary64.durationGreater now c d = true) :
    Binary64.durationGreater now1 c1 d = true := by
  unfold Binary64.durationGreater at h1 ⊢
  exact Double.lt_trans_le _ _ _ h1 (ofRat_mono (by linarith))

/-- Against a finite bound the code's age test implies the exact comparison. -/
theorem lt_of_durationGreater (now c v : ℚ)
    (h : Binary64.durationGreater now c (Double.finite v) = true) : v < now - c := by
  rw [durationGreater_finite] at h
  have := lt_of_ofRat_lt_ofRat h
  linarith

/-- An age at or below a finite bound fails the code's age test. -/
theorem durationGreater_of_le (now c v : ℚ) (h : now - c ≤ v) :
    Binary64.durationGreater now c (Double.finite v) = false := by
  cases hd : Binary64.durationGreater now c (Double.finite v) with
  | false => rfl
  | true =>
    have := lt_of_durationGreater now c v hd
    linarith

/-- Against a bound that is neither negative nor a NaN only a positive age
passes the code's age test. -/
theorem pos_of_durationGreater (now c : ℚ) (d : Double)
    (hd : Double.le (Double.finite 0) d = true)
    (h : Binary64.durationGreater now c d = true) : c < now := by
  cases d with
  | finite v =>
    have h1 := lt_of_durationGreater now c v h
    have h2 : (0 : ℚ) ≤ v := by simpa [Double.le] using hd
    linarith
  | pos_inf =>
    unfold Binary64.durationGreater at h
    rw [ofRat_billion] at h
    have h3 : Double.pos_inf.mul (Double.finite 1000000000) = Double.pos_inf := by
      show (if (1000000000 : ℚ) = 0 then Double.nan
        else if (1000000000 : ℚ) < 0 then Double.neg_inf else Double.pos_inf) = _
      rw [if_neg (by norm_num), if_neg (by norm_num)]
    rw [h3] at h
    cases hx : Double.ofRat ((now - c) * 1000000000) <;> rw [hx] at h <;> simp [Double.lt] at h
  | neg_inf => simp [Double.le] at hd
  | nan => simp [Double.le] at hd

/-- The evaluation of the code's age test from the two rounded operands. -/
theorem durationGreater_eval (now c d r g : ℚ)
    (hr : Double.ofRat (d * 1000000000) = Double.finite r)
    (hg : Double.ofRat ((now - c) * 1000000000) = Double.finite g) :
    Binary64.durationGreater now c (Double.finite d) = decide (r < g) := by
  rw [durationGreater_finite, hr, hg]
  rfl

theorem retireOld_binary64_head (a : Binary64.Analyzer K) (now : ℚ) (x : BucketInfo K)
    (r : List (BucketInfo K)) (h : Binary64.retireOld a now = x :: r) :
    Binary64.durationGreater now x.created_at a.full_control_time_ = false :=
  dropWhile_head_not
    (fun b => Binary64.durationGreater now b.created_at a.full_control_time_) a.buckets_ x r h

theorem DeleteOldAddNewBuckets_binary64_some (a a1 : Binary64.Analyzer K) (now : ℚ)
    (h : Binary64.DeleteOldAddNewBuckets a now = some a1) :
    ∃ back, (Binary64.retireOld a now).getLast? = some back ∧
      ((Binary64.durationGreater now back.created_at (Binary64.stride a) = true ∧
          a1 = a.withRing (Binary64.retireOld a now ++ [BucketInfo.new now])) ∨
        (Binary64.durationGreater now back.created_at (Binary64.stride a) = false ∧
          a1 = a.withRing (Binary64.retireOld a now))) := by
  unfold Binary64.DeleteOldAddNewBuckets at h
  cases hl : (Binary64.retireOld a now).getLast? with
  | none => simp [hl] at h
  | some back =>
    simp only [hl] at h
    refine ⟨back, rfl, ?_⟩
    cases hd : Binary64.durationGreater now back.created_at (Binary64.stride a) with
    | true =>
      rw [hd] at h
      simp only [if_true, Option.some.injEq] at h
      exact Or.inl ⟨rfl, h.symm⟩
    | false =>
      rw [hd] at h
      simp only [Bool.false_eq_true, if_false, Option.some.injEq] at h
      exact Or.inr ⟨rfl, h.symm⟩

/-- `3 / 5` in binary64. -/
theorem ofRat_quotient_3_5 :
    Double.ofRat (3 / 5) = Double.finite (5404319552844595 / 9007199254740992) := by
  apply ofRat_eq_finite _ _ (-1) 5404319552844595
  · norm_num
  · norm_num
  · norm_num
  · norm_num
  · apply roundHalfEven_eq_of_abs_lt
    rw [abs_lt]
    constructor <;> norm_num
  · norm_num
  · norm_num

/-- `3 / 5 * 6` in binary64: the stored `full_control_time_` for `W = 3`, `B = 5`. -/
theorem ofRat_full_3_5 :
    Double.ofRat (5404319552844595 / 9007199254740992 * 6) = Double.finite (2026619832316723 / 562949953421312) := by
  apply ofRat_eq_finite _ _ (1) 8106479329266892
  · norm_num
  · norm_num
  · norm_num
  · norm_num
  · have h : (5404319552844595 / 9007199254740992 * 6 : ℚ) / (2 : ℚ) ^ ((1 : Int) - 52)
        = ((8106479329266892 : Int) : ℚ) + 1 / 2 := by norm_num
    rw [h, roundHalfEven_tie]
    decide
  · norm_num
  · norm_num

/-- The retire bound in nanoseconds for `W = 3`, `B = 5`. -/
theorem ofRat_retire_bound_3_5 :
    Double.ofRat (2026619832316723 / 562949953421312 * 1000000000) = Double.finite (7549747199999999 / 2097152) := by
  apply ofRat_eq_finite _ _ (31) 7549747199999999
  · norm_num
  · norm_num
  · norm_num
  · norm_num
  · apply roundHalfEven_eq_of_abs_lt
    rw [abs_lt]
    constructor <;> norm_num
  · norm_num
  · norm_num

/-- The stride `full_control_time_ / buckets_count_` in binary64 for `W = 3`, `B = 5`. -/
theorem ofRat_stride_3_5 :
    Double.ofRat (2026619832316723 / 562949953421312 / 6) = Double.finite (5404319552844595 / 9007199254740992) := by
  apply ofRat_eq_finite _ _ (-1) 5404319552844595
  · norm_num
  · norm_num
  · norm_num
  · norm_num
  · apply roundHalfEven_eq_of_abs_lt
    rw [abs_lt]
    constructor <;> norm_num
  · norm_num
  · norm_num

/-- The extend bound in nanoseconds for `W = 3`, `B = 5`. -/
theorem ofRat_extend_bound_3_5 :
    Double.ofRat (5404319552844595 / 9007199254740992 * 1000000000) = Double.finite (600000000) := by
  apply ofRat_eq_finite _ _ (29) 5033164800000000
  · norm_num
  · norm_num
  · norm_num
  · norm_num
  · apply roundHalfEven_eq_of_abs_lt
    rw [abs_lt]
    constructor <;> norm_num
  · norm_num
  · norm_num

/-- `7 / 5` in binary64. -/
theorem ofRat_quotient_7_5 :
    Double.ofRat (7 / 5) = Double.finite (3152519739159347 / 2251799813685248) := by
  apply ofRat_eq_finite _ _ (0) 6305039478318694
  · norm_num
  · norm_num
  · norm_num
  · norm_num
  · apply roundHalfEven_eq_of_abs_lt
    rw [abs_lt]
    constructor <;> norm_num
  · norm_num
  · norm_num

/-- `7 / 5 * 6` in binary64: the stored `full_control_time_` for `W = 7`, `B = 5`. -/
theorem ofRat_full_7_5 :
    Double.ofRat (3152519739159347 / 2251799813685248 * 6) = Double.finite (1182194902184755 / 140737488355328) := by
  apply ofRat_eq_finite _ _ (3) 4728779608739020
  · norm_num
  · norm_num
  · norm_num
  · norm_num
  · have h : (3152519739159347 / 2251799813685248 * 6 : ℚ) / (2 : ℚ) ^ ((3 : Int) - 52)
        = ((4728779608739020 : Int) : ℚ) + 1 / 2 := by norm_num
    rw [h, roundHalfEven_tie]
    decide
  · norm_num
  · norm_num

/-- The retire bound in nanoseconds for `W = 7`, `B = 5`. -/
theorem ofRat_retire_bound_7_5 :
    Double.ofRat (1182194902184755 / 140737488355328 * 1000000000) = Double.finite (8808038399999999 / 1048576) := by
  apply ofRat_eq_finite _ _ (32) 8808038399999999
  · norm_num
  · norm_num
  · norm_num
  · norm_num
  · apply roundHalfEven_eq_of_abs_lt
    rw [abs_lt]
    constructor <;> norm_num
  · norm_num
  · norm_num

/-- The stride `full_control_time_ / buckets_count_` in binary64 for `W = 7`, `B = 5`. -/
theorem ofRat_stride_7_5 :
    Double.ofRat (1182194902184755 / 140737488355328 / 6) = Double.finite (6305039478318693 / 4503599627370496) := by
  apply ofRat_eq_finite _ _ (0) 6305039478318693
  · norm_num
  · norm_num
  · norm_num
  · norm_num
  · apply roundHalfEven_eq_of_abs_lt
    rw [abs_lt]
    constructor <;> norm_num
  · norm_num
  · norm_num

/-- The extend bound in nanoseconds for `W = 7`, `B = 5`. -/
theorem ofRat_extend_bound_7_5 :
    Double.ofRat (6305039478318693 / 4503599627370496 * 1000000000) = Double.finite (5872025599999999 / 4194304) := by
  apply ofRat_eq_finite _ _ (30) 5872025599999999
  · norm_num
  · norm_num
  · norm_num
  · norm_num
  · apply roundHalfEven_eq_of_abs_lt
    rw [abs_lt]
    constructor <;> norm_num
  · norm_num
  · norm_num

/-- `9 / 40` in binary64. -/
theorem ofRat_quotient_9_40 :
    Double.ofRat (9 / 40) = Double.finite (8106479329266893 / 36028797018963968) := by
  apply ofRat_eq_finite _ _ (-3) 8106479329266893
  · norm_num
  · norm_num
  · norm_num
  · norm_num
  · apply roundHalfEven_eq_of_abs_lt
    rw [abs_lt]
    constructor <;> norm_num
  · norm_num
  · norm_num

/-- `9 / 40 * 41` in binary64: the stored `full_control_time_` for `W = 9`, `B = 40`. -/
theorem ofRat_full_9_40 :
    Double.ofRat (8106479329266893 / 36028797018963968 * 41) = Double.finite (5193213320311603 / 562949953421312) := by
  apply ofRat_eq_finite _ _ (3) 5193213320311603
  · norm_num
  · norm_num
  · norm_num
  · norm_num
  · apply roundHalfEven_eq_of_abs_lt
    rw [abs_lt]
    constructor <;> norm_num
  · norm_num
  · norm_num

/-- The retire bound in nanoseconds for `W = 9`, `B = 40`. -/
theorem ofRat_retire_bound_9_40 :
    Double.ofRat (5193213320311603 / 562949953421312 * 1000000000) = Double.finite (9225000000) := by
  apply ofRat_eq_finite _ _ (33) 4836556800000000
  · norm_num
  · norm_num
  · norm_num
  · norm_num
  · apply roundHalfEven_eq_of_abs_lt
    rw [abs_lt]
    constructor <;> norm_num
  · norm_num
  · norm_num

/-- The stride `full_control_time_ / buckets_count_` in binary64 for `W = 9`, `B = 40`. -/
theorem ofRat_stride_9_40 :
    Double.ofRat (5193213320311603 / 562949953421312 / 41) = Double.finite (2026619832316723 / 9007199254740992) := by
  apply ofRat_eq_finite _ _ (-3) 8106479329266892
  · norm_num
  · norm_num
  · norm_num
  · norm_num
  · apply roundHalfEven_eq_of_abs_lt
    rw [abs_lt]
    constructor <;> norm_num
  · norm_num
  · norm_num

/-- The extend bound in nanoseconds for `W = 9`, `B = 40`. -/
theorem ofRat_extend_bound_9_40 :
    Double.ofRat (2026619832316723 / 9007199254740992 * 1000000000) = Double.finite (7549747199999999 / 33554432) := by
  apply ofRat_eq_finite _ _ (27) 7549747199999999
  · norm_num
  · norm_num
  · norm_num
  · norm_num
  · apply roundHalfEven_eq_of_abs_lt
    rw [abs_lt]
    constructor <;> norm_num
  · norm_num
  · norm_num

/-- `1 / 4` in binary64. -/
theorem ofRat_quotient_1_4 :
    Double.ofRat (1 / 4) = Double.finite (1 / 4) := by
  apply ofRat_eq_finite _ _ (-2) 4503599627370496
  · norm_num
  · norm_num
  · norm_num
  · norm_num
  · apply roundHalfEven_eq_of_abs_lt
    rw [abs_lt]
    constructor <;> norm_num
  · norm_num
  · norm_num

/-- `1 / 4 * 5` in binary64: the stored `full_control_time_` for `W = 1`, `B = 4`. -/
theorem ofRat_full_1_4 :
    Double.ofRat (1 / 4 * 5) = Double.finite (5 / 4) := by
  apply ofRat_eq_finite _ _ (0) 5629499534213120
  · norm_num
  · norm_num
  · norm_num
  · norm_num
  · apply roundHalfEven_eq_of_abs_lt
    rw [abs_lt]
    constructor <;> norm_num
  · norm_num
  · norm_num

/-- The retire bound in nanoseconds for `W = 1`, `B = 4`. -/
theorem ofRat_retire_bound_1_4 :
    Double.ofRat (5 / 4 * 1000000000) = Double.finite (1250000000) := by
  apply ofRat_eq_finite _ _ (30) 5242880000000000
  · norm_num
  · norm_num
  · norm_num
  · norm_num
  · apply roundHalfEven_eq_of_abs_lt
    rw [abs_lt]
    constructor <;> norm_num
  · norm_num
  · norm_num

/-- The stride `full_control_time_ / buckets_count_` in binary64 for `W = 1`, `B = 4`. -/
theorem ofRat_stride_1_4 :
    Double.ofRat (5 / 4 / 5) = Double.finite (1 / 4) := by
  apply ofRat_eq_finite _ _ (-2) 4503599627370496
  · norm_num
  · norm_num
  · norm_num
  · norm_num
  · apply roundHalfEven_eq_of_abs_lt
    rw [abs_lt]
    constructor <;> norm_num
  · norm_num
  · norm_num

/-- The extend bound in nanoseconds for `W = 1`, `B = 4`. -/
theorem ofRat_extend_bound_1_4 :
    Double.ofRat (1 / 4 * 1000000000) = Double.finite (250000000) := by
  apply ofRat_eq_finite _ _ (27) 8388608000000000
  · norm_num
  · norm_num
  · norm_num
  · norm_num
  · apply roundHalfEven_eq_of_abs_lt
    rw [abs_lt]
    constructor <;> norm_num
  · norm_num
  · norm_num

/-- The stored `full_control_time_` for `W = 3`, `B = 5`. -/
theorem full_control_time_3_5 (share : Double) (m : Nat) :
    (Binary64.Analyzer.new (Double.finite 3) share 5 m : Binary64.Analyzer K).full_control_time_
      = Double.finite (2026619832316723 / 562949953421312) := by
  have h5 : Double.ofNat 5 = Double.finite 5 := by
    simpa using ofNat_eq 5 (by norm_num)
  have h6 : Double.ofNat ((5 + 1) % 2 ^ 64) = Double.finite 6 := by
    simpa using ofNat_eq 6 (by norm_num)
  show ((Double.finite 3).div (Double.ofNat 5)).mul (Double.ofNat ((5 + 1) % 2 ^ 64)) = _
  rw [h5, h6, Double.div_finite _ _ (by norm_num), ofRat_quotient_3_5, Double.mul_finite,
    ofRat_full_3_5]

/-- The stride the code computes for `W = 3`, `B = 5`. -/
theorem stride_3_5 (share : Double) (m : Nat) (bs : List (BucketInfo K)) :
    Binary64.stride ((Binary64.Analyzer.new (Double.finite 3) share 5 m :
        Binary64.Analyzer K).withRing bs)
      = Double.finite (5404319552844595 / 9007199254740992) := by
  have h6 : Double.ofNat ((5 + 1) % 2 ^ 64) = Double.finite 6 := by
    simpa using ofNat_eq 6 (by norm_num)
  show ((Binary64.Analyzer.new (Double.finite 3) share 5 m :
    Binary64.Analyzer K).full_control_time_).div (Double.ofNat ((5 + 1) % 2 ^ 64)) = _
  rw [full_control_time_3_5, h6, Double.div_finite _ _ (by norm_num), ofRat_stride_3_5]

/-- The stored `full_control_time_` for `W = 7`, `B = 5`. -/
theorem full_control_time_7_5 (share : Double) (m : Nat) :
    (Binary64.Analyzer.new (Double.finite 7) share 5 m : Binary64.Analyzer K).full_control_time_
      = Double.finite (1182194902184755 / 140737488355328) := by
  have h5 : Double.ofNat 5 = Double.finite 5 := by
    simpa using ofNat_eq 5 (by norm_num)
  have h6 : Double.ofNat ((5 + 1) % 2 ^ 64) = Double.finite 6 := by
    simpa using ofNat_eq 6 (by norm_num)
  show ((Double.finite 7).div (Double.ofNat 5)).mul (Double.ofNat ((5 + 1) % 2 ^ 64)) = _
  rw [h5, h6, Double.div_finite _ _ (by norm_num), ofRat_quotient_7_5, Double.mul_finite,
    ofRat_full_7_5]

/-- The stride the code computes for `W = 7`, `B = 5`. -/
theorem stride_7_5 (share : Double) (m : Nat) (bs : List (BucketInfo K)) :
    Binary64.stride ((Binary64.Analyzer.new (Double.finite 7) share 5 m :
        Binary64.Analyzer K).withRing bs)
      = Double.finite (6305039478318693 / 4503599627370496) := by
  have h6 : Double.ofNat ((5 + 1) % 2 ^ 64) = Double.finite 6 := by
    simpa using ofNat_eq 6 (by norm_num)
  show ((Binary64.Analyzer.new (Double.finite 7) share 5 m :
    Binary64.Analyzer K).full_control_time_).div (Double.ofNat ((5 + 1) % 2 ^ 64)) = _
  rw [full_control_time_7_5, h6, Double.div_finite _ _ (by norm_num), ofRat_stride_7_5]

/-- The stored `full_control_time_` for `W = 9`, `B = 40`. -/
theorem full_control_time_9_40 (share : Double) (m : Nat) :
    (Binary64.Analyzer.new (Double.finite 9) share 40 m : Binary64.Analyzer K).full_control_time_
      = Double.finite (5193213320311603 / 562949953421312) := by
  have h5 : Double.ofNat 40 = Double.finite 40 := by
    simpa using ofNat_eq 40 (by norm_num)
  have h6 : Double.ofNat ((40 + 1) % 2 ^ 64) = Double.finite 41 := by
    simpa using ofNat_eq 41 (by norm_num)
  show ((Double.finite 9).div (Double.ofNat 40)).mul (Double.ofNat ((40 + 1) % 2 ^ 64)) = _
  rw [h5, h6, Double.div_finite _ _ (by norm_num), ofRat_quotient_9_40, Double.mul_finite,
    ofRat_full_9_40]

/-- The stride the code computes for `W = 9`, `B = 40`. -/
theorem stride_9_40 (share : Double) (m : Nat) (bs : List (BucketInfo K)) :
    Binary64.stride ((Binary64.Analyzer.new (Double.finite 9) share 40 m :
        Binary64.Analyzer K).withRing bs)
      = Double.finite (2026619832316723 / 9007199254740992) := by
  have h6 : Double.ofNat ((40 + 1) % 2 ^ 64) = Double.finite 41 := by
    simpa using ofNat_eq 41 (by norm_num)
  show ((Binary64.Analyzer.new (Double.finite 9) share 40 m :
    Binary64.Analyzer K).full_control_time_).div (Double.ofNat ((40 + 1) % 2 ^ 64)) = _
  rw [full_control_time_9_40, h6, Double.div_finite _ _ (by norm_num), ofRat_stride_9_40]

/-- The stored `full_control_time_` for `W = 1`, `B = 4`. -/
theorem full_control_time_1_4 (share : Double) (m : Nat) :
    (Binary64.Analyzer.new (Double.finite 1) share 4 m : Binary64.Analyzer K).full_control_time_
      = Double.finite (5 / 4) := by
  have h5 : Double.ofNat 4 = Double.finite 4 := by
    simpa using ofNat_eq 4 (by norm_num)
  have h6 : Double.ofNat ((4 + 1) % 2 ^ 64) = Double.finite 5 := by
    simpa using ofNat_eq 5 (by norm_num)
  show ((Double.finite 1).div (Double.ofNat 4)).mul (Double.ofNat ((4 + 1) % 2 ^ 64)) = _
  rw [h5, h6, Double.div_finite _ _ (by norm_num), ofRat_quotient_1_4, Double.mul_finite,
    ofRat_full_1_4]

/-- The stride the code computes for `W = 1`, `B = 4`. -/
theorem stride_1_4 (share : Double) (m : Nat) (bs : List (BucketInfo K)) :
    Binary64.stride ((Binary64.Analyzer.new (Double.finite 1) share 4 m :
        Binary64.Analyzer K).withRing bs)
      = Double.finite (1 / 4) := by
  have h6 : Double.ofNat ((4 + 1) % 2 ^ 64) = Double.finite 5 := by
    simpa using ofNat_eq 5 (by norm_num)
  show ((Binary64.Analyzer.new (Double.finite 1) share 4 m :
    Binary64.Analyzer K).full_control_time_).div (Double.ofNat ((4 + 1) % 2 ^ 64)) = _
  rw [full_control_time_1_4, h6, Double.div_finite _ _ (by norm_num), ofRat_stride_1_4]

theorem retireOld_withRing (a : Binary64.Analyzer K) (bs : List (BucketInfo K)) (now : ℚ) :
    Binary64.retireOld (a.withRing bs) now
      = bs.dropWhile (fun b => Binary64.durationGreater now b.created_at a.full_control_time_) :=
  rfl

/-- The evaluation of one maintenance from the outcome of its retire loop. -/
theorem DeleteOldAddNewBuckets_binary64_eval (a : Binary64.Analyzer K)
    (bs kept : List (BucketInfo K)) (now : ℚ) (back : BucketInfo K)
    (hr : Binary64.retireOld (a.withRing bs) now = kept) (hl : kept.getLast? = some back) :
    Binary64.DeleteOldAddNewBuckets (a.withRing bs) now
      = if Binary64.durationGreater now back.created_at (Binary64.stride (a.withRing bs)) = true
        then some (a.withRing (kept ++ [BucketInfo.new now]))
        else some (a.withRing kept) := by
  unfold Binary64.DeleteOldAddNewBuckets
  rw [hr]
  simp only [hl]
  split <;> rfl

/-- On a ring sorted by creation time the buckets left by the retire loop are
exactly the buckets that fail the code's age test. -/
theorem dropWhile_eq_filter_of_mono (p : ℚ → Bool)
    (hp : ∀ x y : ℚ, x ≤ y → p y = true → p x = true) (l : List (BucketInfo K))
    (hs : l.Sorted (fun b1 b2 : BucketInfo K => b1.created_at ≤ b2.created_at)) :
    l.dropWhile (fun b => p b.created_at) = l.filter (fun b => !p b.created_at) := by
  induction l with
  | nil => rfl
  | cons x rest ih =>
    have hsort := List.sorted_cons.1 hs
    by_cases hx : p x.created_at = true
    · rw [List.dropWhile_cons_of_pos (by exact hx),
        List.filter_cons_of_neg (by simp [hx]), ih hsort.2]
    · rw [List.dropWhile_cons_of_neg (by exact hx), List.filter_cons_of_pos (by simpa using hx)]
      congr 1
      symm
      rw [List.filter_eq_self]
      intro b hb
      have h1 := hsort.1 b hb
      cases hpb : p b.created_at with
      | false => rfl
      | true => exact absurd (hp _ _ h1 hpb) hx

/-- C30, as stated, fails: with `W = 3 s`, `B = 5` the code stores
`full_control_time_ = 3.5999999999999996`, and at clock reading `18/5` it
retires the bucket created at `0`, whose age `18/5` is not greater than
`F = W·(B+1)/B = 18/5`. -/
theorem C30_counterexample :
    (Binary64.Analyzer.new (Double.finite 3) (Double.ofRat (1 / 10)) 5 54 :
        Binary64.Analyzer Nat).full_control_time_
        = Double.finite (2026619832316723 / 562949953421312) ∧
      ((18 / 5 : ℚ) - (BucketInfo.new 0 : BucketInfo Nat).created_at
        ≤ 3 * ((5 : ℚ) + 1) / 5) ∧
      Binary64.retireOld
        ((Binary64.Analyzer.new (Double.finite 3) (Double.ofRat (1 / 10)) 5 54 :
          Binary64.Analyzer Nat).withRing [BucketInfo.new 0, BucketInfo.new 1]) (18 / 5)
        = [BucketInfo.new 1] := by
  refine ⟨full_control_time_3_5 _ _, by norm_num [BucketInfo.new], ?_⟩
  have h0 : Binary64.durationGreater (18 / 5) 0 (Double.finite (2026619832316723 / 562949953421312)) = true := by
    rw [durationGreater_eval (18 / 5) 0 _ _ 3600000000 ofRat_retire_bound_3_5
      (ofRat_eq_int _ _ 3600000000 (by norm_num) (by norm_num) (by norm_num))]
    norm_num
  have h1 : Binary64.durationGreater (18 / 5) 1 (Double.finite (2026619832316723 / 562949953421312)) = false := by
    rw [durationGreater_eval (18 / 5) 1 _ _ 2600000000 ofRat_retire_bound_3_5
      (ofRat_eq_int _ _ 2600000000 (by norm_num) (by norm_num) (by norm_num))]
    norm_num
  have e0 : (BucketInfo.new 0 : BucketInfo Nat).created_at = 0 := rfl
  have e1 : (BucketInfo.new 1 : BucketInfo Nat).created_at = 1 := rfl
  rw [retireOld_withRing, full_control_time_3_5,
    List.dropWhile_cons_of_pos (by simp only [e0]; exact h0),
    List.dropWhile_cons_of_neg (by simp only [e1, h1]; exact Bool.false_ne_true)]

/-- C30, amended. Retire rule as the code applies it: on a ring sorted by
`created_at` the retire loop splits the ring into a removed prefix, every
bucket of which passes the code's test `now − created_at >
full_control_time_` (both sides converted to `double` nanoseconds), and the
kept rest, in its old order, which holds exactly the buckets that fail the
test. For a finite stored `full_control_time_ = v` every removed bucket has an
age greater than `v` and every bucket of age at most `v` is kept; a defined
maintenance leaves the kept rest, followed by at most one fresh bucket. -/
theorem C30_retire_rule_amended (a : Binary64.Analyzer K) (now : ℚ)
    (hs : a.buckets_.Sorted (fun b1 b2 : BucketInfo K => b1.created_at ≤ b2.created_at)) :
    ∃ removed, a.buckets_ = removed ++ Binary64.retireOld a now ∧
      (∀ b ∈ removed,
        Binary64.durationGreater now b.created_at a.full_control_time_ = true) ∧
      (∀ b ∈ Binary64.retireOld a now,
        Binary64.durationGreater now b.created_at a.full_control_time_ = false) ∧
      Binary64.retireOld a now = a.buckets_.filter
        (fun b => !Binary64.durationGreater now b.created_at a.full_control_time_) ∧
      (∀ v, a.full_control_time_ = Double.finite v →
        (∀ b ∈ removed, v < now - b.created_at) ∧
        (∀ b ∈ a.buckets_, now - b.created_at ≤ v → b ∈ Binary64.retireOld a now)) ∧
      ∀ a1, Binary64.DeleteOldAddNewBuckets a now = some a1 →
        a1.buckets_ = Binary64.retireOld a now ∨
          a1.buckets_ = Binary64.retireOld a now ++ [BucketInfo.new now] := by
  have hf : Binary64.retireOld a now = a.buckets_.filter
      (fun b => !Binary64.durationGreater now b.created_at a.full_control_time_) :=
    dropWhile_eq_filter_of_mono
      (fun c => Binary64.durationGreater now c a.full_control_time_)
      (fun x y hxy hy => durationGreater_mono _ (by linarith) hy) a.buckets_ hs
  have hrem : ∀ b ∈ a.buckets_.takeWhile
      (fun b => Binary64.durationGreater now b.created_at a.full_control_time_),
      Binary64.durationGreater now b.created_at a.full_control_time_ = true := by
    intro b hb
    have h1 := List.mem_takeWhile_imp hb
    exact h1
  have hkept : ∀ b ∈ Binary64.retireOld a now,
      Binary64.durationGreater now b.created_at a.full_control_time_ = false := by
    intro b hb
    rw [hf] at hb
    have := (List.mem_filter.1 hb).2
    simpa using this
  refine ⟨a.buckets_.takeWhile
      (fun b => Binary64.durationGreater now b.created_at a.full_control_time_),
    (List.takeWhile_append_dropWhile _ _).symm, hrem, hkept, hf, ?_, ?_⟩
  · intro v hv
    constructor
    · intro b hb
      have h1 := hrem b hb
      rw [hv] at h1
      exact lt_of_durationGreater now b.created_at v h1
    · intro b hb hage
      rw [hf]
      refine List.mem_filter.2 ⟨hb, ?_⟩
      rw [hv, durationGreater_of_le now b.created_at v hage]
      rfl
  · intro a1 h
    obtain ⟨back, _, hcase⟩ := DeleteOldAddNewBuckets_binary64_some a a1 now h
    rcases hcase with h1 | h1
    · exact Or.inr (by rw [h1.2]; rfl)
    · exact Or.inl (by rw [h1.2]; rfl)

/-- C31 fails on the code. After the retire step the code reads
`buckets_.back()` without testing for an empty ring: if the retire step leaves
no bucket (in particular on the empty ring of a freshly constructed analyzer)
the read is undefined and no bucket is appended by any defined behaviour. With
`back` the newest bucket left by the retire step, maintenance appends exactly
one bucket with `created_at = now`, an empty table and total `0` if `back`
passes the code's test `now − back.created_at > full_control_time_ /
buckets_count_` (the quotient rounded to binary64, both sides converted to
`double` nanoseconds), and appends nothing otherwise; for a finite quotient
`s` an appended bucket means an age greater than `s`, and an age of at most
`s` appends nothing. -/
theorem C31_extend_rule (a : Binary64.Analyzer K) (now : ℚ) :
    (∀ back, (Binary64.retireOld a now).getLast? = some back →
        Binary64.durationGreater now back.created_at (Binary64.stride a) = true →
        Binary64.DeleteOldAddNewBuckets a now
          = some (a.withRing (Binary64.retireOld a now ++ [⟨now, [], 0⟩]))) ∧
      (∀ back, (Binary64.retireOld a now).getLast? = some back →
        Binary64.durationGreater now back.created_at (Binary64.stride a) = false →
        Binary64.DeleteOldAddNewBuckets a now = some (a.withRing (Binary64.retireOld a now))) ∧
      (Binary64.retireOld a now = [] → Binary64.DeleteOldAddNewBuckets a now = none) ∧
      (∀ (back : BucketInfo K) (s : ℚ), Binary64.stride a = Double.finite s →
        (Binary64.durationGreater now back.created_at (Binary64.stride a) = true →
          s < now - back.created_at) ∧
        (now - back.created_at ≤ s →
          Binary64.durationGreater now back.created_at (Binary64.stride a) = false)) ∧
      ∀ (W share : Double) (B m : Nat),
        Binary64.DeleteOldAddNewBuckets
          (Binary64.Analyzer.new W share B m : Binary64.Analyzer K) now = none := by
  refine ⟨?_, ?_, ?_, ?_, fun _ _ _ _ => rfl⟩
  · intro back hb hgt
    unfold Binary64.DeleteOldAddNewBuckets
    simp only [hb]
    rw [if_pos hgt]
    rfl
  · intro back hb hle
    unfold Binary64.DeleteOldAddNewBuckets
    simp only [hb]
    rw [if_neg (by rw [hle]; exact Bool.false_ne_true)]
    rfl
  · intro he
    unfold Binary64.DeleteOldAddNewBuckets
    rw [he]
    rfl
  · intro back s hs
    rw [hs]
    exact ⟨lt_of_durationGreater now back.created_at s,
      durationGreater_of_le now back.created_at s⟩

/-- In a ring whose adjacent buckets pass the code's extend test against a
bound that is neither negative nor a NaN, every bucket behind the front one
was created later than the front one. -/
theorem chain_binary64_ascending (s : Double) (hS : Double.le (Double.finite 0) s = true)
    (x : BucketInfo K) (r : List (BucketInfo K))
    (hchain : (x :: r).Chain' (fun b1 b2 : BucketInfo K =>
      Binary64.durationGreater b2.created_at b1.created_at s = true)) :
    ∀ b ∈ r, x.created_at < b.created_at := by
  induction r generalizing x with
  | nil => intro b hb; cases hb
  | cons y r ih =>
    rw [List.chain'_cons] at hchain
    have h1 := pos_of_durationGreater _ _ s hS hchain.1
    intro b hb
    rcases List.mem_cons.1 hb with rfl | hb
    · exact h1
    · exact lt_trans h1 (ih y hchain.2 b hb)

/-- After the retire loop of a ring satisfying the invariant, every kept
bucket fails the code's retire test. -/
theorem retireOld_binary64_age (a : Binary64.Analyzer K) (now : ℚ) (hinv : Binary64.RingInv a)
    (hS : Double.le (Double.finite 0) (Binary64.stride a) = true)
    (b : BucketInfo K) (hb : b ∈ Binary64.retireOld a now) :
    Binary64.durationGreater now b.created_at a.full_control_time_ = false := by
  have hchain := hinv.chain.suffix (List.dropWhile_suffix
    (fun b : BucketInfo K => Binary64.durationGreater now b.created_at a.full_control_time_))
  cases hk : Binary64.retireOld a now with
  | nil => rw [hk] at hb; cases hb
  | cons x r =>
    have hx := retireOld_binary64_head a now x r hk
    rw [hk] at hb
    rcases List.mem_cons.1 hb with rfl | hb
    · exact hx
    · have hk1 : a.buckets_.dropWhile (fun b : BucketInfo K =>
          Binary64.durationGreater now b.created_at a.full_control_time_) = x :: r := hk
      rw [hk1] at hchain
      have hlt := chain_binary64_ascending _ hS x r hchain b hb
      cases hd : Binary64.durationGreater now b.created_at a.full_control_time_ with
      | false => rfl
      | true =>
        have := durationGreater_mono a.full_control_time_
          (show now - b.created_at ≤ now - x.created_at by linarith) hd
        rw [hx] at this
        cases this

/-- Ring maintenance preserves the ring invariant. -/
theorem DeleteOldAddNewBuckets_binary64_RingInv (a a1 : Binary64.Analyzer K) (now : ℚ)
    (hinv : Binary64.RingInv a)
    (hS : Double.le (Double.finite 0) (Binary64.stride a) = true)
    (hF : Double.le (Double.finite 0) a.full_control_time_ = true)
    (h : Binary64.DeleteOldAddNewBuckets a now = some a1) : Binary64.RingInv a1 := by
  obtain ⟨back, hback, hcase⟩ := DeleteOldAddNewBuckets_binary64_some a a1 now h
  have hchain : (Binary64.retireOld a now).Chain' (fun b1 b2 : BucketInfo K =>
      Binary64.durationGreater b2.created_at b1.created_at (Binary64.stride a) = true) :=
    hinv.chain.suffix (List.dropWhile_suffix _)
  have hage := retireOld_binary64_age a now hinv hS
  rcases hcase with ⟨hpush, h1⟩ | ⟨_, h1⟩
  · subst h1
    refine ⟨?_, ?_⟩
    · show (Binary64.retireOld a now ++ [BucketInfo.new now]).Chain'
        (fun b1 b2 : BucketInfo K =>
          Binary64.durationGreater b2.created_at b1.created_at (Binary64.stride a) = true)
      refine hchain.append (List.chain'_singleton _) ?_
      intro x hx y hy
      rw [hback] at hx
      simp only [Option.mem_def, Option.some.injEq] at hx
      simp only [List.head?_cons, Option.mem_def, Option.some.injEq] at hy
      rw [← hx, ← hy]
      exact hpush
    · intro b hb bk hbk
      have hbk1 : (Binary64.retireOld a now ++ [BucketInfo.new now]).getLast? = some bk := hbk
      simp only [List.getLast?_concat, Option.some.injEq] at hbk1
      subst hbk1
      have hb1 : b ∈ Binary64.retireOld a now ++ [BucketInfo.new now] := hb
      simp only [List.mem_append, List.mem_singleton] at hb1
      show Binary64.durationGreater now b.created_at a.full_control_time_ = false
      rcases hb1 with hb1 | rfl
      · exact hage b hb1
      · cases hd : Binary64.durationGreater now (BucketInfo.new now : BucketInfo K).created_at
            a.full_control_time_ with
        | false => rfl
        | true =>
          have := pos_of_durationGreater _ _ _ hF hd
          exact absurd this (lt_irrefl _)
  · subst h1
    refine ⟨hchain, ?_⟩
    intro b hb bk hbk
    have h1 : b ∈ a.buckets_ := (List.dropWhile_sublist _).subset hb
    have h2 : a.buckets_.getLast? = some bk := getLast?_dropWhile _ _ bk hbk
    exact hinv.span b h1 bk h2

/-- Delivering a key to every bucket preserves the ring invariant. -/
theorem AddKeyToBuckets_binary64_RingInv (a : Binary64.Analyzer K) (key : K)
    (hinv : Binary64.RingInv a) : Binary64.RingInv (Binary64.AddKeyToBuckets a key) := by
  refine ⟨?_, ?_⟩
  · show (a.buckets_.map (fun b => deliver a.bucket_size_ b key)).Chain'
      (fun b1 b2 : BucketInfo K =>
        Binary64.durationGreater b2.created_at b1.created_at (Binary64.stride a) = true)
    rw [List.chain'_map]
    simp only [deliver_created_at]
    exact hinv.chain
  · intro b hb bk hbk
    simp only [Binary64.AddKeyToBuckets, List.mem_map] at hb
    obtain ⟨b0, hb0, rfl⟩ := hb
    simp only [Binary64.AddKeyToBuckets, List.getLast?_map, Option.mem_def,
      Option.map_eq_some'] at hbk
    obtain ⟨bk0, hbk0, rfl⟩ := hbk
    rw [deliver_created_at, deliver_created_at]
    exact hinv.span b0 hb0 bk0 hbk0

/-- What one call does to the state: maintenance, then a delivery to every
bucket for an observe call and nothing more for a query call. -/
theorem step_binary64_some (a a1 : Binary64.Analyzer K) (c : Call K)
    (h : Binary64.step a c = some a1) :
    ∃ a2, Binary64.DeleteOldAddNewBuckets a c.now = some a2 ∧
      ((∃ key, a1 = Binary64.AddKeyToBuckets a2 key) ∨ a1 = a2) := by
  cases c with
  | observe key now =>
    simp only [Binary64.step, Binary64.AddKey, Option.map_eq_some'] at h
    obtain ⟨a2, h2, rfl⟩ := h
    exact ⟨a2, h2, Or.inl ⟨key, rfl⟩⟩
  | query number now =>
    simp only [Binary64.step, Option.map_eq_some'] at h
    obtain ⟨⟨a2, ans⟩, h2, rfl⟩ := h
    unfold Binary64.GetTopKKeys at h2
    cases hd : Binary64.DeleteOldAddNewBuckets a now with
    | none => simp [hd] at h2
    | some a3 =>
      simp only [hd] at h2
      cases hf : a3.buckets_.head? with
      | none => simp [hf] at h2
      | some front =>
        simp only [hf, Option.some.injEq, Prod.mk.injEq] at h2
        exact ⟨a3, hd, Or.inr h2.1.symm⟩

/-- One call changes no configuration member. -/
theorem step_binary64_config (a a1 : Binary64.Analyzer K) (c : Call K)
    (h : Binary64.step a c = some a1) :
    a1.full_control_time_ = a.full_control_time_ ∧ a1.buckets_count_ = a.buckets_count_ := by
  obtain ⟨a2, h2, hcase⟩ := step_binary64_some a a1 c h
  obtain ⟨back, _, hm⟩ := DeleteOldAddNewBuckets_binary64_some a a2 c.now h2
  have h3 : a2.full_control_time_ = a.full_control_time_ ∧
      a2.buckets_count_ = a.buckets_count_ := by
    rcases hm with hm | hm <;> rw [hm.2] <;> exact ⟨rfl, rfl⟩
  rcases hcase with ⟨key, rfl⟩ | rfl
  · exact h3
  · exact h3

theorem step_binary64_RingInv (a a1 : Binary64.Analyzer K) (c : Call K)
    (hinv : Binary64.RingInv a)
    (hS : Double.le (Double.finite 0) (Binary64.stride a) = true)
    (hF : Double.le (Double.finite 0) a.full_control_time_ = true)
    (h : Binary64.step a c = some a1) : Binary64.RingInv a1 := by
  obtain ⟨a2, h2, hcase⟩ := step_binary64_some a a1 c h
  have h3 := DeleteOldAddNewBuckets_binary64_RingInv a a2 c.now hinv hS hF h2
  rcases hcase with ⟨key, rfl⟩ | rfl
  · exact AddKeyToBuckets_binary64_RingInv a2 key h3
  · exact h3

/-- A defined run keeps the configuration and the ring invariant. -/
theorem run_binary64_RingInv (a a1 : Binary64.Analyzer K) (cs : List (Call K))
    (hinv : Binary64.RingInv a)
    (hS : Double.le (Double.finite 0) (Binary64.stride a) = true)
    (hF : Double.le (Double.finite 0) a.full_control_time_ = true)
    (h : Binary64.run a cs = some a1) :
    Binary64.RingInv a1 ∧ a1.full_control_time_ = a.full_control_time_ ∧
      a1.buckets_count_ = a.buckets_count_ := by
  induction cs generalizing a with
  | nil =>
    simp only [Binary64.run, Option.some.injEq] at h
    subst h
    exact ⟨hinv, rfl, rfl⟩
  | cons c cs ih =>
    simp only [Binary64.run, Option.bind_eq_some] at h
    obtain ⟨a2, h1, h2⟩ := h
    have hc := step_binary64_config a a2 c h1
    have hS2 : Double.le (Double.finite 0) (Binary64.stride a2) = true := by
      unfold Binary64.stride at hS ⊢
      rw [hc.1, hc.2]
      exact hS
    have := ih a2 (step_binary64_RingInv a a2 c hinv hS hF h1) hS2 (by rw [hc.1]; exact hF) h2
    exact ⟨this.1, by rw [this.2.1, hc.1], by rw [this.2.2, hc.2]⟩

/-- A ring with a single bucket satisfies the ring invariant if
`full_control_time_` is neither negative nor a NaN. -/
theorem RingInv_binary64_singleton (a : Binary64.Analyzer K) (b : BucketInfo K)
    (hF : Double.le (Double.finite 0) a.full_control_time_ = true) :
    Binary64.RingInv (a.withRing [b]) := by
  refine ⟨List.chain'_singleton _, ?_⟩
  intro b1 hb1 bk hbk
  have hb2 : b1 ∈ [b] := hb1
  have hbk2 : [b].getLast? = some bk := hbk
  simp only [List.mem_singleton] at hb2
  simp only [List.getLast?_singleton, Option.some.injEq] at hbk2
  subst hb2
  subst hbk2
  cases hd : Binary64.durationGreater b1.created_at b1.created_at
      (a.withRing [b1]).full_control_time_ with
  | false => rfl
  | true =>
    have := pos_of_durationGreater _ _ _ hF hd
    exact absurd this (lt_irrefl _)

/-- Rounding a non-negative real gives a value that is neither negative nor
a NaN. -/
theorem ofRat_nonneg {x : ℚ} (h : 0 ≤ x) :
    Double.le (Double.finite 0) (Double.ofRat x) = true := by
  have := ofRat_mono h
  rwa [ofRat_zero] at this

/-- In the normal range rounding to binary64 gives a finite value with a
relative error of at most `2⁻⁵³`. -/
theorem ofRat_rel_error (x : ℚ) (h1 : (2 : ℚ) ^ (-1022 : Int) ≤ x)
    (h2 : x ≤ (2 : ℚ) ^ (1023 : Int)) :
    ∃ v : ℚ, Double.ofRat x = Double.finite v ∧
      x * (1 - (2 : ℚ) ^ (-53 : Int)) ≤ v ∧ v ≤ x * (1 + (2 : ℚ) ^ (-53 : Int)) := by
  have hx0 : 0 < x := lt_of_lt_of_le (by positivity) h1
  have habs : |x| = x := abs_of_pos hx0
  have hlo : (2 : ℚ) ^ (Int.log 2 x) ≤ x := Int.zpow_log_le_self (by norm_num) hx0
  have hhi : x < (2 : ℚ) ^ (Int.log 2 x + 1) := Int.lt_zpow_succ_log_self (by norm_num) x
  have he : (-1022 : Int) ≤ Int.log 2 x :=
    (Int.zpow_le_iff_le_log (by norm_num) hx0).1 h1
  have hb : binade x = Int.log 2 x :=
    binade_eq x _ he (by rw [habs]; exact hlo) (by rw [habs]; exact hhi)
  have hq : Double.quantum x = (2 : ℚ) ^ (Int.log 2 x) * (2 : ℚ) ^ (-52 : Int) := by
    unfold Double.quantum
    rw [hb, sub_eq_add_neg, zpow_add₀ (by norm_num)]
  have hqpos := quantum_pos x
  have hqle : Double.quantum x ≤ x * (2 : ℚ) ^ (-52 : Int) := by
    rw [hq]
    exact mul_le_mul_of_nonneg_right hlo (by positivity)
  have herr := abs_roundHalfEven_sub_le (|x| / Double.quantum x)
  rw [habs, abs_le] at herr
  have hrm : Double.roundMagnitude x
      = (roundHalfEven (x / Double.quantum x) : ℚ) * Double.quantum x := by
    unfold Double.roundMagnitude
    rw [habs]
  have hxq : x / Double.quantum x * Double.quantum x = x := by
    field_simp
  have hu : (2 : ℚ) ^ (-52 : Int) = 2 * (2 : ℚ) ^ (-53 : Int) := by norm_num
  have hlow : x * (1 - (2 : ℚ) ^ (-53 : Int)) ≤ Double.roundMagnitude x := by
    rw [hrm]
    have := mul_le_mul_of_nonneg_right herr.1 (le_of_lt hqpos)
    rw [sub_mul, hxq] at this
    rw [hu] at hqle
    generalize (2 : ℚ) ^ (-53 : Int) = u at hqle ⊢
    generalize (roundHalfEven (x / Double.quantum x) : ℚ) * Double.quantum x = r at this ⊢
    generalize Double.quantum x = q at hqle this
    nlinarith
  have hupp : Double.roundMagnitude x ≤ x * (1 + (2 : ℚ) ^ (-53 : Int)) := by
    rw [hrm]
    have := mul_le_mul_of_nonneg_right herr.2 (le_of_lt hqpos)
    rw [sub_mul, hxq] at this
    rw [hu] at hqle
    generalize (2 : ℚ) ^ (-53 : Int) = u at hqle ⊢
    generalize (roundHalfEven (x / Double.quantum x) : ℚ) * Double.quantum x = r at this ⊢
    generalize Double.quantum x = q at hqle this
    nlinarith
  refine ⟨Double.roundMagnitude x, ?_, hlow, hupp⟩
  unfold Double.ofRat
  have hfin : ¬ ((2 : ℚ) ^ (1024 : ℕ) ≤ Double.roundMagnitude x) := by
    have h3 : x * (1 + (2 : ℚ) ^ (-53 : Int))
        ≤ (2 : ℚ) ^ (1023 : Int) * (1 + (2 : ℚ) ^ (-53 : Int)) :=
      mul_le_mul_of_nonneg_right h2 (by positivity)
    have h4 : (2 : ℚ) ^ (1023 : Int) * (1 + (2 : ℚ) ^ (-53 : Int)) < (2 : ℚ) ^ (1024 : ℕ) := by
      norm_num
    linarith
  rw [if_neg hfin, if_neg (not_lt.2 (le_of_lt hx0))]

/-- A converted `size_t` value is finite and not negative, and at least `1`
if the integer is. -/
theorem ofNat_finite (n : Nat) (hn : n < 2 ^ 64) :
    ∃ v : ℚ, Double.ofNat n = Double.finite v ∧ 0 ≤ v ∧ (1 ≤ n → 1 ≤ v) := by
  rcases Nat.eq_zero_or_pos n with h0 | hpos
  · subst h0
    exact ⟨0, by simpa using ofNat_eq 0 (by norm_num), le_refl _, by omega⟩
  · have h1 : (1 : ℚ) ≤ (n : ℚ) := by exact_mod_cast hpos
    have h2 : (n : ℚ) ≤ (2 : ℚ) ^ (64 : ℕ) := by exact_mod_cast le_of_lt hn
    obtain ⟨v, hv, _, _⟩ := ofRat_rel_error (n : ℚ)
      (le_trans (by norm_num) h1) (le_trans h2 (by norm_num))
    have h3 := ofRat_mono h1
    rw [ofRat_one, hv] at h3
    have h4 : (1 : ℚ) ≤ v := by simpa [Double.le] using h3
    exact ⟨v, hv, by linarith, fun _ => h4⟩

/-- For a window `W ≥ 0` and `1 ≤ B < 2⁶⁴ − 1` the constructor stores a
`full_control_time_`, and maintenance computes a stride, that is neither
negative nor a NaN. -/
theorem new_bounds_nonneg (w : ℚ) (share : Double) (B m : Nat) (hw : 0 ≤ w) (hB : 1 ≤ B)
    (hB64 : B + 1 < 2 ^ 64) (bs : List (BucketInfo K)) :
    Double.le (Double.finite 0)
        ((Binary64.Analyzer.new (Double.finite w) share B m :
          Binary64.Analyzer K).withRing bs).full_control_time_ = true ∧
      Double.le (Double.finite 0)
        (Binary64.stride ((Binary64.Analyzer.new (Double.finite w) share B m :
          Binary64.Analyzer K).withRing bs)) = true := by
  obtain ⟨b, hb, hb0, hb1⟩ := ofNat_finite B (by omega)
  obtain ⟨c, hc, hc0, hc1⟩ := ofNat_finite (B + 1) hB64
  have hbpos : 0 < b := lt_of_lt_of_le one_pos (hb1 hB)
  have hcpos : 0 < c := lt_of_lt_of_le one_pos (hc1 (by omega))
  have hmod : (B + 1) % 2 ^ 64 = B + 1 := Nat.mod_eq_of_lt hB64
  have hF : ((Binary64.Analyzer.new (Double.finite w) share B m :
      Binary64.Analyzer K).withRing bs).full_control_time_
      = (Double.ofRat (w / b)).mul (Double.finite c) := by
    show ((Double.finite w).div (Double.ofNat B)).mul (Double.ofNat ((B + 1) % 2 ^ 64)) = _
    rw [hmod, hb, hc, Double.div_finite _ _ (ne_of_gt hbpos)]
  have hS : Binary64.stride ((Binary64.Analyzer.new (Double.finite w) share B m :
      Binary64.Analyzer K).withRing bs)
      = ((Double.ofRat (w / b)).mul (Double.finite c)).div (Double.finite c) := by
    show (((Double.finite w).div (Double.ofNat B)).mul (Double.ofNat ((B + 1) % 2 ^ 64))).div
      (Double.ofNat ((B + 1) % 2 ^ 64)) = _
    rw [hmod, hb, hc, Double.div_finite _ _ (ne_of_gt hbpos)]
  rw [hF, hS]
  have hq := ofRat_nonneg (div_nonneg hw (le_of_lt hbpos))
  have hinf : Double.pos_inf.mul (Double.finite c) = Double.pos_inf := by
    show (if c = 0 then Double.nan else if c < 0 then Double.neg_inf else Double.pos_inf) = _
    rw [if_neg (ne_of_gt hcpos), if_neg (not_lt.2 hc0)]
  have hinfd : Double.pos_inf.div (Double.finite c) = Double.pos_inf := by
    show (if c < 0 then Double.neg_inf else Double.pos_inf) = _
    rw [if_neg (not_lt.2 hc0)]
  cases hv : Double.ofRat (w / b) with
  | finite q =>
    rw [hv] at hq
    have hq0 : (0 : ℚ) ≤ q := by simpa [Double.le] using hq
    rw [Double.mul_finite]
    have hf := ofRat_nonneg (mul_nonneg hq0 hc0)
    refine ⟨hf, ?_⟩
    cases hv2 : Double.ofRat (q * c) with
    | finite f =>
      rw [hv2] at hf
      have hf0 : (0 : ℚ) ≤ f := by simpa [Double.le] using hf
      rw [Double.div_finite _ _ (ne_of_gt hcpos)]
      exact ofRat_nonneg (div_nonneg hf0 hc0)
    | pos_inf => rw [hinfd]; rfl
    | neg_inf => rw [hv2] at hf; simp [Double.le] at hf
    | nan => rw [hv2] at hf; simp [Double.le] at hf
  | pos_inf =>
    rw [hinf, hinfd]
    exact ⟨rfl, rfl⟩
  | neg_inf => rw [hv] at hq; simp [Double.le] at hq
  | nan => rw [hv] at hq; simp [Double.le] at hq

/-- A query call whose maintenance is defined and leaves a front bucket
leaves the state of that maintenance. -/
theorem step_query_binary64 (a a1 : Binary64.Analyzer K) (number : Int) (now : ℚ)
    (front : BucketInfo K) (h : Binary64.DeleteOldAddNewBuckets a now = some a1)
    (hf : a1.buckets_.head? = some front) :
    Binary64.step a (Call.query number now) = some a1 := by
  simp only [Binary64.step, Binary64.GetTopKKeys, h, hf, Option.map_some']

theorem run_binary64_append (a : Binary64.Analyzer K) (cs : List (Call K)) (c : Call K) :
    Binary64.run a (cs ++ [c]) = (Binary64.run a cs).bind (fun a1 => Binary64.step a1 c) := by
  induction cs generalizing a with
  | nil =>
    simp only [List.nil_append, Binary64.run, Option.some_bind]
    cases Binary64.step a c <;> rfl
  | cons d cs ih =>
    simp only [List.cons_append, Binary64.run]
    cases Binary64.step a d with
    | none => rfl
    | some a2 => simp only [Option.some_bind]; exact ih a2

/-- The stride of the state after a defined run is the stride of the state
before it. -/
theorem run_binary64_stride (a a1 : Binary64.Analyzer K) (cs : List (Call K))
    (hinv : Binary64.RingInv a)
    (hS : Double.le (Double.finite 0) (Binary64.stride a) = true)
    (hF : Double.le (Double.finite 0) a.full_control_time_ = true)
    (h : Binary64.run a cs = some a1) : Binary64.stride a1 = Binary64.stride a := by
  have hc := run_binary64_RingInv a a1 cs hinv hS hF h
  unfold Binary64.stride
  rw [hc.2.1, hc.2.2]

/-- Maintenance at `1/2` with `W = 1`, `B = 4` (stored `full_control_time_ =
5/4`, stride `1/4`, both exact) on the ring `[0]` appends a bucket. -/
theorem maintenance_1_4_example :
    Binary64.DeleteOldAddNewBuckets ((Binary64.Analyzer.new (Double.finite 1) (Double.ofRat (1 / 10)) 4 54 :
        Binary64.Analyzer Nat).withRing [BucketInfo.new 0]) (1 / 2)
      = some ((Binary64.Analyzer.new (Double.finite 1) (Double.ofRat (1 / 10)) 4 54 :
        Binary64.Analyzer Nat).withRing [BucketInfo.new 0, BucketInfo.new (1 / 2)]) := by
  have h0 : Binary64.durationGreater (1 / 2) 0 (Double.finite (5 / 4)) = false := by
    rw [durationGreater_eval (1 / 2) 0 _ _ 500000000 ofRat_retire_bound_1_4
      (ofRat_eq_int _ _ 500000000 (by norm_num) (by norm_num) (by norm_num))]
    norm_num
  have h1 : Binary64.durationGreater (1 / 2) 0 (Double.finite (1 / 4)) = true := by
    rw [durationGreater_eval (1 / 2) 0 _ _ 500000000 ofRat_extend_bound_1_4
      (ofRat_eq_int _ _ 500000000 (by norm_num) (by norm_num) (by norm_num))]
    norm_num
  have e0 : (BucketInfo.new 0 : BucketInfo Nat).created_at = 0 := rfl
  have hr : Binary64.retireOld ((Binary64.Analyzer.new (Double.finite 1) (Double.ofRat (1 / 10)) 4 54 :
        Binary64.Analyzer Nat).withRing [BucketInfo.new 0]) (1 / 2)
      = [BucketInfo.new 0] := by
    rw [retireOld_withRing, full_control_time_1_4,
      List.dropWhile_cons_of_neg (by simp only [e0, h0]; exact Bool.false_ne_true)]
  rw [DeleteOldAddNewBuckets_binary64_eval _ _ _ _ (BucketInfo.new 0) hr rfl, stride_1_4, e0,
    if_pos h1]
  rfl

/-- The run of one query call at `1/2` from the ring `[0]` with `W = 1`,
`B = 4`. -/
theorem run_1_4_example :
    Binary64.run ((Binary64.Analyzer.new (Double.finite 1) (Double.ofRat (1 / 10)) 4 54 :
        Binary64.Analyzer Nat).withRing [BucketInfo.new 0]) [Call.query 0 (1 / 2)]
      = some ((Binary64.Analyzer.new (Double.finite 1) (Double.ofRat (1 / 10)) 4 54 :
        Binary64.Analyzer Nat).withRing [BucketInfo.new 0, BucketInfo.new (1 / 2)]) := by
  show (Binary64.step ((Binary64.Analyzer.new (Double.finite 1) (Double.ofRat (1 / 10)) 4 54 :
        Binary64.Analyzer Nat).withRing [BucketInfo.new 0]) (Call.query 0 (1 / 2))).bind
    (fun a1 => Binary64.run a1 []) = _
  rw [step_query_binary64 _ _ 0 (1 / 2) (BucketInfo.new 0) maintenance_1_4_example rfl]
  rfl

/-- Maintenance at `7/5` with `W = 7`, `B = 5` (computed stride
`1.3999999999999997`) on the ring `[0]` appends a bucket. -/
theorem maintenance_7_5_example :
    Binary64.DeleteOldAddNewBuckets ((Binary64.Analyzer.new (Double.finite 7) (Double.ofRat (1 / 10)) 5 54 :
        Binary64.Analyzer Nat).withRing [BucketInfo.new 0]) (7 / 5)
      = some ((Binary64.Analyzer.new (Double.finite 7) (Double.ofRat (1 / 10)) 5 54 :
        Binary64.Analyzer Nat).withRing [BucketInfo.new 0, BucketInfo.new (7 / 5)]) := by
  have h0 : Binary64.durationGreater (7 / 5) 0
      (Double.finite (1182194902184755 / 140737488355328)) = false := by
    rw [durationGreater_eval (7 / 5) 0 _ _ 1400000000 ofRat_retire_bound_7_5
      (ofRat_eq_int _ _ 1400000000 (by norm_num) (by norm_num) (by norm_num))]
    norm_num
  have h1 : Binary64.durationGreater (7 / 5) 0
      (Double.finite (6305039478318693 / 4503599627370496)) = true := by
    rw [durationGreater_eval (7 / 5) 0 _ _ 1400000000 ofRat_extend_bound_7_5
      (ofRat_eq_int _ _ 1400000000 (by norm_num) (by norm_num) (by norm_num))]
    norm_num
  have e0 : (BucketInfo.new 0 : BucketInfo Nat).created_at = 0 := rfl
  have hr : Binary64.retireOld ((Binary64.Analyzer.new (Double.finite 7) (Double.ofRat (1 / 10)) 5 54 :
        Binary64.Analyzer Nat).withRing [BucketInfo.new 0]) (7 / 5)
      = [BucketInfo.new 0] := by
    rw [retireOld_withRing, full_control_time_7_5,
      List.dropWhile_cons_of_neg (by simp only [e0, h0]; exact Bool.false_ne_true)]
  rw [DeleteOldAddNewBuckets_binary64_eval _ _ _ _ (BucketInfo.new 0) hr rfl, stride_7_5, e0,
    if_pos h1]
  rfl

/-- The run of one query call at `7/5` from the ring `[0]` with `W = 7`,
`B = 5`. -/
theorem run_7_5_example :
    Binary64.run ((Binary64.Analyzer.new (Double.finite 7) (Double.ofRat (1 / 10)) 5 54 :
        Binary64.Analyzer Nat).withRing [BucketInfo.new 0]) [Call.query 0 (7 / 5)]
      = some ((Binary64.Analyzer.new (Double.finite 7) (Double.ofRat (1 / 10)) 5 54 :
        Binary64.Analyzer Nat).withRing [BucketInfo.new 0, BucketInfo.new (7 / 5)]) := by
  show (Binary64.step ((Binary64.Analyzer.new (Double.finite 7) (Double.ofRat (1 / 10)) 5 54 :
        Binary64.Analyzer Nat).withRing [BucketInfo.new 0]) (Call.query 0 (7 / 5))).bind
    (fun a1 => Binary64.run a1 []) = _
  rw [step_query_binary64 _ _ 0 (7 / 5) (BucketInfo.new 0) maintenance_7_5_example rfl]
  rfl

/-- The retire loop at `18/5` with `W = 3`, `B = 5` (stored
`full_control_time_ = 3.5999999999999996`) on the ring `[0, 1]` drops the
bucket created at `0`. -/
theorem retire_3_5_example :
    Binary64.retireOld ((Binary64.Analyzer.new (Double.finite 3) (Double.ofRat (1 / 10)) 5 54 :
        Binary64.Analyzer Nat).withRing [BucketInfo.new 0, BucketInfo.new 1]) (18 / 5)
      = [BucketInfo.new 1] := by
  have h0 : Binary64.durationGreater (18 / 5) 0
      (Double.finite (2026619832316723 / 562949953421312)) = true := by
    rw [durationGreater_eval (18 / 5) 0 _ _ 3600000000 ofRat_retire_bound_3_5
      (ofRat_eq_int _ _ 3600000000 (by norm_num) (by norm_num) (by norm_num))]
    norm_num
  have h1 : Binary64.durationGreater (18 / 5) 1
      (Double.finite (2026619832316723 / 562949953421312)) = false := by
    rw [durationGreater_eval (18 / 5) 1 _ _ 2600000000 ofRat_retire_bound_3_5
      (ofRat_eq_int _ _ 2600000000 (by norm_num) (by norm_num) (by norm_num))]
    norm_num
  have e0 : (BucketInfo.new 0 : BucketInfo Nat).created_at = 0 := rfl
  have e1 : (BucketInfo.new 1 : BucketInfo Nat).created_at = 1 := rfl
  rw [retireOld_withRing, full_control_time_3_5,
    List.dropWhile_cons_of_pos (by simp only [e0]; exact h0),
    List.dropWhile_cons_of_neg (by simp only [e1, h1]; exact Bool.false_ne_true)]

/-- C12, as stated, fails: with `W = 1 s`, `B = 4` (stored values exact,
stride `1/4`) a query at `1/2` on the ring `[0]` appends a bucket, so the two
adjacent buckets are `1/2` apart, which is not `≤ S = W/B = 1/4`. -/
theorem C12_counterexample :
    Binary64.run ((Binary64.Analyzer.new (Double.finite 1) (Double.ofRat (1 / 10)) 4 54 :
        Binary64.Analyzer Nat).withRing [BucketInfo.new 0]) [Call.query 0 (1 / 2)]
      = some ((Binary64.Analyzer.new (Double.finite 1) (Double.ofRat (1 / 10)) 4 54 :
        Binary64.Analyzer Nat).withRing [BucketInfo.new 0, BucketInfo.new (1 / 2)]) ∧
    Binary64.stride ((Binary64.Analyzer.new (Double.finite 1) (Double.ofRat (1 / 10)) 4 54 :
        Binary64.Analyzer Nat).withRing [BucketInfo.new 0, BucketInfo.new (1 / 2)])
      = Double.finite (1 / 4) ∧
    ¬ ((BucketInfo.new (1 / 2) : BucketInfo Nat).created_at
        - (BucketInfo.new 0 : BucketInfo Nat).created_at ≤ (1 : ℚ) / 4) :=
  ⟨run_1_4_example, stride_1_4 _ _ _, by norm_num [BucketInfo.new]⟩

/-- C12, amended. Stagger invariant as the code keeps it: for a window
`W ≥ 0`, `1 ≤ B < 2⁶⁴ − 1` and every defined run of calls from a ring
satisfying the ring invariant, any two adjacent live buckets `b1` (older) and
`b2` pass the code's extend test `b2.created_at − b1.created_at >
full_control_time_ / buckets_count_` (the quotient rounded to binary64, both
sides converted to `double` nanoseconds); when the computed stride is a finite
value `s`, the gap is strictly greater than `s`. -/
theorem C12_stagger_amended (w : ℚ) (share : Double) (B m : Nat) (hB : 1 ≤ B)
    (hB64 : B + 1 < 2 ^ 64) (hW : 0 ≤ w)
    (bs0 : List (BucketInfo K)) (cs : List (Call K)) (a : Binary64.Analyzer K)
    (hinv : Binary64.RingInv
      ((Binary64.Analyzer.new (Double.finite w) share B m : Binary64.Analyzer K).withRing bs0))
    (hrun : Binary64.run
      ((Binary64.Analyzer.new (Double.finite w) share B m : Binary64.Analyzer K).withRing bs0)
      cs = some a) :
    a.buckets_.Chain' (fun b1 b2 =>
        Binary64.durationGreater b2.created_at b1.created_at
          (Binary64.stride ((Binary64.Analyzer.new (Double.finite w) share B m :
            Binary64.Analyzer K).withRing bs0)) = true) ∧
      ∀ s : ℚ, Binary64.stride ((Binary64.Analyzer.new (Double.finite w) share B m :
          Binary64.Analyzer K).withRing bs0) = Double.finite s →
        a.buckets_.Chain' (fun b1 b2 => b2.created_at - b1.created_at > s) := by
  obtain ⟨hF, hS⟩ := new_bounds_nonneg w share B m hW hB hB64 bs0
  have hinv1 := (run_binary64_RingInv _ a cs hinv hS hF hrun).1
  have hS1 := run_binary64_stride _ a cs hinv hS hF hrun
  have hchain := hinv1.chain
  rw [hS1] at hchain
  refine ⟨hchain, ?_⟩
  intro s hs
  refine List.Chain'.imp ?_ hchain
  intro b1 b2 h
  rw [hs] at h
  exact lt_of_durationGreater _ _ s h

/-- Witness for amended C12: the run `run_1_4_example`. -/
theorem C12_witness :
    (((Binary64.Analyzer.new (Double.finite 1) (Double.ofRat (1 / 10)) 4 54 :
        Binary64.Analyzer Nat).withRing [BucketInfo.new 0, BucketInfo.new (1 / 2)]).buckets_).Chain'
        (fun b1 b2 =>
          Binary64.durationGreater b2.created_at b1.created_at
            (Binary64.stride ((Binary64.Analyzer.new (Double.finite 1) (Double.ofRat (1 / 10)) 4 54 :
        Binary64.Analyzer Nat).withRing [BucketInfo.new 0])) = true) ∧
      ∀ s : ℚ, Binary64.stride ((Binary64.Analyzer.new (Double.finite 1) (Double.ofRat (1 / 10)) 4 54 :
        Binary64.Analyzer Nat).withRing [BucketInfo.new 0]) = Double.finite s →
        (((Binary64.Analyzer.new (Double.finite 1) (Double.ofRat (1 / 10)) 4 54 :
        Binary64.Analyzer Nat).withRing [BucketInfo.new 0, BucketInfo.new (1 / 2)]).buckets_).Chain'
          (fun b1 b2 => b2.created_at - b1.created_at > s) :=
  C12_stagger_amended 1 (Double.ofRat (1 / 10)) 4 54 (by norm_num) (by norm_num) (by norm_num)
    [BucketInfo.new 0] [Call.query 0 (1 / 2)] _
    (RingInv_binary64_singleton _ _ (by rw [full_control_time_1_4]; norm_num [Double.le])) run_1_4_example

/-- C34, as stated, fails: with `W = 7 s`, `B = 5` the code computes the
stride `1.3999999999999997`, and a query at `7/5` on the ring `[0]` appends a
bucket; the two adjacent buckets are exactly `W/B = 7/5` apart, not strictly
more. -/
theorem C34_counterexample :
    Binary64.run ((Binary64.Analyzer.new (Double.finite 7) (Double.ofRat (1 / 10)) 5 54 :
        Binary64.Analyzer Nat).withRing [BucketInfo.new 0]) [Call.query 0 (7 / 5)]
      = some ((Binary64.Analyzer.new (Double.finite 7) (Double.ofRat (1 / 10)) 5 54 :
        Binary64.Analyzer Nat).withRing [BucketInfo.new 0, BucketInfo.new (7 / 5)]) ∧
    Binary64.stride ((Binary64.Analyzer.new (Double.finite 7) (Double.ofRat (1 / 10)) 5 54 :
        Binary64.Analyzer Nat).withRing [BucketInfo.new 0])
      = Double.finite (6305039478318693 / 4503599627370496) ∧
    ¬ ((BucketInfo.new 0 : BucketInfo Nat).created_at + (7 : ℚ) / 5
        < (BucketInfo.new (7 / 5) : BucketInfo Nat).created_at) :=
  ⟨run_7_5_example, stride_7_5 _ _ _, by norm_num [BucketInfo.new]⟩

/-- C34, amended. Creation gaps as the code keeps them: for a window `W ≥ 0`,
`1 ≤ B < 2⁶⁴ − 1` and every defined run of observe/query calls at arbitrary
clock readings from a ring satisfying the ring invariant, any two adjacent
live buckets have `created_at` values that differ by strictly more than the
computed stride `s` (the binary64 value of `full_control_time_ /
buckets_count_`, when finite; it can be below `W/B`); the creation times of the
ring are strictly ascending and the front bucket is the oldest one. -/
theorem C34_creation_gaps_amended (w : ℚ) (share : Double) (B m : Nat) (hB : 1 ≤ B)
    (hB64 : B + 1 < 2 ^ 64) (hW : 0 ≤ w)
    (bs0 : List (BucketInfo K)) (cs : List (Call K)) (a : Binary64.Analyzer K)
    (hinv : Binary64.RingInv
      ((Binary64.Analyzer.new (Double.finite w) share B m : Binary64.Analyzer K).withRing bs0))
    (hrun : Binary64.run
      ((Binary64.Analyzer.new (Double.finite w) share B m : Binary64.Analyzer K).withRing bs0)
      cs = some a) :
    (∀ s : ℚ, Binary64.stride a = Double.finite s →
        a.buckets_.Chain' (fun b1 b2 => b1.created_at + s < b2.created_at)) ∧
      (a.buckets_.map BucketInfo.created_at).Sorted (fun x y => x < y) ∧
      ∀ front ∈ a.buckets_.head?, ∀ b ∈ a.buckets_, front.created_at ≤ b.created_at := by
  obtain ⟨hF, hS⟩ := new_bounds_nonneg w share B m hW hB hB64 bs0
  have hinv1 := (run_binary64_RingInv _ a cs hinv hS hF hrun).1
  have hS1 := run_binary64_stride _ a cs hinv hS hF hrun
  have hSa : Double.le (Double.finite 0) (Binary64.stride a) = true := by rw [hS1]; exact hS
  have hsorted : (a.buckets_.map BucketInfo.created_at).Sorted (fun x y => x < y) := by
    have h1 : a.buckets_.Chain' (fun b1 b2 : BucketInfo K => b1.created_at < b2.created_at) := by
      refine List.Chain'.imp ?_ hinv1.chain
      intro b1 b2 h
      exact pos_of_durationGreater _ _ _ hSa h
    have h2 : (a.buckets_.map BucketInfo.created_at).Chain' (fun x y => x < y) :=
      (List.chain'_map BucketInfo.created_at).2 h1
    exact List.chain'_iff_pairwise.1 h2
  refine ⟨?_, hsorted, ?_⟩
  · intro s hs
    refine List.Chain'.imp ?_ hinv1.chain
    intro b1 b2 h
    rw [hs] at h
    have := lt_of_durationGreater _ _ s h
    linarith
  · intro front hfront b hb
    cases hbs : a.buckets_ with
    | nil => rw [hbs] at hb; cases hb
    | cons x l =>
      rw [hbs] at hfront hb hsorted
      simp only [List.head?_cons, Option.mem_def, Option.some.injEq] at hfront
      subst hfront
      rcases List.mem_cons.1 hb with h3 | h3
      · rw [h3]
      · have h4 := (List.sorted_cons.1 hsorted).1 b.created_at (List.mem_map_of_mem _ h3)
        exact le_of_lt h4

/-- Witness for amended C34: the run `run_7_5_example`, whose two buckets were
created at `0` and `7/5`. -/
theorem C34_witness :
    (∀ s : ℚ, Binary64.stride ((Binary64.Analyzer.new (Double.finite 7) (Double.ofRat (1 / 10)) 5 54 :
        Binary64.Analyzer Nat).withRing [BucketInfo.new 0, BucketInfo.new (7 / 5)])
          = Double.finite s →
        (((Binary64.Analyzer.new (Double.finite 7) (Double.ofRat (1 / 10)) 5 54 :
        Binary64.Analyzer Nat).withRing [BucketInfo.new 0, BucketInfo.new (7 / 5)]).buckets_).Chain'
          (fun b1 b2 => b1.created_at + s < b2.created_at)) ∧
      ((((Binary64.Analyzer.new (Double.finite 7) (Double.ofRat (1 / 10)) 5 54 :
        Binary64.Analyzer Nat).withRing [BucketInfo.new 0, BucketInfo.new (7 / 5)]).buckets_).map
          BucketInfo.created_at).Sorted (fun x y => x < y) ∧
      ∀ front ∈ (((Binary64.Analyzer.new (Double.finite 7) (Double.ofRat (1 / 10)) 5 54 :
        Binary64.Analyzer Nat).withRing [BucketInfo.new 0, BucketInfo.new (7 / 5)]).buckets_).head?,
        ∀ b ∈ ((Binary64.Analyzer.new (Double.finite 7) (Double.ofRat (1 / 10)) 5 54 :
        Binary64.Analyzer Nat).withRing [BucketInfo.new 0, BucketInfo.new (7 / 5)]).buckets_,
          front.created_at ≤ b.created_at :=
  C34_creation_gaps_amended 7 (Double.ofRat (1 / 10)) 5 54 (by norm_num) (by norm_num)
    (by norm_num) [BucketInfo.new 0] [Call.query 0 (7 / 5)] _
    (RingInv_binary64_singleton _ _ (by rw [full_control_time_7_5]; norm_num [Double.le])) run_7_5_example

/-- An age that exceeds a finite bound `f` by the factor `1 + 2⁻⁵¹` passes the
code's age test against `f`, for `f` well inside the normal range. -/
theorem durationGreater_of_far (now c f : ℚ) (hf1 : (2 : ℚ) ^ (-900 : Int) ≤ f)
    (hf2 : f ≤ (2 : ℚ) ^ (900 : Int))
    (h : f * (1 + 4 * (2 : ℚ) ^ (-53 : Int)) ≤ now - c) :
    Binary64.durationGreater now c (Double.finite f) = true := by
  have hf0 : 0 < f := lt_of_lt_of_le (by positivity) hf1
  rw [durationGreater_finite]
  have hg0 : 0 < f * 1000000000 := by positivity
  have hlo1 : (2 : ℚ) ^ (-1022 : Int) ≤ f * 1000000000 := by
    have : (2 : ℚ) ^ (-1022 : Int) ≤ (2 : ℚ) ^ (-900 : Int) := by norm_num
    nlinarith
  have hhi1 : f * 1000000000 ≤ (2 : ℚ) ^ (1000 : Int) := by
    have : (2 : ℚ) ^ (900 : Int) * 1000000000 ≤ (2 : ℚ) ^ (1000 : Int) := by norm_num
    nlinarith
  have h1000 : (2 : ℚ) ^ (1000 : Int) * 2 ≤ (2 : ℚ) ^ (1023 : Int) := by norm_num
  obtain ⟨rb, hrb, _, hrb2⟩ := ofRat_rel_error (f * 1000000000) hlo1 (by linarith)
  have hu4 : (1 : ℚ) ≤ 1 + 4 * (2 : ℚ) ^ (-53 : Int) := by norm_num
  have hu5 : 1 + 4 * (2 : ℚ) ^ (-53 : Int) ≤ (2 : ℚ) := by norm_num
  obtain ⟨y, hy, hy1, _⟩ := ofRat_rel_error
    (f * 1000000000 * (1 + 4 * (2 : ℚ) ^ (-53 : Int)))
    (by nlinarith) (by nlinarith)
  have hkey : (1 + (2 : ℚ) ^ (-53 : Int))
      < (1 + 4 * (2 : ℚ) ^ (-53 : Int)) * (1 - (2 : ℚ) ^ (-53 : Int)) := by norm_num
  have hlt : rb < y := by
    have := mul_lt_mul_of_pos_left hkey hg0
    calc rb ≤ f * 1000000000 * (1 + (2 : ℚ) ^ (-53 : Int)) := hrb2
      _ < f * 1000000000
          * ((1 + 4 * (2 : ℚ) ^ (-53 : Int)) * (1 - (2 : ℚ) ^ (-53 : Int))) := this
      _ = f * 1000000000 * (1 + 4 * (2 : ℚ) ^ (-53 : Int)) * (1 - (2 : ℚ) ^ (-53 : Int)) := by
        ring
      _ ≤ y := hy1
  have h2 : Double.lt (Double.ofRat (f * 1000000000))
      (Double.ofRat (f * 1000000000 * (1 + 4 * (2 : ℚ) ^ (-53 : Int)))) = true := by
    rw [hrb, hy]
    exact decide_eq_true hlt
  refine Double.lt_trans_le _ _ _ h2 (ofRat_mono ?_)
  have := mul_le_mul_of_nonneg_right h (show (0 : ℚ) ≤ 1000000000 by norm_num)
  linarith

/-- The computed stride for a finite `full_control_time_ = f` well inside the
normal range and `1 ≤ buckets_count_ ≤ 2⁵⁰`: a finite value within relative
error `2⁻⁵³` of `f / buckets_count_`. -/
theorem stride_rel_error (a : Binary64.Analyzer K) (f : ℚ)
    (hf : a.full_control_time_ = Double.finite f)
    (hf1 : (2 : ℚ) ^ (-900 : Int) ≤ f) (hf2 : f ≤ (2 : ℚ) ^ (900 : Int))
    (hc1 : 1 ≤ a.buckets_count_) (hc2 : a.buckets_count_ ≤ 2 ^ 50) :
    ∃ s : ℚ, Binary64.stride a = Double.finite s ∧
      f / (a.buckets_count_ : ℚ) * (1 - (2 : ℚ) ^ (-53 : Int)) ≤ s ∧
      s ≤ f / (a.buckets_count_ : ℚ) * (1 + (2 : ℚ) ^ (-53 : Int)) := by
  have hf0 : 0 < f := lt_of_lt_of_le (by positivity) hf1
  have hcq1 : (1 : ℚ) ≤ (a.buckets_count_ : ℚ) := by exact_mod_cast hc1
  have hcq2 : (a.buckets_count_ : ℚ) ≤ (2 : ℚ) ^ (50 : ℕ) := by exact_mod_cast hc2
  have hcpos : (0 : ℚ) < (a.buckets_count_ : ℚ) := by linarith
  have hlo : (2 : ℚ) ^ (-1022 : Int) ≤ f / (a.buckets_count_ : ℚ) := by
    rw [le_div_iff₀ hcpos]
    have h1 : (2 : ℚ) ^ (-1022 : Int) * (2 : ℚ) ^ (50 : ℕ) ≤ (2 : ℚ) ^ (-900 : Int) := by
      norm_num
    have h2 : (2 : ℚ) ^ (-1022 : Int) * (a.buckets_count_ : ℚ)
        ≤ (2 : ℚ) ^ (-1022 : Int) * (2 : ℚ) ^ (50 : ℕ) :=
      mul_le_mul_of_nonneg_left hcq2 (by positivity)
    linarith
  have hhi : f / (a.buckets_count_ : ℚ) ≤ (2 : ℚ) ^ (1023 : Int) := by
    rw [div_le_iff₀ hcpos]
    have h1 : (2 : ℚ) ^ (900 : Int) ≤ (2 : ℚ) ^ (1023 : Int) := by norm_num
    have h2 : (2 : ℚ) ^ (1023 : Int) * 1 ≤ (2 : ℚ) ^ (1023 : Int) * (a.buckets_count_ : ℚ) :=
      mul_le_mul_of_nonneg_left hcq1 (by positivity)
    linarith
  obtain ⟨s, hs, hs1, hs2⟩ := ofRat_rel_error _ hlo hhi
  refine ⟨s, ?_, hs1, hs2⟩
  unfold Binary64.stride
  rw [hf, ofNat_eq _ (le_trans hc2 (by norm_num)), Double.div_finite _ _ (ne_of_gt hcpos), hs]

/-- The ring invariant bounds the ring: with a finite `full_control_time_`
well inside the normal range and `1 ≤ buckets_count_ ≤ 2⁵⁰` the ring holds at
most `buckets_count_ + 1` buckets. -/
theorem ring_length_binary64_le (a : Binary64.Analyzer K) (f : ℚ)
    (hf : a.full_control_time_ = Double.finite f)
    (hf1 : (2 : ℚ) ^ (-900 : Int) ≤ f) (hf2 : f ≤ (2 : ℚ) ^ (900 : Int))
    (hc1 : 1 ≤ a.buckets_count_) (hc2 : a.buckets_count_ ≤ 2 ^ 50)
    (hinv : Binary64.RingInv a) : a.buckets_.length ≤ a.buckets_count_ + 1 := by
  have hf0 : 0 < f := lt_of_lt_of_le (by positivity) hf1
  have hcq1 : (1 : ℚ) ≤ (a.buckets_count_ : ℚ) := by exact_mod_cast hc1
  have hcq2 : (a.buckets_count_ : ℚ) ≤ (2 : ℚ) ^ (50 : ℕ) := by exact_mod_cast hc2
  have hcpos : (0 : ℚ) < (a.buckets_count_ : ℚ) := by linarith
  obtain ⟨s, hs, hs1, _⟩ := stride_rel_error a f hf hf1 hf2 hc1 hc2
  cases hbs : a.buckets_ with
  | nil => simp
  | cons x l =>
    have hchain := hinv.chain
    rw [hbs, hs] at hchain
    have hchain2 : List.Chain (fun b1 b2 : BucketInfo K => b1.created_at + s < b2.created_at)
        x l := by
      refine List.Chain.imp ?_ hchain
      intro b1 b2 h
      have := lt_of_durationGreater _ _ s h
      linarith
    obtain ⟨back, hback⟩ : ∃ back, (x :: l).getLast? = some back :=
      ⟨(x :: l).getLast (by simp), List.getLast?_eq_getLast _ _⟩
    have hsum := chain_gap_sum s x l hchain2 back hback
    have hspan := hinv.span x (by rw [hbs]; exact List.mem_cons_self _ _) back
      (by rw [hbs]; exact hback)
    rw [hf] at hspan
    have hA : back.created_at - x.created_at < f * (1 + 4 * (2 : ℚ) ^ (-53 : Int)) := by
      by_contra hcon
      rw [durationGreater_of_far _ _ f hf1 hf2 (not_lt.1 hcon)] at hspan
      cases hspan
    have hq : f / (a.buckets_count_ : ℚ) * (a.buckets_count_ : ℚ) = f := by field_simp
    have hfc0 : 0 < f / (a.buckets_count_ : ℚ) := div_pos hf0 hcpos
    have hlen : (l.length : ℚ) < (a.buckets_count_ : ℚ) + 1 := by
      by_contra hcon
      have hcon1 : (a.buckets_count_ : ℚ) + 1 ≤ (l.length : ℚ) := not_lt.1 hcon
      have hu1 : (0 : ℚ) < 1 - (2 : ℚ) ^ (-53 : Int) := by norm_num
      have hs0 : 0 ≤ s := le_trans (le_of_lt (mul_pos hfc0 hu1)) hs1
      have h1 : ((a.buckets_count_ : ℚ) + 1) * s ≤ (l.length : ℚ) * s :=
        mul_le_mul_of_nonneg_right hcon1 hs0
      have h2 : ((a.buckets_count_ : ℚ) + 1)
          * (f / (a.buckets_count_ : ℚ) * (1 - (2 : ℚ) ^ (-53 : Int)))
          ≤ ((a.buckets_count_ : ℚ) + 1) * s :=
        mul_le_mul_of_nonneg_left hs1 (by linarith)
      have h3 : ((a.buckets_count_ : ℚ) + 1)
          * (f / (a.buckets_count_ : ℚ) * (1 - (2 : ℚ) ^ (-53 : Int)))
          = f * (1 - (2 : ℚ) ^ (-53 : Int))
            + f / (a.buckets_count_ : ℚ) * (1 - (2 : ℚ) ^ (-53 : Int)) := by
        have : f * (1 - (2 : ℚ) ^ (-53 : Int))
            = f / (a.buckets_count_ : ℚ) * (a.buckets_count_ : ℚ)
              * (1 - (2 : ℚ) ^ (-53 : Int)) := by rw [hq]
        rw [this]
        ring
      have h4 : f * (2 : ℚ) ^ (-50 : Int) ≤ f / (a.buckets_count_ : ℚ) := by
        rw [le_div_iff₀ hcpos]
        have : f * (2 : ℚ) ^ (-50 : Int) * (a.buckets_count_ : ℚ)
            ≤ f * (2 : ℚ) ^ (-50 : Int) * (2 : ℚ) ^ (50 : ℕ) :=
          mul_le_mul_of_nonneg_left hcq2 (by positivity)
        have h5 : f * (2 : ℚ) ^ (-50 : Int) * (2 : ℚ) ^ (50 : ℕ) = f := by
          rw [mul_assoc]
          norm_num
        linarith
      have h6 : f * (2 : ℚ) ^ (-50 : Int) * (1 - (2 : ℚ) ^ (-53 : Int))
          ≤ f / (a.buckets_count_ : ℚ) * (1 - (2 : ℚ) ^ (-53 : Int)) :=
        mul_le_mul_of_nonneg_right h4 (le_of_lt hu1)
      have h7 : f * (1 + 4 * (2 : ℚ) ^ (-53 : Int))
          ≤ f * (1 - (2 : ℚ) ^ (-53 : Int))
            + f * (2 : ℚ) ^ (-50 : Int) * (1 - (2 : ℚ) ^ (-53 : Int)) := by
        have h8 : (1 + 4 * (2 : ℚ) ^ (-53 : Int))
            ≤ (1 - (2 : ℚ) ^ (-53 : Int))
              + (2 : ℚ) ^ (-50 : Int) * (1 - (2 : ℚ) ^ (-53 : Int)) := by norm_num
        have := mul_le_mul_of_nonneg_left h8 (le_of_lt hf0)
        calc f * (1 + 4 * (2 : ℚ) ^ (-53 : Int))
            ≤ f * ((1 - (2 : ℚ) ^ (-53 : Int))
              + (2 : ℚ) ^ (-50 : Int) * (1 - (2 : ℚ) ^ (-53 : Int))) := this
          _ = f * (1 - (2 : ℚ) ^ (-53 : Int))
              + f * (2 : ℚ) ^ (-50 : Int) * (1 - (2 : ℚ) ^ (-53 : Int)) := by
            rw [mul_add, ← mul_assoc]
      have h9 : f * (1 + 4 * (2 : ℚ) ^ (-53 : Int)) ≤ (l.length : ℚ) * s :=
        calc f * (1 + 4 * (2 : ℚ) ^ (-53 : Int))
            ≤ f * (1 - (2 : ℚ) ^ (-53 : Int))
              + f * (2 : ℚ) ^ (-50 : Int) * (1 - (2 : ℚ) ^ (-53 : Int)) := h7
          _ ≤ f * (1 - (2 : ℚ) ^ (-53 : Int))
              + f / (a.buckets_count_ : ℚ) * (1 - (2 : ℚ) ^ (-53 : Int)) :=
            add_le_add_left h6 _
          _ = ((a.buckets_count_ : ℚ) + 1)
              * (f / (a.buckets_count_ : ℚ) * (1 - (2 : ℚ) ^ (-53 : Int))) := h3.symm
          _ ≤ ((a.buckets_count_ : ℚ) + 1) * s := h2
          _ ≤ (l.length : ℚ) * s := h1
      have h10 : (l.length : ℚ) * s ≤ back.created_at - x.created_at := by linarith
      exact absurd (lt_of_le_of_lt (le_trans h9 h10) hA) (lt_irrefl _)
    have hlen2 : l.length < a.buckets_count_ + 1 := by exact_mod_cast hlen
    simp only [List.length_cons]
    omega

/-- The `full_control_time_` the constructor stores for a window `2⁻⁵⁰⁰ ≤ W ≤
2⁵⁰⁰` and `1 ≤ B < 2⁵⁰`: a finite value within two roundings of
`W·(B+1)/B`. -/
theorem full_control_time_rel_error (w : ℚ) (share : Double) (B m : Nat) (hB : 1 ≤ B)
    (hB50 : B + 1 ≤ 2 ^ 50) (hw1 : (2 : ℚ) ^ (-500 : Int) ≤ w)
    (hw2 : w ≤ (2 : ℚ) ^ (500 : Int)) :
    ∃ f : ℚ, (Binary64.Analyzer.new (Double.finite w) share B m :
        Binary64.Analyzer K).full_control_time_ = Double.finite f ∧
      w * ((B : ℚ) + 1) / (B : ℚ) * (1 - (2 : ℚ) ^ (-53 : Int)) ^ 2 ≤ f ∧
      f ≤ w * ((B : ℚ) + 1) / (B : ℚ) * (1 + (2 : ℚ) ^ (-53 : Int)) ^ 2 ∧
      (2 : ℚ) ^ (-900 : Int) ≤ f ∧ f ≤ (2 : ℚ) ^ (900 : Int) := by
  have hw0 : 0 < w := lt_of_lt_of_le (by positivity) hw1
  have hb1 : (1 : ℚ) ≤ (B : ℚ) := by exact_mod_cast hB
  have hb0 : (0 : ℚ) < (B : ℚ) := by linarith
  have hc2 : (B : ℚ) + 1 ≤ (2 : ℚ) ^ (50 : ℕ) := by exact_mod_cast hB50
  have hc1 : (1 : ℚ) ≤ (B : ℚ) + 1 := by linarith
  have hu0 : (0 : ℚ) < 1 - (2 : ℚ) ^ (-53 : Int) := by norm_num
  have hu1 : (0 : ℚ) < 1 + (2 : ℚ) ^ (-53 : Int) := by norm_num
  have hx1lo : (2 : ℚ) ^ (-550 : Int) ≤ w / (B : ℚ) := by
    rw [le_div_iff₀ hb0]
    have h1 : (2 : ℚ) ^ (-550 : Int) * (B : ℚ) ≤ (2 : ℚ) ^ (-550 : Int) * (2 : ℚ) ^ (50 : ℕ) :=
      mul_le_mul_of_nonneg_left (le_trans (le_add_of_nonneg_right zero_le_one) hc2)
        (by positivity)
    have h2 : (2 : ℚ) ^ (-550 : Int) * (2 : ℚ) ^ (50 : ℕ) = (2 : ℚ) ^ (-500 : Int) := by
      norm_num
    exact le_trans h1 (le_trans (le_of_eq h2) hw1)
  have hx1hi : w / (B : ℚ) ≤ (2 : ℚ) ^ (500 : Int) :=
    le_trans (div_le_self (le_of_lt hw0) hb1) hw2
  have hx1pos : 0 < w / (B : ℚ) := div_pos hw0 hb0
  obtain ⟨v1, hv1, hv1lo, hv1hi⟩ := ofRat_rel_error (w / (B : ℚ))
    (le_trans (by norm_num) hx1lo) (le_trans hx1hi (by norm_num))
  have hv1lo2 : (2 : ℚ) ^ (-551 : Int) ≤ v1 := by
    have h1 : (2 : ℚ) ^ (-550 : Int) * (1 - (2 : ℚ) ^ (-53 : Int))
        ≤ w / (B : ℚ) * (1 - (2 : ℚ) ^ (-53 : Int)) :=
      mul_le_mul_of_nonneg_right hx1lo (le_of_lt hu0)
    have h2 : (2 : ℚ) ^ (-551 : Int)
        ≤ (2 : ℚ) ^ (-550 : Int) * (1 - (2 : ℚ) ^ (-53 : Int)) := by norm_num
    exact le_trans h2 (le_trans h1 hv1lo)
  have hv1hi2 : v1 ≤ (2 : ℚ) ^ (501 : Int) := by
    have h1 : w / (B : ℚ) * (1 + (2 : ℚ) ^ (-53 : Int))
        ≤ (2 : ℚ) ^ (500 : Int) * (1 + (2 : ℚ) ^ (-53 : Int)) :=
      mul_le_mul_of_nonneg_right hx1hi (le_of_lt hu1)
    have h2 : (2 : ℚ) ^ (500 : Int) * (1 + (2 : ℚ) ^ (-53 : Int)) ≤ (2 : ℚ) ^ (501 : Int) := by
      norm_num
    exact le_trans hv1hi (le_trans h1 h2)
  have hv1pos : 0 < v1 := lt_of_lt_of_le (by positivity) hv1lo2
  have hx2lo : (2 : ℚ) ^ (-551 : Int) ≤ v1 * ((B : ℚ) + 1) := by
    have : v1 * 1 ≤ v1 * ((B : ℚ) + 1) := mul_le_mul_of_nonneg_left hc1 (le_of_lt hv1pos)
    rw [mul_one] at this
    exact le_trans hv1lo2 this
  have hx2hi : v1 * ((B : ℚ) + 1) ≤ (2 : ℚ) ^ (551 : Int) := by
    have h1 : v1 * ((B : ℚ) + 1) ≤ (2 : ℚ) ^ (501 : Int) * (2 : ℚ) ^ (50 : ℕ) :=
      mul_le_mul hv1hi2 hc2 (le_trans zero_le_one hc1) (by positivity)
    have h2 : (2 : ℚ) ^ (501 : Int) * (2 : ℚ) ^ (50 : ℕ) = (2 : ℚ) ^ (551 : Int) := by norm_num
    exact le_trans h1 (le_of_eq h2)
  obtain ⟨f, hf, hflo, hfhi⟩ := ofRat_rel_error (v1 * ((B : ℚ) + 1))
    (le_trans (by norm_num) hx2lo) (le_trans hx2hi (by norm_num))
  have hF : w * ((B : ℚ) + 1) / (B : ℚ) = w / (B : ℚ) * ((B : ℚ) + 1) := by ring
  refine ⟨f, ?_, ?_, ?_, ?_, ?_⟩
  · show ((Double.finite w).div (Double.ofNat B)).mul (Double.ofNat ((B + 1) % 2 ^ 64)) = _
    have hmod : (B + 1) % 2 ^ 64 = B + 1 := Nat.mod_eq_of_lt (by omega)
    rw [hmod, ofNat_eq B (by omega), ofNat_eq (B + 1) (by omega),
      Double.div_finite _ _ (ne_of_gt hb0), hv1, Double.mul_finite]
    push_cast
    exact hf
  · rw [hF]
    calc w / (B : ℚ) * ((B : ℚ) + 1) * (1 - (2 : ℚ) ^ (-53 : Int)) ^ 2
        = w / (B : ℚ) * (1 - (2 : ℚ) ^ (-53 : Int)) * ((B : ℚ) + 1)
          * (1 - (2 : ℚ) ^ (-53 : Int)) := by ring
      _ ≤ v1 * ((B : ℚ) + 1) * (1 - (2 : ℚ) ^ (-53 : Int)) :=
        mul_le_mul_of_nonneg_right
          (mul_le_mul_of_nonneg_right hv1lo (le_trans zero_le_one hc1)) (le_of_lt hu0)
      _ ≤ f := hflo
  · rw [hF]
    calc f ≤ v1 * ((B : ℚ) + 1) * (1 + (2 : ℚ) ^ (-53 : Int)) := hfhi
      _ ≤ w / (B : ℚ) * (1 + (2 : ℚ) ^ (-53 : Int)) * ((B : ℚ) + 1)
          * (1 + (2 : ℚ) ^ (-53 : Int)) :=
        mul_le_mul_of_nonneg_right
          (mul_le_mul_of_nonneg_right hv1hi (le_trans zero_le_one hc1)) (le_of_lt hu1)
      _ = w / (B : ℚ) * ((B : ℚ) + 1) * (1 + (2 : ℚ) ^ (-53 : Int)) ^ 2 := by ring
  · have h1 : (2 : ℚ) ^ (-551 : Int) * (1 - (2 : ℚ) ^ (-53 : Int))
        ≤ v1 * ((B : ℚ) + 1) * (1 - (2 : ℚ) ^ (-53 : Int)) :=
      mul_le_mul_of_nonneg_right hx2lo (le_of_lt hu0)
    have h2 : (2 : ℚ) ^ (-900 : Int)
        ≤ (2 : ℚ) ^ (-551 : Int) * (1 - (2 : ℚ) ^ (-53 : Int)) := by norm_num
    exact le_trans h2 (le_trans h1 hflo)
  · have h1 : v1 * ((B : ℚ) + 1) * (1 + (2 : ℚ) ^ (-53 : Int))
        ≤ (2 : ℚ) ^ (551 : Int) * (1 + (2 : ℚ) ^ (-53 : Int)) :=
      mul_le_mul_of_nonneg_right hx2hi (le_of_lt hu1)
    have h2 : (2 : ℚ) ^ (551 : Int) * (1 + (2 : ℚ) ^ (-53 : Int)) ≤ (2 : ℚ) ^ (900 : Int) := by
      norm_num
    exact le_trans hfhi (le_trans h1 h2)

/-- With `W = 9`, `B = 40` (stored `full_control_time_ = 9.225` rounded down
by one unit in the last place, retire bound `9225000000` ns, computed stride
`0.22499999999999998`), maintenance at `(n + 1) · 9/40` on the ring of the
buckets created at `0, 9/40, …, n · 9/40` retires nothing and appends a
bucket, for every `n < 41`. -/
theorem maintenance_9_40_example (n : Nat) (hn : n < 41) :
    Binary64.DeleteOldAddNewBuckets ((Binary64.Analyzer.new (Double.finite 9) (Double.ofRat (1 / 10)) 40 54 :
        Binary64.Analyzer Nat).withRing ((List.range (n + 1)).map (fun k : Nat => (BucketInfo.new ((k : ℚ) * (9 / 40)) : BucketInfo Nat)))) (((n : ℚ) + 1) * (9 / 40))
      = some ((Binary64.Analyzer.new (Double.finite 9) (Double.ofRat (1 / 10)) 40 54 :
        Binary64.Analyzer Nat).withRing ((List.range (n + 1 + 1)).map (fun k : Nat => (BucketInfo.new ((k : ℚ) * (9 / 40)) : BucketInfo Nat)))) := by
  have hnq : (n : ℚ) + 1 ≤ 41 := by exact_mod_cast hn
  have hnq0 : (0 : ℚ) ≤ (n : ℚ) := by positivity
  have h0 : Binary64.durationGreater (((n : ℚ) + 1) * (9 / 40)) 0
      (Double.finite (5193213320311603 / 562949953421312)) = false := by
    rw [durationGreater_eval _ 0 _ _ ((((n + 1) * 225000000 : Nat) : Int) : ℚ)
      ofRat_retire_bound_9_40
      (ofRat_eq_int _ _ (((n + 1) * 225000000 : Nat) : Int) (by push_cast; ring) rfl
        (by
          rw [abs_of_nonneg (by positivity)]
          have : (n + 1) * 225000000 ≤ 2 ^ 53 := by omega
          exact_mod_cast this))]
    refine decide_eq_false ?_
    push_cast
    linarith
  have h1 : Binary64.durationGreater (((n : ℚ) + 1) * (9 / 40)) ((n : ℚ) * (9 / 40))
      (Double.finite (2026619832316723 / 9007199254740992)) = true := by
    rw [durationGreater_eval _ _ _ _ 225000000 ofRat_extend_bound_9_40
      (ofRat_eq_int _ _ 225000000 (by push_cast; ring) (by norm_num) (by norm_num))]
    norm_num
  have hring : ((List.range (n + 1)).map (fun k : Nat => (BucketInfo.new ((k : ℚ) * (9 / 40)) : BucketInfo Nat)))
      = (BucketInfo.new 0 : BucketInfo Nat)
        :: (List.range n).map (fun k : Nat =>
            (BucketInfo.new (((k + 1 : Nat) : ℚ) * (9 / 40)) : BucketInfo Nat)) := by
    rw [List.range_succ_eq_map, List.map_cons, List.map_map]
    simp only [Nat.cast_zero, zero_mul]
    rfl
  have e0 : (BucketInfo.new 0 : BucketInfo Nat).created_at = 0 := rfl
  have hr : Binary64.retireOld ((Binary64.Analyzer.new (Double.finite 9) (Double.ofRat (1 / 10)) 40 54 :
        Binary64.Analyzer Nat).withRing ((List.range (n + 1)).map (fun k : Nat => (BucketInfo.new ((k : ℚ) * (9 / 40)) : BucketInfo Nat)))) (((n : ℚ) + 1) * (9 / 40))
      = ((List.range (n + 1)).map (fun k : Nat => (BucketInfo.new ((k : ℚ) * (9 / 40)) : BucketInfo Nat))) := by
    rw [retireOld_withRing, full_control_time_9_40, hring,
      List.dropWhile_cons_of_neg (by simp only [e0, h0]; exact Bool.false_ne_true)]
  have hlast : ((List.range (n + 1)).map (fun k : Nat => (BucketInfo.new ((k : ℚ) * (9 / 40)) : BucketInfo Nat))).getLast?
      = some (BucketInfo.new ((n : ℚ) * (9 / 40)) : BucketInfo Nat) := by
    rw [List.range_succ, List.map_append, List.map_singleton, List.getLast?_concat]
  have e1 : (BucketInfo.new ((n : ℚ) * (9 / 40)) : BucketInfo Nat).created_at
      = (n : ℚ) * (9 / 40) := rfl
  rw [DeleteOldAddNewBuckets_binary64_eval _ _ _ _ _ hr hlast, stride_9_40, e1, if_pos h1]
  congr 2
  rw [List.range_succ (n + 1), List.map_append, List.map_singleton]
  push_cast
  rfl

/-- A query call at `(n + 1) · 9/40` on that ring leaves the ring extended by
one bucket. -/
theorem step_9_40_example (n : Nat) (hn : n < 41) :
    Binary64.step ((Binary64.Analyzer.new (Double.finite 9) (Double.ofRat (1 / 10)) 40 54 :
        Binary64.Analyzer Nat).withRing ((List.range (n + 1)).map (fun k : Nat => (BucketInfo.new ((k : ℚ) * (9 / 40)) : BucketInfo Nat))))
        (Call.query 0 (((n : ℚ) + 1) * (9 / 40)))
      = some ((Binary64.Analyzer.new (Double.finite 9) (Double.ofRat (1 / 10)) 40 54 :
        Binary64.Analyzer Nat).withRing ((List.range (n + 1 + 1)).map (fun k : Nat => (BucketInfo.new ((k : ℚ) * (9 / 40)) : BucketInfo Nat)))) := by
  refine step_query_binary64 _ _ 0 _ (BucketInfo.new (((0 : Nat) : ℚ) * (9 / 40)))
    (maintenance_9_40_example n hn) ?_
  show (((List.range (n + 1 + 1)).map (fun k : Nat => (BucketInfo.new ((k : ℚ) * (9 / 40)) : BucketInfo Nat)))).head? = _
  rw [List.range_succ_eq_map, List.map_cons]
  rfl

/-- Query calls every `9/40` from the ring `[0]` with `W = 9`, `B = 40`: after
`n ≤ 41` calls the ring holds the `n + 1` buckets created at `0, 9/40, …,
n · 9/40`. -/
theorem run_9_40_example (n : Nat) (hn : n ≤ 41) :
    Binary64.run ((Binary64.Analyzer.new (Double.finite 9) (Double.ofRat (1 / 10)) 40 54 :
        Binary64.Analyzer Nat).withRing [BucketInfo.new 0]) ((List.range (n)).map (fun k : Nat => (Call.query 0 (((k : ℚ) + 1) * (9 / 40)) : Call Nat)))
      = some ((Binary64.Analyzer.new (Double.finite 9) (Double.ofRat (1 / 10)) 40 54 :
        Binary64.Analyzer Nat).withRing ((List.range (n + 1)).map (fun k : Nat => (BucketInfo.new ((k : ℚ) * (9 / 40)) : BucketInfo Nat)))) := by
  induction n with
  | zero =>
    show some ((Binary64.Analyzer.new (Double.finite 9) (Double.ofRat (1 / 10)) 40 54 :
        Binary64.Analyzer Nat).withRing [BucketInfo.new 0]) = _
    congr 2
    simp [List.range_succ]
  | succ n ih =>
    rw [List.range_succ, List.map_append, List.map_singleton, run_binary64_append,
      ih (by omega), Option.some_bind]
    exact step_9_40_example n (by omega)

/-- C9, as stated, fails: with `W = 9 s`, `B = 40` the code computes the
stride `0.22499999999999998` and the retire bound `9225000000` ns, so 41 query
calls at the non-decreasing clock readings `9/40, 2·9/40, …, 41·9/40` on the
ring `[0]` each append a bucket and retire none: the ring then holds `42 > B +
1` buckets. -/
theorem C9_counterexample :
    Binary64.run ((Binary64.Analyzer.new (Double.finite 9) (Double.ofRat (1 / 10)) 40 54 :
        Binary64.Analyzer Nat).withRing [BucketInfo.new 0]) ((List.range (41)).map (fun k : Nat => (Call.query 0 (((k : ℚ) + 1) * (9 / 40)) : Call Nat)))
      = some ((Binary64.Analyzer.new (Double.finite 9) (Double.ofRat (1 / 10)) 40 54 :
        Binary64.Analyzer Nat).withRing ((List.range (41 + 1)).map (fun k : Nat => (BucketInfo.new ((k : ℚ) * (9 / 40)) : BucketInfo Nat)))) ∧
    ((Binary64.Analyzer.new (Double.finite 9) (Double.ofRat (1 / 10)) 40 54 :
        Binary64.Analyzer Nat).withRing ((List.range (41 + 1)).map (fun k : Nat => (BucketInfo.new ((k : ℚ) * (9 / 40)) : BucketInfo Nat)))).buckets_.length = 42 ∧
    ¬ (((Binary64.Analyzer.new (Double.finite 9) (Double.ofRat (1 / 10)) 40 54 :
        Binary64.Analyzer Nat).withRing ((List.range (41 + 1)).map (fun k : Nat => (BucketInfo.new ((k : ℚ) * (9 / 40)) : BucketInfo Nat)))).buckets_.length ≤ 40 + 1) ∧
    (((List.range (41)).map (fun k : Nat => (Call.query 0 (((k : ℚ) + 1) * (9 / 40)) : Call Nat))).map Call.now).Sorted (fun x y => x ≤ y) := by
  have hlen : ((Binary64.Analyzer.new (Double.finite 9) (Double.ofRat (1 / 10)) 40 54 :
        Binary64.Analyzer Nat).withRing ((List.range (41 + 1)).map (fun k : Nat => (BucketInfo.new ((k : ℚ) * (9 / 40)) : BucketInfo Nat)))).buckets_.length = 42 := by
    show (((List.range (41 + 1)).map (fun k : Nat => (BucketInfo.new ((k : ℚ) * (9 / 40)) : BucketInfo Nat)))).length = 42
    rw [List.length_map, List.length_range]
  refine ⟨run_9_40_example 41 (le_refl _), hlen, by rw [hlen]; norm_num, ?_⟩
  rw [List.map_map]
  refine (List.pairwise_map).2 ?_
  refine (List.pairwise_lt_range 41).imp ?_
  intro i j hij
  show ((i : ℚ) + 1) * (9 / 40) ≤ ((j : ℚ) + 1) * (9 / 40)
  have : (i : ℚ) < (j : ℚ) := by exact_mod_cast hij
  linarith

/-- C9, amended. Ring bound as the code keeps it: for a window `2⁻⁵⁰⁰ ≤ W ≤
2⁵⁰⁰`, `1 ≤ B < 2⁵⁰`, any ring satisfying the ring invariant (every
one-bucket ring does) and any defined run of observe/query calls at arbitrary
clock readings, after the ring-maintenance step of the next call the ring
holds at most `B + 2` buckets, every live bucket fails the code's retire test
`now − created_at > full_control_time_` (both sides converted to `double`
nanoseconds), and every live bucket has an age below `W·(B+1)/B · (1 +
2⁻⁵⁰)`. -/
theorem C9_ring_bound_amended (w : ℚ) (share : Double) (B m : Nat) (hB : 1 ≤ B)
    (hB50 : B + 1 ≤ 2 ^ 50) (hW1 : (2 : ℚ) ^ (-500 : Int) ≤ w)
    (hW2 : w ≤ (2 : ℚ) ^ (500 : Int))
    (bs0 : List (BucketInfo K)) (cs : List (Call K)) (a1 a2 : Binary64.Analyzer K) (now : ℚ)
    (hinv : Binary64.RingInv
      ((Binary64.Analyzer.new (Double.finite w) share B m : Binary64.Analyzer K).withRing bs0))
    (hrun : Binary64.run
      ((Binary64.Analyzer.new (Double.finite w) share B m : Binary64.Analyzer K).withRing bs0)
      cs = some a1)
    (hmaint : Binary64.DeleteOldAddNewBuckets a1 now = some a2) :
    a2.buckets_.length ≤ B + 2 ∧
      (∀ b ∈ a2.buckets_,
        Binary64.durationGreater now b.created_at a2.full_control_time_ = false) ∧
      ∀ b ∈ a2.buckets_,
        now - b.created_at < w * ((B : ℚ) + 1) / (B : ℚ) * (1 + (2 : ℚ) ^ (-50 : Int)) := by
  have hw0 : 0 < w := lt_of_lt_of_le (by positivity) hW1
  have hb0 : (0 : ℚ) < (B : ℚ) := by exact_mod_cast hB
  obtain ⟨f, hf, _, hfhi, hf1, hf2⟩ :=
    full_control_time_rel_error (K := K) w share B m hB hB50 hW1 hW2
  have hf0 : 0 < f := lt_of_lt_of_le (by positivity) hf1
  obtain ⟨hF, hS⟩ := new_bounds_nonneg w share B m (le_of_lt hw0) hB (by omega) bs0
  obtain ⟨hinv1, hF1, hC1⟩ := run_binary64_RingInv _ a1 cs hinv hS hF hrun
  have hS1 := run_binary64_stride _ a1 cs hinv hS hF hrun
  have hF1a : Double.le (Double.finite 0) a1.full_control_time_ = true := by
    rw [hF1]; exact hF
  have hS1a : Double.le (Double.finite 0) (Binary64.stride a1) = true := by
    rw [hS1]; exact hS
  have hinv2 := DeleteOldAddNewBuckets_binary64_RingInv a1 a2 now hinv1 hS1a hF1a hmaint
  obtain ⟨back, _, hcase⟩ := DeleteOldAddNewBuckets_binary64_some a1 a2 now hmaint
  have hcfg : a2.full_control_time_ = Double.finite f ∧ a2.buckets_count_ = B + 1 ∧
      (a2.buckets_ = Binary64.retireOld a1 now ++ [BucketInfo.new now]
        ∨ a2.buckets_ = Binary64.retireOld a1 now) := by
    have hF0 : a1.full_control_time_ = Double.finite f := by rw [hF1]; exact hf
    have hC0 : a1.buckets_count_ = B + 1 := by
      rw [hC1]
      exact Nat.mod_eq_of_lt (by omega)
    rcases hcase with ⟨_, h2⟩ | ⟨_, h2⟩
    · rw [h2]; exact ⟨hF0, hC0, Or.inl rfl⟩
    · rw [h2]; exact ⟨hF0, hC0, Or.inr rfl⟩
  obtain ⟨hF2, hC2, hring⟩ := hcfg
  have hlen := ring_length_binary64_le a2 f hF2 hf1 hf2 (by omega) (by omega) hinv2
  have hage : ∀ b ∈ a2.buckets_,
      Binary64.durationGreater now b.created_at a2.full_control_time_ = false := by
    intro b hb
    have hold : ∀ b ∈ Binary64.retireOld a1 now,
        Binary64.durationGreater now b.created_at a2.full_control_time_ = false := by
      intro b hb
      have hF0 : a1.full_control_time_ = Double.finite f := by rw [hF1]; exact hf
      rw [hF2, ← hF0]
      exact retireOld_binary64_age a1 now hinv1 hS1a b hb
    rcases hring with h | h
    · rw [h] at hb
      rcases List.mem_append.1 hb with hb1 | hb1
      · exact hold b hb1
      · rw [List.mem_singleton] at hb1
        subst hb1
        rw [hF2]
        exact durationGreater_of_le _ _ _
          (by show now - now ≤ f; rw [sub_self]; exact le_of_lt hf0)
    · rw [h] at hb
      exact hold b hb
  refine ⟨by omega, hage, ?_⟩
  intro b hb
  have h1 := hage b hb
  rw [hF2] at h1
  have h2 : now - b.created_at < f * (1 + 4 * (2 : ℚ) ^ (-53 : Int)) := by
    by_contra hcon
    rw [durationGreater_of_far _ _ f hf1 hf2 (not_lt.1 hcon)] at h1
    cases h1
  have hFpos : 0 < w * ((B : ℚ) + 1) / (B : ℚ) := by positivity
  have h3 : f * (1 + 4 * (2 : ℚ) ^ (-53 : Int))
      ≤ w * ((B : ℚ) + 1) / (B : ℚ) * (1 + (2 : ℚ) ^ (-53 : Int)) ^ 2
        * (1 + 4 * (2 : ℚ) ^ (-53 : Int)) :=
    mul_le_mul_of_nonneg_right hfhi (by norm_num)
  have h4 : (1 + (2 : ℚ) ^ (-53 : Int)) ^ 2 * (1 + 4 * (2 : ℚ) ^ (-53 : Int))
      ≤ 1 + (2 : ℚ) ^ (-50 : Int) := by norm_num
  have h5 : w * ((B : ℚ) + 1) / (B : ℚ) * (1 + (2 : ℚ) ^ (-53 : Int)) ^ 2
        * (1 + 4 * (2 : ℚ) ^ (-53 : Int))
      ≤ w * ((B : ℚ) + 1) / (B : ℚ) * (1 + (2 : ℚ) ^ (-50 : Int)) := by
    rw [mul_assoc]
    exact mul_le_mul_of_nonneg_left h4 (le_of_lt hFpos)
  exact lt_of_lt_of_le h2 (le_trans h3 h5)

/-- Witness for amended C9: the run of 40 query calls every `9/40` from the
ring `[0]` with `W = 9`, `B = 40`, followed by maintenance at `41 · 9/40`,
which leaves `42 = B + 2` buckets. -/
theorem C9_witness :
    Binary64.RingInv ((Binary64.Analyzer.new (Double.finite 9) (Double.ofRat (1 / 10)) 40 54 :
        Binary64.Analyzer Nat).withRing [BucketInfo.new 0]) ∧
    Binary64.DeleteOldAddNewBuckets ((Binary64.Analyzer.new (Double.finite 9) (Double.ofRat (1 / 10)) 40 54 :
        Binary64.Analyzer Nat).withRing ((List.range (40 + 1)).map (fun k : Nat => (BucketInfo.new ((k : ℚ) * (9 / 40)) : BucketInfo Nat)))) ((((40 : Nat) : ℚ) + 1) * (9 / 40))
      = some ((Binary64.Analyzer.new (Double.finite 9) (Double.ofRat (1 / 10)) 40 54 :
        Binary64.Analyzer Nat).withRing ((List.range (40 + 1 + 1)).map (fun k : Nat => (BucketInfo.new ((k : ℚ) * (9 / 40)) : BucketInfo Nat)))) ∧
    (((Binary64.Analyzer.new (Double.finite 9) (Double.ofRat (1 / 10)) 40 54 :
        Binary64.Analyzer Nat).withRing ((List.range (40 + 1 + 1)).map (fun k : Nat => (BucketInfo.new ((k : ℚ) * (9 / 40)) : BucketInfo Nat)))).buckets_.length ≤ 40 + 2 ∧
      (∀ b ∈ ((Binary64.Analyzer.new (Double.finite 9) (Double.ofRat (1 / 10)) 40 54 :
        Binary64.Analyzer Nat).withRing ((List.range (40 + 1 + 1)).map (fun k : Nat => (BucketInfo.new ((k : ℚ) * (9 / 40)) : BucketInfo Nat)))).buckets_,
        Binary64.durationGreater ((((40 : Nat) : ℚ) + 1) * (9 / 40)) b.created_at
          ((Binary64.Analyzer.new (Double.finite 9) (Double.ofRat (1 / 10)) 40 54 :
        Binary64.Analyzer Nat).withRing ((List.range (40 + 1 + 1)).map (fun k : Nat => (BucketInfo.new ((k : ℚ) * (9 / 40)) : BucketInfo Nat)))).full_control_time_ = false) ∧
      ∀ b ∈ ((Binary64.Analyzer.new (Double.finite 9) (Double.ofRat (1 / 10)) 40 54 :
        Binary64.Analyzer Nat).withRing ((List.range (40 + 1 + 1)).map (fun k : Nat => (BucketInfo.new ((k : ℚ) * (9 / 40)) : BucketInfo Nat)))).buckets_,
        (((40 : Nat) : ℚ) + 1) * (9 / 40) - b.created_at
          < 9 * (((40 : Nat) : ℚ) + 1) / ((40 : Nat) : ℚ) * (1 + (2 : ℚ) ^ (-50 : Int))) :=
  ⟨RingInv_binary64_singleton _ _ (by rw [full_control_time_9_40]; norm_num [Double.le]),
    maintenance_9_40_example 40 (by norm_num),
    C9_ring_bound_amended 9 (Double.ofRat (1 / 10)) 40 54 (by norm_num) (by norm_num)
      (by norm_num) (by norm_num) [BucketInfo.new 0] ((List.range (40)).map (fun k : Nat => (Call.query 0 (((k : ℚ) + 1) * (9 / 40)) : Call Nat))) _ _
      ((((40 : Nat) : ℚ) + 1) * (9 / 40))
      (RingInv_binary64_singleton _ _ (by rw [full_control_time_9_40]; norm_num [Double.le]))
      (run_9_40_example 40 (by norm_num)) (maintenance_9_40_example 40 (by norm_num))⟩

/-- The counter table after counting one event. -/
theorem mapFind_countEvent (c : List (K × Int)) (key k : K) :
    mapFind (countEvent c key) k
      = if k = key then some ((mapFind c key).getD 0 + 1) else mapFind c k := by
  unfold countEvent
  cases h : mapFind c key with
  | some v =>
    show mapFind (mapAssign c key (v + 1)) k = _
    rw [mapFind_mapAssign]
    rfl
  | none =>
    show mapFind (mapAssign c key 1) k = _
    rw [mapFind_mapAssign]
    rfl

theorem sorted_countEvent (c : List (K × Int)) (key : K)
    (hs : (keysOf c).Sorted (fun x y => x < y)) :
    (keysOf (countEvent c key)).Sorted (fun x y => x < y) := by
  unfold countEvent
  cases h : mapFind c key with
  | some v => exact sorted_mapAssign c key (v + 1) hs
  | none => exact sorted_mapAssign c key 1 hs

/-- The counting loop of `GetActualTop`: after the events `keys` the counter
of a key is the number of its events, and keys without an event have no
counter. -/
theorem foldl_countEvent (keys seen : List K) (c : List (K × Int))
    (hs : (keysOf c).Sorted (fun x y => x < y))
    (hc : ∀ k, mapFind c k = if seen.count k = 0 then none else some (seen.count k : Int)) :
    (keysOf (keys.foldl countEvent c)).Sorted (fun x y => x < y) ∧
      ∀ k, mapFind (keys.foldl countEvent c) k
        = if (seen ++ keys).count k = 0 then none else some ((seen ++ keys).count k : Int) := by
  induction keys generalizing c seen with
  | nil => simpa using ⟨hs, hc⟩
  | cons key rest ih =>
    have hstep : ∀ k, mapFind (countEvent c key) k
        = if (seen ++ [key]).count k = 0 then none
          else some ((seen ++ [key]).count k : Int) := by
      intro k
      rw [mapFind_countEvent, hc key, hc k, List.count_append, List.count_singleton]
      by_cases hk : k = key
      · subst hk
        by_cases h0 : seen.count k = 0
        · simp [h0]
        · simp [h0]
      · have hk1 : (key == k) = false := by simpa using fun h => hk h.symm
        simp [hk, hk1]
    have h1 := ih (seen ++ [key]) (countEvent c key) (sorted_countEvent c key hs) hstep
    rw [List.append_assoc, List.singleton_append] at h1
    exact h1

/-- On a log in timestamp order `DeleteOldLogs` keeps exactly the events that
are not older than `time_since`. -/
theorem DeleteOldLogs_data (o : AccurateFrequencyAnalyzer K) (time_since : Int)
    (hs : o.data_.Sorted (fun e1 e2 : KeyInfo K => e1.created_at ≤ e2.created_at)) :
    (o.DeleteOldLogs time_since).data_
      = o.data_.filter (fun e => decide (time_since ≤ e.created_at)) := by
  show o.data_.dropWhile (fun e => decide (e.created_at < time_since)) = _
  generalize o.data_ = l at hs
  induction l with
  | nil => rfl
  | cons x rest ih =>
    have hsort := List.sorted_cons.1 hs
    by_cases hx : x.created_at < time_since
    · have hp : (fun e : KeyInfo K => decide (e.created_at < time_since)) x = true :=
        decide_eq_true hx
      have hq : ¬ ((fun e : KeyInfo K => decide (time_since ≤ e.created_at)) x = true) := by
        show ¬ (decide (time_since ≤ x.created_at) = true)
        rw [decide_eq_true_eq]
        exact not_le.2 hx
      rw [List.dropWhile_cons_of_pos (by exact hp), List.filter_cons_of_neg (by exact hq),
        ih hsort.2]
    · have hp : ¬ ((fun e : KeyInfo K => decide (e.created_at < time_since)) x = true) := by
        show ¬ (decide (x.created_at < time_since) = true)
        rw [decide_eq_true_eq]
        exact hx
      have hq : (fun e : KeyInfo K => decide (time_since ≤ e.created_at)) x = true :=
        decide_eq_true (not_lt.1 hx)
      rw [List.dropWhile_cons_of_neg (by exact hp), List.filter_cons_of_pos (by exact hq)]
      congr 1
      symm
      rw [List.filter_eq_self]
      intro e he
      have := hsort.1 e he
      simp only [decide_eq_true_eq]
      linarith [not_lt.1 hx]

/-- The product `num * 0.1` of `GetActualTop` is neither negative nor a NaN. -/
theorem tenth_product_nonneg (n : Nat) :
    Double.le (Double.finite 0)
      ((Double.ofInt (n : Int)).mul (Double.ofRat (1 / 10))) = true := by
  have h := ofRat_nonneg (show (0 : ℚ) ≤ ((n : Int) : ℚ) by positivity)
  rw [ofRat_tenth]
  show Double.le (Double.finite 0)
    ((Double.ofRat ((n : Int) : ℚ)).mul (Double.finite _)) = true
  cases hv : Double.ofRat ((n : Int) : ℚ) with
  | finite v =>
    rw [hv] at h
    have hv0 : (0 : ℚ) ≤ v := by simpa [Double.le] using h
    rw [Double.mul_finite]
    exact ofRat_nonneg (mul_nonneg hv0 (by norm_num))
  | pos_inf =>
    show Double.le (Double.finite 0)
      (if (3602879701896397 / 36028797018963968 : ℚ) = 0 then Double.nan
        else if (3602879701896397 / 36028797018963968 : ℚ) < 0 then Double.neg_inf
        else Double.pos_inf) = true
    rw [if_neg (by norm_num), if_neg (by norm_num)]
    rfl
  | neg_inf => rw [hv] at h; simp [Double.le] at h
  | nan => rw [hv] at h; simp [Double.le] at h

/-- What `GetActualTop` returns on a log in timestamp order, for a defined
window start `ts`: the log cut at `ts`, and nothing if the window holds fewer
than 100 events, else the keys whose number of events in the window passes the
code's test `count > num * 0.1`, taken in `double`. -/
theorem mem_GetActualTop_iff (o : AccurateFrequencyAnalyzer K) (time ts : Int)
    (hs : o.data_.Sorted (fun e1 e2 : KeyInfo K => e1.created_at ≤ e2.created_at))
    (hts : o.time_since time = some ts) :
    ∃ r, o.GetActualTop time = some r ∧ r.1 = o.DeleteOldLogs ts ∧
      ∀ k, (k ∈ r.2 ↔
        100 ≤ (loggedSince o ts).length ∧
          Double.lt ((Double.ofInt ((loggedSince o ts).length : Int)).mul (Double.ofRat (1 / 10)))
            (Double.ofInt ((loggedSince o ts).count k : Int)) = true) := by
  have hdata := DeleteOldLogs_data o ts hs
  have hkeys : (o.DeleteOldLogs ts).data_.map KeyInfo.key = loggedSince o ts := by
    rw [hdata]
    rfl
  have hlen : (o.DeleteOldLogs ts).data_.length = (loggedSince o ts).length := by
    rw [← hkeys, List.length_map]
  have hfold : (o.DeleteOldLogs ts).data_.foldl (fun c e => countEvent c e.key) []
      = (loggedSince o ts).foldl countEvent [] := by
    rw [← hkeys, List.foldl_map]
  obtain ⟨hsorted, hfind⟩ := foldl_countEvent (loggedSince o ts) [] ([] : List (K × Int))
    (by simp [keysOf]) (by intro k; simp [mapFind])
  rw [List.nil_append] at hfind
  have hres : o.GetActualTop time
      = some (o.DeleteOldLogs ts,
        if (((loggedSince o ts).length : Nat) : Int) ≥ 100 then
          (((loggedSince o ts).foldl countEvent []).filter
            (fun e => Double.lt
              ((Double.ofInt ((loggedSince o ts).length : Int)).mul (Double.ofRat (1 / 10)))
              (Double.ofInt e.2))).map Prod.fst
        else []) := by
    unfold AccurateFrequencyAnalyzer.GetActualTop
    simp only [hts, hlen, hfold]
    split <;> rfl
  refine ⟨_, hres, rfl, ?_⟩
  intro k
  show k ∈ (if (((loggedSince o ts).length : Nat) : Int) ≥ 100 then _ else _) ↔ _
  by_cases h100 : (((loggedSince o ts).length : Nat) : Int) ≥ 100
  · rw [if_pos h100]
    have h100n : 100 ≤ (loggedSince o ts).length := by exact_mod_cast h100
    simp only [List.mem_map, List.mem_filter]
    constructor
    · rintro ⟨e, ⟨he, hgt⟩, rfl⟩
      refine ⟨h100n, ?_⟩
      have h1 := (mapFind_eq_some_iff _ (nodup_of_sorted_keys _ hsorted) e.1 e.2).2 he
      rw [hfind] at h1
      by_cases h0 : (loggedSince o ts).count e.1 = 0
      · rw [if_pos h0] at h1
        cases h1
      · rw [if_neg h0] at h1
        have h2 : ((loggedSince o ts).count e.1 : Int) = e.2 := Option.some.inj h1
        rw [h2]
        exact hgt
    · rintro ⟨_, hgt⟩
      have h0 : (loggedSince o ts).count k ≠ 0 := by
        intro h0
        rw [h0] at hgt
        have h3 : Double.ofInt ((0 : Nat) : Int) = Double.finite 0 := by
          simpa using ofInt_eq 0 (by norm_num)
        rw [h3, Double.le_of_lt_false _ _ (tenth_product_nonneg _)] at hgt
        cases hgt
      have h1 := hfind k
      rw [if_neg h0] at h1
      exact ⟨(k, ((loggedSince o ts).count k : Int)),
        ⟨(mapFind_eq_some_iff _ (nodup_of_sorted_keys _ hsorted) _ _).1 h1, hgt⟩, rfl⟩
  · rw [if_neg h100]
    constructor
    · intro h
      cases h
    · rintro ⟨h1, _⟩
      exact absurd (by exact_mod_cast h1) h100

/-- The product `100 * 0.1` in binary64 is `10`. -/
theorem ofRat_hundred_tenths :
    Double.ofRat (100 * (3602879701896397 / 36028797018963968)) = Double.finite (10) := by
  apply ofRat_eq_finite _ _ (3) 5629499534213120
  · norm_num
  · norm_num
  · norm_num
  · norm_num
  · apply roundHalfEven_eq_of_abs_lt
    rw [abs_lt]
    constructor <;> norm_num
  · norm_num
  · norm_num

/-- The conversion of a finite `double` whose truncation `z` is in range. -/
theorem Double.toInt64_finite (v : ℚ) (z : Int) (hz : (if 0 ≤ v then ⌊v⌋ else ⌈v⌉) = z)
    (h1 : -(2 : Int) ^ 63 ≤ z) (h2 : z < 2 ^ 63) : (Double.finite v).toInt64 = some z := by
  show (if -(2 : Int) ^ 63 ≤ (if 0 ≤ v then ⌊v⌋ else ⌈v⌉)
      ∧ (if 0 ≤ v then ⌊v⌋ else ⌈v⌉) < 2 ^ 63
    then some (if 0 ≤ v then ⌊v⌋ else ⌈v⌉) else none) = some z
  rw [hz, if_pos ⟨h1, h2⟩]

/-- The window start from the truncated count of microseconds. -/
theorem time_since_eq (o : AccurateFrequencyAnalyzer K) (time us : Int)
    (h : (((Double.ofInt time).sub (o.control_time_.mul (Double.ofRat 1000000000))).div
      (Double.ofRat 1000)).toInt64 = some us)
    (h1 : -(2 : Int) ^ 63 ≤ us * 1000) (h2 : us * 1000 < 2 ^ 63) :
    o.time_since time = some (us * 1000) := by
  unfold AccurateFrequencyAnalyzer.time_since
  simp only [h]
  rw [if_pos ⟨h1, h2⟩]

/-- The window of `1 s` in `double` nanoseconds. -/
theorem window_nanoseconds_example :
    (Double.finite 1).mul (Double.ofRat 1000000000) = Double.finite 1000000000 := by
  have h3 : Double.ofRat ((1 : ℚ) * 1000000000) = Double.finite 1000000000 :=
    ofRat_eq_int _ _ 1000000000 (by norm_num) (by norm_num) (by norm_num)
  rw [ofRat_billion, Double.mul_finite, h3]

/-- The difference `time − control_time_` for a query at `1 s` with a window
of `1 s`. -/
theorem window_difference_example :
    (Double.ofInt 1000000000).sub (Double.finite 1000000000) = Double.finite 0 := by
  have h1 : Double.ofInt 1000000000 = Double.finite 1000000000 := by
    simpa using ofInt_eq 1000000000 (by norm_num)
  have h4 : Double.ofRat ((1000000000 : ℚ) - 1000000000) = Double.finite 0 :=
    ofRat_eq_int _ _ 0 (by norm_num) (by norm_num) (by norm_num)
  rw [h1, Double.sub_finite, h4]

theorem window_microseconds_example :
    (Double.finite 0).div (Double.ofRat 1000) = Double.finite 0 := by
  have h2 : Double.ofRat 1000 = Double.finite 1000 :=
    ofRat_eq_int _ _ 1000 (by norm_num) (by norm_num) (by norm_num)
  have h5 : Double.ofRat ((0 : ℚ) / 1000) = Double.finite 0 :=
    ofRat_eq_int _ _ 0 (by norm_num) (by norm_num) (by norm_num)
  rw [h2, Double.div_finite _ _ (by norm_num), h5]

/-- The window start of a query at `1 s` with a window of `1 s`. -/
theorem time_since_example (o : AccurateFrequencyAnalyzer K)
    (hc : o.control_time_ = Double.finite 1) : o.time_since 1000000000 = some 0 := by
  have h6 : (Double.finite 0).toInt64 = some 0 :=
    Double.toInt64_finite 0 0 (by rw [if_pos (le_refl (0 : ℚ)), Int.floor_zero]) (by norm_num)
      (by norm_num)
  have h7 : (((Double.ofInt 1000000000).sub
      (o.control_time_.mul (Double.ofRat 1000000000))).div (Double.ofRat 1000)).toInt64
      = some 0 := by
    rw [hc, window_nanoseconds_example, window_difference_example,
      window_microseconds_example, h6]
  have h8 := time_since_eq o 1000000000 0 h7 (by norm_num) (by norm_num)
  rw [zero_mul] at h8
  exact h8

/-- The conversion of the time point `1700000000000000900` ns to `double`: the
spacing of `double` values at that magnitude is `256`. -/
theorem ofRat_epoch_time :
    Double.ofRat (1700000000000000900) = Double.finite (1700000000000001024) := by
  apply ofRat_eq_finite _ _ (60) 6640625000000004
  · norm_num
  · norm_num
  · norm_num
  · norm_num
  · apply roundHalfEven_eq_of_abs_lt
    rw [abs_lt]
    constructor <;> norm_num
  · norm_num
  · norm_num

/-- The difference `time − control_time_` in `double` nanoseconds. -/
theorem ofRat_epoch_difference :
    Double.ofRat (1700000000000001024 - 1000000000) = Double.finite (1699999999000001024) := by
  apply ofRat_eq_finite _ _ (60) 6640624996093754
  · norm_num
  · norm_num
  · norm_num
  · norm_num
  · apply roundHalfEven_eq_of_abs_lt
    rw [abs_lt]
    constructor <;> norm_num
  · norm_num
  · norm_num

/-- The quotient by `1000.0` in `double`. -/
theorem ofRat_epoch_microseconds :
    Double.ofRat (1699999999000001024 / 1000) = Double.finite (1699999999000001) := by
  apply ofRat_eq_finite _ _ (50) 6799999996000004
  · norm_num
  · norm_num
  · norm_num
  · norm_num
  · apply roundHalfEven_eq_of_abs_lt
    rw [abs_lt]
    constructor <;> norm_num
  · norm_num
  · norm_num

/-- The window start of a query at `1700000000000000900` ns with a window of
`1 s`: the code's value is `1699999999000001000` ns, later than the exact
difference `1699999999000000900` ns. -/
theorem time_since_rounding_example (o : AccurateFrequencyAnalyzer K)
    (hc : o.control_time_ = Double.finite 1) :
    o.time_since 1700000000000000900 = some 1699999999000001000 := by
  have h1 : Double.ofInt 1700000000000000900 = Double.finite 1700000000000001024 := by
    unfold Double.ofInt
    rw [show ((1700000000000000900 : Int) : ℚ) = 1700000000000000900 by norm_num]
    exact ofRat_epoch_time
  have h2 : (Double.finite 1700000000000001024).sub (Double.finite 1000000000)
      = Double.finite 1699999999000001024 := by
    rw [Double.sub_finite]
    exact ofRat_epoch_difference
  have h3 : (Double.finite 1699999999000001024).div (Double.ofRat 1000)
      = Double.finite 1699999999000001 := by
    have h4 : Double.ofRat 1000 = Double.finite 1000 :=
      ofRat_eq_int _ _ 1000 (by norm_num) (by norm_num) (by norm_num)
    rw [h4, Double.div_finite _ _ (by norm_num)]
    exact ofRat_epoch_microseconds
  have h6 : (Double.finite 1699999999000001).toInt64 = some 1699999999000001 :=
    Double.toInt64_finite _ _
      (by
        rw [if_pos (by norm_num)]
        exact Int.floor_intCast 1699999999000001)
      (by norm_num) (by norm_num)
  have h7 : (((Double.ofInt 1700000000000000900).sub
      (o.control_time_.mul (Double.ofRat 1000000000))).div (Double.ofRat 1000)).toInt64
      = some 1699999999000001 := by
    rw [hc, window_nanoseconds_example, h1, h2, h3, h6]
  have h8 := time_since_eq o 1700000000000000900 1699999999000001 h7 (by norm_num)
    (by norm_num)
  rw [show (1699999999000001 : Int) * 1000 = 1699999999000001000 by norm_num] at h8
  exact h8

/-- A log of one event of key `7`, added at `0.5 s`, and a query at `1 s`
with a window of `1 s`: the event is in the window, and nothing is returned. -/
theorem one_event_example :
    ((AccurateFrequencyAnalyzer.new (Double.finite 1) : AccurateFrequencyAnalyzer Nat).add 7
        500000000 500000000).time_since 1000000000 = some 0 ∧
      loggedSince ((AccurateFrequencyAnalyzer.new (Double.finite 1) : AccurateFrequencyAnalyzer Nat).add 7
        500000000 500000000) 0 = [7] ∧
      ((AccurateFrequencyAnalyzer.new (Double.finite 1) : AccurateFrequencyAnalyzer Nat).add 7
        500000000 500000000).GetActualTop 1000000000 = some (((AccurateFrequencyAnalyzer.new (Double.finite 1) : AccurateFrequencyAnalyzer Nat).add 7
        500000000 500000000).DeleteOldLogs 0, []) := by
  have hdata : ((AccurateFrequencyAnalyzer.new (Double.finite 1) : AccurateFrequencyAnalyzer Nat).add 7
        500000000 500000000).data_ = [⟨500000000, 7⟩] := by
    norm_num [AccurateFrequencyAnalyzer.add, AccurateFrequencyAnalyzer.new]
  have hc : ((AccurateFrequencyAnalyzer.new (Double.finite 1) : AccurateFrequencyAnalyzer Nat).add 7
        500000000 500000000).control_time_ = Double.finite 1 := by
    norm_num [AccurateFrequencyAnalyzer.add, AccurateFrequencyAnalyzer.new]
  have hts := time_since_example _ hc
  have hw : loggedSince ((AccurateFrequencyAnalyzer.new (Double.finite 1) : AccurateFrequencyAnalyzer Nat).add 7
        500000000 500000000) 0 = [7] := by
    unfold loggedSince
    rw [hdata]
    norm_num [List.filter]
  refine ⟨hts, hw, ?_⟩
  have hs : ((AccurateFrequencyAnalyzer.new (Double.finite 1) : AccurateFrequencyAnalyzer Nat).add 7
        500000000 500000000).data_.Sorted (fun e1 e2 : KeyInfo Nat => e1.created_at ≤ e2.created_at) := by
    rw [hdata]
    exact List.sorted_singleton _
  obtain ⟨r, hr, hr1, hr2⟩ := mem_GetActualTop_iff _ 1000000000 0 hs hts
  rw [hr]
  have hnil : r.2 = [] := by
    rw [List.eq_nil_iff_forall_not_mem]
    intro k hk
    have h1 := ((hr2 k).1 hk).1
    rw [hw] at h1
    simp at h1
  rw [← hr1, ← hnil]

/-- A log of 100 events stamped `0.5 s`, ten of key `1` and ninety of key
`2`, and a query at `1 s` with a window of `1 s`: all events are in the
window, key `1` holds exactly a tenth of them and is not returned, key `2`
is. -/
theorem hundred_events_example :
    (⟨Double.finite 1, 0,
        List.replicate 10 ⟨500000000, 1⟩ ++ List.replicate 90 ⟨500000000, 2⟩⟩ :
        AccurateFrequencyAnalyzer Nat).time_since 1000000000 = some 0 ∧
      loggedSince (⟨Double.finite 1, 0,
        List.replicate 10 ⟨500000000, 1⟩ ++ List.replicate 90 ⟨500000000, 2⟩⟩ :
        AccurateFrequencyAnalyzer Nat) 0 = List.replicate 10 1 ++ List.replicate 90 2 ∧
      ∃ r, (⟨Double.finite 1, 0,
        List.replicate 10 ⟨500000000, 1⟩ ++ List.replicate 90 ⟨500000000, 2⟩⟩ :
        AccurateFrequencyAnalyzer Nat).GetActualTop 1000000000 = some r ∧ 1 ∉ r.2 ∧ 2 ∈ r.2 := by
  have hts := time_since_example (⟨Double.finite 1, 0,
        List.replicate 10 ⟨500000000, 1⟩ ++ List.replicate 90 ⟨500000000, 2⟩⟩ :
        AccurateFrequencyAnalyzer Nat) rfl
  have hw : loggedSince (⟨Double.finite 1, 0,
        List.replicate 10 ⟨500000000, 1⟩ ++ List.replicate 90 ⟨500000000, 2⟩⟩ :
        AccurateFrequencyAnalyzer Nat) 0 = List.replicate 10 1 ++ List.replicate 90 2 := by
    unfold loggedSince
    have hp : ∀ key : Nat, (fun e : KeyInfo Nat => decide ((0 : Int) ≤ e.created_at))
        (⟨500000000, key⟩ : KeyInfo Nat) = true := by
      intro key
      show decide ((0 : Int) ≤ 500000000) = true
      rw [decide_eq_true_eq]
      norm_num
    show ((List.replicate 10 (⟨500000000, 1⟩ : KeyInfo Nat)
      ++ List.replicate 90 (⟨500000000, 2⟩ : KeyInfo Nat)).filter _).map _ = _
    rw [List.filter_append, List.filter_replicate, List.filter_replicate, if_pos (hp 1),
      if_pos (hp 2), List.map_append, List.map_replicate, List.map_replicate]
  have hs : (⟨Double.finite 1, 0,
        List.replicate 10 ⟨500000000, 1⟩ ++ List.replicate 90 ⟨500000000, 2⟩⟩ :
        AccurateFrequencyAnalyzer Nat).data_.Sorted (fun e1 e2 : KeyInfo Nat => e1.created_at ≤ e2.created_at) := by
    apply List.pairwise_of_forall_mem_list
    have ht : ∀ e ∈ (List.replicate 10 (⟨500000000, 1⟩ : KeyInfo Nat)
        ++ List.replicate 90 ⟨500000000, 2⟩), e.created_at = 500000000 := by
      intro e he
      rcases List.mem_append.1 he with h | h
      · rw [(List.mem_replicate.1 h).2]
      · rw [(List.mem_replicate.1 h).2]
    intro e1 h1 e2 h2
    rw [ht e1 h1, ht e2 h2]
  obtain ⟨r, hr, _, hiff⟩ := mem_GetActualTop_iff _ 1000000000 0 hs hts
  rw [hw] at hiff
  have hlen : (List.replicate 10 1 ++ List.replicate 90 2 : List Nat).length = 100 := by decide
  have hprod : (Double.ofInt ((100 : Nat) : Int)).mul (Double.ofRat (1 / 10))
      = Double.finite 10 := by
    have h1 : Double.ofInt ((100 : Nat) : Int) = Double.finite 100 := by
      simpa using ofInt_eq 100 (by norm_num)
    rw [h1, ofRat_tenth, Double.mul_finite, ofRat_hundred_tenths]
  refine ⟨hts, hw, r, hr, ?_, ?_⟩
  · rw [hiff 1]
    have h1 : List.count 1 (List.replicate 10 1 ++ List.replicate 90 2) = 10 := by decide
    have h2 : Double.ofInt ((10 : Nat) : Int) = Double.finite 10 := by
      simpa using ofInt_eq 10 (by norm_num)
    rw [h1, hlen, hprod, h2]
    norm_num [Double.lt]
  · rw [hiff 2]
    have h1 : List.count 2 (List.replicate 10 1 ++ List.replicate 90 2) = 90 := by decide
    have h2 : Double.ofInt ((90 : Nat) : Int) = Double.finite 90 := by
      simpa using ofInt_eq 90 (by norm_num)
    rw [h1, hlen, hprod, h2]
    norm_num [Double.lt]

/-- C32 fails on the code. On a log in timestamp order and for a defined
window start `ts` (the difference `time − control_time_` taken in `double`
nanoseconds and truncated to a microsecond), `GetActualTop(time)` returns a
key exactly when the window (the events not older than `ts`) holds at least
100 events and the key's count passes the test `count > num * 0.1` in
`double`. A key with 10% or more of the events is therefore not returned when
the window holds fewer than 100 events (a log of one event) or when its share
is exactly 10% (10 events of 100). The window start itself is rounded: for a
query at `1700000000000000900` ns with a window of `1 s` it is
`1699999999000001000` ns, later than `time − control_time`. -/
theorem C32_exact_oracle_divergence :
    (∀ (o : AccurateFrequencyAnalyzer K) (time ts : Int),
      o.data_.Sorted (fun e1 e2 : KeyInfo K => e1.created_at ≤ e2.created_at) →
      o.time_since time = some ts →
      ∃ r, o.GetActualTop time = some r ∧ r.1 = o.DeleteOldLogs ts ∧
        ∀ k, (k ∈ r.2 ↔
          100 ≤ (loggedSince o ts).length ∧
            Double.lt
              ((Double.ofInt ((loggedSince o ts).length : Int)).mul (Double.ofRat (1 / 10)))
              (Double.ofInt ((loggedSince o ts).count k : Int)) = true)) ∧
      (((AccurateFrequencyAnalyzer.new (Double.finite 1) : AccurateFrequencyAnalyzer Nat).add 7
        500000000 500000000).time_since 1000000000 = some 0 ∧
        loggedSince ((AccurateFrequencyAnalyzer.new (Double.finite 1) : AccurateFrequencyAnalyzer Nat).add 7
        500000000 500000000) 0 = [7] ∧
        ((AccurateFrequencyAnalyzer.new (Double.finite 1) : AccurateFrequencyAnalyzer Nat).add 7
        500000000 500000000).GetActualTop 1000000000 = some (((AccurateFrequencyAnalyzer.new (Double.finite 1) : AccurateFrequencyAnalyzer Nat).add 7
        500000000 500000000).DeleteOldLogs 0, [])) ∧
      ((⟨Double.finite 1, 0,
        List.replicate 10 ⟨500000000, 1⟩ ++ List.replicate 90 ⟨500000000, 2⟩⟩ :
        AccurateFrequencyAnalyzer Nat).time_since 1000000000 = some 0 ∧
        loggedSince (⟨Double.finite 1, 0,
        List.replicate 10 ⟨500000000, 1⟩ ++ List.replicate 90 ⟨500000000, 2⟩⟩ :
        AccurateFrequencyAnalyzer Nat) 0 = List.replicate 10 1 ++ List.replicate 90 2 ∧
        ∃ r, (⟨Double.finite 1, 0,
        List.replicate 10 ⟨500000000, 1⟩ ++ List.replicate 90 ⟨500000000, 2⟩⟩ :
        AccurateFrequencyAnalyzer Nat).GetActualTop 1000000000 = some r ∧ 1 ∉ r.2 ∧ 2 ∈ r.2) ∧
      ((AccurateFrequencyAnalyzer.new (Double.finite 1) :
          AccurateFrequencyAnalyzer Nat).time_since 1700000000000000900
          = some 1699999999000001000 ∧
        (1700000000000000900 : Int) - 1000000000 < 1699999999000001000) :=
  ⟨fun o time ts hs hts => mem_GetActualTop_iff o time ts hs hts, one_event_example,
    hundred_events_example, time_since_rounding_example _ rfl, by norm_num⟩

/-- Witness for amended C30: the ring `[0, 1]` with `W = 3`, `B = 5` at clock
reading `18/5`, where the retire loop drops the bucket created at `0`. -/
theorem C30_witness :
    ((Binary64.Analyzer.new (Double.finite 3) (Double.ofRat (1 / 10)) 5 54 :
        Binary64.Analyzer Nat).withRing [BucketInfo.new 0, BucketInfo.new 1]).buckets_.Sorted
        (fun b1 b2 : BucketInfo Nat => b1.created_at ≤ b2.created_at) ∧
      Binary64.retireOld ((Binary64.Analyzer.new (Double.finite 3) (Double.ofRat (1 / 10)) 5 54 :
        Binary64.Analyzer Nat).withRing [BucketInfo.new 0, BucketInfo.new 1]) (18 / 5)
        = [BucketInfo.new 1] ∧
      ∃ removed, ((Binary64.Analyzer.new (Double.finite 3) (Double.ofRat (1 / 10)) 5 54 :
        Binary64.Analyzer Nat).withRing [BucketInfo.new 0, BucketInfo.new 1]).buckets_
          = removed ++ Binary64.retireOld
            ((Binary64.Analyzer.new (Double.finite 3) (Double.ofRat (1 / 10)) 5 54 :
        Binary64.Analyzer Nat).withRing [BucketInfo.new 0, BucketInfo.new 1]) (18 / 5) ∧
        (∀ b ∈ removed,
          Binary64.durationGreater (18 / 5) b.created_at
            ((Binary64.Analyzer.new (Double.finite 3) (Double.ofRat (1 / 10)) 5 54 :
        Binary64.Analyzer Nat).withRing [BucketInfo.new 0, BucketInfo.new 1]).full_control_time_ = true) ∧
        (∀ b ∈ Binary64.retireOld ((Binary64.Analyzer.new (Double.finite 3) (Double.ofRat (1 / 10)) 5 54 :
        Binary64.Analyzer Nat).withRing [BucketInfo.new 0, BucketInfo.new 1]) (18 / 5),
          Binary64.durationGreater (18 / 5) b.created_at
            ((Binary64.Analyzer.new (Double.finite 3) (Double.ofRat (1 / 10)) 5 54 :
        Binary64.Analyzer Nat).withRing [BucketInfo.new 0, BucketInfo.new 1]).full_control_time_ = false) ∧
        Binary64.retireOld ((Binary64.Analyzer.new (Double.finite 3) (Double.ofRat (1 / 10)) 5 54 :
        Binary64.Analyzer Nat).withRing [BucketInfo.new 0, BucketInfo.new 1]) (18 / 5)
          = ((Binary64.Analyzer.new (Double.finite 3) (Double.ofRat (1 / 10)) 5 54 :
        Binary64.Analyzer Nat).withRing [BucketInfo.new 0, BucketInfo.new 1]).buckets_.filter
            (fun b => !Binary64.durationGreater (18 / 5) b.created_at
              ((Binary64.Analyzer.new (Double.finite 3) (Double.ofRat (1 / 10)) 5 54 :
        Binary64.Analyzer Nat).withRing [BucketInfo.new 0, BucketInfo.new 1]).full_control_time_) ∧
        (∀ v, ((Binary64.Analyzer.new (Double.finite 3) (Double.ofRat (1 / 10)) 5 54 :
        Binary64.Analyzer Nat).withRing [BucketInfo.new 0, BucketInfo.new 1]).full_control_time_
            = Double.finite v →
          (∀ b ∈ removed, v < 18 / 5 - b.created_at) ∧
          (∀ b ∈ ((Binary64.Analyzer.new (Double.finite 3) (Double.ofRat (1 / 10)) 5 54 :
        Binary64.Analyzer Nat).withRing [BucketInfo.new 0, BucketInfo.new 1]).buckets_,
            18 / 5 - b.created_at ≤ v →
            b ∈ Binary64.retireOld
              ((Binary64.Analyzer.new (Double.finite 3) (Double.ofRat (1 / 10)) 5 54 :
        Binary64.Analyzer Nat).withRing [BucketInfo.new 0, BucketInfo.new 1]) (18 / 5))) ∧
        ∀ a1, Binary64.DeleteOldAddNewBuckets
            ((Binary64.Analyzer.new (Double.finite 3) (Double.ofRat (1 / 10)) 5 54 :
        Binary64.Analyzer Nat).withRing [BucketInfo.new 0, BucketInfo.new 1]) (18 / 5) = some a1 →
          a1.buckets_ = Binary64.retireOld
              ((Binary64.Analyzer.new (Double.finite 3) (Double.ofRat (1 / 10)) 5 54 :
        Binary64.Analyzer Nat).withRing [BucketInfo.new 0, BucketInfo.new 1]) (18 / 5) ∨
            a1.buckets_ = Binary64.retireOld
              ((Binary64.Analyzer.new (Double.finite 3) (Double.ofRat (1 / 10)) 5 54 :
        Binary64.Analyzer Nat).withRing [BucketInfo.new 0, BucketInfo.new 1]) (18 / 5)
              ++ [BucketInfo.new (18 / 5)] :=
  ⟨by
      show [BucketInfo.new 0, (BucketInfo.new 1 : BucketInfo Nat)].Sorted
        (fun b1 b2 : BucketInfo Nat => b1.created_at ≤ b2.created_at)
      refine List.sorted_cons.2 ⟨?_, List.sorted_singleton _⟩
      intro b hb
      rw [List.mem_singleton] at hb
      rw [hb]
      show (0 : ℚ) ≤ 1
      norm_num,
    retire_3_5_example,
    C30_retire_rule_amended ((Binary64.Analyzer.new (Double.finite 3) (Double.ofRat (1 / 10)) 5 54 :
        Binary64.Analyzer Nat).withRing [BucketInfo.new 0, BucketInfo.new 1]) (18 / 5)
      (by
        show [BucketInfo.new 0, (BucketInfo.new 1 : BucketInfo Nat)].Sorted
          (fun b1 b2 : BucketInfo Nat => b1.created_at ≤ b2.created_at)
        refine List.sorted_cons.2 ⟨?_, List.sorted_singleton _⟩
        intro b hb
        rw [List.mem_singleton] at hb
        rw [hb]
        show (0 : ℚ) ≤ 1
        norm_num)⟩

/-- With `num_buckets = 0` the constructor never stores a finite
`full_control_time_`: the quotient by zero is an infinity or a NaN. -/
theorem full_control_time_zero_buckets (W share : Double) (m : Nat) (v : ℚ) :
    (Binary64.Analyzer.new W share 0 m : Binary64.Analyzer K).full_control_time_
      ≠ Double.finite v := by
  have h0 : Double.ofNat 0 = Double.finite 0 := by
    simpa using ofNat_eq 0 (by norm_num)
  have h1 : Double.ofNat ((0 + 1) % 2 ^ 64) = Double.finite 1 := by
    simpa using ofNat_eq 1 (by norm_num)
  show (W.div (Double.ofNat 0)).mul (Double.ofNat ((0 + 1) % 2 ^ 64)) ≠ _
  rw [h0, h1]
  cases W with
  | finite a =>
    show (if (0 : ℚ) = 0 then
        (if a = 0 then Double.nan else if a < 0 then Double.neg_inf else Double.pos_inf)
      else Double.ofRat (a / 0)).mul (Double.finite 1) ≠ _
    rw [if_pos rfl]
    by_cases ha : a = 0
    · rw [if_pos ha]
      intro h
      cases h
    · rw [if_neg ha]
      by_cases hn : a < 0
      · rw [if_pos hn]
        show (if (1 : ℚ) = 0 then Double.nan
          else if (1 : ℚ) < 0 then Double.pos_inf else Double.neg_inf) ≠ _
        rw [if_neg (by norm_num), if_neg (by norm_num)]
        intro h
        cases h
      · rw [if_neg hn]
        show (if (1 : ℚ) = 0 then Double.nan
          else if (1 : ℚ) < 0 then Double.neg_inf else Double.pos_inf) ≠ _
        rw [if_neg (by norm_num), if_neg (by norm_num)]
        intro h
        cases h
  | pos_inf =>
    show (if (0 : ℚ) < 0 then Double.neg_inf else Double.pos_inf).mul (Double.finite 1) ≠ _
    rw [if_neg (by norm_num)]
    show (if (1 : ℚ) = 0 then Double.nan
      else if (1 : ℚ) < 0 then Double.neg_inf else Double.pos_inf) ≠ _
    rw [if_neg (by norm_num), if_neg (by norm_num)]
    intro h
    cases h
  | neg_inf =>
    show (if (0 : ℚ) < 0 then Double.pos_inf else Double.neg_inf).mul (Double.finite 1) ≠ _
    rw [if_neg (by norm_num)]
    show (if (1 : ℚ) = 0 then Double.nan
      else if (1 : ℚ) < 0 then Double.pos_inf else Double.neg_inf) ≠ _
    rw [if_neg (by norm_num), if_neg (by norm_num)]
    intro h
    cases h
  | nan =>
    intro h
    cases h

/-- C18, as stated, fails: construction with `W = −1`, `θ = 2`, `B = 0`,
`m = 0` is not rejected; both constructors return an object. -/
theorem C18_counterexample :
    (∃ a : Binary64.Analyzer Nat,
      Binary64.Analyzer.construct (Double.finite (-1)) (Double.finite 2) 0 0 = Except.ok a) ∧
    (∃ s : Binary64.MapGetFreshTopK Nat Nat,
      Binary64.MapGetFreshTopK.construct (Double.finite (-1)) (Double.finite 2) 0 0
        = Except.ok s) ∧
    ¬ ((0 : ℚ) < -1 ∧ (0 : ℚ) < 2 ∧ (2 : ℚ) ≤ 1 ∧ 1 ≤ 0 ∧ 1 ≤ 0) :=
  ⟨⟨_, rfl⟩, ⟨_, rfl⟩, by norm_num⟩

/-- C18, amended. The constructors validate nothing: for every `W`, `θ`, `B`
and `m` construction succeeds and returns an object holding `control_time_ =
W`, `bucket_size_ = m`, `share_very_frequent_ = θ`, an empty ring,
`buckets_count_ = B + 1` in `size_t` arithmetic and `full_control_time_ = W /
B * (B + 1)` in binary64 (never a finite value for `B = 0`); the store holds
that analyzer and an empty map. -/
theorem C18_construction_amended {V : Type} (W share : Double) (B m : Nat) :
    (Binary64.Analyzer.construct W share B m : Except String (Binary64.Analyzer K))
        = Except.ok (Binary64.Analyzer.new W share B m) ∧
      (Binary64.MapGetFreshTopK.construct W share B m :
          Except String (Binary64.MapGetFreshTopK K V))
        = Except.ok { map_ := [], analyzer_ := Binary64.Analyzer.new W share B m } ∧
      (Binary64.Analyzer.new W share B m : Binary64.Analyzer K).control_time_ = W ∧
      (Binary64.Analyzer.new W share B m : Binary64.Analyzer K).full_control_time_
        = (W.div (Double.ofNat B)).mul (Double.ofNat ((B + 1) % 2 ^ 64)) ∧
      (Binary64.Analyzer.new W share B m : Binary64.Analyzer K).buckets_count_
        = (B + 1) % 2 ^ 64 ∧
      (Binary64.Analyzer.new W share B m : Binary64.Analyzer K).bucket_size_ = m ∧
      (Binary64.Analyzer.new W share B m : Binary64.Analyzer K).share_very_frequent_ = share ∧
      (Binary64.Analyzer.new W share B m : Binary64.Analyzer K).buckets_ = [] ∧
      ∀ v : ℚ, (Binary64.Analyzer.new W share 0 m : Binary64.Analyzer K).full_control_time_
        ≠ Double.finite v :=
  ⟨rfl, rfl, rfl, rfl, rfl, rfl, rfl, rfl, full_control_time_zero_buckets W share m⟩

end FrequencyEstimationAnalyzer
